import Mathlib

/-!
# CXXR heap nodes: the deferred reference counts and the mark-sweep collector

A shallow embedding of `src/main/GCNode.cpp`.  The static data members of class
`GCNode` become the fields of one record, `Heap`, that every operation takes
and returns.  A node is known by its address, a natural number that indexes the
store `Heap.nodes`; a slot that holds `none` is raw or freed storage.

The header `CXXR/GCNode.hpp` and the classes `GCRootBase`, `GCStackRootBase`,
`ProtectStack`, `WeakRef`, `MemoryBank` and `GCManager` are not part of the
sources at hand.  What `GCNode.cpp` calls from them is modelled below, each
such definition saying so in its comment.

The bit field `m_bits` holds two flags, `MARK` and `UNDER_CONSTRUCTION`; they
are kept as two booleans, and `s_mark`, which is either `0` or `MARK`, as one.
The counters of type `unsigned int` wrap modulo `2 ^ 32`.  The loops and the
recursion of the marker take fuel and return `none` when it runs out; the
functions that call them supply a bound that is proved sufficient.
The debugging code under `GCID` and `GC_FIND_LOOPS` is left out.
-/

namespace CXXR

/-- Modulus of the C type `unsigned int`, the type of the static counters. -/
@[irreducible] def UINT_MOD : Nat := 4294967296

/-- The operator `++` on an `unsigned int`. -/
def uint_inc (x : Nat) : Nat := (x + 1) % UINT_MOD

/-- The operator `--` on an `unsigned int`: zero wraps to the largest value. -/
def uint_dec (x : Nat) : Nat := if x = 0 then UINT_MOD - 1 else x - 1

/-- The data members of a `GCNode`, with the out-edges that the derived classes
hold (what `visitReferents` visits and `detachReferents` detaches). -/
structure GCNode where
  /-- Twice the reference count, plus one when the node is on the moribund list. -/
  m_refcount : Nat
  /-- The `MARK` bit of `m_bits`. -/
  m_bits_MARK : Bool
  /-- The `UNDER_CONSTRUCTION` bit of `m_bits`. -/
  m_bits_UNDER_CONSTRUCTION : Bool
  /-- Addresses of the nodes this node refers to, one entry per edge. -/
  referents : List Nat
  /-- Size of the node as handed to `operator new`. -/
  bytes : Nat
deriving DecidableEq, Repr

/-- The static state of class `GCNode` and of the collaborators it calls. -/
structure Heap where
  /-- The store: slot `n` holds the node at address `n`, if there is one. -/
  nodes : List (Option GCNode)
  /-- Whether `s_live` is non-null, that is whether the class was set up. -/
  initialised : Bool
  s_live : List Nat
  s_reachable : List Nat
  /-- The local list `zombies` of `sweep`; empty outside `sweep`. -/
  zombies : List Nat
  /-- The vector `s_moribund`; its back is the last element. -/
  s_moribund : List Nat
  s_mark : Bool
  s_num_nodes : Nat
  s_under_construction : Nat
  s_inhibitor_count : Nat
  /-- Targets of the `GCRoot`s. -/
  heap_roots : List Nat
  /-- Targets of the `GCStackRoot`s. -/
  stack_roots : List Nat
  /-- The pointer protection stack. -/
  protect_stack : List Nat
  /-- Nodes held by C structures, which `protectCstructs` protects. -/
  cstructs : List Nat
  /-- Targets of the weak references (`none` once cleared). -/
  weak_refs : List (Option Nat)
  /-- The byte count of `MemoryBank`. -/
  bytes_allocated : Nat
  /-- The threshold of `GCManager`. -/
  trigger_level : Nat
  /-- The counter of the `Marker` that `mark` creates. -/
  m_marks_applied : Nat
  /-- Record of every `delete` of a node, oldest first. -/
  deleted : List Nat
deriving DecidableEq, Repr

/-- What a function that may call `abort()` gives back. -/
inductive Result (α : Type) where
  /-- Normal return. -/
  | ok : α → Result α
  /-- The call reached `abort()`; the heap is the one at that moment. -/
  | abort : Heap → Result α
  /-- The fuel of a loop ran out. -/
  | timeout : Result α
deriving DecidableEq, Repr

/-- A `while (cond) body` loop, run for at most `fuel` iterations. -/
def whileLoop {σ : Type} (cond : σ → Bool) (body : σ → σ) : Nat → σ → Option σ
  | 0, s => if cond s then none else some s
  | fuel + 1, s => if cond s then whileLoop cond body fuel (body s) else some s

namespace Heap

/-- The node at address `n`. -/
def node? (h : Heap) (n : Nat) : Option GCNode := (h.nodes[n]?).join

/-- Overwrite the node at address `n`. -/
def setNode (h : Heap) (n : Nat) (nd : GCNode) : Heap :=
  { h with nodes := h.nodes.set n (some nd) }

/-- Apply `f` to the node at address `n`, if there is one. -/
def modifyNode (h : Heap) (n : Nat) (f : GCNode → GCNode) : Heap :=
  match h.node? n with
  | some nd => h.setNode n (f nd)
  | none => h

/-- Take node `n` off whichever of the three intrusive lists it is on. -/
def unlink (h : Heap) (n : Nat) : Heap :=
  { h with s_live := h.s_live.erase n,
           s_reachable := h.s_reachable.erase n,
           zombies := h.zombies.erase n }

/-- Every root the mark phase visits: the heap roots, the stack roots, the
protection stack, and the C structures `protectCstructs` puts on that stack. -/
def roots (h : Heap) : List Nat :=
  h.heap_roots ++ h.stack_roots ++ h.protect_stack ++ h.cstructs

/-- Number of edges from the nodes of the store to node `n`. -/
def inEdges (h : Heap) (n : Nat) : Nat :=
  (h.nodes.map (fun o => match o with
    | some nd => nd.referents.count n
    | none => 0)).sum

/-- Number of edges in the whole store. -/
def edgeCount (h : Heap) : Nat :=
  (h.nodes.map (fun o => match o with
    | some nd => nd.referents.length
    | none => 0)).sum

end Heap

/-- Node `b` can be reached from node `a` along referent edges. -/
inductive Path (h : Heap) (a : Nat) : Nat → Prop where
  | refl : Path h a a
  | step {b c : Nat} {nd : GCNode} :
      Path h a b → h.node? b = some nd → c ∈ nd.referents → Path h a c

/-- Reachability from the roots along referent edges. -/
inductive Reach (h : Heap) : Nat → Prop where
  | root {n : Nat} : n ∈ h.roots → Reach h n
  | edge {m n : Nat} {nd : GCNode} :
      Reach h m → h.node? m = some nd → n ∈ nd.referents → Reach h n

/-! ## Modelled collaborators -/

/-- Modelled from the spec: `GCNode::List::splice_back(node)` on `s_reachable`
(the list class is declared in `CXXR/GCNode.hpp`): the node leaves the list it
is on and becomes the last node of the reachable list. -/
def s_reachable_splice_back (node : Nat) (h : Heap) : Heap :=
  let h1 := h.unlink node
  { h1 with s_reachable := h1.s_reachable ++ [node] }

/-- Modelled from the spec: `GCNode::List::splice_back(node)` on the local list
`zombies` of `sweep`. -/
def zombies_splice_back (node : Nat) (h : Heap) : Heap :=
  let h1 := h.unlink node
  { h1 with zombies := h1.zombies ++ [node] }

/-- Modelled from the spec: `GCNode::List::splice_back(List*)` as used in
`s_live->splice_back(s_reachable)`: the whole reachable list is moved to the
end of the live list. -/
def s_live_splice_back_s_reachable (h : Heap) : Heap :=
  { h with s_live := h.s_live ++ h.s_reachable, s_reachable := [] }

/-- Modelled from the spec: `GCNode::protectCstructs()`, defined in
`memory.cpp`: puts the nodes held by C structures on the protection stack and
returns how many it pushed. -/
def GCNode.protectCstructs (h : Heap) : Nat × Heap :=
  (h.cstructs.length, { h with protect_stack := h.protect_stack ++ h.cstructs })

/-- Modelled from the spec: `ProtectStack::unprotect(count)`: pops the top
`count` entries of the protection stack. -/
def ProtectStack.unprotect (count : Nat) (h : Heap) : Heap :=
  { h with protect_stack := h.protect_stack.take (h.protect_stack.length - count) }

/-- Modelled from the spec: the constructor of `GCNode::GCInhibitor`. -/
def GCInhibitor.enter (h : Heap) : Heap :=
  { h with s_inhibitor_count := uint_inc h.s_inhibitor_count }

/-- Modelled from the spec: the destructor of `GCNode::GCInhibitor`. -/
def GCInhibitor.leave (h : Heap) : Heap :=
  { h with s_inhibitor_count := uint_dec h.s_inhibitor_count }

namespace GCNode

/-- `GCNode::makeMoribund()`, called on the node at address `node`. -/
def makeMoribund (node : Nat) (h : Heap) : Heap :=
  let h1 := h.modifyNode node (fun nd => { nd with m_refcount := 1 })
  { h1 with s_moribund := h1.s_moribund ++ [node] }

/-- Modelled from the spec: `GCNode::incRefCount(node)` of `CXXR/GCNode.hpp`:
one more reference, the count being kept above the moribund bit. -/
def incRefCount (node : Nat) (h : Heap) : Heap :=
  h.modifyNode node (fun nd => { nd with m_refcount := nd.m_refcount + 2 })

/-- Modelled from the spec: `GCNode::decRefCount(node)` of `CXXR/GCNode.hpp`:
one reference fewer; when the field reaches zero the node is made moribund
instead of being deleted. -/
def decRefCount (node : Nat) (h : Heap) : Heap :=
  match h.node? node with
  | none => h
  | some nd =>
    let rc := nd.m_refcount - 2
    let h1 := h.setNode node { nd with m_refcount := rc }
    if rc = 0 then makeMoribund node h1 else h1

/-- The edges `refs` of node `node` are cut one after the other: the edge is
cleared and its target loses a reference. -/
def detachEdges : List Nat → Nat → Heap → Heap
  | [], _, h => h
  | t :: rest, node, h =>
    detachEdges rest node
      (decRefCount t (h.modifyNode node (fun nd => { nd with referents := rest })))

/-- Modelled from the spec: the virtual `detachReferents()`: the node gives up
every out-edge, each target losing one reference. -/
def detachReferents (node : Nat) (h : Heap) : Heap :=
  match h.node? node with
  | none => h
  | some nd => detachEdges nd.referents node h

/-- Modelled from the spec: the expression `delete node`: the destructors of
the node's edges release their targets, `~GCNode()` decrements `s_num_nodes`,
the node leaves its list and its storage goes back to `MemoryBank`.  Every
call is recorded in `deleted`, also one on storage that is already free. -/
def deleteNode (node : Nat) (h : Heap) : Heap :=
  let h0 := { h with deleted := h.deleted ++ [node] }
  match h0.node? node with
  | none => h0
  | some nd =>
    let h1 := (detachReferents node h0).unlink node
    { h1 with nodes := h1.nodes.set node none,
              s_num_nodes := uint_dec h1.s_num_nodes,
              bytes_allocated := h1.bytes_allocated - nd.bytes }

/-- The body of the loop of `gclite`: the back of the moribund list is popped,
its moribund bit cleared, and the node deleted if no reference is left.  An
address without a node is freed storage; the delete is taken to be repeated
there, so that `deleted` shows it. -/
def gclite_body (h : Heap) : Heap :=
  match h.s_moribund.getLast? with
  | none => h
  | some node =>
    let h1 := { h with s_moribund := h.s_moribund.dropLast }
    match h1.node? node with
    | none => deleteNode node h1
    | some nd =>
      let rc := nd.m_refcount - nd.m_refcount % 2
      let h2 := h1.setNode node { nd with m_refcount := rc }
      if rc = 0 then deleteNode node h2 else h2

/-- Iterations that the loop of `gclite` can take at most. -/
def gclite_fuel (h : Heap) : Nat := h.s_moribund.length + h.edgeCount

/-- `GCNode::gclite()`. -/
def gclite (h : Heap) : Option Heap :=
  if h.s_inhibitor_count ≠ 0 then some h
  else
    let h1 := GCInhibitor.enter h
    let p := protectCstructs h1
    match whileLoop (fun s => !s.s_moribund.isEmpty) gclite_body (gclite_fuel p.2) p.2 with
    | none => none
    | some h2 => some (GCInhibitor.leave (ProtectStack.unprotect p.1 h2))

/-- Modelled from the spec: `GCNode::isMarked()`: the mark bit of the node has
the current parity. -/
def isMarked (h : Heap) (nd : GCNode) : Bool := nd.m_bits_MARK == h.s_mark

/-- The three statements of `GCNode::Marker::operator()` that mark a node:
`node->m_bits = s_mark`, `++m_marks_applied` and the transfer of the node to
the reachable list. -/
def Marker.apply (node : Nat) (nd : GCNode) (h : Heap) : Heap :=
  let h1 := h.setNode node
    { nd with m_bits_MARK := h.s_mark, m_bits_UNDER_CONSTRUCTION := false }
  let h2 := { h1 with m_marks_applied := h1.m_marks_applied + 1 }
  s_reachable_splice_back node h2

/-- `GCNode::Marker::operator()`; `fuel` bounds the depth of the recursion
through `visitReferents`, which visits the referents in order. -/
def Marker.call : Nat → Nat → Heap → Option Heap
  | 0, _, _ => none
  | fuel + 1, node, h =>
    match h.node? node with
    | none => some h
    | some nd =>
      if isMarked h nd then some h
      else nd.referents.foldlM (fun acc r => Marker.call fuel r acc) (Marker.apply node nd h)

/-- Modelled from the spec: the `visitRoots` of `GCRootBase`, `GCStackRootBase`
and `ProtectStack`: the visitor is applied to the target of every root. -/
def visitRoots (fuel : Nat) (targets : List Nat) (h : Heap) : Option Heap :=
  targets.foldlM (fun acc r => Marker.call fuel r acc) h

/-- Modelled from the spec: `WeakRef::markThru()`: a weak reference whose
target was not marked is cleared. -/
def WeakRef_markThru (h : Heap) : Heap :=
  { h with weak_refs := h.weak_refs.map (fun w =>
      match w with
      | none => none
      | some t =>
        match h.node? t with
        | none => none
        | some nd => if isMarked h nd then some t else none) }

/-- `GCNode::mark()`. -/
def mark (h : Heap) : Option Heap :=
  let h0 := { h with s_mark := !h.s_mark, m_marks_applied := 0 }
  let fuel := h0.nodes.length + 1
  match visitRoots fuel h0.heap_roots h0 with
  | none => none
  | some h1 =>
    match visitRoots fuel h1.stack_roots h1 with
    | none => none
    | some h2 =>
      let p := protectCstructs h2
      match visitRoots fuel p.2.protect_stack p.2 with
      | none => none
      | some h3 => some (WeakRef_markThru (ProtectStack.unprotect p.1 h3))

/-- The body of the first loop of `sweep`: the front of the live list gives up
its referents and is relisted as a zombie. -/
def sweep_body (h : Heap) : Heap :=
  match h.s_live.head? with
  | none => h
  | some node => zombies_splice_back node (detachReferents node h)

/-- Modelled from the spec: the destructor of the list `zombies`, which deletes
every node that is still on the list. -/
def zombies_destroy (h : Heap) : Heap :=
  h.zombies.foldl (fun acc z => deleteNode z acc) h

/-- `GCNode::sweep()`. -/
def sweep (h : Heap) : Option Heap :=
  let h0 := { h with zombies := [] }
  match whileLoop (fun s => !s.s_live.isEmpty) sweep_body h0.s_live.length h0 with
  | none => none
  | some h1 =>
    match gclite (s_live_splice_back_s_reachable h1) with
    | none => none
    | some h2 => some (zombies_destroy h2)

/-- `GCNode::gc()`. -/
def gc (h : Heap) : Result Heap :=
  if (h.s_under_construction + h.s_inhibitor_count) % UINT_MOD ≠ 0 then Result.abort h
  else
    match mark h with
    | none => Result.timeout
    | some h1 =>
      match sweep h1 with
      | none => Result.timeout
      | some h2 => Result.ok h2

/-- The test `!(node->m_refcount & 1)` that `check` makes on an entry of the
moribund list.  An entry whose storage has been freed is taken to fail it. -/
def lacksMoribundBit (h : Heap) (node : Nat) : Bool :=
  match h.node? node with
  | none => true
  | some nd => nd.m_refcount % 2 == 0

/-- `GCNode::check()`.  The count of `virgins` only feeds a diagnostic message
and is left out. -/
def check (h : Heap) : Result Bool :=
  if !h.initialised then Result.abort h
  else
    let numnodes := h.s_live.length % UINT_MOD
    if h.s_moribund.any (lacksMoribundBit h) then Result.abort h
    else if numnodes ≠ h.s_num_nodes then Result.abort h
    else Result.ok true

/-- Modelled from the spec: `GCManager::gc()`, which performs a full mark-sweep
collection. -/
def GCManager_gc (h : Heap) : Result Heap := gc h

/-- Modelled from the spec: `MemoryBank::allocate(bytes)`: the byte count grows
and the address of a fresh block of raw storage is returned. -/
def MemoryBank_allocate (bytes : Nat) (h : Heap) : Nat × Heap :=
  (h.nodes.length,
   { h with nodes := h.nodes ++ [none], bytes_allocated := h.bytes_allocated + bytes })

/-- `GCNode::operator new`; `RARE_GC` tells whether that macro is defined. -/
def operator_new (RARE_GC : Bool) (bytes : Nat) (h : Heap) : Result (Nat × Heap) :=
  match (if !RARE_GC && !h.s_moribund.isEmpty then gclite h else some h) with
  | none => Result.timeout
  | some h1 =>
    if h1.bytes_allocated > h1.trigger_level
        ∧ (h1.s_under_construction + h1.s_inhibitor_count) % UINT_MOD = 0 then
      match (if RARE_GC then gclite h1 else some h1) with
      | none => Result.timeout
      | some h2 =>
        match GCManager_gc h2 with
        | Result.ok h3 => Result.ok (MemoryBank_allocate bytes h3)
        | Result.abort a => Result.abort a
        | Result.timeout => Result.timeout
    else Result.ok (MemoryBank_allocate bytes h1)

/-- Modelled from the spec: the constructor `GCNode::GCNode()` run on the
storage at `addr`: the node starts without references, carries the current
mark parity so that the next collection sees it unmarked, is flagged as under
construction, is counted and is appended to the live list. -/
def construct (addr bytes : Nat) (h : Heap) : Heap :=
  { h with
    nodes := h.nodes.set addr (some
      { m_refcount := 0, m_bits_MARK := h.s_mark, m_bits_UNDER_CONSTRUCTION := true,
        referents := [], bytes := bytes }),
    s_num_nodes := uint_inc h.s_num_nodes,
    s_live := h.s_live ++ [addr],
    s_under_construction := uint_inc h.s_under_construction }

/-- Modelled from the spec: `GCNode::expose()`: the node stops being under
construction. -/
def expose (node : Nat) (h : Heap) : Heap :=
  match h.node? node with
  | none => h
  | some nd =>
    if nd.m_bits_UNDER_CONSTRUCTION then
      { h.setNode node { nd with m_bits_UNDER_CONSTRUCTION := false } with
        s_under_construction := uint_dec h.s_under_construction }
    else h

/-- The state `GCNode::initialize()` sets up at start-up: the three lists are
empty and no node exists; `trigger` is the threshold `GCManager::initialize()`
chooses. -/
def initialise (trigger : Nat) : Heap :=
  { nodes := [], initialised := true, s_live := [], s_reachable := [], zombies := [],
    s_moribund := [], s_mark := false, s_num_nodes := 0, s_under_construction := 0,
    s_inhibitor_count := 0, heap_roots := [], stack_roots := [], protect_stack := [],
    cstructs := [], weak_refs := [], bytes_allocated := 0, trigger_level := trigger,
    m_marks_applied := 0, deleted := [] }

end GCNode

/-! ## Consistency of a heap -/

namespace Heap

/-- The part of the state that the reference counts, the moribund list and the
deletion of nodes never touch. -/
def fixed (h : Heap) :
    Bool × Bool × Nat × Nat × List Nat × List Nat × List Nat × List Nat × List (Option Nat)
      × Nat × Nat :=
  (h.initialised, h.s_mark, h.s_under_construction, h.s_inhibitor_count, h.heap_roots,
   h.stack_roots, h.protect_stack, h.cstructs, h.weak_refs, h.trigger_level,
   h.m_marks_applied)

/-- Node `m` exists and carries the current mark parity. -/
def marked (h : Heap) (m : Nat) : Prop :=
  ∃ nd, h.node? m = some nd ∧ nd.m_bits_MARK = h.s_mark

/-- There is an edge from node `a` to node `b`. -/
def edge (h : Heap) (a b : Nat) : Prop :=
  ∃ nd, h.node? a = some nd ∧ b ∈ nd.referents

/-- Number of nodes of the store that do not carry the current mark parity. -/
def unmarkedCount (h : Heap) : Nat :=
  (h.nodes.map (fun o => match o with
    | some nd => if nd.m_bits_MARK = h.s_mark then 0 else 1
    | none => 0)).sum

/-- All nodes on the three intrusive lists, in list order. -/
def listed (h : Heap) : List Nat := h.s_live ++ h.s_reachable ++ h.zombies

/-- What holds of the store, the lists and the reference counts at every point
of the collector.  `R` lists the roots, one entry per root; every edge and
every root holds one reference to its target. -/
structure Inv (R : List Nat) (h : Heap) : Prop where
  listed_nodup : h.listed.Nodup
  listed_alive : ∀ n ∈ h.listed, (h.node? n).isSome
  alive_listed : ∀ n < h.nodes.length, (h.node? n).isSome → n ∈ h.listed
  moribund_nodup : h.s_moribund.Nodup
  moribund_bit : ∀ n ∈ h.s_moribund, ∃ nd ∈ h.node? n, nd.m_refcount % 2 = 1
  bit_moribund : ∀ n < h.nodes.length, ∀ nd ∈ h.node? n,
    nd.m_refcount % 2 = 1 → n ∈ h.s_moribund
  refcount_ge : ∀ n < h.nodes.length, ∀ nd ∈ h.node? n,
    2 * (h.inEdges n + R.count n) ≤ nd.m_refcount
  referents_alive : ∀ n < h.nodes.length, ∀ nd ∈ h.node? n,
    ∀ r ∈ nd.referents, (h.node? r).isSome
  roots_alive : ∀ r ∈ R, (h.node? r).isSome
  count : h.s_num_nodes = h.listed.length % UINT_MOD

/-- What one run of the marker may change: nodes that did not carry the current
parity now do and are no longer flagged as under construction, nodes move to
the reachable list, and the marker counts. -/
structure MarkRel (h h' : Heap) : Prop where
  nodes_length : h'.nodes.length = h.nodes.length
  s_mark : h'.s_mark = h.s_mark
  node_cases : ∀ m, h'.node? m = h.node? m ∨
    ∃ nd, h.node? m = some nd ∧ nd.m_bits_MARK ≠ h.s_mark ∧
      h'.node? m = some { nd with m_bits_MARK := h.s_mark, m_bits_UNDER_CONSTRUCTION := false }
  s_moribund : h'.s_moribund = h.s_moribund
  s_num_nodes : h'.s_num_nodes = h.s_num_nodes
  deleted : h'.deleted = h.deleted
  bytes_allocated : h'.bytes_allocated = h.bytes_allocated
  statics : (h'.initialised, h'.s_under_construction, h'.s_inhibitor_count, h'.heap_roots,
      h'.stack_roots, h'.protect_stack, h'.cstructs, h'.trigger_level)
    = (h.initialised, h.s_under_construction, h.s_inhibitor_count, h.heap_roots,
      h.stack_roots, h.protect_stack, h.cstructs, h.trigger_level)

/-- Every marked node outside `G` refers to marked nodes only. -/
def Closed (G : Nat → Prop) (h : Heap) : Prop :=
  ∀ a b, h.marked a → ¬ G a → h.edge a b → h.marked b

/-- The heap during the mark phase: consistent, the reachable list holding
exactly the marked nodes, one mark applied per node on it. -/
structure MarkInv (R : List Nat) (h : Heap) : Prop where
  inv : h.Inv R
  reachable_marked : ∀ m, m ∈ h.s_reachable ↔ h.marked m
  zombies_empty : h.zombies = []
  marks_applied : h.m_marks_applied = h.s_reachable.length

/-- What a run of the marker keeps. -/
def MarkKeeps (h h' : Heap) : Prop :=
  MarkRel h h' ∧ ∀ R, h.MarkInv R → h'.MarkInv R

/-- Every referent exists. -/
def RefsAlive (h : Heap) : Prop := ∀ a b, h.edge a b → (h.node? b).isSome

/-- Two states with the same node graph, lists and mark parity. -/
structure SameGraph (a b : Heap) : Prop where
  nodes : b.nodes = a.nodes
  s_mark : b.s_mark = a.s_mark
  s_live : b.s_live = a.s_live
  s_reachable : b.s_reachable = a.s_reachable
  zombies : b.zombies = a.zombies
  s_moribund : b.s_moribund = a.s_moribund
  s_num_nodes : b.s_num_nodes = a.s_num_nodes
  m_marks_applied : b.m_marks_applied = a.m_marks_applied

/-- The state in which `mark` starts to visit the roots: the parity is toggled
and the counter of the new marker is zero. -/
def toggled (h : Heap) : Heap := { h with s_mark := !h.s_mark, m_marks_applied := 0 }

/-- What `sweep` relies on at its start, as `mark` leaves the heap: the
reachable list holds the roots, is closed under the referent edges, and each
node on it is a root or a referent of a node on it. -/
structure SweepPre (R : List Nat) (h : Heap) : Prop where
  inv : h.Inv R
  zombies_empty : h.zombies = []
  roots_reachable : ∀ r ∈ R, r ∈ h.s_reachable
  closed : ∀ y ∈ h.s_reachable, ∀ nd ∈ h.node? y, ∀ x ∈ nd.referents, x ∈ h.s_reachable
  held : ∀ x ∈ h.s_reachable, x ∈ R ∨ ∃ y ∈ h.s_reachable, ∃ nd ∈ h.node? y, x ∈ nd.referents
  not_inhibited : h.s_inhibitor_count = 0

/-- What holds throughout `sweep`, `h` being the heap at its start: the nodes
of the reachable list of `h` keep their edges and marks, the zombies have no
edge left, and the nodes deleted so far are nodes of the live list of `h`, each
deleted once. -/
structure SweepInv (R : List Nat) (h s : Heap) : Prop where
  inv : s.Inv R
  frame : ∀ x ∈ h.s_reachable,
    (s.node? x).map GCNode.referents = (h.node? x).map GCNode.referents ∧
    (s.node? x).map GCNode.m_bits_MARK = (h.node? x).map GCNode.m_bits_MARK
  zombies_bare : ∀ z ∈ s.zombies, ∃ nd, s.node? z = some nd ∧ nd.referents = []
  log : ∃ log, s.deleted = h.deleted ++ log ∧ log.Nodup ∧
    ∀ n, n ∈ log ↔ (n ∈ h.s_live ∧ s.node? n = none)

/-- The first loop of `sweep`: the zombies are the part of the live list
already handled. -/
structure SweepLoopInv (R : List Nat) (h s : Heap) : Prop where
  base : SweepInv R h s
  s_reachable : s.s_reachable = h.s_reachable
  split : s.zombies ++ s.s_live = h.s_live

/-- The moribund pass of `sweep`: the live list is the former reachable list. -/
structure SweepLiteInv (R : List Nat) (h s : Heap) : Prop where
  base : SweepInv R h s
  s_live : s.s_live = h.s_reachable
  s_reachable : s.s_reachable = []
  zombies_sub : ∀ z ∈ s.zombies, z ∈ h.s_live

/-- A heap as it is between two operations of the collector: consistent, no
collection in progress, and every node carrying the current mark parity. -/
structure wf (h : Heap) : Prop where
  inv : h.Inv h.roots
  reachable_empty : h.s_reachable = []
  zombies_empty : h.zombies = []
  parity : ∀ n < h.nodes.length, ∀ nd ∈ h.node? n, nd.m_bits_MARK = h.s_mark

/-- What a collection achieves on a well-formed heap `h`: `F` is well formed
again, its nodes are the nodes reachable in `h`, with the edges they had, the
other nodes have been deleted once each, and the parity is toggled. -/
structure Collected (h F : Heap) : Prop where
  wf : F.wf
  alive_iff : ∀ n, (F.node? n).isSome ↔ Reach h n
  referents : ∀ n, Reach h n →
    (F.node? n).map GCNode.referents = (h.node? n).map GCNode.referents
  s_mark : F.s_mark = !h.s_mark
  s_live : ∀ n, n ∈ F.s_live ↔ Reach h n
  s_moribund : F.s_moribund = []
  deleted : ∃ log, F.deleted = h.deleted ++ log ∧ log.Nodup ∧
    ∀ n, n ∈ log ↔ ((h.node? n).isSome ∧ ¬ Reach h n)
  roots : F.roots = h.roots
  counters : F.s_under_construction = h.s_under_construction ∧
    F.s_inhibitor_count = h.s_inhibitor_count ∧ F.initialised = h.initialised ∧
    F.trigger_level = h.trigger_level

end Heap

/-! ## Runs of a program -/

/-- Modelled from the spec: the constructor of a `GCRoot` for the node `node`:
the root is registered and holds one reference to the node. -/
def GCRoot_create (node : Nat) (h : Heap) : Heap :=
  let h1 := GCNode.incRefCount node h
  { h1 with heap_roots := h1.heap_roots ++ [node] }

/-- Modelled from the spec: the destructor of a `GCRoot` for the node `node`:
the root is taken off the register and gives up its reference. -/
def GCRoot_destroy (node : Nat) (h : Heap) : Heap :=
  GCNode.decRefCount node { h with heap_roots := h.heap_roots.erase node }

/-- Modelled from the spec: a new `GCEdge` of the node `node` is pointed at
`target`, which gains a reference. -/
def GCEdge_attach (node target : Nat) (h : Heap) : Heap :=
  (GCNode.incRefCount target h).modifyNode node
    (fun nd => { nd with referents := target :: nd.referents })

/-- Modelled from the spec: the first `GCEdge` of the node `node` is cleared;
its target loses a reference, as in one step of `detachReferents`. -/
def GCEdge_detach (node : Nat) (h : Heap) : Heap :=
  match h.node? node with
  | none => h
  | some nd =>
    match nd.referents with
    | [] => h
    | t :: rest =>
      GCNode.decRefCount t (h.modifyNode node (fun x => { x with referents := rest }))

/-- One operation on the heap, as a program performs them one after the other:
a node is created (`operator new` followed by the constructor), a node is
exposed at the end of its construction, a root or an edge takes or gives up a
reference, a node whose reference count has dropped to zero is made moribund
(the one place from which `decRefCount` calls `makeMoribund`), or one of the
two collectors runs to its end. -/
inductive Step : Heap → Heap → Prop where
  | create {rare : Bool} {bytes addr : Nat} {h h1 : Heap} :
      GCNode.operator_new rare bytes h = Result.ok (addr, h1) →
      Step h (GCNode.construct addr bytes h1)
  | expose {node : Nat} {h : Heap} : Step h (GCNode.expose node h)
  | retain {node : Nat} {h : Heap} : (h.node? node).isSome → Step h (GCRoot_create node h)
  | release {node : Nat} {h : Heap} : node ∈ h.heap_roots → Step h (GCRoot_destroy node h)
  | attach {node target : Nat} {h : Heap} :
      (h.node? node).isSome → (h.node? target).isSome → Step h (GCEdge_attach node target h)
  | detach {node : Nat} {h : Heap} : Step h (GCEdge_detach node h)
  | makeMoribund {node : Nat} {nd : GCNode} {h : Heap} :
      h.node? node = some nd → nd.m_refcount = 0 → Step h (GCNode.makeMoribund node h)
  | gclite {h h1 : Heap} : GCNode.gclite h = some h1 → Step h h1
  | gc {h h1 : Heap} : GCNode.gc h = Result.ok h1 → Step h h1

/-- The heap `h` is reached from the state that `initialize()` sets up by a
sequence of operations. -/
def Reachable (trigger : Nat) (h : Heap) : Prop :=
  Relation.ReflTransGen Step (GCNode.initialise trigger) h

namespace Heap

/-- A heap between two operations of a program: well formed, no inhibitor
active, the class set up. -/
structure Quiet (h : Heap) : Prop where
  wf : h.wf
  not_inhibited : h.s_inhibitor_count = 0
  under_construction : h.s_under_construction < UINT_MOD
  initialised : h.initialised = true

end Heap

/-! ## Sample heaps -/

/-- A node without flags, of eight bytes. -/
def sampleNode (rc : Nat) (refs : List Nat) (mark : Bool) : GCNode :=
  { m_refcount := rc, m_bits_MARK := mark, m_bits_UNDER_CONSTRUCTION := false,
    referents := refs, bytes := 8 }

/-- Six nodes: a heap root holds node 0, which leads to 1 and 2; nodes 3 and 4
refer to each other and node 5 refers to node 1, none of the three being
reachable. -/
def sampleHeap : Heap :=
  { nodes := [some (sampleNode 2 [1] false), some (sampleNode 4 [2] false),
      some (sampleNode 2 [] false), some (sampleNode 2 [4] false),
      some (sampleNode 2 [3] false), some (sampleNode 0 [1] false)],
    initialised := true, s_live := [0, 1, 2, 3, 4, 5], s_reachable := [], zombies := [],
    s_moribund := [], s_mark := false, s_num_nodes := 6, s_under_construction := 0,
    s_inhibitor_count := 0, heap_roots := [0], stack_roots := [], protect_stack := [],
    cstructs := [], weak_refs := [some 3, some 2], bytes_allocated := 48, trigger_level := 100,
    m_marks_applied := 0, deleted := [] }

/-- The sample heap between `mark` and `sweep`. -/
def sampleMarked : Heap :=
  { nodes := [some (sampleNode 2 [1] true), some (sampleNode 4 [2] true),
      some (sampleNode 2 [] true), some (sampleNode 2 [4] false),
      some (sampleNode 2 [3] false), some (sampleNode 0 [1] false)],
    initialised := true, s_live := [3, 4, 5], s_reachable := [0, 1, 2], zombies := [],
    s_moribund := [], s_mark := true, s_num_nodes := 6, s_under_construction := 0,
    s_inhibitor_count := 0, heap_roots := [0], stack_roots := [], protect_stack := [],
    cstructs := [], weak_refs := [none, some 2], bytes_allocated := 48, trigger_level := 100,
    m_marks_applied := 3, deleted := [] }

/-- Three nodes on the moribund list: node 0 without references, node 1 whose
count was raised again by the edge from node 2, and node 2 held by a root. -/
def sampleMoribund : Heap :=
  { nodes := [some (sampleNode 1 [] false), some (sampleNode 3 [] false),
      some (sampleNode 2 [1] false)],
    initialised := true, s_live := [0, 1, 2], s_reachable := [], zombies := [],
    s_moribund := [1, 0], s_mark := false, s_num_nodes := 3, s_under_construction := 0,
    s_inhibitor_count := 0, heap_roots := [2], stack_roots := [], protect_stack := [],
    cstructs := [], weak_refs := [], bytes_allocated := 24, trigger_level := 100,
    m_marks_applied := 0, deleted := [] }

/-- Three nodes: node 0, on the moribund list without references, holds the
only reference to node 1; node 2 was made moribund before node 0. -/
def sampleChain : Heap :=
  { nodes := [some (sampleNode 1 [1] false), some (sampleNode 2 [] false),
      some (sampleNode 1 [] false)],
    initialised := true, s_live := [0, 1, 2], s_reachable := [], zombies := [],
    s_moribund := [2, 0], s_mark := false, s_num_nodes := 3, s_under_construction := 0,
    s_inhibitor_count := 0, heap_roots := [], stack_roots := [], protect_stack := [],
    cstructs := [], weak_refs := [], bytes_allocated := 24, trigger_level := 100,
    m_marks_applied := 0, deleted := [] }

/-- Three nodes: a heap root holds node 0, nodes 0 and 1 refer to each other,
and node 2, which nothing refers to, refers to node 0. -/
def sampleRing : Heap :=
  { nodes := [some (sampleNode 6 [1] false), some (sampleNode 2 [0] false),
      some (sampleNode 0 [0] false)],
    initialised := true, s_live := [0, 1, 2], s_reachable := [], zombies := [],
    s_moribund := [], s_mark := false, s_num_nodes := 3, s_under_construction := 0,
    s_inhibitor_count := 0, heap_roots := [0], stack_roots := [], protect_stack := [],
    cstructs := [], weak_refs := [], bytes_allocated := 24, trigger_level := 100,
    m_marks_applied := 0, deleted := [] }

/-- A heap in the middle of a collection: its only node is on the reachable
list, the live list is empty. -/
def sampleMidCollection : Heap :=
  { nodes := [some (sampleNode 2 [] true)],
    initialised := true, s_live := [], s_reachable := [0], zombies := [],
    s_moribund := [], s_mark := true, s_num_nodes := 1, s_under_construction := 0,
    s_inhibitor_count := 0, heap_roots := [0], stack_roots := [], protect_stack := [],
    cstructs := [], weak_refs := [], bytes_allocated := 8, trigger_level := 100,
    m_marks_applied := 1, deleted := [] }

/-- A short run of a program: two nodes are created and exposed, a root takes
node 0, node 0 is pointed at node 1, the edge is cleared again, which makes
node 1 moribund. -/
def sampleRun : Heap :=
  GCEdge_detach 0 (GCEdge_attach 0 1 (GCRoot_create 0
    (GCNode.expose 1 (GCNode.construct 1 8 (GCNode.MemoryBank_allocate 8
      (GCNode.expose 0 (GCNode.construct 0 8
        (GCNode.MemoryBank_allocate 8 (GCNode.initialise 100)).2))).2))))

end CXXR

namespace CXXR

/-! ## Exposure of a node -/

namespace GCNode

/-- `GCNode::abortIfNotExposed(node)`; `none` is the null pointer.  The function
only reads: on return the heap is the one it was given.  An address that holds
no node is read as storage without the flag. -/
def abortIfNotExposed (node : Option Nat) (h : Heap) : Result Heap :=
  match node with
  | none => Result.ok h
  | some a =>
    match h.node? a with
    | none => Result.ok h
    | some nd => if nd.m_bits_UNDER_CONSTRUCTION then Result.abort h else Result.ok h

end GCNode

/-!
# The call evaluator

A shallow embedding of `src/main/Expression.cpp`.  The classes it works with
(`Evaluator`, `Evaluator::Context` and its subclasses, `ArgList`, `Frame`,
`Environment`, `Closure`, `BuiltInFunction`, `ArgMatcher`, `StackChecker`) are
not part of the sources at hand; what `Expression.cpp` uses of them is modelled
below, each such definition saying so in its comment.  The C functions behind
the built-in functions and the argument matcher are parameters (`World`).

An R error (`Rf_error`) leaves the functions on its way by unwinding; a
function that can raise one returns `Except RError α` together with the state
of the evaluator at that moment.  Evaluation can run forever, so the evaluator
takes fuel, and `none` means that the fuel ran out.  What `RAllocStack::Scope`,
`ProtectStack::Scope`, `maybeTrace`, `monitorLeaks` and `maybeDetachFrame` do
is outside the state modelled here, and the code under `Win32` is left out.
-/

/-- The type tags of `RObject::sexptype()`, that is `TYPEOF`, that the code
modelled here tells apart. -/
inductive SEXPTYPE where
  | NILSXP
  | SYMSXP
  | LISTSXP
  | CLOSXP
  | PROMSXP
  | LANGSXP
  | SPECIALSXP
  | BUILTINSXP
  | INTSXP
  | CHARSXP
  | LGLSXP
  | REALSXP
  | STRSXP
  | VECSXP
  | ENVSXP
  | S4SXP
deriving DecidableEq, Repr

/-- The values of `BuiltInFunction::printHandling()`. -/
inductive ResultPrintingMode where
  | FORCE_ON
  | FORCE_OFF
  | SOFT_ON
deriving DecidableEq, Repr

/-- Modelled from the spec: what `Expression.cpp` asks of a `BuiltInFunction`:
its place in the function table, whether it is a special form, whether a call
of it gets a `FunctionContext`, which calling convention it has and how it
treats the printing of its result. -/
structure BuiltInFunction where
  offset : Nat
  special : Bool
  createsStackFrame : Bool
  hasDirectCall : Bool
  printHandling : ResultPrintingMode
deriving DecidableEq, Repr

/-- The type tag of a built-in function: `SPECIALSXP` for a special form,
`BUILTINSXP` for a strict function. -/
def BuiltInFunction.sexptype (f : BuiltInFunction) : SEXPTYPE :=
  if f.special then SEXPTYPE.SPECIALSXP else SEXPTYPE.BUILTINSXP

/-- Modelled from the spec: the objects the evaluator handles.  An environment
is known by its index in the store of the evaluator. -/
inductive RObject where
  /-- The null pointer. -/
  | null
  | symbol (name : String)
  /-- A vector, which evaluates to itself. -/
  | int (value : Int)
  /-- A cell of a pairlist, with its tag. -/
  | pairlist (tag : Option String) (car tail : RObject)
  /-- A call: an `Expression`, with the callee as head and the arguments as tail. -/
  | expression (car tail : RObject)
  | closure (formals : List String) (body : RObject) (environment : Nat)
  | builtin (f : BuiltInFunction)
  /-- A promise: an unevaluated expression and the environment to evaluate it in. -/
  | promise (value : RObject) (environment : Nat)
deriving DecidableEq, Repr

namespace RObject

def sexptype : RObject → SEXPTYPE
  | null => SEXPTYPE.NILSXP
  | symbol _ => SEXPTYPE.SYMSXP
  | int _ => SEXPTYPE.INTSXP
  | pairlist _ _ _ => SEXPTYPE.LISTSXP
  | expression _ _ => SEXPTYPE.LANGSXP
  | closure _ _ _ => SEXPTYPE.CLOSXP
  | builtin f => f.sexptype
  | promise _ _ => SEXPTYPE.PROMSXP

/-- The head of a call or of a pairlist. -/
def car : RObject → RObject
  | pairlist _ a _ => a
  | expression a _ => a
  | _ => null

/-- The tail of a call or of a pairlist. -/
def tail : RObject → RObject
  | pairlist _ _ t => t
  | expression _ t => t
  | _ => null

/-- The elements of a pairlist with their tags, in order. -/
def elements : RObject → List (Option String × RObject)
  | pairlist tag a t => (tag, a) :: elements t
  | _ => []

end RObject

/-- Modelled from the spec: `FunctionBase::isA(obj)`: the object is a closure
or a built-in function. -/
def FunctionBase.isA : RObject → Bool
  | RObject.closure _ _ _ => true
  | RObject.builtin _ => true
  | _ => false

/-- Modelled from the spec: a `Closure`: formal parameters, body and defining
environment. -/
structure Closure where
  formals : List String
  body : RObject
  environment : Nat
deriving DecidableEq, Repr

/-- The closure as an object. -/
def Closure.toRObject (c : Closure) : RObject :=
  RObject.closure c.formals c.body c.environment

/-- Modelled from the spec: a `Frame`: the bindings of symbols to values, each
symbol being looked up at its first entry. -/
structure Frame where
  bindings : List (String × RObject)
deriving DecidableEq, Repr

namespace Frame

/-- Modelled from the spec: `Frame::binding(symbol)`: the binding of the symbol,
or null. -/
def binding (f : Frame) (sym : String) : Option (String × RObject) :=
  f.bindings.find? (fun b => b.1 == sym)

/-- Modelled from the spec: `Frame::importBinding(binding)`: the frame gets
a binding of the symbol with the value of `b`, in place of the one it had for
that symbol if there was one. -/
def importBinding (f : Frame) (b : String × RObject) : Frame :=
  if (f.binding b.1).isSome then
    { bindings := f.bindings.map (fun x => if x.1 == b.1 then b else x) }
  else { bindings := f.bindings ++ [b] }

end Frame

/-- Modelled from the spec: an `Environment`: a frame and the enclosing
environment. -/
structure Environment where
  frame : Frame
  enclosing : Option Nat
deriving DecidableEq, Repr

/-- Modelled from the spec: the records of the context stack.  A plain and a
bailout context carry nothing; a `FunctionContext` records the call, the
calling environment and the function; a `ClosureContext` records in addition
the working environment and the promised arguments. -/
inductive Context where
  | plain
  | bailout
  | function (call : RObject) (callEnvironment : Nat) (function : RObject)
  | closure (call : RObject) (callEnvironment : Nat) (function : RObject)
      (workingEnvironment : Nat) (promiseArgs : List (Option String × RObject))
deriving DecidableEq, Repr

/-- The errors that the code modelled here raises; `other` stands for the
errors of the built-in functions and of the argument matcher. -/
inductive RError where
  /-- The text is `could not find function "name"`. -/
  | could_not_find_function (name : String)
  /-- The text is `attempt to apply non-function`. -/
  | attempt_to_apply_non_function
  /-- Raised when the evaluation depth exceeds its bound. -/
  | evaluation_nested_too_deeply
  /-- Raised by the evaluation of a symbol that has no value. -/
  | object_not_found (name : String)
  /-- The `assert` of `evaluateFunctionCall` failed. -/
  | assertion_failed
  /-- Raised by the argument matcher: a duplicate or ambiguous match, an unused
  argument or a formal without argument. -/
  | argument_match_error
  | other (code : Nat)
deriving DecidableEq, Repr

/-- A record of what happened during an evaluation, kept for the proofs: an
error raised by the code modelled here, with the context stack at that moment;
the creation of the execution environment of a closure call; the call of the
C function of a built-in function, with the arguments handed to it. -/
inductive Event where
  | error (e : RError) (contexts : List Context)
  | closure (func : Closure) (execution_env : Nat)
  | builtin (func : BuiltInFunction) (args : List (Option String × RObject))
deriving DecidableEq, Repr

/-- The state of the evaluator: the evaluation depth and its bound (class
`StackChecker`), the flag that says whether the result of the top-level call
is printed, the context stack with the innermost context first, the store of
environments (environment 0 is the global environment), and the record of
events. -/
structure EvalState where
  depth : Nat
  depth_limit : Nat
  result_printing : Bool
  contexts : List Context
  envs : List Environment
  trace : List Event
deriving DecidableEq, Repr

deriving instance DecidableEq for Except

/-- What a function of the evaluator gives back: nothing when the fuel ran out,
else a value or an R error, and the state of the evaluator. -/
abbrev Outcome (α : Type) : Type := Option (Except RError α × EvalState)

/-- The type of `Evaluator::evaluate(object, env)`. -/
abbrev Eval : Type := RObject → Nat → EvalState → Outcome RObject

/-- Modelled from the spec: `Rf_error`: the error is raised in the state `s`. -/
def Rf_error {α : Type} (e : RError) (s : EvalState) : Outcome α :=
  some (Except.error e, { s with trace := s.trace ++ [Event.error e s.contexts] })

/-- Modelled from the spec: `Evaluator::enableResultPrinting(on)`. -/
def Evaluator.enableResultPrinting (flag : Bool) (s : EvalState) : EvalState :=
  { s with result_printing := flag }

/-- Modelled from the spec: a block that holds a context object `c`: the
constructor makes `c` the innermost context, the destructor, which runs
however the block is left, takes the innermost context off the stack. -/
def withContext {α : Type} (c : Context) (body : EvalState → Outcome α) (s : EvalState) :
    Outcome α :=
  match body { s with contexts := c :: s.contexts } with
  | none => none
  | some (r, s1) => some (r, { s1 with contexts := s1.contexts.tail })

/-- Modelled from the spec: a block that holds an `IncrementStackDepthScope`:
the depth is raised by one for the block and lowered again however the block
is left; a depth above the bound raises an error instead of entering the
block. -/
def IncrementStackDepthScope {α : Type} (body : EvalState → Outcome α) (s : EvalState) :
    Outcome α :=
  if s.depth + 1 > s.depth_limit then Rf_error RError.evaluation_nested_too_deeply s
  else
    match body { s with depth := s.depth + 1 } with
    | none => none
    | some (r, s1) => some (r, { s1 with depth := s1.depth - 1 })

/-- The code that `Expression.cpp` calls and that is not modelled: the C
functions of the built-in functions, which may call the evaluator back, and
the argument matcher of a closure, which gives the frame of matched
arguments. -/
structure World where
  primitive : Eval → BuiltInFunction → RObject → Nat → List (Option String × RObject) →
    EvalState → Outcome RObject
  matchArgs : Closure → List (Option String × RObject) → Except RError Frame

/-! ## Environments -/

/-- The frame of environment `env`; an environment that does not exist has no
bindings. -/
def EvalState.frame (s : EvalState) (env : Nat) : Frame :=
  match s.envs[env]? with
  | some e => e.frame
  | none => { bindings := [] }

/-- Replace the frame of environment `env`. -/
def EvalState.setFrame (s : EvalState) (env : Nat) (f : Frame) : EvalState :=
  match s.envs[env]? with
  | some e => { s with envs := s.envs.set env { e with frame := f } }
  | none => s

/-- Walk outward from `env` through at most `fuel` environments and return the
first value bound to `sym` that satisfies `p`. -/
def Environment.search (s : EvalState) (p : RObject → Bool) (sym : String) :
    Nat → Nat → Option RObject
  | 0, _ => none
  | fuel + 1, env =>
    match s.envs[env]? with
    | none => none
    | some e =>
      match e.frame.binding sym with
      | some b => if p b.2 then some b.2 else
          match e.enclosing with
          | some up => Environment.search s p sym fuel up
          | none => none
      | none =>
          match e.enclosing with
          | some up => Environment.search s p sym fuel up
          | none => none

/-- Modelled from the spec: `findFunction(symbol, env)`: the first function
bound to the symbol in `env` or in an environment that encloses it, or null.
A binding that holds a promise is not forced. -/
def findFunction (symbol : String) (env : Nat) (s : EvalState) : Option RObject :=
  Environment.search s FunctionBase.isA symbol s.envs.length env

/-- Modelled from the spec: the value of a variable: the first binding of the
symbol in `env` or in an environment that encloses it. -/
def findVariable (symbol : String) (env : Nat) (s : EvalState) : Option RObject :=
  Environment.search s (fun _ => true) symbol s.envs.length env

/-! ## Argument lists -/

/-- The values of `ArgList::status()`. -/
inductive ArgList.Status where
  | RAW
  | PROMISED
  | EVALUATED
deriving DecidableEq, Repr

/-- Modelled from the spec: an `ArgList`: the arguments with their tags, and
whether they are as written, wrapped in promises, or evaluated. -/
structure ArgList where
  list : List (Option String × RObject)
  status : ArgList.Status
deriving DecidableEq, Repr

namespace ArgList

/-- Modelled from the spec: `ArgList::has3Dots()`: one of the arguments is the
symbol `...`. -/
def has3Dots (a : ArgList) : Bool :=
  a.list.any (fun x => x.2 == RObject.symbol "...")

/-- Modelled from the spec: `ArgList::wrapInPromises(env)`: every argument
becomes a promise to evaluate it in `env`; nothing is evaluated. -/
def wrapInPromises (env : Nat) (a : ArgList) : ArgList :=
  { list := a.list.map (fun x => (x.1, RObject.promise x.2 env)),
    status := ArgList.Status.PROMISED }

/-- Evaluate the arguments one after the other, from the first on; the first
error ends the evaluation. -/
def evaluateList (ev : Eval) (env : Nat) :
    List (Option String × RObject) → EvalState → Outcome (List (Option String × RObject))
  | [], s => some (Except.ok [], s)
  | x :: rest, s =>
    match ev x.2 env s with
    | none => none
    | some (Except.error e, s1) => some (Except.error e, s1)
    | some (Except.ok v, s1) =>
      match evaluateList ev env rest s1 with
      | none => none
      | some (Except.error e, s2) => some (Except.error e, s2)
      | some (Except.ok vs, s2) => some (Except.ok ((x.1, v) :: vs), s2)

/-- Modelled from the spec: `ArgList::evaluate(env)`: the arguments are
evaluated in `env`, in order, and the list is then `EVALUATED`. -/
def evaluate (ev : Eval) (env : Nat) (a : ArgList) (s : EvalState) : Outcome ArgList :=
  match evaluateList ev env a.list s with
  | none => none
  | some (Except.error e, s1) => some (Except.error e, s1)
  | some (Except.ok vs, s1) =>
    some (Except.ok { list := vs, status := ArgList.Status.EVALUATED }, s1)

/-- Modelled from the spec: `ArgList::evaluateToArray(env, n, array)`: the
values of the arguments, which are evaluated in `env` unless the list is
`EVALUATED` already. -/
def evaluateToArray (ev : Eval) (env : Nat) (a : ArgList) (s : EvalState) :
    Outcome (List (Option String × RObject)) :=
  if a.status = ArgList.Status.EVALUATED then some (Except.ok a.list, s)
  else evaluateList ev env a.list s

end ArgList

/-! ## The functions of `Expression.cpp` -/

/-- Modelled from the spec: `BuiltInFunction::invoke`: the C function of the
built-in function is called with the arguments. -/
def BuiltInFunction.invoke (W : World) (ev : Eval) (func : BuiltInFunction) (call : RObject)
    (env : Nat) (args : List (Option String × RObject)) (s : EvalState) : Outcome RObject :=
  W.primitive ev func call env args { s with trace := s.trace ++ [Event.builtin func args] }

/-- Modelled from the spec: `Closure::createExecutionEnv()`: a new environment
with an empty frame, enclosed by the environment of the closure. -/
def Closure.createExecutionEnv (func : Closure) (s : EvalState) : Nat × EvalState :=
  (s.envs.length,
   { s with envs := s.envs ++ [{ frame := { bindings := [] }, enclosing := some func.environment }],
            trace := s.trace ++ [Event.closure func s.envs.length] })

/-- Modelled from the spec: `func->matcher()->match(execution_env, arglist)`:
the frame of the execution environment becomes the frame of the matched
arguments, or an error is raised. -/
def ArgMatcher.match_ (W : World) (func : Closure) (execution_env : Nat) (arglist : ArgList)
    (s : EvalState) : Outcome Unit :=
  match W.matchArgs func arglist.list with
  | Except.error e => some (Except.error e, s)
  | Except.ok f => some (Except.ok (), s.setFrame execution_env f)

/-! ### The argument matcher -/

/-- The pairlist with the given elements. -/
def RObject.pairlistOf : List (Option String × RObject) → RObject
  | [] => RObject.null
  | x :: rest => RObject.pairlist x.1 x.2 (RObject.pairlistOf rest)

namespace ArgMatcher

/-- The formals in order, each with the argument matched to it so far. -/
abbrev Slots : Type := List (String × Option RObject)

/-- Modelled from the spec: the first pass of the matcher, by exact name: a
formal other than `...` takes the supplied argument whose tag is its name; two
arguments with that tag are a duplicate match.  Gives the slots and the
arguments not used. -/
def exactPass : List String → List (Option String × RObject) →
    Except RError (Slots × List (Option String × RObject))
  | [], supplied => Except.ok ([], supplied)
  | f :: fs, supplied =>
    if f = "..." then
      match exactPass fs supplied with
      | Except.error e => Except.error e
      | Except.ok r => Except.ok ((f, none) :: r.1, r.2)
    else
      match supplied.filter (fun x => x.1 == some f) with
      | [] =>
        match exactPass fs supplied with
        | Except.error e => Except.error e
        | Except.ok r => Except.ok ((f, none) :: r.1, r.2)
      | [x] =>
        match exactPass fs (supplied.filter (fun y => !(y.1 == some f))) with
        | Except.error e => Except.error e
        | Except.ok r => Except.ok ((f, some x.2) :: r.1, r.2)
      | _ :: _ :: _ => Except.error RError.argument_match_error

/-- The formals without argument after the first pass, other than `...`, whose
name begins with the tag `t`. -/
def partialCandidates (slots0 : Slots) (t : String) : List String :=
  (slots0.filter (fun s => s.2.isNone && !(s.1 == "...") &&
    t.toList.isPrefixOf s.1.toList)).map (fun s => s.1)

/-- The slot of formal `f` takes the value `v`. -/
def bindSlot (slots : Slots) (f : String) (v : RObject) : Slots :=
  slots.map (fun s => if s.1 = f then (s.1, some v) else s)

/-- Whether the formal `f` has an argument. -/
def isBound (slots : Slots) (f : String) : Bool :=
  slots.any (fun s => s.1 == f && s.2.isSome)

/-- Modelled from the spec: the second pass of the matcher, by partial name,
over the arguments the first pass left: a tag that begins the name of exactly
one formal still without argument gives its argument to that formal; a tag
that begins the names of several is ambiguous, and a formal matched by two
tags is a duplicate match, both errors.  `slots0` are the slots after the
first pass. -/
def partialPass (slots0 : Slots) : List (Option String × RObject) → Slots →
    Except RError (Slots × List (Option String × RObject))
  | [], slots => Except.ok (slots, [])
  | (none, v) :: rest, slots =>
    match partialPass slots0 rest slots with
    | Except.error e => Except.error e
    | Except.ok r => Except.ok (r.1, (none, v) :: r.2)
  | (some t, v) :: rest, slots =>
    match partialCandidates slots0 t with
    | [] =>
      match partialPass slots0 rest slots with
      | Except.error e => Except.error e
      | Except.ok r => Except.ok (r.1, (some t, v) :: r.2)
    | [f] =>
      if isBound slots f then Except.error RError.argument_match_error
      else partialPass slots0 rest (bindSlot slots f v)
    | _ :: _ :: _ => Except.error RError.argument_match_error

/-- The first argument without tag, and the other arguments. -/
def takeUntagged : List (Option String × RObject) →
    Option (RObject × List (Option String × RObject))
  | [] => none
  | (none, v) :: rest => some (v, rest)
  | (some t, v) :: rest =>
    match takeUntagged rest with
    | none => none
    | some r => some (r.1, (some t, v) :: r.2)

/-- Modelled from the spec: the third pass of the matcher, by position: the
formals still without argument take the arguments without tag, in order; the
formal `...` takes every argument that is left; an argument that no formal
takes and a formal other than `...` that is left without argument are
errors. -/
def positionalPass : Slots → List (Option String × RObject) →
    Except RError (List (String × RObject))
  | [], [] => Except.ok []
  | [], _ :: _ => Except.error RError.argument_match_error
  | (f, some v) :: slots, args =>
    match positionalPass slots args with
    | Except.error e => Except.error e
    | Except.ok bs => Except.ok ((f, v) :: bs)
  | (f, none) :: slots, args =>
    if f = "..." then
      match positionalPass slots [] with
      | Except.error e => Except.error e
      | Except.ok bs => Except.ok ((f, RObject.pairlistOf args) :: bs)
    else
      match takeUntagged args with
      | none => Except.error RError.argument_match_error
      | some r =>
        match positionalPass slots r.2 with
        | Except.error e => Except.error e
        | Except.ok bs => Except.ok ((f, r.1) :: bs)

/-- Modelled from the spec: the argument matcher of a closure with the given
formals: the three passes in their order of priority, by exact name, by
unambiguous partial name, by position. -/
def matchFormals (formals : List String) (supplied : List (Option String × RObject)) :
    Except RError Frame :=
  match exactPass formals supplied with
  | Except.error e => Except.error e
  | Except.ok r1 =>
    match partialPass r1.1 r1.2 r1.1 with
    | Except.error e => Except.error e
    | Except.ok r2 =>
      match positionalPass r2.1 r2.2 with
      | Except.error e => Except.error e
      | Except.ok bs => Except.ok { bindings := bs }

end ArgMatcher

/-- The world `W` with the argument matcher modelled above in the place of its
own. -/
def World.withMatcher (W : World) : World :=
  { W with matchArgs := fun func args => ArgMatcher.matchFormals func.formals args }

/-- Modelled from the spec: `Closure::execute(env)`: the body of the closure is
evaluated in `env`. -/
def Closure.execute (ev : Eval) (func : Closure) (env : Nat) (s : EvalState) : Outcome RObject :=
  ev func.body env s

/-- Modelled from the spec: `FunctionContext::innermost(start)`: the contexts
from the first `FunctionContext` or `ClosureContext` of `start` on, outward. -/
def FunctionContext.innermost : List Context → List Context
  | [] => []
  | Context.function call env f :: rest => Context.function call env f :: rest
  | Context.closure call env f w p :: rest => Context.closure call env f w p :: rest
  | _ :: rest => FunctionContext.innermost rest

/-- The function of a `FunctionContext`. -/
def Context.function? : Context → Option RObject
  | Context.function _ _ f => some f
  | Context.closure _ _ f _ _ => some f
  | _ => none

/-- The calling environment of a `FunctionContext`. -/
def Context.callEnvironment? : Context → Option Nat
  | Context.function _ env _ => some env
  | Context.closure _ env _ _ _ => some env
  | _ => none

namespace Expression

/-- The loop of `getMethodCallingEnv`: `contexts` runs outward from the
context `fctxt` at its head. -/
def getMethodCallingEnv_loop : List Context → Option Context
  | [] => none
  | c :: rest =>
    match c.function? with
    | none => getMethodCallingEnv_loop rest
    | some f =>
      if f.sexptype = SEXPTYPE.SPECIALSXP then getMethodCallingEnv_loop rest else some c

/-- `Expression::getMethodCallingEnv()`; the global environment is
environment 0. -/
def getMethodCallingEnv (s : EvalState) : Nat :=
  match getMethodCallingEnv_loop s.contexts with
  | some c =>
    match c.callEnvironment? with
    | some env => env
    | none => 0
  | none => 0

/-- `Expression::importMethodBindings(method_bindings, newframe)`. -/
def importMethodBindings (method_bindings newframe : Frame) : Frame :=
  method_bindings.bindings.foldl
    (fun fr b => if (fr.binding b.1).isNone then fr.importBinding b else fr) newframe

/-- `Expression::evaluateIndirectBuiltInCall`. -/
def evaluateIndirectBuiltInCall (W : World) (ev : Eval) (call : RObject)
    (func : BuiltInFunction) (env : Nat) (arglist : ArgList) (s : EvalState) : Outcome RObject :=
  match (if func.sexptype = SEXPTYPE.BUILTINSXP ∧ arglist.status ≠ ArgList.Status.EVALUATED
      then arglist.evaluate ev env s else some (Except.ok arglist, s)) with
  | none => none
  | some (Except.error e, s1) => some (Except.error e, s1)
  | some (Except.ok al, s1) =>
    func.invoke W ev call env al.list
      (if func.printHandling = ResultPrintingMode.SOFT_ON
        then Evaluator.enableResultPrinting true s1 else s1)

/-- `Expression::evaluateDirectBuiltInCall`. -/
def evaluateDirectBuiltInCall (W : World) (ev : Eval) (call : RObject)
    (func : BuiltInFunction) (env : Nat) (arglist : ArgList) (s : EvalState) : Outcome RObject :=
  match (if arglist.has3Dots then arglist.evaluate ev env s
      else some (Except.ok arglist, s)) with
  | none => none
  | some (Except.error e, s1) => some (Except.error e, s1)
  | some (Except.ok al, s1) =>
    match al.evaluateToArray ev env s1 with
    | none => none
    | some (Except.error e, s2) => some (Except.error e, s2)
    | some (Except.ok evaluated_arg_array, s2) =>
      func.invoke W ev call env evaluated_arg_array
        (if func.printHandling = ResultPrintingMode.SOFT_ON
          then Evaluator.enableResultPrinting true s2 else s2)

/-- `Expression::evaluateBuiltInCall`. -/
def evaluateBuiltInCall (W : World) (ev : Eval) (call : RObject)
    (func : BuiltInFunction) (env : Nat) (arglist : ArgList) (s : EvalState) : Outcome RObject :=
  if func.hasDirectCall then evaluateDirectBuiltInCall W ev call func env arglist s
  else evaluateIndirectBuiltInCall W ev call func env arglist s

/-- `Expression::applyBuiltIn`. -/
def applyBuiltIn (W : World) (ev : Eval) (call : RObject) (builtin : BuiltInFunction)
    (env : Nat) (raw_arglist : ArgList) (s : EvalState) : Outcome RObject :=
  match (if builtin.createsStackFrame
      then withContext (Context.function call env (RObject.builtin builtin))
        (evaluateBuiltInCall W ev call builtin env raw_arglist) s
      else withContext Context.plain
        (evaluateBuiltInCall W ev call builtin env raw_arglist) s) with
  | none => none
  | some (Except.error e, s1) => some (Except.error e, s1)
  | some (Except.ok result, s1) =>
    some (Except.ok result,
      if builtin.printHandling ≠ ResultPrintingMode.SOFT_ON
      then Evaluator.enableResultPrinting
        (decide (builtin.printHandling ≠ ResultPrintingMode.FORCE_OFF)) s1
      else s1)

/-- The first statement of `invokeClosureImpl`: the argument list is wrapped in
promises unless it is `PROMISED` already. -/
def promisedArgs (calling_env : Nat) (arglist : ArgList) : ArgList :=
  if arglist.status ≠ ArgList.Status.PROMISED then arglist.wrapInPromises calling_env
  else arglist

/-- `Expression::invokeClosureImpl`; `method_bindings` is `none` for the null
pointer. -/
def invokeClosureImpl (W : World) (ev : Eval) (call : RObject) (func : Closure)
    (calling_env : Nat) (arglist : ArgList) (method_bindings : Option Frame)
    (s : EvalState) : Outcome RObject :=
  let arglist1 := promisedArgs calling_env arglist
  let p := func.createExecutionEnv s
  match withContext
      (Context.closure call calling_env func.toRObject func.environment arglist1.list)
      (ArgMatcher.match_ W func p.1 arglist1) p.2 with
  | none => none
  | some (Except.error e, s1) => some (Except.error e, s1)
  | some (Except.ok _, s1) =>
    let s2 := match method_bindings with
      | some mb => s1.setFrame p.1 (importMethodBindings mb (s1.frame p.1))
      | none => s1
    let calling_env1 := match method_bindings with
      | some _ => getMethodCallingEnv s2
      | none => calling_env
    withContext (Context.closure call calling_env1 func.toRObject p.1 arglist1.list)
      (func.execute ev p.1) s2

/-- `Expression::invokeClosure`: the call of `invokeClosureImpl` within a stack
frame boundary, which is outside the state modelled here. -/
def invokeClosure (W : World) (ev : Eval) (call : RObject) (func : Closure)
    (calling_env : Nat) (arglist : ArgList) (method_bindings : Option Frame)
    (s : EvalState) : Outcome RObject :=
  invokeClosureImpl W ev call func calling_env arglist method_bindings s

/-- `Expression::evaluateFunctionCall`. -/
def evaluateFunctionCall (W : World) (ev : Eval) (call : RObject) (func : RObject)
    (env : Nat) (raw_arglist : ArgList) (s : EvalState) : Outcome RObject :=
  match func with
  | RObject.closure formals body cenv =>
    invokeClosure W ev call { formals := formals, body := body, environment := cenv } env
      raw_arglist none s
  | RObject.builtin f => applyBuiltIn W ev call f env raw_arglist s
  | _ => Rf_error RError.assertion_failed s

/-- The first part of `Expression::evaluate`: the callee is resolved. -/
def resolveCallee (ev : Eval) (call : RObject) (env : Nat) (s : EvalState) : Outcome RObject :=
  match call.car with
  | RObject.symbol name =>
    match findFunction name env s with
    | none => Rf_error (RError.could_not_find_function name) s
    | some func => some (Except.ok func, s)
  | head =>
    match ev head env s with
    | none => none
    | some (Except.error e, s1) => some (Except.error e, s1)
    | some (Except.ok val, s1) =>
      if FunctionBase.isA val then some (Except.ok val, s1)
      else Rf_error RError.attempt_to_apply_non_function s1

/-- The body of `Expression::evaluate`, which runs while the
`IncrementStackDepthScope` is held: the callee is resolved and called with the
arguments as written. -/
def evaluateCall (W : World) (ev : Eval) (call : RObject) (env : Nat) (s : EvalState) :
    Outcome RObject :=
  match resolveCallee ev call env s with
  | none => none
  | some (Except.error e, s1) => some (Except.error e, s1)
  | some (Except.ok func, s1) =>
    evaluateFunctionCall W ev call func env
      { list := call.tail.elements, status := ArgList.Status.RAW } s1

/-- `Expression::evaluate`. -/
def evaluate (W : World) (ev : Eval) (call : RObject) (env : Nat) (s : EvalState) :
    Outcome RObject :=
  IncrementStackDepthScope (evaluateCall W ev call env) s

end Expression

/-- Modelled from the spec: `Evaluator::evaluate(object, env)` with `fuel` as
bound on the depth of the evaluation: a symbol evaluates to its value, which is
forced if it is a promise (the value of a promise is not kept); a call is
evaluated by `Expression::evaluate`; a promise is forced; any other object
evaluates to itself. -/
def Evaluator.evaluate (W : World) : Nat → Eval
  | 0 => fun _ _ _ => none
  | fuel + 1 => fun obj env s =>
    match obj with
    | RObject.symbol name =>
      match findVariable name env s with
      | none => Rf_error (RError.object_not_found name) s
      | some (RObject.promise value penv) => Evaluator.evaluate W fuel value penv s
      | some v => some (Except.ok v, s)
    | RObject.expression car tail =>
      Expression.evaluate W (Evaluator.evaluate W fuel) (RObject.expression car tail) env s
    | RObject.promise value penv => Evaluator.evaluate W fuel value penv s
    | v => some (Except.ok v, s)

/-! ## What an evaluation keeps -/

/-- The execution environments whose creation a record of events shows. -/
def Event.closureEnvs : List Event → List Nat
  | [] => []
  | Event.closure _ env :: rest => env :: Event.closureEnvs rest
  | _ :: rest => Event.closureEnvs rest

/-- What a call leaves as it found it, whether it returns or raises an error:
the context stack and the evaluation depth.  No environment is removed from the
store, the record of events is only added to, every error recorded was raised
with the contexts of `s` still on the stack, and the execution environments
created are new and differ from one another. -/
structure Keeps (s t : EvalState) : Prop where
  contexts : t.contexts = s.contexts
  depth : t.depth = s.depth
  envs : s.envs.length ≤ t.envs.length
  trace : ∃ l, t.trace = s.trace ++ l ∧
    (∀ e ctxs, Event.error e ctxs ∈ l → ∃ p, ctxs = p ++ s.contexts) ∧
    (∀ env ∈ Event.closureEnvs l, s.envs.length ≤ env ∧ env < t.envs.length) ∧
    (Event.closureEnvs l).Nodup

/-- An evaluator that keeps, in every call of it that ends, what `Keeps`
says. -/
def Respects (ev : Eval) : Prop :=
  ∀ obj env s r t, ev obj env s = some (r, t) → Keeps s t

/-- What is asked of the C functions of the built-in functions: a call of one
keeps the context stack and the rest of `Keeps`, as long as the evaluator it
calls back does. -/
structure World.Tame (W : World) : Prop where
  primitive : ∀ ev, Respects ev → ∀ f call env args s r t,
    W.primitive ev f call env args s = some (r, t) → Keeps s t

/-! ## Sample programs -/

/-- A world with three built-in functions: number 0 returns the number of its
arguments, number 1 returns its first argument and turns the printing of the
result off, number 2 evaluates its first argument in the calling environment;
any other raises an error.  Arguments are matched to formals by position. -/
def sampleWorld : World :=
  { primitive := fun ev f _ env args s =>
      match f.offset with
      | 0 => some (Except.ok (RObject.int args.length), s)
      | 1 => some (Except.ok ((args.head?.map (fun x => x.2)).getD RObject.null),
          { s with result_printing := false })
      | 2 => ev ((args.head?.map (fun x => x.2)).getD RObject.null) env s
      | _ => some (Except.error (RError.other f.offset), s),
    matchArgs := fun func args =>
      Except.ok { bindings := List.zip func.formals (args.map (fun x => x.2)) } }

/-- A call without arguments of the function named `name`. -/
def sampleCall (name : String) : RObject :=
  RObject.expression (RObject.symbol name) RObject.null

/-- The strict built-in function `length`, number 0 of the sample world: it has
a `FunctionContext`, an indirect call and forces the printing of its result. -/
def sampleLength : BuiltInFunction :=
  { offset := 0, special := false, createsStackFrame := true, hasDirectCall := false,
    printHandling := ResultPrintingMode.FORCE_ON }

/-- The strict built-in function `invisible`, number 1 of the sample world,
with the printing policy `SOFT_ON`. -/
def sampleInvisible : BuiltInFunction :=
  { offset := 1, special := false, createsStackFrame := false, hasDirectCall := true,
    printHandling := ResultPrintingMode.SOFT_ON }

/-- The special form `quote`-like built-in function number 2 of the sample
world, which evaluates its argument itself. -/
def sampleSpecial : BuiltInFunction :=
  { offset := 2, special := true, createsStackFrame := true, hasDirectCall := false,
    printHandling := ResultPrintingMode.FORCE_OFF }

/-- The bindings of the sample global environment: `f1` calls `f2`, `f2` calls
`f3` and `f3` calls a function `nosuch` that does not exist; `g` returns its
argument `x`; `h` calls `length` without arguments; `r` calls itself with its
argument `x`. -/
def sampleGlobalFrame : Frame :=
  { bindings :=
      [("f1", RObject.closure [] (sampleCall "f2") 0),
       ("f2", RObject.closure [] (sampleCall "f3") 0),
       ("f3", RObject.closure [] (sampleCall "nosuch") 0),
       ("g", RObject.closure ["x"] (RObject.symbol "x") 0),
       ("h", RObject.closure [] (sampleCall "length") 0),
       ("r", RObject.closure ["x"]
          (RObject.expression (RObject.symbol "r")
            (RObject.pairlist none (RObject.symbol "x") RObject.null)) 0),
       ("length", RObject.builtin sampleLength),
       ("invisible", RObject.builtin sampleInvisible)] }

/-- A state with the global environment only, at depth 0, with one plain
context on the stack. -/
def sampleState : EvalState :=
  { depth := 0, depth_limit := 100, result_printing := false, contexts := [Context.plain],
    envs := [{ frame := sampleGlobalFrame, enclosing := none }], trace := [] }

/-- The sample state with the bound 3 on the evaluation depth. -/
def sampleShallow : EvalState :=
  { sampleState with depth_limit := 3 }

/-- The call `r(1)`. -/
def sampleRecursion : RObject :=
  RObject.expression (RObject.symbol "r") (RObject.pairlist none (RObject.int 1) RObject.null)

/-- The closure `function(a, b, ...) a`, defined in the global environment. -/
def sampleFormals : Closure :=
  { formals := ["a", "b", "..."], body := RObject.symbol "a", environment := 0 }

/-- The closure `r` of the sample global environment. -/
def sampleR : Closure :=
  { formals := ["x"],
    body := RObject.expression (RObject.symbol "r")
      (RObject.pairlist none (RObject.symbol "x") RObject.null),
    environment := 0 }

/-- The context stack at the moment the call of `nosuch` fails within `f3`,
called by `f2`, called by `f1`: the contexts of the three closure calls, the
innermost first, on top of the stack of the sample state. -/
def sampleNestedContexts : List Context :=
  [Context.closure (sampleCall "f3") 2 (RObject.closure [] (sampleCall "nosuch") 0) 3 [],
   Context.closure (sampleCall "f2") 1 (RObject.closure [] (sampleCall "f3") 0) 2 [],
   Context.closure (sampleCall "f1") 0 (RObject.closure [] (sampleCall "f2") 0) 1 []]

/-- The state in which the evaluation of `f1()` in the sample state ends: three
execution environments have been created and the error of the call of `nosuch`
is recorded with the contexts of the three closure calls. -/
def sampleNestedError : EvalState :=
  { sampleState with
    envs := sampleState.envs ++
      [{ frame := { bindings := [] }, enclosing := some 0 },
       { frame := { bindings := [] }, enclosing := some 0 },
       { frame := { bindings := [] }, enclosing := some 0 }],
    trace :=
      [Event.closure { formals := [], body := sampleCall "f2", environment := 0 } 1,
       Event.closure { formals := [], body := sampleCall "f3", environment := 0 } 2,
       Event.closure { formals := [], body := sampleCall "nosuch", environment := 0 } 3,
       Event.error (RError.could_not_find_function "nosuch")
         (sampleNestedContexts ++ sampleState.contexts)] }

/-- The state in which the evaluation of `r(1)` with the bound 3 on the depth
ends: `r` has been invoked three times, each invocation within the one before,
with the execution environments 1, 2 and 3, and the fourth call has failed. -/
def sampleRecursionEnd : EvalState :=
  { sampleShallow with
    envs := sampleShallow.envs ++
      [{ frame := { bindings := [("x", RObject.promise (RObject.int 1) 0)] },
         enclosing := some 0 },
       { frame := { bindings := [("x", RObject.promise (RObject.symbol "x") 1)] },
         enclosing := some 0 },
       { frame := { bindings := [("x", RObject.promise (RObject.symbol "x") 2)] },
         enclosing := some 0 }],
    trace :=
      [Event.closure sampleR 1, Event.closure sampleR 2, Event.closure sampleR 3,
       Event.error RError.evaluation_nested_too_deeply
         [Context.closure sampleR.body 2 sampleR.toRObject 3
            [(none, RObject.promise (RObject.symbol "x") 2)],
          Context.closure sampleR.body 1 sampleR.toRObject 2
            [(none, RObject.promise (RObject.symbol "x") 1)],
          Context.closure sampleRecursion 0 sampleR.toRObject 1
            [(none, RObject.promise (RObject.int 1) 0)],
          Context.plain]] }

/-- A world in which every built-in function returns, as a number, the
environment that `getMethodCallingEnv` gives at the moment its C function
runs. -/
def sampleProbeWorld : World :=
  { primitive := fun _ _ _ _ _ s =>
      some (Except.ok (RObject.int (Expression.getMethodCallingEnv s)), s),
    matchArgs := sampleWorld.matchArgs }

/-- A context stack on which a strict built-in function with a
`FunctionContext`, called from environment 1, is innermost, within a closure
call made from environment 2. -/
def sampleStack : EvalState :=
  { sampleState with
    contexts := [Context.function (sampleCall "length") 1 (RObject.builtin sampleLength),
      Context.closure (sampleCall "g") 2 (RObject.closure ["x"] (RObject.symbol "x") 0) 3 []] }

end CXXR

namespace CXXR

/-!
# Sequences and replication

A shallow embedding of `seq_colon`, `rep2`, `rep3` and `do_rep_int` of
`src/main/seq.cpp`.  The headers that fix the integer types (`Rinternals.h`,
`R_ext/Itermacros.h`) are not part of the sources at hand: the build option
`LONG_VECTOR_SUPPORT` is a parameter, and what the code uses of them is
modelled below.  An `int` has 32 bits; `R_xlen_t` has 64 bits with long vector
support and is `int` without.  Signed arithmetic that leaves the range of its
type wraps around, and an array access outside the array is not defined.
-/

/-- The largest `int`. -/
def INT_MAX : Int := 2147483647

/-- The smallest `int`, which is also `NA_INTEGER`. -/
def INT_MIN : Int := -2147483648

/-- An integer brought into the range of `int` by wrap-around. -/
def wrap32 (x : Int) : Int := (x + 2147483648) % 4294967296 - 2147483648

/-- An integer brought into the range of a signed 64-bit type by wrap-around. -/
def wrap64 (x : Int) : Int :=
  (x + 9223372036854775808) % 18446744073709551616 - 9223372036854775808

/-- The build options that the code modelled here depends on. -/
structure Config where
  /-- Whether `LONG_VECTOR_SUPPORT` is defined. -/
  LONG_VECTOR_SUPPORT : Bool
deriving DecidableEq, Repr

/-- Modelled from the spec: `R_XLEN_T_MAX` of `Rinternals.h`: 2^52 with long
vector support, the largest `int` without. -/
def R_XLEN_T_MAX (c : Config) : Int :=
  if c.LONG_VECTOR_SUPPORT then 4503599627370496 else 2147483647

/-- Wrap-around in the type `R_xlen_t`. -/
def wrap_xlen (c : Config) (x : Int) : Int :=
  if c.LONG_VECTOR_SUPPORT then wrap64 x else wrap32 x

/-- What a C function of the interpreter gives back. -/
inductive CResult (α : Type) where
  /-- Normal return. -/
  | ok (value : α)
  /-- The function raised an R error with this message. -/
  | error (message : String)
  /-- The function did something that C leaves undefined: an array access
  outside the array. -/
  | undefined
  /-- The fuel of a loop ran out. -/
  | timeout
deriving DecidableEq, Repr

/-- The vectors that `seq_colon` returns.  The elements of a real vector are
given as integers: the function is modelled on arguments that are whole
numbers. -/
inductive SeqVector where
  | INTSXP (elements : List Int)
  | REALSXP (elements : List Int)
deriving DecidableEq, Repr

/-- Modelled from the spec: `allocVector(type, n)` for the element arrays of
this file: an array of `n` elements; the contents are not initialised and are
shown as zero. -/
def allocArray (n : Int) : List Int := List.replicate n.toNat 0

/-- The loop `for (i = 0; i < n; i++) ans[i] = in1 + sign * i` of `seq_colon`,
from the counter value `i` on.  `wrapCounter` is the wrap-around of the type of
the counter and `wrapElement` that of the elements. -/
def seq_fill (wrapCounter wrapElement : Int → Int) (in1 sign n : Int) :
    Nat → Int → List Int → CResult (List Int)
  | 0, _, _ => CResult.timeout
  | fuel + 1, i, ans =>
    if i < n then
      if 0 ≤ i ∧ i < ans.length then
        seq_fill wrapCounter wrapElement in1 sign n fuel (wrapCounter (i + 1))
          (ans.set i.toNat (wrapElement (in1 + sign * i)))
      else CResult.undefined
    else CResult.ok ans

/-- The variable `useInt` of `seq_colon`, for whole numbers `n1` and `n2`:
`n1 == (int) n1` says that `n1` is in the range of `int`, and `n` is the length
of the result. -/
def seq_colon_useInt (n1 n2 n : Int) : Bool :=
  if decide (n1 ≤ INT_MAX) && decide (INT_MIN ≤ n1) then
    if n1 ≤ INT_MIN ∨ n1 > INT_MAX then false
    else if n1 + (if n1 ≤ n2 then n - 1 else -(n - 1)) ≤ INT_MIN ∨
        n1 + (if n1 ≤ n2 then n - 1 else -(n - 1)) > INT_MAX then false
    else true
  else false

/-- The branch of `seq_colon` that gives an integer vector: the loop counter
is an `int`, the bound `n` an `R_xlen_t`. -/
def seq_colon_int (n1 n2 n : Int) : CResult SeqVector :=
  match seq_fill wrap32 wrap32 n1 (if n1 ≤ n2 then 1 else -1) n (n.toNat + 2) 0
      (allocArray n) with
  | CResult.ok ans => CResult.ok (SeqVector.INTSXP ans)
  | CResult.error m => CResult.error m
  | CResult.undefined => CResult.undefined
  | CResult.timeout => CResult.timeout

/-- The branch of `seq_colon` that gives a real vector: the loop counter is an
`R_xlen_t`. -/
def seq_colon_real (c : Config) (n1 n2 n : Int) : CResult SeqVector :=
  match seq_fill (wrap_xlen c) id n1 (if n1 ≤ n2 then 1 else -1) n (n.toNat + 2) 0
      (allocArray n) with
  | CResult.ok ans => CResult.ok (SeqVector.REALSXP ans)
  | CResult.error m => CResult.error m
  | CResult.undefined => CResult.undefined
  | CResult.timeout => CResult.timeout

/-- `seq_colon(n1, n2, call)` on arguments that are whole numbers of magnitude
below 2^52.  There the operations on `double` that the function makes are
exact and `(R_xlen_t)(r + 1 + FLT_EPSILON)` is `r + 1`. -/
def seq_colon (c : Config) (n1 n2 : Int) : CResult SeqVector :=
  if |n2 - n1| ≥ R_XLEN_T_MAX c then CResult.error "result would be too long a vector"
  else if seq_colon_useInt n1 n2 (|n2 - n1| + 1) then seq_colon_int n1 n2 (|n2 - n1| + 1)
  else seq_colon_real c n1 n2 (|n2 - n1| + 1)

/-! ## `rep.int` -/

/-- The first loop of `rep2`: the entries of `times` are checked and added up
in an `R_xlen_t`, from the sum `na` on. -/
def rep2_count (c : Config) : List (Option Int) → Int → CResult Int
  | [], na => CResult.ok na
  | none :: _, _ => CResult.error "invalid 'times' value"
  | some t :: rest, na =>
    if t < 0 then CResult.error "invalid 'times' value"
    else rep2_count c rest (wrap_xlen c (na + t))

/-- The inner loop of `rep2`, `for (j = 0; j < t; j++) a[n++] = s[i]`, which
writes `x` to the next `t` places of the array.  The writes of `rep2` go to
the places 0, 1, 2, ... in order, so the array is given by the list of the
values written so far. -/
def rep2_inner {α : Type} (x : α) (t : Int) : Nat → Int → List α → CResult (List α)
  | 0, _, _ => CResult.timeout
  | fuel + 1, j, a =>
    if j < t then rep2_inner x t fuel (wrap32 (j + 1)) (a ++ [x]) else CResult.ok a

/-- The second loop of `rep2`, over the elements of `s` and the entries of
`times` side by side. -/
def rep2_fill {α : Type} : List α → List (Option Int) → List α → CResult (List α)
  | [], _, a => CResult.ok a
  | _ :: _, [], _ => CResult.undefined
  | x :: s, t :: times, a =>
    match rep2_inner x (t.getD INT_MIN) ((t.getD INT_MIN).toNat + 1) 0 a with
    | CResult.ok a1 => rep2_fill s times a1
    | CResult.error m => CResult.error m
    | CResult.undefined => CResult.undefined
    | CResult.timeout => CResult.timeout

/-- Modelled from the spec: the test that `allocVector(type, n)` makes on the
length: it must not be negative nor above `R_XLEN_T_MAX`. -/
def allocVector_check (c : Config) (n : Int) : CResult Unit :=
  if n < 0 then CResult.error "negative length vectors are not allowed"
  else if n > R_XLEN_T_MAX c then CResult.error "cannot allocate vector"
  else CResult.ok ()

/-- `rep2(s, ncopy)` on a vector `s` with the elements given and an integer
vector `ncopy` (`none` is `NA_INTEGER`), for which `coerceVector` changes
nothing.  The branches of the `switch` on the type of `s` copy the elements in
the same way.  The array must come out as long as it was allocated. -/
def rep2 {α : Type} (c : Config) (s : List α) (ncopy : List (Option Int)) : CResult (List α) :=
  match rep2_count c ncopy 0 with
  | CResult.error m => CResult.error m
  | CResult.undefined => CResult.undefined
  | CResult.timeout => CResult.timeout
  | CResult.ok na =>
    match allocVector_check c na with
    | CResult.error m => CResult.error m
    | CResult.undefined => CResult.undefined
    | CResult.timeout => CResult.timeout
    | CResult.ok _ =>
      match rep2_fill s ncopy [] with
      | CResult.ok a => if (a.length : Int) = na then CResult.ok a else CResult.undefined
      | CResult.error m => CResult.error m
      | CResult.undefined => CResult.undefined
      | CResult.timeout => CResult.timeout

/-- Modelled from the spec: the loop `MOD_ITERATE1(na, ns, i, j, a[i] = s[j])`
of `R_ext/Itermacros.h`, which is
`for (i = j = 0; i < na; j = (++j == ns) ? 0 : j, ++i)`, from the counters `i`
and `j` on; the writes go to the places 0, 1, 2, ... in order. -/
def rep3_fill {α : Type} (c : Config) (s : List α) (ns na : Int) :
    Nat → Int → Int → List α → CResult (List α)
  | 0, _, _, _ => CResult.timeout
  | fuel + 1, i, j, a =>
    if i < na then
      if 0 ≤ j then
        match s[j.toNat]? with
        | none => CResult.undefined
        | some x =>
          rep3_fill c s ns na fuel (wrap_xlen c (i + 1))
            (if wrap_xlen c (j + 1) = ns then 0 else wrap_xlen c (j + 1)) (a ++ [x])
      else CResult.undefined
    else CResult.ok a

/-- `rep3(s, ns, na)`. -/
def rep3 {α : Type} (c : Config) (s : List α) (ns na : Int) : CResult (List α) :=
  match allocVector_check c na with
  | CResult.error m => CResult.error m
  | CResult.undefined => CResult.undefined
  | CResult.timeout => CResult.timeout
  | CResult.ok _ => rep3_fill c s ns na (na.toNat + 1) 0 0 []

/-- `do_rep_int(call, op, x, times)` on a vector `x` with the elements given
(`NULL` is the empty list) and an integer vector `times`.  What the function
does with the class and the levels of `x` afterwards concerns the attributes
of the result, which are not part of this model. -/
def do_rep_int {α : Type} (c : Config) (x : List α) (times : List (Option Int)) :
    CResult (List α) :=
  if (times.length : Int) = x.length then rep2 c x times
  else if times.length ≠ 1 then CResult.error "invalid 'times' value"
  else
    match times.head? with
    | some (some t) =>
      if t < 0 then CResult.error "invalid 'times' value"
      else rep3 c x x.length (wrap_xlen c (t * x.length))
    | _ => CResult.error "invalid 'times' value"

/-- The reference for `rep.int` with a vector of times: `times[0]` copies of
`x[0]`, then `times[1]` copies of `x[1]`, and so on. -/
def rep_each_reference {α : Type} : List α → List Nat → List α
  | x :: xs, t :: ts => List.replicate t x ++ rep_each_reference xs ts
  | _, _ => []

end CXXR

namespace CXXR

/-!
# Attributes and slots

A shallow embedding of the functions of `src/main/attrib.cpp` that read and
write attributes.  An object is given by its value: the type, the elements,
and the attribute list.  `SET_NAMED`, `PROTECT` and the duplication of a value
that is referenced elsewhere (`R_FixupRHS`) leave the value of an object as it
is and have no counterpart here.  A function that changes an object in place
gives back the object after the change.  The classes and inline functions that
the file uses (`RObject`, `Rinlinedfuns.h`) are not part of the sources at
hand and are modelled, each such definition saying so.
-/

/-- Modelled from the spec: an R object.  The attribute list `attrib` is a
pairlist, each cell tagged with the symbol that names the attribute.  The
elements of a generic vector are given as a pairlist without tags.  `none` is
`NA` in an element of a vector, and `NA_STRING` in a `CHARSXP`. -/
inductive SEXP where
  /-- `R_NilValue`, the null pointer. -/
  | nil
  | sym (name : String) (attrib : SEXP)
  | chr (text : Option String) (attrib : SEXP)
  | lgl (elements : List (Option Bool)) (attrib : SEXP)
  | int (elements : List (Option Int)) (attrib : SEXP)
  | real (elements : List (Option Rat)) (attrib : SEXP)
  | str (elements : List (Option String)) (attrib : SEXP)
  /-- A generic vector (`VECSXP`). -/
  | vec (elements : SEXP) (attrib : SEXP)
  /-- A cell of a pairlist (`LISTSXP`). -/
  | list (tag car cdr attrib : SEXP)
  /-- A cell of a call (`LANGSXP`). -/
  | lang (tag car cdr attrib : SEXP)
  | env (id : Nat) (attrib : SEXP)
  | s4 (attrib : SEXP)
deriving DecidableEq, Repr

namespace SEXP

/-- `TYPEOF(x)`. -/
def TYPEOF : SEXP → SEXPTYPE
  | nil => SEXPTYPE.NILSXP
  | sym _ _ => SEXPTYPE.SYMSXP
  | chr _ _ => SEXPTYPE.CHARSXP
  | lgl _ _ => SEXPTYPE.LGLSXP
  | int _ _ => SEXPTYPE.INTSXP
  | real _ _ => SEXPTYPE.REALSXP
  | str _ _ => SEXPTYPE.STRSXP
  | vec _ _ => SEXPTYPE.VECSXP
  | list _ _ _ _ => SEXPTYPE.LISTSXP
  | lang _ _ _ _ => SEXPTYPE.LANGSXP
  | env _ _ => SEXPTYPE.ENVSXP
  | s4 _ => SEXPTYPE.S4SXP

/-- `ATTRIB(x)`: the attribute list. -/
def ATTRIB : SEXP → SEXP
  | nil => nil
  | sym _ a => a
  | chr _ a => a
  | lgl _ a => a
  | int _ a => a
  | real _ a => a
  | str _ a => a
  | vec _ a => a
  | list _ _ _ a => a
  | lang _ _ _ a => a
  | env _ a => a
  | s4 a => a

/-- `SET_ATTRIB(x, a)`: the object with the attribute list `a`. -/
def SET_ATTRIB : SEXP → SEXP → SEXP
  | nil, _ => nil
  | sym n _, a => sym n a
  | chr t _, a => chr t a
  | lgl e _, a => lgl e a
  | int e _, a => int e a
  | real e _, a => real e a
  | str e _, a => str e a
  | vec e _, a => vec e a
  | list t x y _, a => list t x y a
  | lang t x y _, a => lang t x y a
  | env i _, a => env i a
  | s4 _, a => s4 a

/-- `TAG(x)` of a cell. -/
def TAG : SEXP → SEXP
  | list t _ _ _ => t
  | lang t _ _ _ => t
  | _ => nil

/-- `CAR(x)` of a cell. -/
def CAR : SEXP → SEXP
  | list _ x _ _ => x
  | lang _ x _ _ => x
  | _ => nil

/-- `CDR(x)` of a cell. -/
def CDR : SEXP → SEXP
  | list _ _ y _ => y
  | lang _ _ y _ => y
  | _ => nil

/-- The cells of a pairlist as tag and value, in order. -/
def cells : SEXP → List (SEXP × SEXP)
  | list t x y _ => (t, x) :: cells y
  | lang t x y _ => (t, x) :: cells y
  | _ => []

/-- The pairlist without attributes that has the given values, each tagged
with the symbol of the given name. -/
def ofAttributes : List (String × SEXP) → SEXP
  | [] => nil
  | p :: rest => list (sym p.1 nil) p.2 (ofAttributes rest) nil

/-- The pairlist without tags and attributes that has the given values. -/
def ofElements : List SEXP → SEXP
  | [] => nil
  | x :: rest => list nil x (ofElements rest) nil

/-- The name of a symbol. -/
def symbolName : SEXP → Option String
  | sym n _ => some n
  | _ => none

/-- The attributes as name and value, in the order of the attribute list. -/
def attributes (x : SEXP) : List (String × SEXP) :=
  (cells (ATTRIB x)).filterMap (fun p => (symbolName p.1).map (fun n => (n, p.2)))

/-- Modelled from the spec: `RObject::getAttribute(name)`: the value of the
attribute, or the null pointer. -/
def getAttribute (x : SEXP) (name : String) : SEXP :=
  match (attributes x).find? (fun p => p.1 == name) with
  | some p => p.2
  | none => nil

/-- Modelled from the spec: `RObject::setAttribute(name, value)`: a null value
removes the attribute; another value takes the place of the value the
attribute has, or the attribute is added at the end of the list.  The null
pointer has no attributes. -/
def setAttribute (x : SEXP) (name : String) (value : SEXP) : SEXP :=
  if value = nil then
    SET_ATTRIB x (ofAttributes ((attributes x).filter (fun p => !(p.1 == name))))
  else if ((attributes x).find? (fun p => p.1 == name)).isSome then
    SET_ATTRIB x (ofAttributes ((attributes x).map
      (fun p => if p.1 = name then (p.1, value) else p)))
  else SET_ATTRIB x (ofAttributes (attributes x ++ [(name, value)]))

/-- Modelled from the spec: `RObject::hasAttributes()`. -/
def hasAttributes (x : SEXP) : Bool := !(attributes x).isEmpty

/-- Modelled from the spec: `RObject::clearAttributes()`. -/
def clearAttributes (x : SEXP) : SEXP := SET_ATTRIB x nil

/-- Modelled from the spec: `isNull(s)`. -/
def isNull (s : SEXP) : Bool := s.TYPEOF = SEXPTYPE.NILSXP

/-- Modelled from the spec: `isSymbol(s)`. -/
def isSymbol (s : SEXP) : Bool := s.TYPEOF = SEXPTYPE.SYMSXP

/-- Modelled from the spec: `isString(s)`. -/
def isString (s : SEXP) : Bool := s.TYPEOF = SEXPTYPE.STRSXP

/-- Modelled from the spec: `isReal(s)`. -/
def isReal (s : SEXP) : Bool := s.TYPEOF = SEXPTYPE.REALSXP

/-- Modelled from the spec: `isVector(s)`: one of the vector types. -/
def isVector (s : SEXP) : Bool :=
  match s.TYPEOF with
  | SEXPTYPE.LGLSXP => true
  | SEXPTYPE.INTSXP => true
  | SEXPTYPE.REALSXP => true
  | SEXPTYPE.STRSXP => true
  | SEXPTYPE.VECSXP => true
  | _ => false

/-- Modelled from the spec: `isList(s)`: the null pointer or a pairlist. -/
def isList (s : SEXP) : Bool :=
  s.TYPEOF = SEXPTYPE.NILSXP || s.TYPEOF = SEXPTYPE.LISTSXP

/-- Modelled from the spec: `isLanguage(s)`: the null pointer or a call. -/
def isLanguage (s : SEXP) : Bool :=
  s.TYPEOF = SEXPTYPE.NILSXP || s.TYPEOF = SEXPTYPE.LANGSXP

/-- Modelled from the spec: `isNewList(s)`: the null pointer or a generic
vector. -/
def isNewList (s : SEXP) : Bool :=
  s.TYPEOF = SEXPTYPE.NILSXP || s.TYPEOF = SEXPTYPE.VECSXP

/-- Modelled from the spec: `isPairList(s)`. -/
def isPairList (s : SEXP) : Bool :=
  s.TYPEOF = SEXPTYPE.NILSXP || s.TYPEOF = SEXPTYPE.LISTSXP || s.TYPEOF = SEXPTYPE.LANGSXP

/-- Modelled from the spec: `inherits(s, name)` for an object that is not an
S4 object: the class attribute is a string vector that holds `name`. -/
def inherits (s : SEXP) (name : String) : Bool :=
  match s.getAttribute "class" with
  | str klass _ => klass.contains (some name)
  | _ => false

/-- Modelled from the spec: `isInteger(s)`: an integer vector that is not a
factor. -/
def isInteger (s : SEXP) : Bool :=
  s.TYPEOF = SEXPTYPE.INTSXP && !(s.inherits "factor")

/-- Modelled from the spec: `length(s)` and `xlength(s)`: the number of
elements of a vector, the number of cells of a pairlist or call, 0 for the
null pointer, and 1 for an object of another type (the bindings of an
environment are not part of this model). -/
def length : SEXP → Nat
  | nil => 0
  | lgl e _ => e.length
  | int e _ => e.length
  | real e _ => e.length
  | str e _ => e.length
  | vec e _ => (cells e).length
  | list t x y a => (cells (list t x y a)).length
  | lang t x y a => (cells (lang t x y a)).length
  | _ => 1

/-- `VECTOR_ELT(x, i)` of a generic vector; an index outside the vector gives
nothing. -/
def VECTOR_ELT (x : SEXP) (i : Nat) : Option SEXP :=
  match x with
  | vec e _ => ((cells e)[i]?).map (fun p => p.2)
  | _ => none

/-- The elements of an integer vector. -/
def INTEGER : SEXP → List (Option Int)
  | int e _ => e
  | _ => []

/-- The elements of a real vector. -/
def REAL : SEXP → List (Option Rat)
  | real e _ => e
  | _ => []

/-- `STRING_ELT(x, i)`: the text of the element, `none` for `NA_STRING`; an
index outside the vector, or an object that is no string vector, gives
nothing. -/
def STRING_ELT (x : SEXP) (i : Nat) : Option (Option String) :=
  match x with
  | str e _ => e[i]?
  | _ => none

/-- `CHAR(s)` of the `CHARSXP` with the given text: the text of `NA_STRING`
is `NA`. -/
def CHAR (text : Option String) : String := text.getD "NA"

/-- `CHAR(PRINTNAME(s))` of a symbol, the empty text for another object. -/
def printName (s : SEXP) : String := (symbolName s).getD ""

/-- Whether two objects are the same symbol.  There is one symbol of each
name, so that the test `a == b` on two symbols compares the names. -/
def sameSymbol (a b : SEXP) : Bool :=
  match symbolName a, symbolName b with
  | some x, some y => x == y
  | _, _ => false

/-- The pairlist with every tag set to the null pointer: the loop
`for (t = vec; t != R_NilValue; t = CDR(t)) SET_TAG(t, R_NilValue)`. -/
def clearTags : SEXP → SEXP
  | list _ x y a => list nil x (clearTags y) a
  | lang _ x y a => lang nil x (clearTags y) a
  | s => s

end SEXP

open SEXP

def R_NamesSymbol : SEXP := SEXP.sym "names" SEXP.nil

def R_DimSymbol : SEXP := SEXP.sym "dim" SEXP.nil

def R_DimNamesSymbol : SEXP := SEXP.sym "dimnames" SEXP.nil

def R_ClassSymbol : SEXP := SEXP.sym "class" SEXP.nil

def R_TspSymbol : SEXP := SEXP.sym "tsp" SEXP.nil

def R_CommentSymbol : SEXP := SEXP.sym "comment" SEXP.nil

def R_RowNamesSymbol : SEXP := SEXP.sym "row.names" SEXP.nil

/-- What the functions of `attrib.cpp` modelled here call and is not modelled:
functions of other files, whose sources are not at hand, and the functions of
`attrib.cpp` that set the attributes `names`, `dimnames`, `class`, `tsp` and
`comment`, which no property stated below depends on.  A function that sets an
attribute gives the object after the call and the value it returns. -/
structure AttribWorld where
  /-- The build options. -/
  config : Config
  /-- `installTrChar(s)` on the `CHARSXP` with the given text: the name of the
  symbol that it returns. -/
  installTrChar : Option String → CResult String
  /-- `installChar(s)`, likewise. -/
  installChar : Option String → CResult String
  /-- `coerceVector(v, type)` where the type of `v` is not `type`. -/
  coerceVector : SEXP → SEXPTYPE → CResult SEXP
  namesgets : SEXP → SEXP → CResult (SEXP × SEXP)
  dimnamesgets : SEXP → SEXP → CResult (SEXP × SEXP)
  classgets : SEXP → SEXP → CResult (SEXP × SEXP)
  tspgets : SEXP → SEXP → CResult (SEXP × SEXP)
  commentgets : SEXP → SEXP → CResult (SEXP × SEXP)
  /-- `data_part(obj)`, which evaluates a call of `getDataPart`. -/
  data_part : SEXP → CResult SEXP
  /-- `set_data_part(obj, rhs)`, which evaluates a call of `setDataPart`. -/
  set_data_part : SEXP → SEXP → CResult SEXP
  /-- `R_data_class(obj, FALSE)`. -/
  R_data_class : SEXP → CResult SEXP

/-- The result of one step handed to the next. -/
def CResult.andThen {α β : Type} (r : CResult α) (f : α → CResult β) : CResult β :=
  match r with
  | CResult.ok a => f a
  | CResult.error m => CResult.error m
  | CResult.undefined => CResult.undefined
  | CResult.timeout => CResult.timeout

/-- Modelled from the spec: `SEXP_downcast<Symbol*>(name)`: the name of the
symbol; for an object that is no symbol the cast raises an error. -/
def SEXP_downcast_Symbol (name : SEXP) : CResult String :=
  match name with
  | SEXP.sym n _ => CResult.ok n
  | _ => CResult.error "SEXP_downcast: not a Symbol"

/-- Modelled from the spec: `coerceVector(v, type)`: an object of the type
asked for is returned as it is. -/
def coerceVector (W : AttribWorld) (v : SEXP) (type : SEXPTYPE) : CResult SEXP :=
  if v.TYPEOF = type then CResult.ok v else W.coerceVector v type

/-- The statement `if (isString(name)) name = installTrChar(STRING_ELT(name, 0))`
of `getAttrib` and `setAttrib`: the value of `name` after it. -/
def installName (W : AttribWorld) (name : SEXP) : CResult SEXP :=
  if name.isString then
    match name.STRING_ELT 0 with
    | some s => (W.installTrChar s).andThen (fun n => CResult.ok (SEXP.sym n SEXP.nil))
    | none => CResult.undefined
  else CResult.ok name

/-- The integer vector `1, 2, ..., n`. -/
def oneTo (n : Nat) : List (Option Int) :=
  (List.range n).map (fun (i : Nat) => some ((i : Int) + 1))

/-! ## Reading an attribute -/

/-- The last part of `getAttrib0`, which looks the attribute up in the
attribute list. -/
def getAttrib0_attribute (vec name : SEXP) : CResult SEXP :=
  (SEXP_downcast_Symbol name).andThen fun n =>
    if vec.getAttribute n = SEXP.nil then CResult.ok SEXP.nil
    else if sameSymbol name R_DimNamesSymbol && decide ((vec.getAttribute n).TYPEOF = SEXPTYPE.LISTSXP)
    then CResult.error "old list is no longer allowed for dimnames attribute\n"
    else CResult.ok (vec.getAttribute n)

/-- The pre-tests of `getAttrib`: the result if one of them returns. -/
def getAttrib_pretest (vec : SEXP) : Option (CResult SEXP) :=
  if vec = SEXP.nil then some (CResult.ok SEXP.nil)
  else if vec.TYPEOF = SEXPTYPE.CHARSXP then
    some (CResult.error "cannot have attributes on a CHARSXP")
  else if !vec.hasAttributes &&
      !(decide (vec.TYPEOF = SEXPTYPE.LISTSXP) || decide (vec.TYPEOF = SEXPTYPE.LANGSXP)) then
    some (CResult.ok SEXP.nil)
  else none

/-- The expansion of compact row names in `getAttrib`: `s` is what `getAttrib0`
gave for `row.names`.  `abs` of the smallest `int` is not defined. -/
def getAttrib_rowNames (s : SEXP) : CResult SEXP :=
  if s.isInteger && decide (s.length = 2) && decide (s.INTEGER[0]? = some none) then
    match s.INTEGER[1]? with
    | some (some n) => CResult.ok (SEXP.int (oneTo n.natAbs) SEXP.nil)
    | _ => CResult.undefined
  else CResult.ok s

/-- The part of `getAttrib` after the pre-tests and after a name given as a
string has been made a symbol; `getAttrib0` is `g0`. -/
def getAttrib_named (g0 : SEXP → SEXP → CResult SEXP) (vec name : SEXP) : CResult SEXP :=
  if sameSymbol name R_RowNamesSymbol then
    (g0 vec R_RowNamesSymbol).andThen getAttrib_rowNames
  else g0 vec name

/-- The body of `getAttrib(vec, name)`, where `getAttrib0` is `g0`. -/
def getAttrib_body (g0 : SEXP → SEXP → CResult SEXP) (W : AttribWorld) (vec name : SEXP) :
    CResult SEXP :=
  match getAttrib_pretest vec with
  | some r => r
  | none => (installName W name).andThen fun name => getAttrib_named g0 vec name

/-- The loop of `getAttrib0` over the cells of a pairlist: the names that the
tags give, and whether there was a tag. -/
def getAttrib0_tags : List (SEXP × SEXP) → CResult (List (Option String) × Bool)
  | [] => CResult.ok ([], false)
  | p :: rest =>
    (getAttrib0_tags rest).andThen fun r =>
      if p.1 = SEXP.nil then CResult.ok (some "" :: r.1, r.2)
      else if p.1.isSymbol then CResult.ok (some (printName p.1) :: r.1, true)
      else CResult.error "getAttrib: invalid type (%s) for TAG"

/-- `getAttrib0(vec, name)`.  The calls `getAttrib(vec, R_DimSymbol)` and
`getAttrib(vec, R_DimNamesSymbol)` that it makes come back to `getAttrib0`
with a name other than `names`, where `getAttrib0` is its last part. -/
def getAttrib0 (W : AttribWorld) (vec name : SEXP) : CResult SEXP :=
  if vec = SEXP.nil then CResult.ok SEXP.nil
  else if sameSymbol name R_NamesSymbol then
    (if vec.isVector || vec.isList || vec.isLanguage then
      (getAttrib_body getAttrib0_attribute W vec R_DimSymbol).andThen fun s =>
        if decide (s.TYPEOF = SEXPTYPE.INTSXP) && decide (s.length = 1) then
          (getAttrib_body getAttrib0_attribute W vec R_DimNamesSymbol).andThen fun s =>
            if !s.isNull then
              match s.VECTOR_ELT 0 with
              | some e => CResult.ok (some e)
              | none => CResult.undefined
            else CResult.ok none
        else CResult.ok none
    else CResult.ok none).andThen fun viaDim =>
      match viaDim with
      | some e => CResult.ok e
      | none =>
        if vec.isList || vec.isLanguage then
          (getAttrib0_tags vec.cells).andThen fun r =>
            if r.2 then CResult.ok (SEXP.str r.1 SEXP.nil) else CResult.ok SEXP.nil
        else getAttrib0_attribute vec name
  else getAttrib0_attribute vec name

/-- `getAttrib(vec, name)`. -/
def getAttrib (W : AttribWorld) (vec name : SEXP) : CResult SEXP :=
  getAttrib_body (getAttrib0 W) W vec name

/-- `do_shortRowNames(call, op, x_, type_)`, where `type` is `asInteger(type_)`
and `none` is `NA_INTEGER`, which is below 0. -/
def do_shortRowNames (W : AttribWorld) (x_ : SEXP) (type : Option Int) : CResult SEXP :=
  (getAttrib0 W x_ R_RowNamesSymbol).andThen fun s =>
    match type with
    | none => CResult.error "invalid '%s' argument"
    | some type =>
      if type < 0 ∨ type > 2 then CResult.error "invalid '%s' argument"
      else if type ≥ 1 then
        let n : Option Int :=
          if s.isInteger && decide (s.length = 2) && decide (s.INTEGER[0]? = some none) then
            (s.INTEGER[1]?).getD none
          else if s.isNull then some 0 else some s.length
        match n with
        | some n => CResult.ok (SEXP.int [some (if type = 1 then n else (n.natAbs : Int))] SEXP.nil)
        | none => if type = 1 then CResult.ok (SEXP.int [none] SEXP.nil) else CResult.undefined
      else CResult.ok s

/-! ## Writing an attribute -/

/-- `removeAttrib(vec, name)`: the object after the call and the value
returned. -/
def removeAttrib (vec name : SEXP) : CResult (SEXP × SEXP) :=
  if vec = SEXP.nil then CResult.ok (SEXP.nil, SEXP.nil)
  else if vec.TYPEOF = SEXPTYPE.CHARSXP then CResult.error "cannot set attribute on a CHARSXP"
  else if sameSymbol name R_NamesSymbol && vec.isPairList then
    CResult.ok (vec.clearTags, SEXP.nil)
  else
    (SEXP_downcast_Symbol name).andThen fun n =>
      CResult.ok
        ((if sameSymbol name R_DimSymbol then vec.setAttribute "dimnames" SEXP.nil
          else vec).setAttribute n SEXP.nil, SEXP.nil)

/-- The loop of `row_names_gets` that tests `INTEGER(val)[i] == i+1` for the
elements from index `i` on. -/
def row_names_gets_compact : List (Option Int) → Nat → Bool
  | [], _ => true
  | v :: rest, i => if v = some ((i : Int) + 1) then row_names_gets_compact rest (i + 1) else false

/-- `row_names_gets(vec, val)`: the object after the call and the value
returned. -/
def row_names_gets (W : AttribWorld) (vec val : SEXP) : CResult (SEXP × SEXP) :=
  if vec = SEXP.nil then CResult.error "attempt to set an attribute on NULL"
  else if val.isReal && decide (val.length = 2) && decide (val.REAL[0]? = some none) then
    (coerceVector W val SEXPTYPE.INTSXP).andThen fun val =>
      CResult.ok (vec.setAttribute "row.names" val, val)
  else if val.isInteger then
    if decide (val.length = 2) && decide (val.INTEGER[0]? = some none) then
      CResult.ok (vec.setAttribute "row.names" (SEXP.int [none, (val.INTEGER[1]?).getD none] SEXP.nil),
        SEXP.int [none, (val.INTEGER[1]?).getD none] SEXP.nil)
    else if decide (val.length > 2) && row_names_gets_compact val.INTEGER 0 then
      CResult.ok (vec.setAttribute "row.names" (SEXP.int [none, some (val.length : Int)] SEXP.nil),
        SEXP.int [none, some (val.length : Int)] SEXP.nil)
    else CResult.ok (vec.setAttribute "row.names" val, val)
  else if !val.isString then
    CResult.error "row names must be 'character' or 'integer', not '%s'"
  else CResult.ok (vec.setAttribute "row.names" val, val)

/-- The loop of `dimgets` over the entries of `val`, from the value `total` on:
`total` is an `R_xlen_t`. -/
def dimgets_total (c : Config) : List (Option Int) → Int → CResult Int
  | [], total => CResult.ok total
  | v :: rest, total =>
    match v with
    | none => CResult.error "the dims contain missing values"
    | some d =>
      if d < 0 then CResult.error "the dims contain negative values"
      else dimgets_total c rest (wrap_xlen c (total * d))

/-- The product of the entries of a dimension vector, as a whole number. -/
def dimProduct (e : List (Option Int)) : Int := (e.map (fun o => o.getD 0)).prod

/-- `dimgets(vec, val)`: the object after the call, which is also the value
returned.  The member call `vec->setAttribute` on the null pointer is not
defined. -/
def dimgets (W : AttribWorld) (vec val : SEXP) : CResult SEXP :=
  if !vec.isVector && !vec.isList then CResult.error "invalid first argument"
  else if !val.isVector && !val.isList then CResult.error "invalid second argument"
  else
    (coerceVector W val SEXPTYPE.INTSXP).andThen fun val =>
      if val.length = 0 then CResult.error "length-0 dimension vector is invalid"
      else
        (dimgets_total W.config val.INTEGER 1).andThen fun total =>
          if total ≠ (vec.length : Int) then
            if total > INT_MAX ∨ (vec.length : Int) > INT_MAX then
              CResult.error "dims do not match the length of object"
            else CResult.error "dims [product %d] do not match the length of object [%d]"
          else
            (removeAttrib vec R_DimNamesSymbol).andThen fun r =>
              if r.1 = SEXP.nil then CResult.undefined
              else CResult.ok (r.1.setAttribute "dim" val)

/-- `setAttrib(vec, name, val)`: the object after the call and the value
returned. -/
def setAttrib (W : AttribWorld) (vec name val : SEXP) : CResult (SEXP × SEXP) :=
  (installName W name).andThen fun name =>
    if val = SEXP.nil then removeAttrib vec name
    else if vec = SEXP.nil then CResult.error "attempt to set an attribute on NULL"
    else if sameSymbol name R_NamesSymbol then W.namesgets vec val
    else if sameSymbol name R_DimSymbol then
      (dimgets W vec val).andThen fun v => CResult.ok (v, v)
    else if sameSymbol name R_DimNamesSymbol then W.dimnamesgets vec val
    else if sameSymbol name R_ClassSymbol then W.classgets vec val
    else if sameSymbol name R_TspSymbol then W.tspgets vec val
    else if sameSymbol name R_CommentSymbol then W.commentgets vec val
    else if sameSymbol name R_RowNamesSymbol then row_names_gets W vec val
    else
      (SEXP_downcast_Symbol name).andThen fun n =>
        CResult.ok (vec.setAttribute n val, val)

/-! ## `attributes<-` -/

/-- The loop `for (i = 1; i < nattrs; i++)` of `do_attributesgets`, from the
counter value `i` on, `fuel` being the number of values of the counter that
are left.  An element of a string vector is never the null pointer, and
`STRING_ELT` outside the vector is not defined. -/
def do_attributesgets_names (names : SEXP) : Nat → Nat → CResult Unit
  | 0, _ => CResult.ok ()
  | fuel + 1, i =>
    match names.STRING_ELT i with
    | none => CResult.undefined
    | some s =>
      if (CHAR s).toList.head? = none then
        CResult.error "all attributes must have names [%d does not]"
      else do_attributesgets_names names fuel (i + 1)

/-- The checks that `do_attributesgets` makes before it touches the object:
the value of `names` after them. -/
def do_attributesgets_checks (W : AttribWorld) (attrs : SEXP) : CResult SEXP :=
  if !attrs.isNewList then CResult.error "attributes must be a list or NULL"
  else if attrs.length > 0 then
    (getAttrib W attrs R_NamesSymbol).andThen fun names =>
      if names = SEXP.nil then CResult.error "attributes must be named"
      else
        (do_attributesgets_names names (attrs.length - 1) 1).andThen fun _ =>
          CResult.ok names
  else CResult.ok SEXP.nil

/-- The first loop of the second part of `do_attributesgets`: the index of the
first name that is `dim`, from index `i` on. -/
def do_attributesgets_dim (names : SEXP) : Nat → Nat → CResult (Option Nat)
  | 0, _ => CResult.ok none
  | fuel + 1, i =>
    match names.STRING_ELT i with
    | none => CResult.undefined
    | some s =>
      if CHAR s = "dim" then CResult.ok (some i)
      else do_attributesgets_dim names fuel (i + 1)

/-- The second loop of the second part of `do_attributesgets`, which sets the
attributes other than the one at index `i0`. -/
def do_attributesgets_rest (W : AttribWorld) (names attrs : SEXP) (i0 : Option Nat) :
    Nat → Nat → SEXP → CResult SEXP
  | 0, _, object => CResult.ok object
  | fuel + 1, i, object =>
    if some i = i0 then do_attributesgets_rest W names attrs i0 fuel (i + 1) object
    else
      match names.STRING_ELT i, attrs.VECTOR_ELT i with
      | some s, some v =>
        (W.installTrChar s).andThen fun n =>
          (setAttrib W object (SEXP.sym n SEXP.nil) v).andThen fun r =>
            do_attributesgets_rest W names attrs i0 fuel (i + 1) r.1
      | _, _ => CResult.undefined

/-- The part of `do_attributesgets` that follows the checks: the object is
emptied of its attributes and the attributes of `attrs` are set, `dim`
first. -/
def do_attributesgets_update (W : AttribWorld) (object attrs names : SEXP) : CResult SEXP :=
  if object = SEXP.nil ∧ attrs = SEXP.nil then CResult.ok SEXP.nil
  else
    ((if (if object = SEXP.nil then SEXP.vec SEXP.nil SEXP.nil else object).isList then
        setAttrib W (if object = SEXP.nil then SEXP.vec SEXP.nil SEXP.nil else object)
          R_NamesSymbol SEXP.nil
      else CResult.ok ((if object = SEXP.nil then SEXP.vec SEXP.nil SEXP.nil else object),
        SEXP.nil)).andThen fun r => CResult.ok r.1.clearAttributes).andThen fun object =>
      if attrs.length > 0 then
        (do_attributesgets_dim names attrs.length 0).andThen fun i0 =>
          (match i0 with
           | some i =>
             match attrs.VECTOR_ELT i with
             | some v => (setAttrib W object R_DimSymbol v).andThen fun r => CResult.ok r.1
             | none => CResult.undefined
           | none => CResult.ok object).andThen fun object =>
            do_attributesgets_rest W names attrs i0 attrs.length 0 object
      else CResult.ok object

/-- `do_attributesgets(call, op, object, attrs)`: the object that it
returns. -/
def do_attributesgets (W : AttribWorld) (object attrs : SEXP) : CResult SEXP :=
  (do_attributesgets_checks W attrs).andThen fun names =>
    do_attributesgets_update W object attrs names

/-! ## `attr` -/

/-- The values of the variable `match` of `do_attr`. -/
inductive AttrMatch where
  | NONE
  | PARTIAL
  | PARTIAL2
  | FULL
deriving DecidableEq, Repr

/-- The loop of `do_attr` over the attribute list, from the cell at the head
of the list on: the values of `tag` and `match` after it.
`strncmp(s, str, n) == 0` with `n` the length of `str` says that `str` is a
prefix of `s`. -/
def do_attr_loop (str : String) : List (SEXP × SEXP) → SEXP × AttrMatch → SEXP × AttrMatch
  | [], st => st
  | p :: rest, st =>
    if str.toList.isPrefixOf (printName p.1).toList then
      if (printName p.1).length = str.length then (p.1, AttrMatch.FULL)
      else if st.2 = AttrMatch.PARTIAL ∨ st.2 = AttrMatch.PARTIAL2 then
        do_attr_loop str rest (st.1, AttrMatch.PARTIAL2)
      else do_attr_loop str rest (p.1, AttrMatch.PARTIAL)
    else do_attr_loop str rest st

/-- The part of `do_attr` that follows the loop over the attribute list. -/
def do_attr_result (W : AttribWorld) (x : SEXP) (str : String) (exact : Bool)
    (st : SEXP × AttrMatch) : CResult SEXP :=
  if st.2 = AttrMatch.PARTIAL2 then CResult.ok SEXP.nil
  else if decide (st.2 ≠ AttrMatch.FULL) && str.toList.isPrefixOf "names".toList then
    if str.length = "names".length then getAttrib W x R_NamesSymbol
    else if decide (st.2 = AttrMatch.NONE) && !exact then getAttrib W x R_NamesSymbol
    else if decide (st.2 = AttrMatch.PARTIAL) && decide (printName st.1 ≠ "names") then
      (getAttrib W x R_NamesSymbol).andThen fun t =>
        if t ≠ SEXP.nil then CResult.ok SEXP.nil
        else if decide (st.2 = AttrMatch.NONE) || (exact && decide (st.2 ≠ AttrMatch.FULL)) then
          CResult.ok SEXP.nil
        else getAttrib W x st.1
    else if decide (st.2 = AttrMatch.NONE) || (exact && decide (st.2 ≠ AttrMatch.FULL)) then
      CResult.ok SEXP.nil
    else getAttrib W x st.1
  else if decide (st.2 = AttrMatch.NONE) || (exact && decide (st.2 ≠ AttrMatch.FULL)) then
    CResult.ok SEXP.nil
  else getAttrib W x st.1

/-- `do_attr(call, op, args, env)` on the arguments `x`, `which` and `exact`
that the argument matcher gives, where `exact` is false for a missing or `NA`
argument.  Warnings are not modelled. -/
def do_attr (W : AttribWorld) (x which : SEXP) (exact : Bool) : CResult SEXP :=
  if !which.isString then CResult.error "'which' must be of mode character"
  else if which.length ≠ 1 then CResult.error "exactly one attribute 'which' must be given"
  else
    match which.STRING_ELT 0 with
    | some (some text) =>
      do_attr_result W x text exact (do_attr_loop text x.ATTRIB.cells (SEXP.nil, AttrMatch.NONE))
    | some none => CResult.ok SEXP.nil
    | none => CResult.undefined

/-! ## Slots -/

/-- A world whose functions outside the model install a symbol under the text
given and raise an error otherwise. -/
def sampleAttribWorld (c : Config) : AttribWorld :=
  { config := c
    installTrChar := fun s => CResult.ok (SEXP.CHAR s)
    installChar := fun s => CResult.ok (SEXP.CHAR s)
    coerceVector := fun _ _ => CResult.error "coerceVector"
    namesgets := fun _ _ => CResult.error "namesgets"
    dimnamesgets := fun _ _ => CResult.error "dimnamesgets"
    classgets := fun _ _ => CResult.error "classgets"
    tspgets := fun _ _ => CResult.error "tspgets"
    commentgets := fun _ _ => CResult.error "commentgets"
    data_part := fun _ => CResult.error "data_part"
    set_data_part := fun _ _ => CResult.error "set_data_part"
    R_data_class := fun _ => CResult.error "R_data_class" }

/-- The 1-d array `1:3` with the dimnames `a`, `b`, `c` and the further
attributes `names1` and `names2`. -/
def sampleArray : SEXP :=
  SEXP.int [some 1, some 2, some 3]
    (ofAttributes
      [("dim", SEXP.int [some 3] SEXP.nil),
       ("dimnames",
         SEXP.vec (ofElements [SEXP.str [some "a", some "b", some "c"] SEXP.nil]) SEXP.nil),
       ("names1", SEXP.int [some 1] SEXP.nil),
       ("names2", SEXP.int [some 2] SEXP.nil)])

/-- The pairlist `pairlist(a = 1L)` with the attributes `names1` and
`names2`. -/
def samplePairlist : SEXP :=
  SEXP.list (SEXP.sym "a" SEXP.nil) (SEXP.int [some 1] SEXP.nil) SEXP.nil
    (ofAttributes
      [("names1", SEXP.int [some 1] SEXP.nil), ("names2", SEXP.int [some 2] SEXP.nil)])

/-- The list `list(1L, b = 2L)`, whose first element has the empty name. -/
def sampleAttrs : SEXP :=
  SEXP.vec (ofElements [SEXP.int [some 1] SEXP.nil, SEXP.int [some 2] SEXP.nil])
    (ofAttributes [("names", SEXP.str [some "", some "b"] SEXP.nil)])

/-- The integer vector `1L` with the attribute `foo`. -/
def sampleObject : SEXP :=
  SEXP.int [some 1] (ofAttributes [("foo", SEXP.int [some 7] SEXP.nil)])

end CXXR

namespace CXXR

/-!
# Holt-Winters filtering

A shallow embedding of the function `HoltWinters` of
`src/library/stats/src/HoltWinters.c`.  The function works on arrays of
`double` that the caller owns; an array is given by the list of its elements,
and the arrays are taken to be distinct.  The arithmetic of `double` is a
parameter, so that what is proved holds whatever the rounding; the sample runs
use the rationals, on values for which the arithmetic of `double` is exact.
-/

/-- The operations on `double` that `HoltWinters` uses. -/
structure DoubleOps (α : Type) where
  /-- The value `0`. -/
  zero : α
  /-- The value `1`. -/
  one : α
  add : α → α → α
  sub : α → α → α
  mul : α → α → α
  div : α → α → α
  /-- The test `v > 0`. -/
  pos : α → Bool

/-- The operations on the rationals. -/
def ratOps : DoubleOps Rat :=
  { zero := 0, one := 1, add := fun u v => u + v, sub := fun u v => u - v,
    mul := fun u v => u * v, div := fun u v => u / v, pos := fun v => decide (0 < v) }

/-- The arrays and the sum that `HoltWinters` writes to. -/
structure HoltWintersState (α : Type) where
  SSE : α
  level : List α
  trend : List α
  season : List α
deriving DecidableEq, Repr

/-- The element `a[i]` of an array; an index outside the array is not
defined. -/
def arrayGet {α : Type} (a : List α) (i : Int) : CResult α :=
  if i < 0 then CResult.undefined
  else
    match a[i.toNat]? with
    | some v => CResult.ok v
    | none => CResult.undefined

/-- The assignment `a[i] = v`; an index outside the array is not defined. -/
def arraySet {α : Type} (a : List α) (i : Int) (v : α) : CResult (List α) :=
  if i < 0 ∨ (a.length : Int) ≤ i then CResult.undefined
  else CResult.ok (a.set i.toNat v)

/-- The call `memcpy(season, s, *period * sizeof(double))`: the first `period`
elements of `s` take the place of the first `period` elements of `season`.  A
negative `period` gives a size beyond every array. -/
def memcpy_season {α : Type} (season s : List α) (period : Int) : CResult (List α) :=
  if period < 0 ∨ (s.length : Int) < period ∨ (season.length : Int) < period then
    CResult.undefined
  else CResult.ok (s.take period.toNat ++ season.drop period.toNat)

/-- The body of the loop of `HoltWinters` for the period `i`. -/
def HoltWinters_body {α : Type} (D : DoubleOps α) (x : List α) (alpha beta gamma : α)
    (start_time seasonal period : Int) (i : Int) (st : HoltWintersState α) :
    CResult (HoltWintersState α) :=
  let i0 := wrap32 (wrap32 (i - start_time) + 2)
  let s0 := wrap32 (wrap32 (i0 + period) - 1)
  (arrayGet st.level (wrap32 (i0 - 1))).andThen fun level1 =>
  (if D.pos beta then arrayGet st.trend (wrap32 (i0 - 1)) else CResult.ok D.zero).andThen
    fun trendTerm =>
  (if D.pos gamma then arrayGet st.season (wrap32 (s0 - period))
    else CResult.ok (if seasonal ≠ 1 then D.one else D.zero)).andThen fun stmp =>
  (arrayGet x i).andThen fun xi =>
  (arrayGet st.trend (wrap32 (i0 - 1))).andThen fun trend1 =>
  let xhat0 := D.add level1 trendTerm
  let xhat := if seasonal = 1 then D.add xhat0 stmp else D.mul xhat0 stmp
  let res := D.sub xi xhat
  let SSE := D.add st.SSE (D.mul res res)
  let newLevel :=
    if seasonal = 1 then
      D.add (D.mul alpha (D.sub xi stmp)) (D.mul (D.sub D.one alpha) (D.add level1 trend1))
    else
      D.add (D.mul alpha (D.div xi stmp)) (D.mul (D.sub D.one alpha) (D.add level1 trend1))
  (arraySet st.level i0 newLevel).andThen fun level =>
  (if D.pos beta then
      arraySet st.trend i0
        (D.add (D.mul beta (D.sub newLevel level1)) (D.mul (D.sub D.one beta) trend1))
    else CResult.ok st.trend).andThen fun trend =>
  (if D.pos gamma then
      arraySet st.season s0
        (if seasonal = 1 then
          D.add (D.mul gamma (D.sub xi newLevel)) (D.mul (D.sub D.one gamma) stmp)
        else
          D.add (D.mul gamma (D.div xi newLevel)) (D.mul (D.sub D.one gamma) stmp))
    else CResult.ok st.season).andThen fun season =>
  CResult.ok { SSE := SSE, level := level, trend := trend, season := season }

/-- The loop `for (i = *start_time - 1; i < *xl; i++)` of `HoltWinters`, from
the counter value `i` on. -/
def HoltWinters_loop {α : Type} (D : DoubleOps α) (x : List α) (xl : Int)
    (alpha beta gamma : α) (start_time seasonal period : Int) :
    Nat → Int → HoltWintersState α → CResult (HoltWintersState α)
  | 0, _, _ => CResult.timeout
  | fuel + 1, i, st =>
    if i < xl then
      (HoltWinters_body D x alpha beta gamma start_time seasonal period i st).andThen fun st1 =>
        HoltWinters_loop D x xl alpha beta gamma start_time seasonal period fuel
          (wrap32 (i + 1)) st1
    else CResult.ok st

/-- `HoltWinters(x, xl, alpha, beta, gamma, start_time, seasonal, period, a, b,
s, SSE, level, trend, season)`: `st` holds what the caller has put into `*SSE`
and into the arrays `level`, `trend` and `season`, and the result is what they
hold when the function returns. -/
def HoltWinters {α : Type} (D : DoubleOps α) (x : List α) (xl : Int) (alpha beta gamma : α)
    (start_time seasonal period : Int) (a b : α) (s : List α) (st : HoltWintersState α) :
    CResult (HoltWintersState α) :=
  (arraySet st.level 0 a).andThen fun level =>
  (if D.pos beta then arraySet st.trend 0 b else CResult.ok st.trend).andThen fun trend =>
  (if D.pos gamma then memcpy_season st.season s period else CResult.ok st.season).andThen
    fun season =>
  HoltWinters_loop D x xl alpha beta gamma start_time seasonal period
    ((xl - wrap32 (start_time - 1)).toNat + 1) (wrap32 (start_time - 1))
    { SSE := st.SSE, level := level, trend := trend, season := season }

/-- A series of two observations filtered without trend and without seasonal
component: `alpha` is 1/2, `beta` and `gamma` are 0, and the trend array holds
`t0` in its first place. -/
def sampleHoltWinters (t0 b : Rat) : CResult (HoltWintersState Rat) :=
  HoltWinters ratOps [1, 1] 2 (1 / 2) 0 0 1 1 1 0 b []
    { SSE := 0, level := [0, 0, 0], trend := [t0, 0, 0], season := [0, 0, 0] }

end CXXR

namespace CXXR

/-!
# `rep` and `seq`

A shallow embedding of `rep4`, `do_rep` and `do_seq` of `src/main/seq.cpp`,
which continues the embedding of `seq_colon`, `rep2` and `rep3` above.  The
functions start after the dispatch on the class of the first argument and
after the argument matcher has given the arguments; warnings are not
modelled.
-/

/-! ## `rep4` -/

/-- The index expression `(i / each) % lx` of `rep4`; there is no value when
`each` or `lx` is zero, where C leaves the division undefined. -/
def rep4_index (i each lx : Int) : Option Int :=
  if each = 0 ∨ lx = 0 then none else some ((i.tdiv each).tmod lx)

/-- The loop `for (i = 0; i < len; i++) a[i] = x[(i/each) % lx]` of `rep4`,
from the counter value `i` on; the writes go to the places 0, 1, 2, ... in
order, so the array is given by the list of the values written so far. -/
def rep4_cycle {α : Type} (c : Config) (x : List α) (len each : Int) :
    Nat → Int → List α → CResult (List α)
  | 0, _, _ => CResult.timeout
  | fuel + 1, i, a =>
    if i < len then
      match rep4_index i each x.length with
      | none => CResult.undefined
      | some j =>
        if j < 0 then CResult.undefined
        else
          match x[j.toNat]? with
          | none => CResult.undefined
          | some v => rep4_cycle c x len each fuel (wrap_xlen c (i + 1)) (a ++ [v])
    else CResult.ok a

/-- The loop `for (j = 0, sum = 0; j < each; j++) sum += INTEGER(times)[k++]`
of `rep4`, for the `n` values of `j` that are left: the sum, an `R_xlen_t`, and
the entries of `times` from index `k` on, which are taken from `times`.  An
entry `NA` is the smallest `int`. -/
def rep4_sum (c : Config) : Nat → Int → List (Option Int) → CResult (Int × List (Option Int))
  | 0, sum, times => CResult.ok (sum, times)
  | _ + 1, _, [] => CResult.undefined
  | n + 1, sum, t :: times => rep4_sum c n (wrap_xlen c (sum + t.getD INT_MIN)) times

/-- The loop `for (k3 = 0; k3 < sum; k3++) { a[k2++] = x[i]; if (k2 == len)
goto done; }` of `rep4`, for the `n` values of `k3` that are left: the array,
and whether the loop was left by the `goto`.  The array has `len` places. -/
def rep4_copy {α : Type} (v : α) (len : Int) : Nat → List α → CResult (List α × Bool)
  | 0, a => CResult.ok (a, false)
  | n + 1, a =>
    if len ≤ (a.length : Int) then CResult.undefined
    else if ((a.length : Int) + 1) = len then CResult.ok (a ++ [v], true)
    else rep4_copy v len n (a ++ [v])

/-- The loop `for (i = 0, k = 0, k2 = 0; i < lx; i++)` of `rep4`, over the
elements of `x` that are left. -/
def rep4_blocks {α : Type} (c : Config) (len each : Int) :
    List α → List (Option Int) → List α → CResult (List α)
  | [], _, a => CResult.ok a
  | v :: xs, times, a =>
    (rep4_sum c each.toNat 0 times).andThen fun r =>
      (rep4_copy v len r.1.toNat a).andThen fun q =>
        if q.2 then CResult.ok q.1 else rep4_blocks c len each xs r.2 q.1

/-- `rep4(x, times, len, each, nt)` on a vector `x` with the elements given and
an integer vector `times`.  The branches of the `switch` on the type of `x`
copy the elements in the same way.  The array must come out as long as it was
allocated. -/
def rep4 {α : Type} (c : Config) (x : List α) (times : List (Option Int)) (len each nt : Int) :
    CResult (List α) :=
  if each = 1 ∧ nt = 1 then rep3 c x x.length len
  else
    (allocVector_check c len).andThen fun _ =>
      if nt = 1 then rep4_cycle c x len each (len.toNat + 1) 0 []
      else
        (rep4_blocks c len each x times []).andThen fun a =>
          if (a.length : Int) = len then CResult.ok a else CResult.undefined

/-- The vector obtained from `x` by repeating every element `each` times in
place. -/
def rep_in_place {α : Type} (each : Nat) : List α → List α
  | [] => []
  | v :: xs => List.replicate each v ++ rep_in_place each xs

/-! ## `rep` -/

/-- The first argument of `rep`: its type, its elements and its names, the
empty list for an object without names. -/
structure RepArgument (α : Type) where
  type : SEXPTYPE
  elements : List α
  names : List (Option String)
deriving DecidableEq, Repr

/-- What `do_rep` returns. -/
inductive RepResult (α : Type) where
  /-- The vector `ans` with the elements and the names given. -/
  | replicated (elements : List α) (names : List (Option String))
  /-- The value of `duplicate(x)`. -/
  | duplicated (x : RepArgument α)
  /-- The value of `xlengthgets(duplicate(x), len)`. -/
  | lengthened (x : RepArgument α) (len : Int)
deriving DecidableEq, Repr

/-- Modelled from the spec: `isVector` on the type of an object. -/
def isVectorType (t : SEXPTYPE) : Bool :=
  match t with
  | SEXPTYPE.LGLSXP => true
  | SEXPTYPE.INTSXP => true
  | SEXPTYPE.REALSXP => true
  | SEXPTYPE.STRSXP => true
  | SEXPTYPE.VECSXP => true
  | _ => false

/-- The loop of `do_rep` over a vector `times` of more than one entry, which
checks the entries and adds them up in an `R_xlen_t`. -/
def do_rep_sum (c : Config) : List (Option Int) → Int → CResult Int
  | [], sum => CResult.ok sum
  | none :: _, _ => CResult.error "invalid 'times' argument"
  | some t :: rest, sum =>
    if t < 0 then CResult.error "invalid 'times' argument"
    else do_rep_sum c rest (wrap_xlen c (sum + t))

/-- The arguments `times`, `len`, `each` and `nt` with which `do_rep` calls
`rep4`. -/
structure RepCall where
  times : List (Option Int)
  len : Int
  each : Int
  nt : Int
deriving DecidableEq, Repr

/-- The test `v != NA_INTEGER && v < 0` that `do_rep` makes on `length.out`
and on `each`. -/
def isNegative (v : Option Int) : Bool :=
  match v with
  | some n => decide (n < 0)
  | none => false

/-- What `do_rep` returns for an `x` of length zero. -/
def do_rep_empty {α : Type} (x : RepArgument α) (length_out : Option Int) : RepResult α :=
  match length_out with
  | some len => if len > 0 then RepResult.lengthened x len else RepResult.duplicated x
  | none => RepResult.duplicated x

/-- The part of `do_rep` that finds the length of the result from `times` and
`each`, where `length.out` is not given: `lx` is the length of `x` and `times`
holds the entries of the argument, or the single entry 1 for a missing
argument. -/
def do_rep_times (c : Config) (lx : Int) (times : List (Option Int)) (each : Int) :
    CResult RepCall :=
  if (times.length : Int) ≠ 1 ∧ (times.length : Int) ≠ wrap_xlen c (lx * each) then
    CResult.error "invalid 'times' argument"
  else if (times.length : Int) = 1 then
    match times.head? with
    | some (some it) =>
      if it < 0 then CResult.error "invalid 'times' argument"
      else CResult.ok
        { times := times, len := wrap_xlen c (wrap_xlen c (lx * it) * each), each := each,
          nt := 1 }
    | _ => CResult.error "invalid 'times' argument"
  else
    (do_rep_sum c times 0).andThen fun sum =>
      CResult.ok { times := times, len := sum, each := each, nt := times.length }

/-- The arguments of `rep4` where `length.out` is given, which takes
precedence over `times`. -/
def do_rep_length_out (times : Option (List (Option Int))) (len each : Int) : RepCall :=
  { times := times.getD [], len := len, each := each, nt := 1 }

/-- The part of `do_rep` up to the call of `rep4`: the result with which the
function returns before that call, or the arguments of the call.  `times` is
`none` for a missing argument and else holds the entries of
`coerceVector(times, INTSXP)`, `length_out` is a whole number, or `none` for a
missing argument and for one that is not finite, and `each_` is
`asInteger(each_)`, `none` being `NA_INTEGER`, which stands for 1. -/
def do_rep_arguments {α : Type} (c : Config) (x : RepArgument α)
    (times : Option (List (Option Int))) (length_out each_ : Option Int) :
    CResult (RepResult α ⊕ RepCall) :=
  if x.type = SEXPTYPE.LISTSXP then CResult.error "replication of pairlists is defunct"
  else if isNegative length_out then CResult.error "invalid 'length.out' argument"
  else if isNegative each_ then CResult.error "invalid 'each' argument"
  else if x.elements.length = 0 then CResult.ok (Sum.inl (do_rep_empty x length_out))
  else if !isVectorType x.type then
    CResult.error "attempt to replicate an object of type '%s'"
  else
    (if length_out.isSome then
        CResult.ok (do_rep_length_out times (length_out.getD 0) (each_.getD 1))
      else do_rep_times c x.elements.length (times.getD [some 1]) (each_.getD 1)).andThen
      fun call =>
        if call.len > 0 ∧ call.each = 0 then CResult.error "invalid 'each' argument"
        else CResult.ok (Sum.inr call)

/-- `do_rep(call, op, args, rho)` on the arguments that the matcher gives. -/
def do_rep {α : Type} (c : Config) (x : RepArgument α)
    (times : Option (List (Option Int))) (length_out each_ : Option Int) :
    CResult (RepResult α) :=
  (do_rep_arguments c x times length_out each_).andThen fun r =>
    match r with
    | Sum.inl early => CResult.ok early
    | Sum.inr call =>
      (rep4 c x.elements call.times call.len call.each call.nt).andThen fun ans =>
        if x.names.length > 0 then
          (rep4 c x.names call.times call.len call.each call.nt).andThen fun names =>
            CResult.ok (RepResult.replicated ans names)
        else CResult.ok (RepResult.replicated ans [])

/-! ## `seq` -/

/-- An argument `from`, `to` or `by` of `seq`: a vector of length one of type
integer or double whose value is a whole number in the range of `int`; `none`
is `NA`. -/
structure SeqArgument where
  type : SEXPTYPE
  value : Option Int
deriving DecidableEq, Repr

/-- The integer vector of length one with the value given. -/
def SeqArgument.ofInt (v : Int) : SeqArgument := { type := SEXPTYPE.INTSXP, value := some v }

/-- The constant `FEPS` of `seq.cpp`, `1e-10`. -/
def FEPS : Rat := 1 / 10000000000

/-- The constant `DBL_EPSILON` of `float.h`, 2^-52. -/
def DBL_EPSILON : Rat := 1 / 4503599627370496

/-- The conversion of a `double` to an integer type, which cuts off the
fraction. -/
def truncate (q : Rat) : Int := q.num.tdiv q.den

/-- The argument as the result of `seq`. -/
def SeqArgument.asVector (a : SeqArgument) (v : Int) : SeqVector :=
  if a.type = SEXPTYPE.INTSXP then SeqVector.INTSXP [v] else SeqVector.REALSXP [v]

/-- The loop `for (i = 0; i <= nn; i++) ans[i] = element(i)` of `do_seq`, from
the counter value `i` on; the counter is an `R_xlen_t`. -/
def do_seq_fill (c : Config) (element : Int → Int) (nn : Int) :
    Nat → Int → List Int → CResult (List Int)
  | 0, _, _ => CResult.timeout
  | fuel + 1, i, ans =>
    if i ≤ nn then
      if 0 ≤ i ∧ i < ans.length then
        do_seq_fill c element nn fuel (wrap_xlen c (i + 1)) (ans.set i.toNat (element i))
      else CResult.undefined
    else CResult.ok ans

/-- `do_seq(call, op, args, rho)` on a call `seq(from, to, by)` with three
arguments of length one whose values are whole numbers in the range of `int`.
The values of type `double` that the function computes are given as
rationals: `del` and the elements are whole numbers, on which the arithmetic
of `double` is exact, and the quotient `n = del/rby` is given without its
rounding, which is too small to change the integer part of `n` or the outcome
of a comparison that the function makes.  `n` has no value where it is not
finite in C, for `rby` zero or `NA`.  The conversion of a `double` outside
the range of `int` to `int` is not defined. -/
def do_seq (c : Config) (from_ to_ by_ : SeqArgument) : CResult SeqVector :=
  match from_.value, to_.value with
  | none, _ => CResult.error "'from' cannot be NA, NaN or infinite"
  | some _, none => CResult.error "'to' cannot be NA, NaN or infinite"
  | some rfrom, some rto =>
    if rto - rfrom = 0 ∧ rto = 0 then CResult.ok (to_.asVector rto)
    else
      match (match by_.value with
          | none => none
          | some rby => if rby = 0 then none else some (((rto - rfrom : Int) : Rat) / (rby : Rat))),
        by_.value with
      | some n, some rby =>
        if ((|rto - rfrom| : Int) : Rat) / ((max |rto| |rfrom| : Int) : Rat) < 100 * DBL_EPSILON then
          CResult.ok (from_.asVector rfrom)
        else if n > (if c.LONG_VECTOR_SUPPORT then 100 * (INT_MAX : Rat) else (INT_MAX : Rat)) then
          CResult.error "'by' argument is much too small"
        else if n < -FEPS then CResult.error "wrong sign in 'by' argument"
        else if from_.type = SEXPTYPE.INTSXP ∧ to_.type = SEXPTYPE.INTSXP ∧
            by_.type = SEXPTYPE.INTSXP then
          (allocVector_check c (wrap_xlen c (truncate n + 1))).andThen fun _ =>
            (do_seq_fill c
              (fun i => wrap32 (wrap_xlen c (rfrom + wrap_xlen c (i * rby))))
              (truncate n) ((truncate n).toNat + 2) 0
              (allocArray (wrap_xlen c (truncate n + 1)))).andThen fun ia =>
              CResult.ok (SeqVector.INTSXP ia)
        else if truncate (n + FEPS) < INT_MIN ∨ truncate (n + FEPS) > INT_MAX then
          CResult.undefined
        else
          (allocVector_check c (wrap_xlen c (truncate (n + FEPS) + 1))).andThen fun _ =>
            (do_seq_fill c (fun i => rfrom + i * rby)
              (truncate (n + FEPS)) ((truncate (n + FEPS)).toNat + 2) 0
              (allocArray (wrap_xlen c (truncate (n + FEPS) + 1)))).andThen fun ra =>
              if truncate (n + FEPS) > 0 ∧
                  ((rby > 0 ∧ rfrom + truncate (n + FEPS) * rby > rto) ∨
                   (rby < 0 ∧ rfrom + truncate (n + FEPS) * rby < rto)) then
                CResult.ok (SeqVector.REALSXP (ra.set (truncate (n + FEPS)).toNat rto))
              else CResult.ok (SeqVector.REALSXP ra)
      | _, _ =>
        if rto - rfrom = 0 ∧ by_.value = some 0 then CResult.ok (from_.asVector rfrom)
        else CResult.error "invalid '(to - from)/by' in 'seq'"

end CXXR

namespace CXXR

theorem UINT_MOD_eq : UINT_MOD = 4294967296 := by
  unfold UINT_MOD
  rfl

/-! ## The store -/

namespace Heap

theorem node?_lt {h : Heap} {n : Nat} {nd : GCNode} (hn : h.node? n = some nd) :
    n < h.nodes.length := by
  unfold node? at hn
  by_contra hlt
  rw [List.getElem?_eq_none (Nat.le_of_not_lt hlt)] at hn
  simp at hn

theorem node?_isSome_lt {h : Heap} {n : Nat} (hn : (h.node? n).isSome) :
    n < h.nodes.length := by
  obtain ⟨nd, hnd⟩ := Option.isSome_iff_exists.mp hn
  exact node?_lt hnd

theorem node?_eq_some_iff {h : Heap} {n : Nat} {nd : GCNode} :
    h.node? n = some nd ↔ h.nodes[n]? = some (some nd) := by
  unfold node?
  exact Option.join_eq_some

theorem node?_set_same (h : Heap) {n : Nat} (o : Option GCNode) (hn : n < h.nodes.length) :
    ({ h with nodes := h.nodes.set n o } : Heap).node? n = o := by
  simp [node?, List.getElem?_set_self, hn]

theorem node?_set_ne (h : Heap) {n m : Nat} (o : Option GCNode) (hne : m ≠ n) :
    ({ h with nodes := h.nodes.set n o } : Heap).node? m = h.node? m := by
  simp [node?, List.getElem?_set_ne (Ne.symm hne)]

theorem node?_of_nodes_eq {h h' : Heap} (hh : h'.nodes = h.nodes) (m : Nat) :
    h'.node? m = h.node? m := by
  simp [node?, hh]

theorem node?_of_set_same {h h' : Heap} {n : Nat} {o : Option GCNode}
    (hh : h'.nodes = h.nodes.set n o) (hn : n < h.nodes.length) : h'.node? n = o := by
  simp [node?, hh, List.getElem?_set_self, hn]

theorem node?_of_set_ne {h h' : Heap} {n m : Nat} {o : Option GCNode}
    (hh : h'.nodes = h.nodes.set n o) (hne : m ≠ n) : h'.node? m = h.node? m := by
  simp [node?, hh, List.getElem?_set_ne (Ne.symm hne)]

theorem node?_setNode_same (h : Heap) {n : Nat} (nd : GCNode) (hn : n < h.nodes.length) :
    (h.setNode n nd).node? n = some nd :=
  node?_set_same h (some nd) hn

theorem node?_setNode_ne (h : Heap) {n m : Nat} (nd : GCNode) (hne : m ≠ n) :
    (h.setNode n nd).node? m = h.node? m :=
  node?_set_ne h (some nd) hne

theorem node?_setNode (h : Heap) {n : Nat} (nd : GCNode) (hn : n < h.nodes.length) (m : Nat) :
    (h.setNode n nd).node? m = if m = n then some nd else h.node? m := by
  by_cases hm : m = n
  · subst hm; simp [node?_setNode_same h nd hn]
  · simp [hm, node?_setNode_ne h nd hm]

@[simp] theorem setNode_length (h : Heap) (n : Nat) (nd : GCNode) :
    (h.setNode n nd).nodes.length = h.nodes.length := by
  simp [setNode]

theorem modifyNode_of_some {h : Heap} {n : Nat} {nd : GCNode} (f : GCNode → GCNode)
    (hn : h.node? n = some nd) : h.modifyNode n f = h.setNode n (f nd) := by
  simp [modifyNode, hn]

theorem modifyNode_of_none {h : Heap} {n : Nat} (f : GCNode → GCNode)
    (hn : h.node? n = none) : h.modifyNode n f = h := by
  simp [modifyNode, hn]

end Heap

/-! ## Loops -/

/-- Hoare rule for `whileLoop` with a variant: an invariant that the body keeps
while it lowers the measure holds at the exit, and fuel equal to the measure
is enough. -/
theorem whileLoop_rule {σ : Type} (cond : σ → Bool) (body : σ → σ) (I : σ → Prop)
    (μ : σ → Nat)
    (hstep : ∀ s, I s → cond s = true → I (body s) ∧ μ (body s) < μ s) :
    ∀ (fuel : Nat) (s : σ), I s → μ s ≤ fuel →
      ∃ s', whileLoop cond body fuel s = some s' ∧ I s' ∧ cond s' = false := by
  intro fuel
  induction fuel with
  | zero =>
    intro s hI hle
    by_cases hc : cond s = true
    · have := (hstep s hI hc).2
      omega
    · refine ⟨s, ?_, hI, by simpa using hc⟩
      simp [whileLoop, hc]
  | succ fuel ih =>
    intro s hI hle
    by_cases hc : cond s = true
    · obtain ⟨hI', hlt⟩ := hstep s hI hc
      obtain ⟨s', hs', hIs', hcs'⟩ := ih (body s) hI' (by omega)
      exact ⟨s', by simp [whileLoop, hc, hs'], hIs', hcs'⟩
    · refine ⟨s, ?_, hI, by simpa using hc⟩
      simp [whileLoop, hc]

/-- A loop that returns did so after some number of iterations, the condition
holding before each of them and failing at the end. -/
theorem whileLoop_iterate {σ : Type} (cond : σ → Bool) (body : σ → σ) :
    ∀ (fuel : Nat) (s s' : σ), whileLoop cond body fuel s = some s' →
      ∃ k, s' = body^[k] s ∧ (∀ j < k, cond (body^[j] s) = true) ∧ cond s' = false := by
  intro fuel
  induction fuel with
  | zero =>
    intro s s' hs
    by_cases hc : cond s = true
    · simp [whileLoop, hc] at hs
    · simp [whileLoop, hc] at hs
      subst hs
      exact ⟨0, rfl, by simp, by simpa using hc⟩
  | succ fuel ih =>
    intro s s' hs
    by_cases hc : cond s = true
    · simp [whileLoop, hc] at hs
      obtain ⟨k, hk, hj, hc'⟩ := ih (body s) s' hs
      refine ⟨k + 1, by simpa [Function.iterate_succ_apply] using hk, ?_, hc'⟩
      intro j hjlt
      cases j with
      | zero => simpa using hc
      | succ j =>
        have := hj j (by omega)
        simpa [Function.iterate_succ_apply] using this
    · simp [whileLoop, hc] at hs
      subst hs
      exact ⟨0, rfl, by simp, by simpa using hc⟩

/-! ## Sums over the store -/

theorem sum_map_set {α : Type} (f : α → Nat) :
    ∀ (l : List α) (i : Nat) (x y : α), l[i]? = some y →
      ((l.set i x).map f).sum + f y = (l.map f).sum + f x := by
  intro l
  induction l with
  | nil => intro i x y h; simp at h
  | cons a l ih =>
    intro i x y h
    cases i with
    | zero =>
      simp at h
      subst h
      simp
      omega
    | succ i =>
      simp at h
      have := ih i x y h
      simp only [List.set_cons_succ, List.map_cons, List.sum_cons]
      omega

theorem map_set_of_eq {α β : Type} (f : α → β) :
    ∀ (l : List α) (i : Nat) (x y : α), l[i]? = some y → f x = f y →
      (l.set i x).map f = l.map f := by
  intro l
  induction l with
  | nil => intro i x y h; simp at h
  | cons a l ih =>
    intro i x y h hf
    cases i with
    | zero =>
      simp at h
      subst h
      simp [hf]
    | succ i =>
      simp at h
      simp [ih i x y h hf]

end CXXR

namespace CXXR

open Heap GCNode

/-! ## Edge counts under an update of one slot -/

theorem edgeCount_set {h k : Heap} {n : Nat} {nd o : GCNode}
    (hh : k.nodes = h.nodes.set n (some o)) (hn : h.node? n = some nd) :
    k.edgeCount + nd.referents.length = h.edgeCount + o.referents.length := by
  have := sum_map_set (fun o : Option GCNode => match o with
    | some nd => nd.referents.length
    | none => 0) h.nodes n (some o) (some nd) (node?_eq_some_iff.mp hn)
  simpa [edgeCount, hh] using this

theorem edgeCount_free {h k : Heap} {n : Nat} {nd : GCNode}
    (hh : k.nodes = h.nodes.set n none) (hn : h.node? n = some nd) :
    k.edgeCount + nd.referents.length = h.edgeCount := by
  have := sum_map_set (fun o : Option GCNode => match o with
    | some nd => nd.referents.length
    | none => 0) h.nodes n none (some nd) (node?_eq_some_iff.mp hn)
  simpa [edgeCount, hh] using this

theorem inEdges_set {h k : Heap} {n : Nat} {nd o : GCNode}
    (hh : k.nodes = h.nodes.set n (some o)) (hn : h.node? n = some nd) (m : Nat) :
    k.inEdges m + nd.referents.count m = h.inEdges m + o.referents.count m := by
  have := sum_map_set (fun o : Option GCNode => match o with
    | some nd => nd.referents.count m
    | none => 0) h.nodes n (some o) (some nd) (node?_eq_some_iff.mp hn)
  simpa [inEdges, hh] using this

theorem inEdges_free {h k : Heap} {n : Nat} {nd : GCNode}
    (hh : k.nodes = h.nodes.set n none) (hn : h.node? n = some nd) (m : Nat) :
    k.inEdges m + nd.referents.count m = h.inEdges m := by
  have := sum_map_set (fun o : Option GCNode => match o with
    | some nd => nd.referents.count m
    | none => 0) h.nodes n none (some nd) (node?_eq_some_iff.mp hn)
  simpa [inEdges, hh] using this

/-- An edge in the store shows in the in-degree of its target. -/
theorem inEdges_pos {h : Heap} {n m : Nat} {nd : GCNode} (hn : h.node? n = some nd)
    (hm : m ∈ nd.referents) : 0 < h.inEdges m := by
  have h1 := inEdges_free (k := { h with nodes := h.nodes.set n none }) rfl hn m
  have h2 : 0 < nd.referents.count m := List.count_pos_iff.mpr hm
  omega

/-! ## Explicit forms of the reference-count operations -/

theorem decRefCount_of_none {h : Heap} {t : Nat} (ht : h.node? t = none) :
    decRefCount t h = h := by
  simp [decRefCount, ht]

theorem decRefCount_of_some {h : Heap} {t : Nat} {nd : GCNode} (ht : h.node? t = some nd) :
    decRefCount t h =
      { h with
        nodes := h.nodes.set t (some { nd with
          m_refcount := if nd.m_refcount - 2 = 0 then 1 else nd.m_refcount - 2 }),
        s_moribund := if nd.m_refcount - 2 = 0 then h.s_moribund ++ [t] else h.s_moribund } := by
  have hlt := node?_lt ht
  unfold decRefCount
  simp only [ht]
  by_cases hz : nd.m_refcount - 2 = 0
  · simp only [hz, if_true]
    unfold makeMoribund
    rw [modifyNode_of_some _ (node?_setNode_same h _ hlt)]
    simp [setNode, List.set_set]
  · simp only [hz, if_false]
    simp [setNode]

/-! ## What `decRefCount` leaves alone -/

theorem decRefCount_edgeCount (t : Nat) (h : Heap) :
    (decRefCount t h).edgeCount = h.edgeCount := by
  cases ht : h.node? t with
  | none => rw [decRefCount_of_none ht]
  | some nd =>
    have := edgeCount_set (k := decRefCount t h) (by rw [decRefCount_of_some ht]) ht
    simp only at this
    omega

theorem decRefCount_inEdges (t : Nat) (h : Heap) (m : Nat) :
    (decRefCount t h).inEdges m = h.inEdges m := by
  cases ht : h.node? t with
  | none => rw [decRefCount_of_none ht]
  | some nd =>
    have := inEdges_set (k := decRefCount t h) (by rw [decRefCount_of_some ht]) ht m
    simp only at this
    omega

theorem decRefCount_moribund_length (t : Nat) (h : Heap) :
    (decRefCount t h).s_moribund.length ≤ h.s_moribund.length + 1 := by
  cases ht : h.node? t with
  | none => rw [decRefCount_of_none ht]; omega
  | some nd =>
    rw [decRefCount_of_some ht]
    by_cases hz : nd.m_refcount - 2 = 0 <;> simp [hz]

theorem decRefCount_nodes_length (t : Nat) (h : Heap) :
    (decRefCount t h).nodes.length = h.nodes.length := by
  cases ht : h.node? t with
  | none => rw [decRefCount_of_none ht]
  | some nd => rw [decRefCount_of_some ht]; simp

/-- The node at `m` after `decRefCount t`: only the count of `t` changes. -/
theorem decRefCount_node? (t : Nat) (h : Heap) (m : Nat) :
    (decRefCount t h).node? m =
      if m = t then (h.node? t).map (fun nd => { nd with
        m_refcount := if nd.m_refcount - 2 = 0 then 1 else nd.m_refcount - 2 })
      else h.node? m := by
  cases ht : h.node? t with
  | none =>
    rw [decRefCount_of_none ht]
    by_cases hm : m = t
    · subst hm; simp [ht]
    · simp [hm]
  | some nd =>
    have hh : (decRefCount t h).nodes = h.nodes.set t (some { nd with
        m_refcount := if nd.m_refcount - 2 = 0 then 1 else nd.m_refcount - 2 }) := by
      rw [decRefCount_of_some ht]
    by_cases hm : m = t
    · subst hm
      simp [node?_of_set_same hh (node?_lt ht)]
    · simp [hm, node?_of_set_ne hh hm]

theorem decRefCount_referents (t : Nat) (h : Heap) (m : Nat) :
    ((decRefCount t h).node? m).map GCNode.referents = (h.node? m).map GCNode.referents := by
  rw [decRefCount_node?]
  by_cases hm : m = t
  · subst hm
    cases h.node? m <;> simp
  · simp [hm]

theorem decRefCount_isSome (t : Nat) (h : Heap) (m : Nat) :
    ((decRefCount t h).node? m).isSome = (h.node? m).isSome := by
  rw [decRefCount_node?]
  by_cases hm : m = t
  · subst hm
    cases h.node? m <;> simp
  · simp [hm]

@[simp] theorem decRefCount_s_live (t : Nat) (h : Heap) :
    (decRefCount t h).s_live = h.s_live := by
  cases ht : h.node? t with
  | none => rw [decRefCount_of_none ht]
  | some nd => rw [decRefCount_of_some ht]

@[simp] theorem decRefCount_s_reachable (t : Nat) (h : Heap) :
    (decRefCount t h).s_reachable = h.s_reachable := by
  cases ht : h.node? t with
  | none => rw [decRefCount_of_none ht]
  | some nd => rw [decRefCount_of_some ht]

@[simp] theorem decRefCount_zombies (t : Nat) (h : Heap) :
    (decRefCount t h).zombies = h.zombies := by
  cases ht : h.node? t with
  | none => rw [decRefCount_of_none ht]
  | some nd => rw [decRefCount_of_some ht]

@[simp] theorem decRefCount_deleted (t : Nat) (h : Heap) :
    (decRefCount t h).deleted = h.deleted := by
  cases ht : h.node? t with
  | none => rw [decRefCount_of_none ht]
  | some nd => rw [decRefCount_of_some ht]

@[simp] theorem decRefCount_s_num_nodes (t : Nat) (h : Heap) :
    (decRefCount t h).s_num_nodes = h.s_num_nodes := by
  cases ht : h.node? t with
  | none => rw [decRefCount_of_none ht]
  | some nd => rw [decRefCount_of_some ht]

@[simp] theorem decRefCount_fixed (t : Nat) (h : Heap) :
    (decRefCount t h).fixed = h.fixed := by
  cases ht : h.node? t with
  | none => rw [decRefCount_of_none ht]
  | some nd => rw [decRefCount_of_some ht]; rfl

@[simp] theorem decRefCount_bytes_allocated (t : Nat) (h : Heap) :
    (decRefCount t h).bytes_allocated = h.bytes_allocated := by
  cases ht : h.node? t with
  | none => rw [decRefCount_of_none ht]
  | some nd => rw [decRefCount_of_some ht]

/-! ## Cutting the edges of a node -/

/-- The node `node` with its edge list replaced. -/
theorem setReferents_node? {h : Heap} {node : Nat} {nd : GCNode} (refs : List Nat)
    (hn : h.node? node = some nd) (m : Nat) :
    (h.modifyNode node (fun x => { x with referents := refs })).node? m =
      if m = node then some { nd with referents := refs } else h.node? m := by
  rw [modifyNode_of_some _ hn, node?_setNode h _ (node?_lt hn)]

theorem detachEdges_measure : ∀ (refs : List Nat) (node : Nat) (h : Heap) (nd : GCNode),
    h.node? node = some nd → nd.referents = refs →
      (detachEdges refs node h).edgeCount + refs.length = h.edgeCount ∧
      (detachEdges refs node h).s_moribund.length ≤ h.s_moribund.length + refs.length := by
  intro refs
  induction refs with
  | nil => intro node h nd _ _; simp [detachEdges]
  | cons t rest ih =>
    intro node h nd hn href
    have h1e := edgeCount_set (k := h.setNode node { nd with referents := rest }) rfl hn
    have hnode1 := setReferents_node? rest hn node
    rw [modifyNode_of_some _ hn] at hnode1
    simp only [if_true] at hnode1
    have hnode2 : ∃ nd2, (decRefCount t (h.setNode node { nd with referents := rest })).node? node
        = some nd2 ∧ nd2.referents = rest := by
      have := decRefCount_referents t (h.setNode node { nd with referents := rest }) node
      rw [hnode1] at this
      cases hx : (decRefCount t (h.setNode node { nd with referents := rest })).node? node with
      | none => simp [hx] at this
      | some nd2 => exact ⟨nd2, rfl, by simpa [hx] using this⟩
    obtain ⟨nd2, hnd2, hr2⟩ := hnode2
    obtain ⟨e, mlen⟩ := ih node _ nd2 hnd2 hr2
    have he := decRefCount_edgeCount t (h.setNode node { nd with referents := rest })
    have hm := decRefCount_moribund_length t (h.setNode node { nd with referents := rest })
    simp only [detachEdges, modifyNode_of_some _ hn]
    simp only [setNode] at h1e he hm e mlen ⊢
    rw [href] at h1e
    simp only [List.length_cons] at h1e ⊢
    constructor <;> omega

/-- What cutting edges leaves alone. -/
theorem detachEdges_frame : ∀ (refs : List Nat) (node : Nat) (h : Heap),
    (detachEdges refs node h).s_live = h.s_live ∧
    (detachEdges refs node h).s_reachable = h.s_reachable ∧
    (detachEdges refs node h).zombies = h.zombies ∧
    (detachEdges refs node h).deleted = h.deleted ∧
    (detachEdges refs node h).s_num_nodes = h.s_num_nodes ∧
    (detachEdges refs node h).bytes_allocated = h.bytes_allocated ∧
    (detachEdges refs node h).fixed = h.fixed ∧
    (detachEdges refs node h).nodes.length = h.nodes.length ∧
    ∀ m, ((detachEdges refs node h).node? m).isSome = (h.node? m).isSome := by
  intro refs
  induction refs with
  | nil => intro node h; simp [detachEdges]
  | cons t rest ih =>
    intro node h
    obtain ⟨a, b, c, d, e, f, g, l, i⟩ := ih node
      (decRefCount t (h.modifyNode node (fun nd => { nd with referents := rest })))
    have hmod : ∀ m, ((h.modifyNode node (fun nd => { nd with referents := rest })).node? m).isSome
        = (h.node? m).isSome := by
      intro m
      cases hn : h.node? node with
      | none => rw [modifyNode_of_none _ hn]
      | some nd =>
        rw [setReferents_node? rest hn]
        by_cases hm : m = node
        · subst hm; simp [hn]
        · simp [hm]
    have hmodf : ∀ x : Heap, ∀ f : GCNode → GCNode,
        (x.modifyNode node f).s_live = x.s_live ∧ (x.modifyNode node f).s_reachable = x.s_reachable
        ∧ (x.modifyNode node f).zombies = x.zombies ∧ (x.modifyNode node f).deleted = x.deleted
        ∧ (x.modifyNode node f).s_num_nodes = x.s_num_nodes
        ∧ (x.modifyNode node f).bytes_allocated = x.bytes_allocated
        ∧ (x.modifyNode node f).fixed = x.fixed
        ∧ (x.modifyNode node f).nodes.length = x.nodes.length := by
      intro x f
      unfold modifyNode
      cases x.node? node <;> simp [setNode, fixed]
    obtain ⟨a', b', c', d', e', f', g', l'⟩ := hmodf h (fun nd => { nd with referents := rest })
    simp only [detachEdges]
    refine ⟨?_, ?_, ?_, ?_, ?_, ?_, ?_, ?_, ?_⟩
    · rw [a, decRefCount_s_live, a']
    · rw [b, decRefCount_s_reachable, b']
    · rw [c, decRefCount_zombies, c']
    · rw [d, decRefCount_deleted, d']
    · rw [e, decRefCount_s_num_nodes, e']
    · rw [f, decRefCount_bytes_allocated, f']
    · rw [g, decRefCount_fixed, g']
    · rw [l, decRefCount_nodes_length, l']
    · intro m
      rw [i, decRefCount_isSome, hmod]

theorem detachReferents_measure (node : Nat) (h : Heap) :
    (detachReferents node h).s_moribund.length + (detachReferents node h).edgeCount
      ≤ h.s_moribund.length + h.edgeCount := by
  unfold detachReferents
  cases hn : h.node? node with
  | none => simp
  | some nd =>
    have := detachEdges_measure nd.referents node h nd hn rfl
    simp only
    omega

theorem detachReferents_frame (node : Nat) (h : Heap) :
    (detachReferents node h).s_live = h.s_live ∧
    (detachReferents node h).s_reachable = h.s_reachable ∧
    (detachReferents node h).zombies = h.zombies ∧
    (detachReferents node h).deleted = h.deleted ∧
    (detachReferents node h).s_num_nodes = h.s_num_nodes ∧
    (detachReferents node h).bytes_allocated = h.bytes_allocated ∧
    (detachReferents node h).fixed = h.fixed ∧
    (detachReferents node h).nodes.length = h.nodes.length ∧
    ∀ m, ((detachReferents node h).node? m).isSome = (h.node? m).isSome := by
  unfold detachReferents
  cases hn : h.node? node with
  | none => simp
  | some nd => exact detachEdges_frame nd.referents node h

/-! ## Termination of `gclite` -/

theorem unlink_nodes (h : Heap) (n : Nat) : (h.unlink n).nodes = h.nodes := rfl

theorem deleteNode_measure (node : Nat) (h : Heap) :
    (deleteNode node h).s_moribund.length + (deleteNode node h).edgeCount
      ≤ h.s_moribund.length + h.edgeCount := by
  unfold deleteNode
  cases hn : h.node? node with
  | none =>
    have : ({ h with deleted := h.deleted ++ [node] } : Heap).node? node = none := hn
    simp only [this]
    exact Nat.le_refl _
  | some nd =>
    have hn0 : ({ h with deleted := h.deleted ++ [node] } : Heap).node? node = some nd := hn
    simp only [hn0]
    have hm := detachReferents_measure node { h with deleted := h.deleted ++ [node] }
    obtain ⟨_, _, _, _, _, _, _, _, hs⟩ :=
      detachReferents_frame node { h with deleted := h.deleted ++ [node] }
    have halive := hs node
    rw [hn0] at halive
    obtain ⟨nd', hnd'⟩ := Option.isSome_iff_exists.mp halive
    have hfree := edgeCount_free
      (h := detachReferents node { h with deleted := h.deleted ++ [node] })
      (k := { ((detachReferents node { h with deleted := h.deleted ++ [node] }).unlink node) with
        nodes := ((detachReferents node { h with deleted := h.deleted ++ [node] }).unlink
          node).nodes.set node none,
        s_num_nodes := uint_dec ((detachReferents node
          { h with deleted := h.deleted ++ [node] }).unlink node).s_num_nodes,
        bytes_allocated := ((detachReferents node { h with deleted := h.deleted ++ [node] }).unlink
          node).bytes_allocated - nd.bytes }) rfl hnd'
    have e0 : ({ h with deleted := h.deleted ++ [node] } : Heap).edgeCount = h.edgeCount := rfl
    simp only [unlink] at hfree ⊢
    simp only at hm
    omega

theorem gclite_body_measure (h : Heap) (hne : (!h.s_moribund.isEmpty) = true) :
    gclite_fuel (gclite_body h) < gclite_fuel h := by
  unfold gclite_body gclite_fuel
  cases hl : h.s_moribund.getLast? with
  | none =>
    rw [List.getLast?_eq_none_iff] at hl
    simp [hl] at hne
  | some node =>
    have hlen : 0 < h.s_moribund.length := by
      cases hm : h.s_moribund with
      | nil => simp [hm] at hl
      | cons a l => simp
    have hdrop : h.s_moribund.dropLast.length + 1 = h.s_moribund.length := by
      rw [List.length_dropLast]; omega
    simp only
    cases hn : ({ h with s_moribund := h.s_moribund.dropLast } : Heap).node? node with
    | none =>
      simp only
      have := deleteNode_measure node { h with s_moribund := h.s_moribund.dropLast }
      have e : ({ h with s_moribund := h.s_moribund.dropLast } : Heap).edgeCount = h.edgeCount := rfl
      simp only at this
      omega
    | some nd =>
      simp only
      have hset := edgeCount_set (h := { h with s_moribund := h.s_moribund.dropLast })
        (k := ({ h with s_moribund := h.s_moribund.dropLast } : Heap).setNode node
          { nd with m_refcount := nd.m_refcount - nd.m_refcount % 2 }) rfl hn
      have e : ({ h with s_moribund := h.s_moribund.dropLast } : Heap).edgeCount = h.edgeCount := rfl
      simp only at hset
      split
      · have := deleteNode_measure node
          (({ h with s_moribund := h.s_moribund.dropLast } : Heap).setNode node
            { nd with m_refcount := nd.m_refcount - nd.m_refcount % 2 })
        simp only [setNode] at this hset ⊢
        omega
      · simp only [setNode] at hset ⊢
        omega

end CXXR

namespace CXXR

open Heap GCNode

/-! ## The invariant under the reference-count operations -/

/-- The invariant reads only the store, the four lists and the node count. -/
theorem Inv_congr {R : List Nat} {h h' : Heap} (hI : h.Inv R) (hn : h'.nodes = h.nodes)
    (h1 : h'.s_live = h.s_live) (h2 : h'.s_reachable = h.s_reachable)
    (h3 : h'.zombies = h.zombies) (h4 : h'.s_moribund = h.s_moribund)
    (h5 : h'.s_num_nodes = h.s_num_nodes) : h'.Inv R := by
  have hnode : ∀ m, h'.node? m = h.node? m := node?_of_nodes_eq hn
  have hl : h'.listed = h.listed := by simp [listed, h1, h2, h3]
  have hin : ∀ m, h'.inEdges m = h.inEdges m := by intro m; simp [inEdges, hn]
  obtain ⟨a, b, c, d, e, f, g, i, j, k⟩ := hI
  refine ⟨?_, ?_, ?_, ?_, ?_, ?_, ?_, ?_, ?_, ?_⟩
  · rw [hl]; exact a
  · intro n hn'; rw [hnode]; exact b n (hl ▸ hn')
  · intro n hlt hs; rw [hl]; exact c n (hn ▸ hlt) (hnode n ▸ hs)
  · rw [h4]; exact d
  · intro n hn'; rw [hnode]; exact e n (h4 ▸ hn')
  · intro n hlt nd hnd hodd; rw [h4]; exact f n (hn ▸ hlt) nd (hnode n ▸ hnd) hodd
  · intro n hlt nd hnd; rw [hin]; exact g n (hn ▸ hlt) nd (hnode n ▸ hnd)
  · intro n hlt nd hnd r hr; rw [hnode]; exact i n (hn ▸ hlt) nd (hnode n ▸ hnd) r hr
  · intro r hr; rw [hnode]; exact j r hr
  · rw [h5, hl]; exact k

theorem Heap.Inv.refcount_of_node {R : List Nat} {h : Heap} (hI : h.Inv R) {n : Nat} {nd : GCNode}
    (hn : h.node? n = some nd) : 2 * (h.inEdges n + R.count n) ≤ nd.m_refcount :=
  hI.refcount_ge n (node?_lt hn) nd hn

theorem Heap.Inv.referent_alive {R : List Nat} {h : Heap} (hI : h.Inv R) {n r : Nat} {nd : GCNode}
    (hn : h.node? n = some nd) (hr : r ∈ nd.referents) : (h.node? r).isSome :=
  hI.referents_alive n (node?_lt hn) nd hn r hr

theorem Heap.Inv.moribund_of_odd {R : List Nat} {h : Heap} (hI : h.Inv R) {n : Nat} {nd : GCNode}
    (hn : h.node? n = some nd) (hodd : nd.m_refcount % 2 = 1) : n ∈ h.s_moribund :=
  hI.bit_moribund n (node?_lt hn) nd hn hodd

theorem Heap.Inv.odd_of_moribund {R : List Nat} {h : Heap} (hI : h.Inv R) {n : Nat} {nd : GCNode}
    (hn : h.node? n = some nd) (hm : n ∈ h.s_moribund) : nd.m_refcount % 2 = 1 := by
  obtain ⟨nd', hnd', hodd⟩ := hI.moribund_bit n hm
  rw [Option.mem_def, hn] at hnd'
  cases hnd'
  exact hodd

theorem Heap.Inv.listed_of_node {R : List Nat} {h : Heap} (hI : h.Inv R) {n : Nat} {nd : GCNode}
    (hn : h.node? n = some nd) : n ∈ h.listed :=
  hI.alive_listed n (node?_lt hn) (by simp [hn])

/-- Clearing one edge of a node keeps the invariant and leaves the target with
one reference more than the edges and roots account for. -/
theorem Inv_cut_edge {R : List Nat} {h : Heap} (hI : h.Inv R) {node t : Nat} {rest : List Nat}
    {nd : GCNode} (hn : h.node? node = some nd) (href : nd.referents = t :: rest) :
    (h.modifyNode node (fun x => { x with referents := rest })).Inv R ∧
    ∀ ndt, (h.modifyNode node (fun x => { x with referents := rest })).node? t = some ndt →
      2 * ((h.modifyNode node (fun x => { x with referents := rest })).inEdges t + R.count t) + 2
        ≤ ndt.m_refcount := by
  have hlt := node?_lt hn
  have hnode := setReferents_node? rest hn
  rw [modifyNode_of_some _ hn] at hnode ⊢
  have hin : ∀ m, (h.setNode node { nd with referents := rest }).inEdges m + (t :: rest).count m
      = h.inEdges m + rest.count m := by
    intro m
    have := inEdges_set (k := h.setNode node { nd with referents := rest }) rfl hn m
    rw [href] at this
    exact this
  have hin_le : ∀ m, (h.setNode node { nd with referents := rest }).inEdges m ≤ h.inEdges m := by
    intro m
    have := hin m
    have hc : rest.count m ≤ (t :: rest).count m := by
      rw [List.count_cons]; omega
    omega
  have hsome : ∀ m, ((h.setNode node { nd with referents := rest }).node? m).isSome
      = (h.node? m).isSome := by
    intro m
    rw [hnode]
    by_cases hm : m = node
    · subst hm; simp [hn]
    · simp [hm]
  have hrc : ∀ m x, (h.setNode node { nd with referents := rest }).node? m = some x →
      ∃ y, h.node? m = some y ∧ y.m_refcount = x.m_refcount ∧
        (∀ r ∈ x.referents, r ∈ y.referents) := by
    intro m x hx
    rw [hnode] at hx
    by_cases hm : m = node
    · subst hm
      simp at hx
      subst hx
      exact ⟨nd, hn, rfl, by intro r hr; rw [href]; exact List.mem_cons_of_mem _ hr⟩
    · simp [hm] at hx
      exact ⟨x, hx, rfl, fun r hr => hr⟩
  constructor
  · refine ⟨hI.listed_nodup, ?_, ?_, hI.moribund_nodup, ?_, ?_, ?_, ?_, ?_, hI.count⟩
    · intro n hn'
      rw [hsome]
      exact hI.listed_alive n hn'
    · intro n hlt' hs
      rw [hsome] at hs
      exact hI.alive_listed n (by simpa using hlt') hs
    · intro n hn'
      obtain ⟨y, hy, hodd⟩ := hI.moribund_bit n hn'
      rw [Option.mem_def] at hy
      by_cases hm : n = node
      · subst hm
        rw [hn] at hy
        cases hy
        exact ⟨{ nd with referents := rest }, by rw [Option.mem_def, hnode]; simp, hodd⟩
      · exact ⟨y, by rw [Option.mem_def, hnode]; simpa [hm] using hy, hodd⟩
    · intro n _ x hx hodd
      obtain ⟨y, hy, hyrc, _⟩ := hrc n x hx
      exact hI.moribund_of_odd hy (hyrc ▸ hodd)
    · intro n _ x hx
      obtain ⟨y, hy, hyrc, _⟩ := hrc n x hx
      have := hI.refcount_of_node hy
      have := hin_le n
      omega
    · intro n _ x hx r hr
      obtain ⟨y, hy, _, hsub⟩ := hrc n x hx
      rw [hsome]
      exact hI.referent_alive hy (hsub r hr)
    · intro r hr
      rw [hsome]
      exact hI.roots_alive r hr
  · intro ndt hndt
    obtain ⟨y, hy, hyrc, _⟩ := hrc t ndt hndt
    have h1 := hI.refcount_of_node hy
    have h2 := hin t
    simp only [List.count_cons_self] at h2
    omega

/-- Dropping a reference that no edge or root accounts for keeps the
invariant. -/
theorem Inv_decRefCount {R : List Nat} {h : Heap} (hI : h.Inv R) {t : Nat}
    (hslack : ∀ nd, h.node? t = some nd → 2 * (h.inEdges t + R.count t) + 2 ≤ nd.m_refcount) :
    (decRefCount t h).Inv R := by
  cases ht : h.node? t with
  | none => rw [decRefCount_of_none ht]; exact hI
  | some nd =>
    have hs := hslack nd ht
    have hnode := decRefCount_node? t h
    have hsome := decRefCount_isSome t h
    have hmor : (decRefCount t h).s_moribund
        = if nd.m_refcount - 2 = 0 then h.s_moribund ++ [t] else h.s_moribund := by
      rw [decRefCount_of_some ht]
    have hlisted : (decRefCount t h).listed = h.listed := by simp [listed]
    have hlen := decRefCount_nodes_length t h
    refine ⟨?_, ?_, ?_, ?_, ?_, ?_, ?_, ?_, ?_, ?_⟩
    · rw [hlisted]; exact hI.listed_nodup
    · intro n hn; rw [hsome]; exact hI.listed_alive n (hlisted ▸ hn)
    · intro n hlt hs'
      rw [hsome] at hs'
      rw [hlisted]
      exact hI.alive_listed n (hlen ▸ hlt) hs'
    · rw [hmor]
      by_cases hz : nd.m_refcount - 2 = 0
      · simp only [hz, if_true]
        rw [List.nodup_append]
        refine ⟨hI.moribund_nodup, List.nodup_singleton t, ?_⟩
        intro a ha hb
        simp at hb
        subst hb
        have := hI.odd_of_moribund ht ha
        omega
      · simp only [hz, if_false]
        exact hI.moribund_nodup
    · intro n hn
      rw [hmor] at hn
      by_cases hnt : n = t
      · subst hnt
        refine ⟨{ nd with m_refcount := if nd.m_refcount - 2 = 0 then 1 else nd.m_refcount - 2 },
          by rw [Option.mem_def, hnode]; simp [ht], ?_⟩
        by_cases hz : nd.m_refcount - 2 = 0
        · simp [hz]
        · simp only [hz, if_false] at hn ⊢
          have := hI.odd_of_moribund ht hn
          omega
      · have hn' : n ∈ h.s_moribund := by
          by_cases hz : nd.m_refcount - 2 = 0
          · simp only [hz, if_true, List.mem_append, List.mem_singleton] at hn
            rcases hn with hn | hn
            · exact hn
            · exact absurd hn hnt
          · simpa [hz] using hn
        obtain ⟨y, hy, hodd⟩ := hI.moribund_bit n hn'
        exact ⟨y, by rw [Option.mem_def, hnode]; simpa [hnt] using hy, hodd⟩
    · intro n _ x hx hodd
      rw [Option.mem_def, hnode] at hx
      rw [hmor]
      by_cases hnt : n = t
      · subst hnt
        simp [ht] at hx
        subst hx
        by_cases hz : nd.m_refcount - 2 = 0
        · simp [hz]
        · simp only [hz, if_false] at hodd ⊢
          exact hI.moribund_of_odd ht (by omega)
      · simp [hnt] at hx
        have := hI.moribund_of_odd hx hodd
        by_cases hz : nd.m_refcount - 2 = 0
        · simp [hz, this]
        · simpa [hz] using this
    · intro n _ x hx
      rw [Option.mem_def, hnode] at hx
      rw [decRefCount_inEdges]
      by_cases hnt : n = t
      · subst hnt
        simp [ht] at hx
        subst hx
        by_cases hz : nd.m_refcount - 2 = 0
        · simp only [hz, if_true]
          omega
        · simp only [hz, if_false]
          omega
      · simp [hnt] at hx
        exact hI.refcount_of_node hx
    · intro n _ x hx r hr
      rw [hsome]
      have href := decRefCount_referents t h n
      rw [Option.mem_def] at hx
      rw [hx] at href
      cases hy : h.node? n with
      | none => simp [hy] at href
      | some y =>
        simp [hy] at href
        exact hI.referent_alive hy (href ▸ hr)
    · intro r hr; rw [hsome]; exact hI.roots_alive r hr
    · rw [hlisted, decRefCount_s_num_nodes]; exact hI.count

/-- Cutting every edge of a node: the invariant stays, the node ends without
edges, and only the counts of its former referents change. -/
theorem Inv_detachEdges {R : List Nat} : ∀ (refs : List Nat) (node : Nat) (h : Heap) (nd : GCNode),
    h.Inv R → h.node? node = some nd → nd.referents = refs →
      (detachEdges refs node h).Inv R ∧
      (∃ nd', (detachEdges refs node h).node? node = some nd' ∧ nd'.referents = []) ∧
      (∀ m, m ≠ node → ((detachEdges refs node h).node? m).map GCNode.referents
          = (h.node? m).map GCNode.referents) ∧
      (∀ m, m ∉ refs → ((detachEdges refs node h).node? m).map GCNode.m_refcount
          = (h.node? m).map GCNode.m_refcount) ∧
      (∀ m, ((detachEdges refs node h).node? m).map GCNode.m_bits_MARK
          = (h.node? m).map GCNode.m_bits_MARK) ∧
      (∀ m, m ∈ (detachEdges refs node h).s_moribund → m ∈ h.s_moribund ∨ m ∈ refs) ∧
      (∀ m, m ∈ h.s_moribund → m ∈ (detachEdges refs node h).s_moribund) ∧
      (∀ m, (detachEdges refs node h).inEdges m ≤ h.inEdges m) := by
  intro refs
  induction refs with
  | nil =>
    intro node h nd hI hn href
    exact ⟨hI, ⟨nd, hn, href⟩, fun _ _ => rfl, fun _ _ => rfl, fun _ => rfl,
      fun m hm => Or.inl hm, fun _ hm => hm, fun _ => Nat.le_refl _⟩
  | cons t rest ih =>
    intro node h nd hI hn href
    obtain ⟨hI1, hslack⟩ := Inv_cut_edge hI hn href
    have hI2 := Inv_decRefCount hI1 hslack
    have hnode1 := setReferents_node? rest hn
    have hnode2 := decRefCount_node? t (h.modifyNode node (fun x => { x with referents := rest }))
    have href2 := decRefCount_referents t
      (h.modifyNode node (fun x => { x with referents := rest })) node
    rw [hnode1] at href2
    simp only [if_true, Option.map_some'] at href2
    cases hx : (decRefCount t (h.modifyNode node (fun x => { x with referents := rest }))).node?
        node with
    | none => simp [hx] at href2
    | some nd2 =>
      have hr2 : nd2.referents = rest := by simpa [hx] using href2
      obtain ⟨iI, iE, iR, iC, iM, iMor, iMor', iIn⟩ := ih node _ nd2 hI2 hx hr2
      simp only [detachEdges]
      refine ⟨iI, iE, ?_, ?_, ?_, ?_, ?_, ?_⟩
      · intro m hm
        rw [iR m hm, decRefCount_referents, hnode1]
        simp [hm]
      · intro m hm
        have hmt : m ≠ t := fun e => hm (e ▸ List.mem_cons_self _ _)
        have hmr : m ∉ rest := fun e => hm (List.mem_cons_of_mem _ e)
        rw [iC m hmr, hnode2]
        simp only [hnode1, hmt, if_false]
        by_cases hmn : m = node
        · subst hmn; simp [hn]
        · simp [hmn]
      · intro m
        rw [iM m, hnode2]
        simp only [hnode1]
        by_cases hmt : m = t
        · subst hmt
          by_cases hmn : m = node
          · subst hmn; simp [hn]
          · simp only [if_true, hmn, if_false]
            cases h.node? m <;> simp
        · by_cases hmn : m = node
          · subst hmn; simp [hmt, hn]
          · simp [hmt, hmn]
      · intro m hm
        rcases iMor m hm with h1 | h1
        · cases ht1 : (h.modifyNode node (fun x => { x with referents := rest })).node? t with
          | none =>
            rw [decRefCount_of_none ht1] at h1
            left
            rw [modifyNode_of_some _ hn] at h1
            exact h1
          | some ndt =>
            rw [decRefCount_of_some ht1] at h1
            rw [modifyNode_of_some _ hn] at h1
            by_cases hz : ndt.m_refcount - 2 = 0
            · simp only [hz, if_true, List.mem_append, List.mem_singleton] at h1
              rcases h1 with h1 | h1
              · exact Or.inl h1
              · exact Or.inr (h1 ▸ List.mem_cons_self _ _)
            · simp only [hz, if_false] at h1
              exact Or.inl h1
        · exact Or.inr (List.mem_cons_of_mem _ h1)
      · intro m hm
        apply iMor'
        cases ht1 : (h.modifyNode node (fun x => { x with referents := rest })).node? t with
        | none =>
          rw [decRefCount_of_none ht1, modifyNode_of_some _ hn]
          exact hm
        | some ndt =>
          rw [decRefCount_of_some ht1, modifyNode_of_some _ hn]
          by_cases hz : ndt.m_refcount - 2 = 0
          · simp only [hz, if_true, List.mem_append]
            exact Or.inl hm
          · simp only [hz, if_false]
            exact hm
      · intro m
        have h1 := iIn m
        rw [decRefCount_inEdges] at h1
        have h2 := inEdges_set
          (k := h.modifyNode node (fun x => { x with referents := rest }))
          (o := { nd with referents := rest }) (by rw [modifyNode_of_some _ hn]; rfl) hn m
        rw [href] at h2
        simp only at h2
        have hc : rest.count m ≤ (t :: rest).count m := by
          rw [List.count_cons]; omega
        omega

theorem Inv_detachReferents {R : List Nat} {h : Heap} (hI : h.Inv R) {node : Nat} {nd : GCNode}
    (hn : h.node? node = some nd) :
    (detachReferents node h).Inv R ∧
    (∃ nd', (detachReferents node h).node? node = some nd' ∧ nd'.referents = []) ∧
    (∀ m, m ≠ node → ((detachReferents node h).node? m).map GCNode.referents
        = (h.node? m).map GCNode.referents) ∧
    (∀ m, m ∉ nd.referents → ((detachReferents node h).node? m).map GCNode.m_refcount
        = (h.node? m).map GCNode.m_refcount) ∧
    (∀ m, ((detachReferents node h).node? m).map GCNode.m_bits_MARK
        = (h.node? m).map GCNode.m_bits_MARK) ∧
    (∀ m, m ∈ (detachReferents node h).s_moribund → m ∈ h.s_moribund ∨ m ∈ nd.referents) ∧
    (∀ m, m ∈ h.s_moribund → m ∈ (detachReferents node h).s_moribund) ∧
    (∀ m, (detachReferents node h).inEdges m ≤ h.inEdges m) := by
  have := Inv_detachEdges (R := R) nd.referents node h nd hI hn rfl
  simpa [detachReferents, hn] using this

end CXXR

namespace CXXR

open Heap GCNode

/-! ## Unlinking and freeing a node -/

theorem erase_append3 {a b c : List Nat} (n : Nat) (hnd : (a ++ b ++ c).Nodup) :
    a.erase n ++ b.erase n ++ c.erase n = (a ++ b ++ c).erase n := by
  rw [List.nodup_append] at hnd
  obtain ⟨hab, hc, hdis⟩ := hnd
  rw [List.nodup_append] at hab
  obtain ⟨ha, hb, hdab⟩ := hab
  by_cases h1 : n ∈ a
  · have h2 : n ∉ b := fun hb' => hdab h1 hb'
    have h3 : n ∉ c := fun hc' => hdis (List.mem_append_left _ h1) hc'
    rw [List.erase_of_not_mem h2, List.erase_of_not_mem h3, List.erase_append_left _ (by simp [h1]),
      List.erase_append_left _ h1]
  · by_cases h2 : n ∈ b
    · have h3 : n ∉ c := fun hc' => hdis (List.mem_append_right _ h2) hc'
      rw [List.erase_of_not_mem h1, List.erase_of_not_mem h3,
        List.erase_append_left _ (by simp [h2]), List.erase_append_right _ h1]
    · rw [List.erase_of_not_mem h1, List.erase_of_not_mem h2,
        List.erase_append_right _ (by simp [h1, h2])]

theorem listed_unlink {h : Heap} (n : Nat) (hnd : h.listed.Nodup) :
    (h.unlink n).listed = h.listed.erase n :=
  erase_append3 n hnd

/-- Freeing a node that has no edge, that nothing refers to and that is not on
the moribund list keeps the invariant. -/
theorem Inv_free {R : List Nat} {h h' : Heap} {n : Nat} {nd : GCNode} (hI : h.Inv R)
    (hn : h.node? n = some nd) (href : nd.referents = []) (hin : h.inEdges n = 0)
    (hR : R.count n = 0) (hmor : n ∉ h.s_moribund)
    (e1 : h'.nodes = h.nodes.set n none) (e2 : h'.s_live = h.s_live.erase n)
    (e3 : h'.s_reachable = h.s_reachable.erase n) (e4 : h'.zombies = h.zombies.erase n)
    (e5 : h'.s_moribund = h.s_moribund)
    (e6 : h'.s_num_nodes = uint_dec h.s_num_nodes) : h'.Inv R := by
  have hlt := node?_lt hn
  have hdead : h'.node? n = none := node?_of_set_same e1 hlt
  have hother : ∀ m, m ≠ n → h'.node? m = h.node? m := fun m hm => node?_of_set_ne e1 hm
  have hlisted : h'.listed = h.listed.erase n := by
    have := listed_unlink n hI.listed_nodup
    simp only [listed, unlink] at this ⊢
    rw [e2, e3, e4, this]
  have hlen : h'.nodes.length = h.nodes.length := by rw [e1]; simp
  have hinE : ∀ m, h'.inEdges m = h.inEdges m := by
    intro m
    have := inEdges_free e1 hn m
    rw [href] at this
    simpa using this
  have hnR : n ∉ R := fun hr => by
    have := List.count_pos_iff.mpr hr
    omega
  refine ⟨?_, ?_, ?_, ?_, ?_, ?_, ?_, ?_, ?_, ?_⟩
  · rw [hlisted]; exact hI.listed_nodup.erase n
  · intro m hm
    rw [hlisted] at hm
    have hmn : m ≠ n := fun e => by
      subst e
      exact (List.Nodup.not_mem_erase hI.listed_nodup) hm
    rw [hother m hmn]
    exact hI.listed_alive m (List.mem_of_mem_erase hm)
  · intro m hlt' hs
    have hmn : m ≠ n := fun e => by subst e; simp [hdead] at hs
    rw [hother m hmn] at hs
    rw [hlisted]
    exact (List.mem_erase_of_ne hmn).mpr (hI.alive_listed m (hlen ▸ hlt') hs)
  · rw [e5]; exact hI.moribund_nodup
  · intro m hm
    rw [e5] at hm
    have hmn : m ≠ n := fun e => hmor (e ▸ hm)
    rw [hother m hmn]
    exact hI.moribund_bit m hm
  · intro m _ x hx hodd
    rw [Option.mem_def] at hx
    have hmn : m ≠ n := fun e => by subst e; simp [hdead] at hx
    rw [hother m hmn] at hx
    rw [e5]
    exact hI.moribund_of_odd hx hodd
  · intro m _ x hx
    rw [Option.mem_def] at hx
    have hmn : m ≠ n := fun e => by subst e; simp [hdead] at hx
    rw [hother m hmn] at hx
    rw [hinE]
    exact hI.refcount_of_node hx
  · intro m _ x hx r hr
    rw [Option.mem_def] at hx
    have hmn : m ≠ n := fun e => by subst e; simp [hdead] at hx
    rw [hother m hmn] at hx
    have hrn : r ≠ n := fun e => by
      subst e
      have := inEdges_pos hx hr
      omega
    rw [hother r hrn]
    exact hI.referent_alive hx hr
  · intro r hr
    have hrn : r ≠ n := fun e => hnR (e ▸ hr)
    rw [hother r hrn]
    exact hI.roots_alive r hr
  · rw [e6, hlisted, hI.count]
    have hmem := hI.listed_of_node hn
    rw [List.length_erase_of_mem hmem]
    have hpos : 0 < h.listed.length := List.length_pos_of_mem hmem
    unfold uint_dec
    rw [UINT_MOD_eq]
    split <;> omega

/-! ## Deleting a node -/

theorem deleteNode_of_none {h : Heap} {node : Nat} (hn : h.node? node = none) :
    deleteNode node h = { h with deleted := h.deleted ++ [node] } := by
  have : ({ h with deleted := h.deleted ++ [node] } : Heap).node? node = none := hn
  simp [deleteNode, this]

theorem deleteNode_of_some {h : Heap} {node : Nat} {nd : GCNode} (hn : h.node? node = some nd) :
    deleteNode node h =
      { ((detachReferents node { h with deleted := h.deleted ++ [node] }).unlink node) with
        nodes := ((detachReferents node { h with deleted := h.deleted ++ [node] }).unlink
          node).nodes.set node none,
        s_num_nodes := uint_dec ((detachReferents node
          { h with deleted := h.deleted ++ [node] }).unlink node).s_num_nodes,
        bytes_allocated := ((detachReferents node
          { h with deleted := h.deleted ++ [node] }).unlink node).bytes_allocated - nd.bytes } := by
  have : ({ h with deleted := h.deleted ++ [node] } : Heap).node? node = some nd := hn
  simp [deleteNode, this]

/-- The effect of `delete node` on a node that nothing refers to. -/
theorem Inv_deleteNode {R : List Nat} {h : Heap} {node : Nat} {nd : GCNode} (hI : h.Inv R)
    (hn : h.node? node = some nd) (hin : h.inEdges node = 0) (hR : R.count node = 0)
    (hmor : node ∉ h.s_moribund) :
    (deleteNode node h).Inv R ∧
    (deleteNode node h).node? node = none ∧
    (∀ m, m ≠ node → ((deleteNode node h).node? m).map GCNode.referents
        = (h.node? m).map GCNode.referents) ∧
    (∀ m, m ≠ node → m ∉ nd.referents → ((deleteNode node h).node? m).map GCNode.m_refcount
        = (h.node? m).map GCNode.m_refcount) ∧
    (∀ m, m ≠ node → ((deleteNode node h).node? m).map GCNode.m_bits_MARK
        = (h.node? m).map GCNode.m_bits_MARK) ∧
    (∀ m, m ∈ (deleteNode node h).s_moribund → m ∈ h.s_moribund ∨ m ∈ nd.referents) ∧
    (∀ m, m ∈ h.s_moribund → m ∈ (deleteNode node h).s_moribund) ∧
    (deleteNode node h).deleted = h.deleted ++ [node] ∧
    (deleteNode node h).s_live = h.s_live.erase node ∧
    (deleteNode node h).s_reachable = h.s_reachable.erase node ∧
    (deleteNode node h).zombies = h.zombies.erase node ∧
    (deleteNode node h).fixed = h.fixed := by
  have hI0 : ({ h with deleted := h.deleted ++ [node] } : Heap).Inv R :=
    Inv_congr hI rfl rfl rfl rfl rfl rfl
  have hn0 : ({ h with deleted := h.deleted ++ [node] } : Heap).node? node = some nd := hn
  obtain ⟨dI, ⟨nd', hnd', hr'⟩, dR, dC, dM, dMor, dMor', dIn⟩ := Inv_detachReferents hI0 hn0
  obtain ⟨f1, f2, f3, f4, f5, f6, f7, f8, f9⟩ :=
    detachReferents_frame node { h with deleted := h.deleted ++ [node] }
  have hself : node ∉ nd.referents := fun hmem => by
    have := inEdges_pos hn hmem
    omega
  have hin' : (detachReferents node { h with deleted := h.deleted ++ [node] }).inEdges node = 0 := by
    have := dIn node
    have e : ({ h with deleted := h.deleted ++ [node] } : Heap).inEdges node = h.inEdges node := rfl
    omega
  have hmor' : node ∉ (detachReferents node { h with deleted := h.deleted ++ [node] }).s_moribund := by
    intro hm
    rcases dMor node hm with h1 | h1
    · exact hmor h1
    · exact hself h1
  have hlt : node < (detachReferents node { h with deleted := h.deleted ++ [node] }).nodes.length :=
    node?_lt hnd'
  rw [deleteNode_of_some hn]
  refine ⟨?_, ?_, ?_, ?_, ?_, ?_, ?_, ?_, ?_, ?_, ?_, ?_⟩
  · exact Inv_free dI hnd' hr' hin' hR hmor' rfl rfl rfl rfl rfl rfl
  · exact node?_of_set_same rfl hlt
  · intro m hm
    rw [node?_of_set_ne (h := detachReferents node { h with deleted := h.deleted ++ [node] }) rfl hm]
    exact dR m hm
  · intro m hm hmr
    rw [node?_of_set_ne (h := detachReferents node { h with deleted := h.deleted ++ [node] }) rfl hm]
    exact dC m hmr
  · intro m hm
    rw [node?_of_set_ne (h := detachReferents node { h with deleted := h.deleted ++ [node] }) rfl hm]
    exact dM m
  · intro m hm
    exact dMor m hm
  · intro m hm
    exact dMor' m hm
  · exact f4
  · show (detachReferents node _).s_live.erase node = _
    rw [f1]
  · show (detachReferents node _).s_reachable.erase node = _
    rw [f2]
  · show (detachReferents node _).zombies.erase node = _
    rw [f3]
  · exact f7

end CXXR

namespace CXXR

open Heap GCNode

/-! ## One iteration of the loop of `gclite` -/

theorem gclite_body_of_last {h : Heap} {ms : List Nat} {node : Nat} {nd : GCNode}
    (hm : h.s_moribund = ms ++ [node]) (hn : h.node? node = some nd) :
    gclite_body h =
      if nd.m_refcount - nd.m_refcount % 2 = 0 then
        deleteNode node (({ h with s_moribund := ms } : Heap).setNode node
          { nd with m_refcount := nd.m_refcount - nd.m_refcount % 2 })
      else
        ({ h with s_moribund := ms } : Heap).setNode node
          { nd with m_refcount := nd.m_refcount - nd.m_refcount % 2 } := by
  have hn' : ({ h with s_moribund := ms } : Heap).node? node = some nd := hn
  unfold gclite_body
  simp only [hm, List.getLast?_append, List.getLast?_singleton, Option.or_some,
    List.dropLast_concat, hn']

theorem gclite_body_of_dead {h : Heap} {ms : List Nat} {node : Nat}
    (hm : h.s_moribund = ms ++ [node]) (hn : h.node? node = none) :
    gclite_body h = deleteNode node { h with s_moribund := ms } := by
  have hn' : ({ h with s_moribund := ms } : Heap).node? node = none := hn
  unfold gclite_body
  simp only [hm, List.getLast?_append, List.getLast?_singleton, Option.or_some,
    List.dropLast_concat, hn']

/-- Popping the back of the moribund list and clearing its moribund bit. -/
theorem Inv_pop {R : List Nat} {h : Heap} {ms : List Nat} {node : Nat} {nd : GCNode}
    (hI : h.Inv R) (hm : h.s_moribund = ms ++ [node]) (hn : h.node? node = some nd) :
    nd.m_refcount % 2 = 1 ∧ node ∉ ms ∧
    (({ h with s_moribund := ms } : Heap).setNode node
      { nd with m_refcount := nd.m_refcount - 1 }).Inv R := by
  have hodd : nd.m_refcount % 2 = 1 := hI.odd_of_moribund hn (by simp [hm])
  have hnd := hI.moribund_nodup
  rw [hm, List.nodup_append] at hnd
  have hnot : node ∉ ms := fun hmem => hnd.2.2 hmem (List.mem_singleton_self node)
  have hlt := node?_lt hn
  refine ⟨hodd, hnot, ?_⟩
  have hnode : ∀ m, (({ h with s_moribund := ms } : Heap).setNode node
      { nd with m_refcount := nd.m_refcount - 1 }).node? m
        = if m = node then some { nd with m_refcount := nd.m_refcount - 1 } else h.node? m := by
    intro m
    by_cases hmn : m = node
    · subst hmn
      simp only [if_true]
      exact node?_of_set_same (h := h) rfl hlt
    · simp only [hmn, if_false]
      exact node?_of_set_ne (h := h) rfl hmn
  have hsome : ∀ m, ((({ h with s_moribund := ms } : Heap).setNode node
      { nd with m_refcount := nd.m_refcount - 1 }).node? m).isSome = (h.node? m).isSome := by
    intro m
    rw [hnode]
    by_cases hmn : m = node
    · subst hmn; simp [hn]
    · simp [hmn]
  have hinE : ∀ m, (({ h with s_moribund := ms } : Heap).setNode node
      { nd with m_refcount := nd.m_refcount - 1 }).inEdges m = h.inEdges m := by
    intro m
    have := inEdges_set (h := h) (k := ({ h with s_moribund := ms } : Heap).setNode node
      { nd with m_refcount := nd.m_refcount - 1 }) rfl hn m
    simp only at this
    omega
  refine ⟨hI.listed_nodup, ?_, ?_, hnd.1, ?_, ?_, ?_, ?_, ?_, hI.count⟩
  · intro m hm'
    rw [hsome]
    exact hI.listed_alive m hm'
  · intro m hlt' hs
    rw [hsome] at hs
    exact hI.alive_listed m (by simpa [setNode] using hlt') hs
  · intro m hm'
    have hm'' : m ∈ ms := hm'
    have hmn : m ≠ node := fun e => hnot (e ▸ hm'')
    obtain ⟨y, hy, hyodd⟩ := hI.moribund_bit m (by rw [hm]; exact List.mem_append_left _ hm'')
    exact ⟨y, by rw [Option.mem_def, hnode]; simpa [hmn] using hy, hyodd⟩
  · intro m _ x hx hxodd
    rw [Option.mem_def, hnode] at hx
    by_cases hmn : m = node
    · subst hmn
      simp at hx
      subst hx
      simp only at hxodd
      omega
    · simp [hmn] at hx
      have := hI.moribund_of_odd hx hxodd
      rw [hm] at this
      simp only [List.mem_append, List.mem_singleton] at this
      rcases this with h1 | h1
      · exact h1
      · exact absurd h1 hmn
  · intro m _ x hx
    rw [Option.mem_def, hnode] at hx
    rw [hinE]
    by_cases hmn : m = node
    · subst hmn
      simp at hx
      subst hx
      have := hI.refcount_of_node hn
      simp only
      omega
    · simp [hmn] at hx
      exact hI.refcount_of_node hx
  · intro m _ x hx r hr
    rw [Option.mem_def, hnode] at hx
    rw [hsome]
    by_cases hmn : m = node
    · subst hmn
      simp at hx
      subst hx
      exact hI.referent_alive hn hr
    · simp [hmn] at hx
      exact hI.referent_alive hx hr
  · intro r hr
    rw [hsome]
    exact hI.roots_alive r hr

/-- One iteration of the loop of `gclite` on a consistent heap. -/
theorem Inv_gclite_body {R : List Nat} {h : Heap} {ms : List Nat} {node : Nat}
    (hI : h.Inv R) (hm : h.s_moribund = ms ++ [node]) :
    ∃ nd, h.node? node = some nd ∧ nd.m_refcount % 2 = 1 ∧
      (gclite_body h).Inv R ∧ (gclite_body h).fixed = h.fixed ∧
      (∀ m, m ≠ node → ((gclite_body h).node? m).map GCNode.referents
          = (h.node? m).map GCNode.referents) ∧
      (∀ m, m ≠ node → ((gclite_body h).node? m).map GCNode.m_bits_MARK
          = (h.node? m).map GCNode.m_bits_MARK) ∧
      (∀ m, m ≠ node → m ∉ nd.referents → ((gclite_body h).node? m).map GCNode.m_refcount
          = (h.node? m).map GCNode.m_refcount) ∧
      (nd.m_refcount = 1 →
        (gclite_body h).node? node = none ∧ (gclite_body h).deleted = h.deleted ++ [node] ∧
        h.inEdges node = 0 ∧ R.count node = 0 ∧
        (gclite_body h).s_live = h.s_live.erase node ∧
        (gclite_body h).s_reachable = h.s_reachable.erase node ∧
        (gclite_body h).zombies = h.zombies.erase node) ∧
      (nd.m_refcount ≠ 1 →
        (gclite_body h).node? node = some { nd with m_refcount := nd.m_refcount - 1 } ∧
        (gclite_body h).deleted = h.deleted ∧ (gclite_body h).s_live = h.s_live ∧
        (gclite_body h).s_reachable = h.s_reachable ∧ (gclite_body h).zombies = h.zombies ∧
        (gclite_body h).s_moribund = ms) := by
  obtain ⟨nd, hnd, _⟩ := hI.moribund_bit node (by simp [hm])
  rw [Option.mem_def] at hnd
  obtain ⟨hodd, hnot, hI2⟩ := Inv_pop hI hm hnd
  have hclear : nd.m_refcount - nd.m_refcount % 2 = nd.m_refcount - 1 := by rw [hodd]
  have hlt := node?_lt hnd
  have hbody := gclite_body_of_last hm hnd
  rw [hclear] at hbody
  have hnode2 : ∀ m, m ≠ node → (({ h with s_moribund := ms } : Heap).setNode node
      { nd with m_refcount := nd.m_refcount - 1 }).node? m = h.node? m :=
    fun m hmn => node?_of_set_ne (h := h) rfl hmn
  have hnode2s : (({ h with s_moribund := ms } : Heap).setNode node
      { nd with m_refcount := nd.m_refcount - 1 }).node? node
        = some { nd with m_refcount := nd.m_refcount - 1 } :=
    node?_of_set_same (h := h) rfl hlt
  refine ⟨nd, hnd, hodd, ?_⟩
  by_cases hz : nd.m_refcount - 1 = 0
  · have h1 : nd.m_refcount = 1 := by omega
    rw [if_pos hz] at hbody
    have hinE : (({ h with s_moribund := ms } : Heap).setNode node
        { nd with m_refcount := nd.m_refcount - 1 }).inEdges node = h.inEdges node := by
      have := inEdges_set (h := h) (k := ({ h with s_moribund := ms } : Heap).setNode node
        { nd with m_refcount := nd.m_refcount - 1 }) rfl hnd node
      simp only at this
      omega
    have hrc : 2 * ((({ h with s_moribund := ms } : Heap).setNode node
        { nd with m_refcount := nd.m_refcount - 1 }).inEdges node + R.count node)
          ≤ nd.m_refcount - 1 := hI2.refcount_of_node hnode2s
    have hin0 : (({ h with s_moribund := ms } : Heap).setNode node
        { nd with m_refcount := nd.m_refcount - 1 }).inEdges node = 0 := by omega
    have hR0 : R.count node = 0 := by omega
    obtain ⟨dI, dDead, dR, dC, dM, _, _, dLog, dL, dRe, dZ, dF⟩ :=
      Inv_deleteNode hI2 hnode2s hin0 hR0 hnot
    rw [hbody]
    refine ⟨dI, dF, ?_, ?_, ?_, ?_, ?_⟩
    · intro m hmn
      rw [dR m hmn, hnode2 m hmn]
    · intro m hmn
      rw [dM m hmn, hnode2 m hmn]
    · intro m hmn hmr
      rw [dC m hmn hmr, hnode2 m hmn]
    · intro _
      exact ⟨dDead, dLog, by omega, hR0, dL, dRe, dZ⟩
    · intro hne
      exact absurd h1 hne
  · have h1 : nd.m_refcount ≠ 1 := by omega
    rw [if_neg hz] at hbody
    rw [hbody]
    refine ⟨hI2, rfl, ?_, ?_, ?_, ?_, ?_⟩
    · intro m hmn
      rw [hnode2 m hmn]
    · intro m hmn
      rw [hnode2 m hmn]
    · intro m hmn _
      rw [hnode2 m hmn]
    · intro he
      exact absurd he h1
    · intro _
      exact ⟨hnode2s, rfl, rfl, rfl, rfl, rfl⟩

end CXXR

namespace CXXR

open Heap GCNode

/-! ## The whole of `gclite` -/

theorem deleteNode_fixed (node : Nat) (h : Heap) : (deleteNode node h).fixed = h.fixed := by
  cases hn : h.node? node with
  | none => rw [deleteNode_of_none hn]; rfl
  | some nd =>
    rw [deleteNode_of_some hn]
    obtain ⟨_, _, _, _, _, _, f7, _, _⟩ :=
      detachReferents_frame node { h with deleted := h.deleted ++ [node] }
    exact f7

theorem gclite_body_fixed (h : Heap) : (gclite_body h).fixed = h.fixed := by
  rcases List.eq_nil_or_concat h.s_moribund with hm | ⟨ms, node, hm⟩
  · simp [gclite_body, hm]
  · rw [List.concat_eq_append] at hm
    cases hn : h.node? node with
    | none =>
      rw [gclite_body_of_dead hm hn, deleteNode_fixed]
      rfl
    | some nd =>
      rw [gclite_body_of_last hm hn]
      split
      · rw [deleteNode_fixed]; rfl
      · rfl

theorem isEmpty_false_iff {l : List Nat} : (!l.isEmpty) = true ↔ l ≠ [] := by
  cases l <;> simp

theorem isEmpty_true_iff {l : List Nat} : (!l.isEmpty) = false ↔ l = [] := by
  cases l <;> simp

/-- Rule for the loop of `gclite`: it ends, with the moribund list empty and
with every property that one iteration keeps. -/
theorem gclite_loop_rule (I : Heap → Prop)
    (hbody : ∀ s, I s → s.s_moribund ≠ [] → I (gclite_body s)) (h : Heap) (h0 : I h) :
    ∃ s', whileLoop (fun s => !s.s_moribund.isEmpty) gclite_body (gclite_fuel h) h = some s'
      ∧ I s' ∧ s'.s_moribund = [] := by
  obtain ⟨s', hs', hI', hc⟩ := whileLoop_rule (fun s : Heap => !s.s_moribund.isEmpty) gclite_body
    I gclite_fuel
    (fun s hI hc => ⟨hbody s hI (isEmpty_false_iff.mp hc), gclite_body_measure s hc⟩)
    (gclite_fuel h) h h0 (Nat.le_refl _)
  exact ⟨s', hs', hI', isEmpty_true_iff.mp hc⟩

theorem gclite_of_inhibited {h : Heap} (hi : h.s_inhibitor_count ≠ 0) : gclite h = some h := by
  simp [gclite, hi]

/-- Rule for `gclite` when no inhibitor is active. -/
theorem gclite_rule (I : Heap → Prop)
    (hbody : ∀ s, I s → s.s_moribund ≠ [] → I (gclite_body s)) (h : Heap)
    (hi : h.s_inhibitor_count = 0) (h0 : I (protectCstructs (GCInhibitor.enter h)).2) :
    ∃ s', gclite h = some (GCInhibitor.leave (ProtectStack.unprotect h.cstructs.length s'))
      ∧ I s' ∧ s'.s_moribund = [] := by
  obtain ⟨s', hs', hI', hm⟩ := gclite_loop_rule I hbody _ h0
  refine ⟨s', ?_, hI', hm⟩
  unfold gclite
  simp only [hi, ne_eq, not_true_eq_false, if_false]
  rw [hs']
  rfl

theorem wrapper_fixed {h s' : Heap} (hi : h.s_inhibitor_count = 0)
    (hf : s'.fixed = (protectCstructs (GCInhibitor.enter h)).2.fixed) :
    (GCInhibitor.leave (ProtectStack.unprotect h.cstructs.length s')).fixed = h.fixed := by
  unfold Heap.fixed GCNode.protectCstructs GCInhibitor.enter at hf
  simp only [Prod.mk.injEq] at hf
  obtain ⟨a, b, c, d, e, f, g, i, j, k, l⟩ := hf
  unfold GCInhibitor.leave ProtectStack.unprotect Heap.fixed
  simp only [Prod.mk.injEq]
  refine ⟨a, b, c, ?_, e, f, ?_, i, j, k, l⟩
  · rw [d, hi]
    simp [uint_inc, uint_dec, UINT_MOD_eq]
  · rw [g]
    simp

/-- `gclite` always returns, and it leaves the part of the state outside the
node graph as it found it. -/
theorem gclite_total (h : Heap) :
    ∃ h', gclite h = some h' ∧ h'.fixed = h.fixed ∧
      (h.s_inhibitor_count = 0 → h'.s_moribund = []) := by
  by_cases hi : h.s_inhibitor_count = 0
  · obtain ⟨s', hs', hI', hm⟩ := gclite_rule
      (fun s => s.fixed = (protectCstructs (GCInhibitor.enter h)).2.fixed)
      (fun s hs _ => by
        show (gclite_body s).fixed = _
        rw [gclite_body_fixed]; exact hs) h hi rfl
    have hI'' : s'.fixed = (protectCstructs (GCInhibitor.enter h)).2.fixed := hI'
    have hm' : (GCInhibitor.leave (ProtectStack.unprotect h.cstructs.length s')).s_moribund
        = s'.s_moribund := by
      unfold GCInhibitor.leave ProtectStack.unprotect
      rfl
    refine ⟨GCInhibitor.leave (ProtectStack.unprotect h.cstructs.length s'), hs',
      wrapper_fixed hi hI'', fun _ => ?_⟩
    rw [hm', hm]
  · exact ⟨h, gclite_of_inhibited hi, rfl, fun h0 => absurd h0 hi⟩

end CXXR

namespace CXXR

open Heap GCNode

/-! ## The marker -/

theorem Marker_call_zero (node : Nat) (h : Heap) : Marker.call 0 node h = none := rfl

theorem Marker_call_dead {fuel : Nat} {node : Nat} {h : Heap} (hn : h.node? node = none) :
    Marker.call (fuel + 1) node h = some h := by
  simp [Marker.call, hn]

theorem Marker_call_marked {fuel : Nat} {node : Nat} {h : Heap} {nd : GCNode}
    (hn : h.node? node = some nd) (hm : nd.m_bits_MARK = h.s_mark) :
    Marker.call (fuel + 1) node h = some h := by
  simp [Marker.call, hn, isMarked, hm]

theorem Marker_call_unmarked {fuel : Nat} {node : Nat} {h : Heap} {nd : GCNode}
    (hn : h.node? node = some nd) (hm : nd.m_bits_MARK ≠ h.s_mark) :
    Marker.call (fuel + 1) node h =
      nd.referents.foldlM (fun acc r => Marker.call fuel r acc) (Marker.apply node nd h) := by
  simp [Marker.call, hn, isMarked, hm]

namespace Heap.MarkRel

theorem refl (h : Heap) : MarkRel h h :=
  ⟨rfl, rfl, fun _ => Or.inl rfl, rfl, rfl, rfl, rfl, rfl⟩

theorem trans {a b c : Heap} (h1 : MarkRel a b) (h2 : MarkRel b c) : MarkRel a c := by
  refine ⟨h2.nodes_length.trans h1.nodes_length, h2.s_mark.trans h1.s_mark, ?_,
    h2.s_moribund.trans h1.s_moribund, h2.s_num_nodes.trans h1.s_num_nodes,
    h2.deleted.trans h1.deleted, h2.bytes_allocated.trans h1.bytes_allocated,
    h2.statics.trans h1.statics⟩
  intro m
  rcases h1.node_cases m with e1 | ⟨nd, hnd, hne, e1⟩
  · rcases h2.node_cases m with e2 | ⟨nd', hnd', hne', e2⟩
    · exact Or.inl (e2.trans e1)
    · right
      refine ⟨nd', by rw [← e1]; exact hnd', by rw [← h1.s_mark]; exact hne', ?_⟩
      rw [e2, h1.s_mark]
  · rcases h2.node_cases m with e2 | ⟨nd', hnd', hne', e2⟩
    · right
      exact ⟨nd, hnd, hne, e2.trans e1⟩
    · exfalso
      rw [e1] at hnd'
      cases hnd'
      exact hne' (by simp [h1.s_mark])

theorem isSome {h h' : Heap} (hr : MarkRel h h') (m : Nat) :
    (h'.node? m).isSome = (h.node? m).isSome := by
  rcases hr.node_cases m with e | ⟨nd, hnd, _, e⟩
  · rw [e]
  · rw [e, hnd]; rfl

theorem referents {h h' : Heap} (hr : MarkRel h h') (m : Nat) :
    (h'.node? m).map GCNode.referents = (h.node? m).map GCNode.referents := by
  rcases hr.node_cases m with e | ⟨nd, hnd, _, e⟩
  · rw [e]
  · rw [e, hnd]; rfl

theorem m_refcount {h h' : Heap} (hr : MarkRel h h') (m : Nat) :
    (h'.node? m).map GCNode.m_refcount = (h.node? m).map GCNode.m_refcount := by
  rcases hr.node_cases m with e | ⟨nd, hnd, _, e⟩
  · rw [e]
  · rw [e, hnd]; rfl

theorem edge_iff {h h' : Heap} (hr : MarkRel h h') (a b : Nat) : h'.edge a b ↔ h.edge a b := by
  have := hr.referents a
  unfold edge
  constructor
  · rintro ⟨nd', hnd', hb⟩
    rw [hnd'] at this
    cases hx : h.node? a with
    | none => simp [hx] at this
    | some nd =>
      simp [hx] at this
      exact ⟨nd, rfl, this ▸ hb⟩
  · rintro ⟨nd, hnd, hb⟩
    rw [hnd] at this
    cases hx : h'.node? a with
    | none => simp [hx] at this
    | some nd' =>
      simp [hx] at this
      exact ⟨nd', rfl, this ▸ hb⟩

theorem marked_mono {h h' : Heap} (hr : MarkRel h h') {m : Nat} (hm : h.marked m) :
    h'.marked m := by
  obtain ⟨nd, hnd, hmk⟩ := hm
  rcases hr.node_cases m with e | ⟨nd', hnd', hne, e⟩
  · exact ⟨nd, by rw [e, hnd], by rw [hr.s_mark]; exact hmk⟩
  · exact ⟨_, e, by simp [hr.s_mark]⟩

theorem path_iff {h h' : Heap} (hr : MarkRel h h') (a b : Nat) : Path h' a b ↔ Path h a b := by
  constructor
  · intro hp
    induction hp with
    | refl => exact Path.refl
    | step _ hn hc ih =>
      obtain ⟨nd, hnd, hmem⟩ := (hr.edge_iff _ _).mp ⟨_, hn, hc⟩
      exact Path.step ih hnd hmem
  · intro hp
    induction hp with
    | refl => exact Path.refl
    | step _ hn hc ih =>
      obtain ⟨nd, hnd, hmem⟩ := (hr.edge_iff _ _).mpr ⟨_, hn, hc⟩
      exact Path.step ih hnd hmem

end Heap.MarkRel

/-! ### Marking one node -/

theorem apply_node? {h : Heap} {node : Nat} {nd : GCNode} (hn : h.node? node = some nd)
    (m : Nat) :
    (Marker.apply node nd h).node? m =
      if m = node then
        some { nd with m_bits_MARK := h.s_mark, m_bits_UNDER_CONSTRUCTION := false }
      else h.node? m := by
  have hh : (Marker.apply node nd h).nodes = h.nodes.set node
      (some { nd with m_bits_MARK := h.s_mark, m_bits_UNDER_CONSTRUCTION := false }) := rfl
  by_cases hm : m = node
  · subst hm
    simp only [if_true]
    exact node?_of_set_same hh (node?_lt hn)
  · simp only [hm, if_false]
    exact node?_of_set_ne hh hm

theorem apply_MarkRel {h : Heap} {node : Nat} {nd : GCNode} (hn : h.node? node = some nd)
    (hm : nd.m_bits_MARK ≠ h.s_mark) : MarkRel h (Marker.apply node nd h) := by
  refine ⟨by simp [Marker.apply, s_reachable_splice_back, unlink, setNode], rfl, ?_, rfl, rfl,
    rfl, rfl, rfl⟩
  intro m
  rw [apply_node? hn]
  by_cases hmn : m = node
  · subst hmn
    right
    exact ⟨nd, hn, hm, by simp⟩
  · left
    simp [hmn]

theorem apply_lists (h : Heap) (node : Nat) (nd : GCNode) :
    (Marker.apply node nd h).s_live = h.s_live.erase node ∧
    (Marker.apply node nd h).s_reachable = h.s_reachable.erase node ++ [node] ∧
    (Marker.apply node nd h).zombies = h.zombies.erase node ∧
    (Marker.apply node nd h).m_marks_applied = h.m_marks_applied + 1 :=
  ⟨rfl, rfl, rfl, rfl⟩

/-! ### What the relation keeps -/

theorem node?_eq_getElem {h : Heap} {i : Nat} (hi : i < h.nodes.length) :
    h.node? i = h.nodes[i] := by
  simp [node?, List.getElem?_eq_getElem hi]

theorem nodes_map_congr {α : Type} (f : Option GCNode → α) {h h' : Heap}
    (hlen : h'.nodes.length = h.nodes.length) (hf : ∀ i, f (h'.node? i) = f (h.node? i)) :
    h'.nodes.map f = h.nodes.map f := by
  apply List.ext_getElem
  · simp [hlen]
  · intro i h1 h2
    simp only [List.length_map] at h1 h2
    simp only [List.getElem_map]
    have := hf i
    rw [node?_eq_getElem h1, node?_eq_getElem h2] at this
    exact this

namespace Heap.MarkRel

theorem node_of {h h' : Heap} (hr : MarkRel h h') {m : Nat} {x : GCNode}
    (hx : h'.node? m = some x) :
    ∃ y, h.node? m = some y ∧ y.m_refcount = x.m_refcount ∧ y.referents = x.referents := by
  rcases hr.node_cases m with e | ⟨nd, hnd, _, e⟩
  · exact ⟨x, by rw [← e]; exact hx, rfl, rfl⟩
  · rw [e] at hx
    cases hx
    exact ⟨nd, hnd, rfl, rfl⟩

theorem node_to {h h' : Heap} (hr : MarkRel h h') {m : Nat} {y : GCNode}
    (hy : h.node? m = some y) :
    ∃ x, h'.node? m = some x ∧ y.m_refcount = x.m_refcount ∧ y.referents = x.referents := by
  rcases hr.node_cases m with e | ⟨nd, hnd, _, e⟩
  · exact ⟨y, by rw [e]; exact hy, rfl, rfl⟩
  · rw [hy] at hnd
    cases hnd
    exact ⟨_, e, rfl, rfl⟩

theorem inEdges {h h' : Heap} (hr : MarkRel h h') (m : Nat) : h'.inEdges m = h.inEdges m := by
  unfold Heap.inEdges
  rw [nodes_map_congr _ hr.nodes_length]
  intro i
  have := hr.referents i
  cases hx : h'.node? i <;> cases hy : h.node? i <;> simp [hx, hy] at this ⊢
  rw [this]

theorem edgeCount {h h' : Heap} (hr : MarkRel h h') : h'.edgeCount = h.edgeCount := by
  unfold Heap.edgeCount
  rw [nodes_map_congr _ hr.nodes_length]
  intro i
  have := hr.referents i
  cases hx : h'.node? i <;> cases hy : h.node? i <;> simp [hx, hy] at this ⊢
  rw [this]

/-- The invariant survives a run of the marker that permutes the lists. -/
theorem inv {R : List Nat} {h h' : Heap} (hr : MarkRel h h') (hI : h.Inv R)
    (hp : h'.listed.Perm h.listed) : h'.Inv R := by
  refine ⟨hp.nodup_iff.mpr hI.listed_nodup, ?_, ?_, ?_, ?_, ?_, ?_, ?_, ?_, ?_⟩
  · intro n hn
    rw [hr.isSome]
    exact hI.listed_alive n (hp.mem_iff.mp hn)
  · intro n hlt hs
    rw [hr.isSome] at hs
    exact hp.mem_iff.mpr (hI.alive_listed n (hr.nodes_length ▸ hlt) hs)
  · rw [hr.s_moribund]; exact hI.moribund_nodup
  · intro n hn
    rw [hr.s_moribund] at hn
    obtain ⟨y, hy, hodd⟩ := hI.moribund_bit n hn
    obtain ⟨x, hx, hrc, _⟩ := hr.node_to hy
    exact ⟨x, hx, hrc ▸ hodd⟩
  · intro n _ x hx hodd
    obtain ⟨y, hy, hrc, _⟩ := hr.node_of hx
    rw [hr.s_moribund]
    exact hI.moribund_of_odd hy (hrc ▸ hodd)
  · intro n _ x hx
    obtain ⟨y, hy, hrc, _⟩ := hr.node_of hx
    rw [hr.inEdges, ← hrc]
    exact hI.refcount_of_node hy
  · intro n _ x hx r hrm
    obtain ⟨y, hy, _, href⟩ := hr.node_of hx
    rw [hr.isSome]
    exact hI.referent_alive hy (href ▸ hrm)
  · intro r hrm
    rw [hr.isSome]
    exact hI.roots_alive r hrm
  · rw [hr.s_num_nodes, hp.length_eq]
    exact hI.count

end Heap.MarkRel

theorem apply_listed_perm {h : Heap} {node : Nat} (nd : GCNode) (hnd : h.listed.Nodup)
    (hmem : node ∈ h.listed) : (Marker.apply node nd h).listed.Perm h.listed := by
  have e : (Marker.apply node nd h).listed
      = h.s_live.erase node ++ (h.s_reachable.erase node ++ [node]) ++ h.zombies.erase node := rfl
  have h1 : (h.s_live.erase node ++ (h.s_reachable.erase node ++ [node]) ++ h.zombies.erase node).Perm
      (node :: (h.s_live.erase node ++ h.s_reachable.erase node ++ h.zombies.erase node)) := by
    rw [List.perm_iff_count]
    intro x
    simp only [List.count_append, List.count_cons, List.count_nil]
    omega
  rw [e]
  refine h1.trans ?_
  rw [erase_append3 node hnd]
  exact (List.perm_cons_erase hmem).symm

/-- Folding a visitor over a list of targets: a relation that is reflexive,
transitive and holds across every single visit holds across the fold. -/
theorem foldlM_rule (f : Heap → Nat → Option Heap) (Q : Heap → Heap → Prop)
    (hrefl : ∀ h, Q h h) (htrans : ∀ a b c, Q a b → Q b c → Q a c)
    (hf : ∀ h r h', f h r = some h' → Q h h') :
    ∀ (refs : List Nat) (h h' : Heap), refs.foldlM f h = some h' → Q h h' := by
  intro refs
  induction refs with
  | nil =>
    intro h h' hh
    simp at hh
    subst hh
    exact hrefl h
  | cons r rest ih =>
    intro h h' hh
    simp only [List.foldlM_cons, Option.bind_eq_bind, Option.bind_eq_some] at hh
    obtain ⟨h1, e1, e2⟩ := hh
    exact htrans _ _ _ (hf h r h1 e1) (ih h1 h' e2)

/-- Rule for the marker: a reflexive and transitive relation that holds across
the marking of one unmarked node holds across a whole call. -/
theorem Marker_call_rule (Q : Heap → Heap → Prop)
    (hrefl : ∀ h, Q h h) (htrans : ∀ a b c, Q a b → Q b c → Q a c)
    (hstep : ∀ h node nd, h.node? node = some nd → nd.m_bits_MARK ≠ h.s_mark →
      Q h (Marker.apply node nd h)) :
    ∀ (fuel node : Nat) (h h' : Heap), Marker.call fuel node h = some h' → Q h h' := by
  intro fuel
  induction fuel with
  | zero => intro node h h' hh; simp [Marker_call_zero] at hh
  | succ fuel ih =>
    intro node h h' hh
    cases hn : h.node? node with
    | none =>
      rw [Marker_call_dead hn] at hh
      cases hh
      exact hrefl h
    | some nd =>
      by_cases hm : nd.m_bits_MARK = h.s_mark
      · rw [Marker_call_marked hn hm] at hh
        cases hh
        exact hrefl h
      · rw [Marker_call_unmarked hn hm] at hh
        exact htrans _ _ _ (hstep h node nd hn hm)
          (foldlM_rule _ Q hrefl htrans (fun a r b hab => ih r a b hab) _ _ _ hh)

theorem visitRoots_rule (Q : Heap → Heap → Prop)
    (hrefl : ∀ h, Q h h) (htrans : ∀ a b c, Q a b → Q b c → Q a c)
    (hstep : ∀ h node nd, h.node? node = some nd → nd.m_bits_MARK ≠ h.s_mark →
      Q h (Marker.apply node nd h)) (fuel : Nat) (targets : List Nat) (h h' : Heap)
    (hh : visitRoots fuel targets h = some h') : Q h h' :=
  foldlM_rule _ Q hrefl htrans
    (fun a r b hab => Marker_call_rule Q hrefl htrans hstep fuel r a b hab) _ _ _ hh

end CXXR

namespace CXXR

open Heap GCNode

/-! ### The lists during the mark phase -/

theorem apply_marked_iff {h : Heap} {node : Nat} {nd : GCNode} (hn : h.node? node = some nd)
    (m : Nat) : (Marker.apply node nd h).marked m ↔ m = node ∨ h.marked m := by
  unfold marked
  have hs : (Marker.apply node nd h).s_mark = h.s_mark := rfl
  rw [hs]
  simp only [apply_node? hn]
  by_cases hm : m = node
  · subst hm
    simp
  · simp [hm]

theorem apply_MarkInv {R : List Nat} {h : Heap} {node : Nat} {nd : GCNode} (hI : h.MarkInv R)
    (hn : h.node? node = some nd) (hm : nd.m_bits_MARK ≠ h.s_mark) :
    (Marker.apply node nd h).MarkInv R := by
  have hnot : node ∉ h.s_reachable := by
    intro hmem
    obtain ⟨nd', hnd', hmk⟩ := (hI.reachable_marked node).mp hmem
    rw [hn] at hnd'
    cases hnd'
    exact hm hmk
  obtain ⟨l1, l2, l3, l4⟩ := apply_lists h node nd
  refine ⟨(apply_MarkRel hn hm).inv hI.inv
    (apply_listed_perm nd hI.inv.listed_nodup (hI.inv.listed_of_node hn)), ?_, ?_, ?_⟩
  · intro m
    rw [l2, List.erase_of_not_mem hnot, apply_marked_iff hn, List.mem_append, List.mem_singleton,
      hI.reachable_marked]
    tauto
  · rw [l3, hI.zombies_empty]
    rfl
  · rw [l4, l2, List.erase_of_not_mem hnot, hI.marks_applied]
    simp

theorem MarkKeeps_refl (h : Heap) : MarkKeeps h h := ⟨MarkRel.refl h, fun _ hI => hI⟩

theorem MarkKeeps_trans (a b c : Heap) (h1 : MarkKeeps a b) (h2 : MarkKeeps b c) :
    MarkKeeps a c :=
  ⟨h1.1.trans h2.1, fun R hI => h2.2 R (h1.2 R hI)⟩

theorem MarkKeeps_apply (h : Heap) (node : Nat) (nd : GCNode) (hn : h.node? node = some nd)
    (hm : nd.m_bits_MARK ≠ h.s_mark) : MarkKeeps h (Marker.apply node nd h) :=
  ⟨apply_MarkRel hn hm, fun _ hI => apply_MarkInv hI hn hm⟩

theorem Marker_call_keeps {fuel node : Nat} {h h' : Heap}
    (hh : Marker.call fuel node h = some h') : MarkKeeps h h' :=
  Marker_call_rule MarkKeeps MarkKeeps_refl MarkKeeps_trans MarkKeeps_apply fuel node h h' hh

theorem foldlM_call_keeps {fuel : Nat} {refs : List Nat} {h h' : Heap}
    (hh : refs.foldlM (fun acc r => Marker.call fuel r acc) h = some h') : MarkKeeps h h' :=
  foldlM_rule _ MarkKeeps MarkKeeps_refl MarkKeeps_trans
    (fun _ _ _ hab => Marker_call_keeps hab) _ _ _ hh

theorem Path_trans {h : Heap} {a b c : Nat} (h1 : Path h a b) (h2 : Path h b c) :
    Path h a c := by
  induction h2 with
  | refl => exact h1
  | step _ hb hc ih => exact Path.step ih hb hc

/-! ### Correctness of the marker -/

theorem RefsAlive_of_MarkRel {h h' : Heap} (hr : MarkRel h h') (ha : RefsAlive h) :
    RefsAlive h' := by
  intro a b hab
  rw [hr.isSome]
  exact ha a b ((hr.edge_iff a b).mp hab)

theorem Closed_of_subset {G G' : Nat → Prop} {h : Heap} (hc : Closed G h)
    (hsub : ∀ a, G a → G' a) : Closed G' h :=
  fun a b hma hG hab => hc a b hma (fun hg => hG (hsub a hg)) hab

/-- Visiting a list of targets, given what one visit achieves. -/
theorem visit_spec (fuel : Nat)
    (IH : ∀ node h h', Marker.call fuel node h = some h' → RefsAlive h →
      (∀ G, Closed G h → Closed G h') ∧ ((h.node? node).isSome → h'.marked node) ∧
      (∀ m, h'.marked m → h.marked m ∨ Path h node m)) :
    ∀ (refs : List Nat) (h h' : Heap),
      refs.foldlM (fun acc r => Marker.call fuel r acc) h = some h' → RefsAlive h →
      (∀ G, Closed G h → Closed G h') ∧ (∀ r ∈ refs, (h.node? r).isSome → h'.marked r) ∧
      (∀ m, h'.marked m → h.marked m ∨ ∃ r ∈ refs, Path h r m) := by
  intro refs
  induction refs with
  | nil =>
    intro h h' hh _
    simp at hh
    subst hh
    exact ⟨fun _ hc => hc, fun r hr => by simp at hr, fun m hm => Or.inl hm⟩
  | cons r rest ih =>
    intro h h' hh ha
    simp only [List.foldlM_cons, Option.bind_eq_bind, Option.bind_eq_some] at hh
    obtain ⟨h1, e1, e2⟩ := hh
    have k1 := (Marker_call_keeps e1).1
    have k2 := (foldlM_call_keeps e2).1
    obtain ⟨c1, t1, s1⟩ := IH r h h1 e1 ha
    obtain ⟨c2, t2, s2⟩ := ih h1 h' e2 (RefsAlive_of_MarkRel k1 ha)
    refine ⟨fun G hc => c2 G (c1 G hc), ?_, ?_⟩
    · intro x hx hsome
      simp only [List.mem_cons] at hx
      rcases hx with hx | hx
      · subst hx
        exact k2.marked_mono (t1 hsome)
      · exact t2 x hx (by rw [k1.isSome]; exact hsome)
    · intro m hm
      rcases s2 m hm with h0 | ⟨x, hx, hp⟩
      · rcases s1 m h0 with h00 | hp
        · exact Or.inl h00
        · exact Or.inr ⟨r, List.mem_cons_self _ _, hp⟩
      · exact Or.inr ⟨x, List.mem_cons_of_mem _ hx, (k1.path_iff x m).mp hp⟩

/-- One call of the marker: closedness of the marked set is kept, the target
ends marked, and every node it marks can be reached from the target. -/
theorem Marker_call_spec : ∀ (fuel node : Nat) (h h' : Heap),
    Marker.call fuel node h = some h' → RefsAlive h →
      (∀ G, Closed G h → Closed G h') ∧ ((h.node? node).isSome → h'.marked node) ∧
      (∀ m, h'.marked m → h.marked m ∨ Path h node m) := by
  intro fuel
  induction fuel with
  | zero => intro node h h' hh; simp [Marker_call_zero] at hh
  | succ fuel ih =>
    intro node h h' hh ha
    cases hn : h.node? node with
    | none =>
      rw [Marker_call_dead hn] at hh
      cases hh
      exact ⟨fun _ hc => hc, fun hs => by simp [hn] at hs, fun m hm => Or.inl hm⟩
    | some nd =>
      by_cases hm : nd.m_bits_MARK = h.s_mark
      · rw [Marker_call_marked hn hm] at hh
        cases hh
        exact ⟨fun _ hc => hc, fun _ => ⟨nd, hn, hm⟩, fun m hm' => Or.inl hm'⟩
      · rw [Marker_call_unmarked hn hm] at hh
        have k1 := apply_MarkRel hn hm
        have k2 := (foldlM_call_keeps hh).1
        obtain ⟨c2, t2, s2⟩ := visit_spec fuel ih nd.referents _ h' hh
          (RefsAlive_of_MarkRel k1 ha)
        have hnode1 : (Marker.apply node nd h).marked node := (apply_marked_iff hn node).mpr (Or.inl rfl)
        refine ⟨?_, fun _ => k2.marked_mono hnode1, ?_⟩
        · intro G hc
          have hc1 : Closed (fun x => G x ∨ x = node) (Marker.apply node nd h) := by
            intro a b hma hG hab
            have hane : a ≠ node := fun e => hG (Or.inr e)
            rcases (apply_marked_iff hn a).mp hma with e | hma0
            · exact absurd e hane
            · exact k1.marked_mono (hc a b hma0 (fun hg => hG (Or.inl hg)) ((k1.edge_iff a b).mp hab))
          have hc2 := c2 _ hc1
          intro a b hma hG hab
          by_cases hane : a = node
          · subst hane
            obtain ⟨x, hx, hbx⟩ := ((k1.trans k2).edge_iff a b).mp hab
            rw [hn] at hx
            cases hx
            have hbalive : ((Marker.apply a nd h).node? b).isSome := by
              rw [k1.isSome]
              exact ha a b ⟨nd, hn, hbx⟩
            exact t2 b hbx hbalive
          · exact hc2 a b hma (fun hg => hg.elim hG hane) hab
        · intro m hm'
          rcases s2 m hm' with h0 | ⟨x, hx, hp⟩
          · rcases (apply_marked_iff hn m).mp h0 with e | h00
            · subst e
              exact Or.inr Path.refl
            · exact Or.inl h00
          · right
            exact Path_trans (Path.step Path.refl hn hx) ((k1.path_iff x m).mp hp)

end CXXR

namespace CXXR

open Heap GCNode

/-! ### Termination of the marker -/

theorem sum_map_le_length {α : Type} (f : α → Nat) (hf : ∀ x, f x ≤ 1) :
    ∀ l : List α, (l.map f).sum ≤ l.length := by
  intro l
  induction l with
  | nil => simp
  | cons a l ih =>
    simp only [List.map_cons, List.sum_cons, List.length_cons]
    have := hf a
    omega

theorem unmarkedCount_le (h : Heap) : h.unmarkedCount ≤ h.nodes.length := by
  unfold unmarkedCount
  apply sum_map_le_length
  intro o
  cases o with
  | none => simp
  | some nd => simp only; split <;> omega

theorem apply_unmarkedCount {h : Heap} {node : Nat} {nd : GCNode} (hn : h.node? node = some nd)
    (hm : nd.m_bits_MARK ≠ h.s_mark) :
    (Marker.apply node nd h).unmarkedCount + 1 = h.unmarkedCount := by
  have key : ∀ (f : Option GCNode → Nat) (x : GCNode), f (some x) = 0 → f (some nd) = 1 →
      ((h.nodes.set node (some x)).map f).sum + 1 = (h.nodes.map f).sum := by
    intro f x h1 h2
    have := sum_map_set f h.nodes node (some x) (some nd) (node?_eq_some_iff.mp hn)
    omega
  have hs : (Marker.apply node nd h).s_mark = h.s_mark := rfl
  exact key _ _ (by simp [hs]) (by simp [hs, hm])

theorem foldlM_call_total (fuel : Nat)
    (IH : ∀ node h, h.unmarkedCount < fuel →
      ∃ h', Marker.call fuel node h = some h' ∧ h'.unmarkedCount ≤ h.unmarkedCount) :
    ∀ (refs : List Nat) (h : Heap), h.unmarkedCount < fuel →
      ∃ h', refs.foldlM (fun acc r => Marker.call fuel r acc) h = some h'
        ∧ h'.unmarkedCount ≤ h.unmarkedCount := by
  intro refs
  induction refs with
  | nil => intro h _; exact ⟨h, by simp, Nat.le_refl _⟩
  | cons r rest ih =>
    intro h hlt
    obtain ⟨h1, e1, l1⟩ := IH r h hlt
    obtain ⟨h2, e2, l2⟩ := ih h1 (by omega)
    refine ⟨h2, ?_, by omega⟩
    simp only [List.foldlM_cons, Option.bind_eq_bind, e1, Option.some_bind, e2]

/-- The marker returns when its fuel exceeds the number of unmarked nodes. -/
theorem Marker_call_total : ∀ (fuel node : Nat) (h : Heap), h.unmarkedCount < fuel →
    ∃ h', Marker.call fuel node h = some h' ∧ h'.unmarkedCount ≤ h.unmarkedCount := by
  intro fuel
  induction fuel with
  | zero => intro node h hlt; omega
  | succ fuel ih =>
    intro node h hlt
    cases hn : h.node? node with
    | none => exact ⟨h, Marker_call_dead hn, Nat.le_refl _⟩
    | some nd =>
      by_cases hm : nd.m_bits_MARK = h.s_mark
      · exact ⟨h, Marker_call_marked hn hm, Nat.le_refl _⟩
      · have hc := apply_unmarkedCount hn hm
        obtain ⟨h', e, l⟩ := foldlM_call_total fuel ih nd.referents (Marker.apply node nd h)
          (by omega)
        exact ⟨h', by rw [Marker_call_unmarked hn hm]; exact e, by omega⟩

theorem visitRoots_total (fuel : Nat) (targets : List Nat) (h : Heap)
    (hlt : h.unmarkedCount < fuel) :
    ∃ h', visitRoots fuel targets h = some h' ∧ h'.unmarkedCount ≤ h.unmarkedCount :=
  foldlM_call_total fuel (Marker_call_total fuel) targets h hlt

/-! ### States with the same graph -/

namespace Heap.SameGraph

theorem node? {a b : Heap} (hs : SameGraph a b) (m : Nat) : b.node? m = a.node? m :=
  node?_of_nodes_eq hs.nodes m

theorem marked_iff {a b : Heap} (hs : SameGraph a b) (m : Nat) : b.marked m ↔ a.marked m := by
  unfold Heap.marked
  rw [hs.node?, hs.s_mark]

theorem edge_same {a b : Heap} (hs : SameGraph a b) (x y : Nat) : b.edge x y ↔ a.edge x y := by
  unfold Heap.edge
  rw [hs.node?]

theorem refsAlive {a b : Heap} (hs : SameGraph a b) (ha : RefsAlive a) : RefsAlive b := by
  intro x y hxy
  rw [hs.node?]
  exact ha x y ((hs.edge_same x y).mp hxy)

theorem closed {a b : Heap} (hs : SameGraph a b) {G : Nat → Prop} (hc : Closed G a) :
    Closed G b := by
  intro x y hx hG hxy
  exact (hs.marked_iff y).mpr (hc x y ((hs.marked_iff x).mp hx) hG ((hs.edge_same x y).mp hxy))

theorem path_same {a b : Heap} (hs : SameGraph a b) (x y : Nat) : Path b x y ↔ Path a x y := by
  constructor
  · intro hp
    induction hp with
    | refl => exact Path.refl
    | step _ hn hc ih => exact Path.step ih (by rw [← hs.node?]; exact hn) hc
  · intro hp
    induction hp with
    | refl => exact Path.refl
    | step _ hn hc ih => exact Path.step ih (by rw [hs.node?]; exact hn) hc

theorem markInv {a b : Heap} (hs : SameGraph a b) {R : List Nat} (hI : a.MarkInv R) :
    b.MarkInv R := by
  refine ⟨Inv_congr hI.inv hs.nodes hs.s_live hs.s_reachable hs.zombies hs.s_moribund
    hs.s_num_nodes, ?_, ?_, ?_⟩
  · intro m
    rw [hs.s_reachable, hs.marked_iff]
    exact hI.reachable_marked m
  · rw [hs.zombies]; exact hI.zombies_empty
  · rw [hs.m_marks_applied, hs.s_reachable]; exact hI.marks_applied

theorem unmarkedCount {a b : Heap} (hs : SameGraph a b) : b.unmarkedCount = a.unmarkedCount := by
  unfold Heap.unmarkedCount
  rw [hs.nodes, hs.s_mark]

end Heap.SameGraph

end CXXR

namespace CXXR

open Heap GCNode

/-! ### The whole mark phase -/

theorem Path_of_nodes_eq {a b : Heap} (hn : b.nodes = a.nodes) (x y : Nat) :
    Path b x y ↔ Path a x y := by
  have hnode : ∀ m, b.node? m = a.node? m := node?_of_nodes_eq hn
  constructor
  · intro hp
    induction hp with
    | refl => exact Path.refl
    | step _ hb hc ih => exact Path.step ih (by rw [← hnode]; exact hb) hc
  · intro hp
    induction hp with
    | refl => exact Path.refl
    | step _ hb hc ih => exact Path.step ih (by rw [hnode]; exact hb) hc

theorem Reach_iff_path (h : Heap) (m : Nat) : Reach h m ↔ ∃ r ∈ h.roots, Path h r m := by
  constructor
  · intro hr
    induction hr with
    | root hmem => exact ⟨_, hmem, Path.refl⟩
    | edge _ hn hc ih =>
      obtain ⟨r, hr, hp⟩ := ih
      exact ⟨r, hr, Path.step hp hn hc⟩
  · rintro ⟨r, hr, hp⟩
    induction hp with
    | refl => exact Reach.root hr
    | step _ hn hc ih => exact Reach.edge ih hn hc

theorem mark_eq (h : Heap) :
    mark h =
      match visitRoots (h.nodes.length + 1) h.heap_roots h.toggled with
      | none => none
      | some h1 =>
        match visitRoots (h.nodes.length + 1) h1.stack_roots h1 with
        | none => none
        | some h2 =>
          match visitRoots (h.nodes.length + 1) (protectCstructs h2).2.protect_stack
              (protectCstructs h2).2 with
          | none => none
          | some h3 =>
            some (WeakRef_markThru (ProtectStack.unprotect (protectCstructs h2).1 h3)) := rfl

theorem protect_SameGraph (h : Heap) : SameGraph h (protectCstructs h).2 :=
  ⟨rfl, rfl, rfl, rfl, rfl, rfl, rfl, rfl⟩

theorem finish_SameGraph (k : Nat) (h : Heap) :
    SameGraph h (WeakRef_markThru (ProtectStack.unprotect k h)) :=
  ⟨rfl, rfl, rfl, rfl, rfl, rfl, rfl, rfl⟩

/-- The visit of the protection stack, with the C structures pushed before and
popped after it, seen from the state before the push. -/
theorem MarkRel_protect {h2 h3 : Heap} (hr : MarkRel (protectCstructs h2).2 h3) :
    MarkRel h2 (WeakRef_markThru (ProtectStack.unprotect (protectCstructs h2).1 h3)) := by
  have hst := hr.statics
  simp only [protectCstructs, Prod.mk.injEq] at hst
  obtain ⟨s1, s2, s3, s4, s5, s6, s7, s8⟩ := hst
  refine ⟨hr.nodes_length, hr.s_mark, hr.node_cases, hr.s_moribund, hr.s_num_nodes, hr.deleted,
    hr.bytes_allocated, ?_⟩
  simp only [WeakRef_markThru, ProtectStack.unprotect, protectCstructs, Prod.mk.injEq]
  refine ⟨s1, s2, s3, s4, s5, ?_, s7, s8⟩
  rw [s6]
  simp

theorem mark_total (h : Heap) : ∃ h', mark h = some h' := by
  have hfuel : h.toggled.unmarkedCount < h.nodes.length + 1 := by
    have := unmarkedCount_le h.toggled
    have e : h.toggled.nodes.length = h.nodes.length := rfl
    omega
  obtain ⟨h1, e1, l1⟩ := visitRoots_total (h.nodes.length + 1) h.heap_roots h.toggled hfuel
  obtain ⟨h2, e2, l2⟩ := visitRoots_total (h.nodes.length + 1) h1.stack_roots h1 (by omega)
  have hp : (protectCstructs h2).2.unmarkedCount = h2.unmarkedCount :=
    (protect_SameGraph h2).unmarkedCount
  obtain ⟨h3, e3, _⟩ := visitRoots_total (h.nodes.length + 1)
    (protectCstructs h2).2.protect_stack (protectCstructs h2).2 (by omega)
  refine ⟨WeakRef_markThru (ProtectStack.unprotect (protectCstructs h2).1 h3), ?_⟩
  rw [mark_eq, e1]
  simp only
  rw [e2]
  simp only
  rw [e3]

theorem toggled_MarkInv {h : Heap} (hw : h.wf) : h.toggled.MarkInv h.roots := by
  refine ⟨Inv_congr hw.inv rfl rfl rfl rfl rfl rfl, ?_, hw.zombies_empty, ?_⟩
  · intro m
    have e : h.toggled.s_reachable = h.s_reachable := rfl
    rw [e, hw.reachable_empty]
    constructor
    · intro hm; simp at hm
    · rintro ⟨nd, hnd, hmk⟩
      have hnd' : h.node? m = some nd := hnd
      have := hw.parity m (node?_lt hnd') nd hnd'
      have e2 : h.toggled.s_mark = !h.s_mark := rfl
      rw [e2, this] at hmk
      cases hb : h.s_mark <;> simp [hb] at hmk
  · have e : h.toggled.s_reachable = h.s_reachable := rfl
    rw [e, hw.reachable_empty]
    rfl

theorem toggled_unmarked {h : Heap} (hw : h.wf) (m : Nat) : ¬ h.toggled.marked m := by
  intro hm
  have := ((toggled_MarkInv hw).reachable_marked m).mpr hm
  have e : h.toggled.s_reachable = h.s_reachable := rfl
  rw [e, hw.reachable_empty] at this
  simp at this

theorem RefsAlive_of_Inv {R : List Nat} {h : Heap} (hI : h.Inv R) : RefsAlive h := by
  rintro a b ⟨nd, hnd, hb⟩
  exact hI.referent_alive hnd hb

/-- The mark phase on a well-formed heap: it returns, the marked nodes are the
nodes reachable from the roots, and they are the nodes of the reachable list. -/
theorem mark_spec {h : Heap} (hw : h.wf) :
    ∃ h', mark h = some h' ∧ MarkRel h.toggled h' ∧ h'.MarkInv h.roots ∧
      ∀ m, h'.marked m ↔ Reach h m := by
  have hfuel : h.toggled.unmarkedCount < h.nodes.length + 1 := by
    have := unmarkedCount_le h.toggled
    have e : h.toggled.nodes.length = h.nodes.length := rfl
    omega
  obtain ⟨h1, e1, l1⟩ := visitRoots_total (h.nodes.length + 1) h.heap_roots h.toggled hfuel
  obtain ⟨h2, e2, l2⟩ := visitRoots_total (h.nodes.length + 1) h1.stack_roots h1 (by omega)
  have hp : (protectCstructs h2).2.unmarkedCount = h2.unmarkedCount :=
    (protect_SameGraph h2).unmarkedCount
  obtain ⟨h3, e3, _⟩ := visitRoots_total (h.nodes.length + 1)
    (protectCstructs h2).2.protect_stack (protectCstructs h2).2 (by omega)
  have hmark : mark h = some (WeakRef_markThru (ProtectStack.unprotect (protectCstructs h2).1 h3)) := by
    rw [mark_eq, e1]
    simp only
    rw [e2]
    simp only
    rw [e3]
  -- the three visits
  have I0 := toggled_MarkInv hw
  have A0 : RefsAlive h.toggled := RefsAlive_of_Inv I0.inv
  have C0 : Closed (fun _ => False) h.toggled := fun a _ hma _ _ => absurd hma (toggled_unmarked hw a)
  have K1 := foldlM_call_keeps e1
  obtain ⟨c1, t1, s1⟩ := visit_spec _ (Marker_call_spec _) _ _ _ e1 A0
  have A1 := RefsAlive_of_MarkRel K1.1 A0
  have K2 := foldlM_call_keeps e2
  obtain ⟨c2, t2, s2⟩ := visit_spec _ (Marker_call_spec _) _ _ _ e2 A1
  have A2 := RefsAlive_of_MarkRel K2.1 A1
  have G2 := protect_SameGraph h2
  have K3 := foldlM_call_keeps e3
  obtain ⟨c3, t3, s3⟩ := visit_spec _ (Marker_call_spec _) _ _ _ e3 (G2.refsAlive A2)
  have G3 := finish_SameGraph (protectCstructs h2).1 h3
  -- frame
  have R12 : MarkRel h.toggled h2 := K1.1.trans K2.1
  have R23 := MarkRel_protect K3.1
  have Rall : MarkRel h.toggled
      (WeakRef_markThru (ProtectStack.unprotect (protectCstructs h2).1 h3)) := R12.trans R23
  have Iall : (WeakRef_markThru (ProtectStack.unprotect (protectCstructs h2).1 h3)).MarkInv h.roots :=
    G3.markInv (K3.2 _ (G2.markInv (K2.2 _ (K1.2 _ I0))))
  -- the root lists seen by the visits
  have st1 := K1.1.statics
  have st2 := R12.statics
  simp only [Prod.mk.injEq] at st1 st2
  have hsr : h1.stack_roots = h.stack_roots := st1.2.2.2.2.1
  have hps : (protectCstructs h2).2.protect_stack = h.protect_stack ++ h.cstructs := by
    show h2.protect_stack ++ h2.cstructs = _
    rw [st2.2.2.2.2.2.1, st2.2.2.2.2.2.2.1]
    rfl
  have Cfin : Closed (fun _ => False)
      (WeakRef_markThru (ProtectStack.unprotect (protectCstructs h2).1 h3)) :=
    G3.closed (c3 _ (G2.closed (c2 _ (c1 _ C0))))
  have hnodes0 : h.toggled.nodes = h.nodes := rfl
  have alive0 : ∀ m, (h.toggled.node? m) = h.node? m := node?_of_nodes_eq hnodes0
  refine ⟨_, hmark, Rall, Iall, ?_⟩
  intro m
  constructor
  · intro hm
    rw [Reach_iff_path]
    have hm3 : h3.marked m := (G3.marked_iff m).mp hm
    rcases s3 m hm3 with hm2 | ⟨r, hr, hpath⟩
    · have hm2' : h2.marked m := (G2.marked_iff m).mp hm2
      rcases s2 m hm2' with hm1 | ⟨r, hr, hpath⟩
      · rcases s1 m hm1 with hm0 | ⟨r, hr, hpath⟩
        · exact absurd hm0 (toggled_unmarked hw m)
        · refine ⟨r, ?_, (Path_of_nodes_eq hnodes0 r m).mp hpath⟩
          simp only [roots, List.mem_append]
          exact Or.inl (Or.inl (Or.inl hr))
      · refine ⟨r, ?_, (Path_of_nodes_eq hnodes0 r m).mp ((K1.1.path_iff r m).mp hpath)⟩
        rw [hsr] at hr
        simp only [roots, List.mem_append]
        exact Or.inl (Or.inl (Or.inr hr))
    · refine ⟨r, ?_, (Path_of_nodes_eq hnodes0 r m).mp
        ((R12.path_iff r m).mp ((G2.path_same r m).mp hpath))⟩
      rw [hps, List.mem_append] at hr
      simp only [roots, List.mem_append]
      rcases hr with hr | hr
      · exact Or.inl (Or.inr hr)
      · exact Or.inr hr
  · intro hr
    induction hr with
    | @root r hmem =>
      have halive : (h.node? r).isSome := hw.inv.roots_alive r hmem
      simp only [roots, List.mem_append] at hmem
      rcases hmem with ((hmem | hmem) | hmem) | hmem
      · have := t1 r hmem (by rw [alive0]; exact halive)
        exact (G3.marked_iff r).mpr
          (K3.1.marked_mono ((G2.marked_iff r).mpr (K2.1.marked_mono this)))
      · have := t2 r (hsr ▸ hmem) (by rw [K1.1.isSome, alive0]; exact halive)
        exact (G3.marked_iff r).mpr (K3.1.marked_mono ((G2.marked_iff r).mpr this))
      · have := t3 r (by rw [hps]; exact List.mem_append_left _ hmem)
          (by rw [G2.node?, R12.isSome, alive0]; exact halive)
        exact (G3.marked_iff r).mpr this
      · have := t3 r (by rw [hps]; exact List.mem_append_right _ hmem)
          (by rw [G2.node?, R12.isSome, alive0]; exact halive)
        exact (G3.marked_iff r).mpr this
    | @edge a b nd _ hn hc ih =>
      have hedge : (WeakRef_markThru (ProtectStack.unprotect (protectCstructs h2).1 h3)).edge a b :=
        (Rall.edge_iff a b).mpr ⟨nd, by rw [alive0]; exact hn, hc⟩
      exact Cfin a b ih (fun hf => hf) hedge

end CXXR

namespace CXXR

open Heap GCNode

/-! ## The sweep phase -/

/-- Moving nodes between the lists keeps the invariant. -/
theorem Inv_relist {R : List Nat} {h h' : Heap} (hI : h.Inv R) (hn : h'.nodes = h.nodes)
    (hm : h'.s_moribund = h.s_moribund) (hnum : h'.s_num_nodes = h.s_num_nodes)
    (hp : h'.listed.Perm h.listed) : h'.Inv R := by
  have hnode : ∀ m, h'.node? m = h.node? m := node?_of_nodes_eq hn
  have hin : ∀ m, h'.inEdges m = h.inEdges m := by intro m; simp [inEdges, hn]
  obtain ⟨a, b, c, d, e, f, g, i, j, k⟩ := hI
  refine ⟨hp.nodup_iff.mpr a, ?_, ?_, ?_, ?_, ?_, ?_, ?_, ?_, ?_⟩
  · intro n hn'; rw [hnode]; exact b n (hp.mem_iff.mp hn')
  · intro n hlt hs; exact hp.mem_iff.mpr (c n (hn ▸ hlt) (hnode n ▸ hs))
  · rw [hm]; exact d
  · intro n hn'; rw [hnode]; exact e n (hm ▸ hn')
  · intro n hlt nd hnd hodd; rw [hm]; exact f n (hn ▸ hlt) nd (hnode n ▸ hnd) hodd
  · intro n hlt nd hnd; rw [hin]; exact g n (hn ▸ hlt) nd (hnode n ▸ hnd)
  · intro n hlt nd hnd r hr; rw [hnode]; exact i n (hn ▸ hlt) nd (hnode n ▸ hnd) r hr
  · intro r hr; rw [hnode]; exact j r hr
  · rw [hnum, hp.length_eq]; exact k

theorem sum_map_eq_zero {α : Type} (f : α → Nat) :
    ∀ l : List α, (∀ x ∈ l, f x = 0) → (l.map f).sum = 0 := by
  intro l
  induction l with
  | nil => intro _; rfl
  | cons a l ih =>
    intro hz
    simp only [List.map_cons, List.sum_cons]
    rw [hz a (List.mem_cons_self _ _), ih (fun x hx => hz x (List.mem_cons_of_mem _ hx))]

/-- A node that no node of the store refers to has in-degree zero. -/
theorem inEdges_eq_zero {h : Heap} {z : Nat}
    (hz : ∀ y nd, h.node? y = some nd → z ∉ nd.referents) : h.inEdges z = 0 := by
  unfold inEdges
  apply sum_map_eq_zero
  intro o ho
  cases o with
  | none => rfl
  | some nd =>
    obtain ⟨i, hi, hget⟩ := List.getElem_of_mem ho
    have hnode : h.node? i = some nd := by rw [node?_eq_getElem hi, hget]
    simp only
    exact List.count_eq_zero_of_not_mem (hz i nd hnode)

theorem sweep_body_of_cons {h : Heap} {node : Nat} {rest : List Nat}
    (hl : h.s_live = node :: rest) :
    sweep_body h = zombies_splice_back node (detachReferents node h) := by
  simp [sweep_body, hl]

theorem zombies_splice_back_lists (node : Nat) (h : Heap) :
    (zombies_splice_back node h).s_live = h.s_live.erase node ∧
    (zombies_splice_back node h).s_reachable = h.s_reachable.erase node ∧
    (zombies_splice_back node h).zombies = h.zombies.erase node ++ [node] ∧
    (zombies_splice_back node h).nodes = h.nodes ∧
    (zombies_splice_back node h).s_moribund = h.s_moribund ∧
    (zombies_splice_back node h).s_num_nodes = h.s_num_nodes ∧
    (zombies_splice_back node h).deleted = h.deleted ∧
    (zombies_splice_back node h).fixed = h.fixed :=
  ⟨rfl, rfl, rfl, rfl, rfl, rfl, rfl, rfl⟩

theorem zombies_splice_back_perm {h : Heap} {node : Nat} (hnd : h.listed.Nodup)
    (hmem : node ∈ h.listed) : (zombies_splice_back node h).listed.Perm h.listed := by
  have e : (zombies_splice_back node h).listed
      = h.s_live.erase node ++ h.s_reachable.erase node ++ (h.zombies.erase node ++ [node]) := rfl
  have h1 : (h.s_live.erase node ++ h.s_reachable.erase node ++ (h.zombies.erase node ++ [node])).Perm
      (node :: (h.s_live.erase node ++ h.s_reachable.erase node ++ h.zombies.erase node)) := by
    rw [List.perm_iff_count]
    intro x
    simp only [List.count_append, List.count_cons, List.count_nil]
    omega
  rw [e]
  refine h1.trans ?_
  rw [erase_append3 node hnd]
  exact (List.perm_cons_erase hmem).symm

end CXXR

namespace CXXR

open Heap GCNode

/-! ### The first loop of `sweep` -/

theorem map_eq_isSome {α : Type} {f : GCNode → α} {a b : Option GCNode}
    (h : a.map f = b.map f) : a.isSome = b.isSome := by
  cases a <;> cases b <;> simp at h ⊢

theorem SweepInv_congr {R : List Nat} {h s s' : Heap} (hS : SweepInv R h s)
    (hn : s'.nodes = s.nodes) (h1 : s'.s_live = s.s_live) (h2 : s'.s_reachable = s.s_reachable)
    (h3 : s'.zombies = s.zombies) (h4 : s'.s_moribund = s.s_moribund)
    (h5 : s'.s_num_nodes = s.s_num_nodes) (h6 : s'.deleted = s.deleted) : SweepInv R h s' := by
  have hnode : ∀ m, s'.node? m = s.node? m := node?_of_nodes_eq hn
  refine ⟨Inv_congr hS.inv hn h1 h2 h3 h4 h5, ?_, ?_, ?_⟩
  · intro x hx
    rw [hnode]
    exact hS.frame x hx
  · intro z hz
    rw [hnode]
    exact hS.zombies_bare z (h3 ▸ hz)
  · obtain ⟨log, e, nd, hm⟩ := hS.log
    refine ⟨log, by rw [h6, e], nd, ?_⟩
    intro n
    rw [hnode]
    exact hm n

theorem sweep_body_step {R : List Nat} {h s : Heap} (hL : SweepLoopInv R h s)
    (hne : s.s_live ≠ []) :
    SweepLoopInv R h (sweep_body s) ∧ (sweep_body s).s_live.length < s.s_live.length ∧
      (sweep_body s).fixed = s.fixed := by
  obtain ⟨node, rest, hl⟩ := List.exists_cons_of_ne_nil hne
  have hI := hL.base.inv
  have hnodup := hI.listed_nodup
  have hlisted : s.listed = node :: rest ++ s.s_reachable ++ s.zombies := by
    simp [listed, hl]
  have hmem : node ∈ s.listed := by rw [hlisted]; simp
  rw [hlisted] at hnodup
  have hnd' : (node :: (rest ++ s.s_reachable ++ s.zombies)).Nodup := by
    simpa [List.append_assoc] using hnodup
  have hnot : node ∉ rest ++ s.s_reachable ++ s.zombies := (List.nodup_cons.mp hnd').1
  simp only [List.mem_append, not_or] at hnot
  obtain ⟨⟨hnrest, hnreach⟩, hnzomb⟩ := hnot
  obtain ⟨nd, hnd⟩ := Option.isSome_iff_exists.mp (hI.listed_alive node hmem)
  obtain ⟨dI, ⟨nd1, hnd1, hr1⟩, dR, _, dM, _, _, _⟩ := Inv_detachReferents hI hnd
  obtain ⟨f1, f2, f3, f4, f5, _, f7, _, f9⟩ := detachReferents_frame node s
  obtain ⟨z1, z2, z3, z4, z5, z6, z7, z8⟩ := zombies_splice_back_lists node (detachReferents node s)
  have hnode : ∀ m, (zombies_splice_back node (detachReferents node s)).node? m
      = (detachReferents node s).node? m := node?_of_nodes_eq z4
  have hlive' : (zombies_splice_back node (detachReferents node s)).s_live = rest := by
    rw [z1, f1, hl]
    simp
  have hreach' : (zombies_splice_back node (detachReferents node s)).s_reachable
      = s.s_reachable := by
    rw [z2, f2, List.erase_of_not_mem hnreach]
  have hzomb' : (zombies_splice_back node (detachReferents node s)).zombies
      = s.zombies ++ [node] := by
    rw [z3, f3, List.erase_of_not_mem hnzomb]
  have hmemd : node ∈ (detachReferents node s).listed := by
    simp only [listed, f1, f2, f3]
    exact hmem
  rw [sweep_body_of_cons hl]
  refine ⟨⟨⟨?_, ?_, ?_, ?_⟩, ?_, ?_⟩, ?_, ?_⟩
  · exact Inv_relist dI z4 z5 z6 (zombies_splice_back_perm dI.listed_nodup hmemd)
  · intro x hx
    have hxne : x ≠ node := fun e => hnreach (by rw [hL.s_reachable]; exact e ▸ hx)
    rw [hnode, dR x hxne, dM x]
    exact hL.base.frame x hx
  · intro z hz
    rw [hzomb', List.mem_append, List.mem_singleton] at hz
    rw [hnode]
    rcases hz with hz | hz
    · have hzne : z ≠ node := fun e => hnzomb (e ▸ hz)
      obtain ⟨y, hy, hyr⟩ := hL.base.zombies_bare z hz
      have := dR z hzne
      rw [hy] at this
      cases hx : (detachReferents node s).node? z with
      | none => simp [hx] at this
      | some x =>
        simp [hx] at this
        exact ⟨x, rfl, this.trans hyr⟩
    · subst hz
      exact ⟨nd1, hnd1, hr1⟩
  · obtain ⟨log, e, lnd, lm⟩ := hL.base.log
    refine ⟨log, by rw [z7, f4, e], lnd, ?_⟩
    intro n
    rw [lm n, hnode]
    have := f9 n
    constructor
    · rintro ⟨a, b⟩
      refine ⟨a, ?_⟩
      rw [b] at this
      cases hx : (detachReferents node s).node? n with
      | none => rfl
      | some x => simp [hx] at this
    · rintro ⟨a, b⟩
      refine ⟨a, ?_⟩
      rw [b] at this
      cases hx : s.node? n with
      | none => rfl
      | some x => simp [hx] at this
  · rw [hreach', hL.s_reachable]
  · rw [hzomb', hlive', List.append_assoc, ← hL.split, hl]
    rfl
  · rw [hlive', hl]
    simp
  · rw [z8, f7]

/-- The first loop of `sweep` ends with every node of the live list turned
into a zombie without edges. -/
theorem sweep_loop_spec {R : List Nat} {h : Heap} (hL : SweepLoopInv R h h) :
    ∃ s, whileLoop (fun s => !s.s_live.isEmpty) sweep_body h.s_live.length h = some s ∧
      SweepLoopInv R h s ∧ s.s_live = [] ∧ s.fixed = h.fixed := by
  obtain ⟨s, hs, ⟨hI, hf⟩, hc⟩ := whileLoop_rule (fun s : Heap => !s.s_live.isEmpty) sweep_body
    (fun s => SweepLoopInv R h s ∧ s.fixed = h.fixed) (fun s => s.s_live.length)
    (fun s hI hc => by
      obtain ⟨a, b, c⟩ := sweep_body_step hI.1 (isEmpty_false_iff.mp hc)
      exact ⟨⟨a, c.trans hI.2⟩, b⟩)
    h.s_live.length h ⟨hL, rfl⟩ (Nat.le_refl _)
  exact ⟨s, hs, hI, isEmpty_true_iff.mp hc, hf⟩

end CXXR

namespace CXXR

open Heap GCNode

/-! ### The moribund pass and the end of `sweep` -/

theorem SweepLiteInv_congr {R : List Nat} {h s s' : Heap} (hS : SweepLiteInv R h s)
    (hn : s'.nodes = s.nodes) (h1 : s'.s_live = s.s_live) (h2 : s'.s_reachable = s.s_reachable)
    (h3 : s'.zombies = s.zombies) (h4 : s'.s_moribund = s.s_moribund)
    (h5 : s'.s_num_nodes = s.s_num_nodes) (h6 : s'.deleted = s.deleted) :
    SweepLiteInv R h s' :=
  ⟨SweepInv_congr hS.base hn h1 h2 h3 h4 h5 h6, h1.trans hS.s_live, h2.trans hS.s_reachable,
    fun z hz => hS.zombies_sub z (h3 ▸ hz)⟩

/-- An edge between nodes of the reachable list of `h` is still there. -/
theorem Heap.SweepInv.edge_of {R : List Nat} {h s : Heap} (hS : SweepInv R h s) {y x : Nat}
    (hy : y ∈ h.s_reachable) : s.edge y x ↔ h.edge y x := by
  have := (hS.frame y hy).1
  unfold edge
  constructor
  · rintro ⟨nd, hnd, hx⟩
    rw [hnd] at this
    cases hh : h.node? y with
    | none => simp [hh] at this
    | some nd' =>
      simp [hh] at this
      exact ⟨nd', rfl, this ▸ hx⟩
  · rintro ⟨nd, hnd, hx⟩
    rw [hnd] at this
    cases hh : s.node? y with
    | none => simp [hh] at this
    | some nd' =>
      simp [hh] at this
      exact ⟨nd', rfl, this ▸ hx⟩

/-- During the moribund pass a node of the former reachable list is held by a
root or by an edge, so its count is not zero. -/
theorem Heap.SweepLiteInv.held {R : List Nat} {h s : Heap} (hpre : SweepPre R h)
    (hS : SweepLiteInv R h s) {x : Nat} (hx : x ∈ h.s_reachable) :
    0 < s.inEdges x + R.count x := by
  rcases hpre.held x hx with hr | ⟨y, hy, ndy, hndy, hxy⟩
  · have := List.count_pos_iff.mpr hr
    omega
  · obtain ⟨nd, hnd, hmem⟩ := (hS.base.edge_of hy).mpr ⟨ndy, hndy, hxy⟩
    have := inEdges_pos hnd hmem
    omega

/-- A zombie is referred to by nothing. -/
theorem Heap.SweepLiteInv.zombie_free {R : List Nat} {h s : Heap} (hpre : SweepPre R h)
    (hS : SweepLiteInv R h s) {z : Nat} (hz : z ∈ s.zombies) :
    z ∉ h.s_reachable ∧ s.inEdges z = 0 ∧ R.count z = 0 := by
  have hnodup := hS.base.inv.listed_nodup
  simp only [listed, hS.s_live, hS.s_reachable, List.append_nil] at hnodup
  rw [List.nodup_append] at hnodup
  have hzS : z ∉ h.s_reachable := fun hmem => hnodup.2.2 hmem hz
  refine ⟨hzS, ?_, ?_⟩
  · apply inEdges_eq_zero
    intro y nd hnd hmem
    have hy := hS.base.inv.listed_of_node hnd
    simp only [listed, hS.s_live, hS.s_reachable, List.append_nil, List.mem_append] at hy
    rcases hy with hy | hy
    · obtain ⟨ndy, hndy, hzy⟩ := (hS.base.edge_of hy).mp ⟨nd, hnd, hmem⟩
      exact hzS (hpre.closed y hy ndy hndy z hzy)
    · obtain ⟨nd', hnd', hr'⟩ := hS.base.zombies_bare y hy
      rw [hnd] at hnd'
      cases hnd'
      rw [hr'] at hmem
      simp at hmem
  · apply List.count_eq_zero_of_not_mem
    intro hr
    exact hzS (hpre.roots_reachable z hr)

/-- Deleting a zombie keeps what holds during the moribund pass. -/
theorem SweepLiteInv_delete {R : List Nat} {h s s' : Heap} (hS : SweepLiteInv R h s) {z : Nat}
    (hz : z ∈ s.zombies) (hzS : z ∉ h.s_reachable) (hI : s'.Inv R) (hdead : s'.node? z = none)
    (hR : ∀ m, m ≠ z → (s'.node? m).map GCNode.referents = (s.node? m).map GCNode.referents)
    (hM : ∀ m, m ≠ z → (s'.node? m).map GCNode.m_bits_MARK = (s.node? m).map GCNode.m_bits_MARK)
    (hlog : s'.deleted = s.deleted ++ [z]) (h1 : s'.s_live = s.s_live.erase z)
    (h2 : s'.s_reachable = s.s_reachable.erase z) (h3 : s'.zombies = s.zombies.erase z) :
    SweepLiteInv R h s' := by
  have hzn : (s.zombies).Nodup := by
    have := hS.base.inv.listed_nodup
    simp only [listed] at this
    exact (List.nodup_append.mp this).2.1
  obtain ⟨zd, hzd, _⟩ := hS.base.zombies_bare z hz
  refine ⟨⟨hI, ?_, ?_, ?_⟩, ?_, ?_, ?_⟩
  · intro x hx
    have hxz : x ≠ z := fun e => hzS (e ▸ hx)
    rw [hR x hxz, hM x hxz]
    exact hS.base.frame x hx
  · intro y hy
    rw [h3, hzn.mem_erase_iff] at hy
    obtain ⟨nd, hnd, hr⟩ := hS.base.zombies_bare y hy.2
    have := hR y hy.1
    rw [hnd] at this
    cases hx : s'.node? y with
    | none => simp [hx] at this
    | some x =>
      simp [hx] at this
      exact ⟨x, rfl, this.trans hr⟩
  · obtain ⟨log, e, lnd, lm⟩ := hS.base.log
    refine ⟨log ++ [z], by rw [hlog, e, List.append_assoc], ?_, ?_⟩
    · rw [List.nodup_append]
      refine ⟨lnd, List.nodup_singleton z, ?_⟩
      intro a ha hb
      simp at hb
      subst hb
      have := ((lm a).mp ha).2
      rw [hzd] at this
      cases this
    · intro n
      rw [List.mem_append, List.mem_singleton, lm n]
      by_cases hnz : n = z
      · subst hnz
        simp only [hdead, and_true, or_true, true_iff]
        exact hS.zombies_sub n hz
      · have := map_eq_isSome (hR n hnz)
        simp only [hnz, or_false]
        constructor
        · rintro ⟨a, b⟩
          refine ⟨a, ?_⟩
          rw [b] at this
          cases hx : s'.node? n with
          | none => rfl
          | some x => simp [hx] at this
        · rintro ⟨a, b⟩
          refine ⟨a, ?_⟩
          rw [b] at this
          cases hx : s.node? n with
          | none => rfl
          | some x => simp [hx] at this
  · rw [h1, hS.s_live]
    exact List.erase_of_not_mem hzS
  · rw [h2, hS.s_reachable]
    rfl
  · intro y hy
    rw [h3] at hy
    exact hS.zombies_sub y (List.mem_of_mem_erase hy)

/-- One iteration of the moribund pass inside `sweep`. -/
theorem SweepLiteInv_gclite_body {R : List Nat} {h s : Heap} (hpre : SweepPre R h)
    (hS : SweepLiteInv R h s) (hne : s.s_moribund ≠ []) : SweepLiteInv R h (gclite_body s) := by
  rcases List.eq_nil_or_concat s.s_moribund with hm | ⟨ms, node, hm⟩
  · exact absurd hm hne
  rw [List.concat_eq_append] at hm
  obtain ⟨nd, hnd, hodd, bI, _, bR, bM, _, bdel, bsurv⟩ := Inv_gclite_body hS.base.inv hm
  by_cases h1 : nd.m_refcount = 1
  · obtain ⟨dDead, dLog, dIn, dRc, dL, dRe, dZ⟩ := bdel h1
    have hnS : node ∉ h.s_reachable := by
      intro hmem
      have := hS.held hpre hmem
      omega
    have hz : node ∈ s.zombies := by
      have := hS.base.inv.listed_of_node hnd
      simp only [listed, hS.s_live, hS.s_reachable, List.append_nil, List.mem_append] at this
      rcases this with h0 | h0
      · exact absurd h0 hnS
      · exact h0
    exact SweepLiteInv_delete hS hz hnS bI dDead bR bM dLog dL dRe dZ
  · obtain ⟨sN, sLog, sL, sRe, sZ, _⟩ := bsurv h1
    have hR : ∀ m, ((gclite_body s).node? m).map GCNode.referents
        = (s.node? m).map GCNode.referents := by
      intro m
      by_cases hmn : m = node
      · subst hmn; rw [sN, hnd]; rfl
      · exact bR m hmn
    have hM : ∀ m, ((gclite_body s).node? m).map GCNode.m_bits_MARK
        = (s.node? m).map GCNode.m_bits_MARK := by
      intro m
      by_cases hmn : m = node
      · subst hmn; rw [sN, hnd]; rfl
      · exact bM m hmn
    refine ⟨⟨bI, ?_, ?_, ?_⟩, sL.trans hS.s_live, sRe.trans hS.s_reachable, ?_⟩
    · intro x hx
      rw [hR, hM]
      exact hS.base.frame x hx
    · intro y hy
      rw [sZ] at hy
      obtain ⟨yd, hyd, hr⟩ := hS.base.zombies_bare y hy
      have := hR y
      rw [hyd] at this
      cases hx : (gclite_body s).node? y with
      | none => simp [hx] at this
      | some x =>
        simp [hx] at this
        exact ⟨x, rfl, this.trans hr⟩
    · obtain ⟨log, e, lnd, lm⟩ := hS.base.log
      refine ⟨log, by rw [sLog, e], lnd, ?_⟩
      intro n
      rw [lm n]
      have := map_eq_isSome (hR n)
      constructor
      · rintro ⟨a, b⟩
        refine ⟨a, ?_⟩
        rw [b] at this
        cases hx : (gclite_body s).node? n with
        | none => rfl
        | some x => simp [hx] at this
      · rintro ⟨a, b⟩
        refine ⟨a, ?_⟩
        rw [b] at this
        cases hx : s.node? n with
        | none => rfl
        | some x => simp [hx] at this
    · intro y hy
      rw [sZ] at hy
      exact hS.zombies_sub y hy

/-- The destructor of the zombie list deletes what the moribund pass left. -/
theorem zombies_destroy_spec {R : List Nat} {h : Heap} (hpre : SweepPre R h) :
    ∀ (l : List Nat) (s : Heap), SweepLiteInv R h s → s.s_moribund = [] → s.zombies = l →
      SweepLiteInv R h (l.foldl (fun acc z => deleteNode z acc) s) ∧
      (l.foldl (fun acc z => deleteNode z acc) s).zombies = [] ∧
      (l.foldl (fun acc z => deleteNode z acc) s).s_moribund = [] ∧
      (l.foldl (fun acc z => deleteNode z acc) s).fixed = s.fixed ∧
      (l.foldl (fun acc z => deleteNode z acc) s).deleted = s.deleted ++ l := by
  intro l
  induction l with
  | nil => intro s hS hm hz; exact ⟨hS, hz, hm, rfl, by simp⟩
  | cons z rest ih =>
    intro s hS hm hz
    have hzmem : z ∈ s.zombies := by rw [hz]; exact List.mem_cons_self _ _
    obtain ⟨hzS, hin, hRc⟩ := hS.zombie_free hpre hzmem
    obtain ⟨nd, hnd, hr⟩ := hS.base.zombies_bare z hzmem
    obtain ⟨dI, dDead, dR, _, dM, dMor, _, dLog, dL, dRe, dZ, dF⟩ :=
      Inv_deleteNode hS.base.inv hnd hin hRc (by rw [hm]; simp)
    have hS' := SweepLiteInv_delete hS hzmem hzS dI dDead dR dM dLog dL dRe dZ
    have hm' : (deleteNode z s).s_moribund = [] := by
      apply List.eq_nil_iff_forall_not_mem.mpr
      intro a ha
      rcases dMor a ha with h0 | h0
      · rw [hm] at h0; simp at h0
      · rw [hr] at h0; simp at h0
    have hz' : (deleteNode z s).zombies = rest := by
      rw [dZ, hz]
      simp
    obtain ⟨a, b, c, d, e⟩ := ih (deleteNode z s) hS' hm' hz'
    refine ⟨a, b, c, d.trans dF, ?_⟩
    simp only [List.foldl_cons]
    rw [e, dLog, List.append_assoc]
    rfl

end CXXR

namespace CXXR

open Heap GCNode

theorem zombies_reset_eq {h : Heap} (hz : h.zombies = []) :
    ({ h with zombies := [] } : Heap) = h := by
  cases h
  simp only at hz
  subst hz
  rfl

theorem sweep_eq (h : Heap) :
    sweep h =
      match whileLoop (fun s => !s.s_live.isEmpty) sweep_body
          ({ h with zombies := [] } : Heap).s_live.length { h with zombies := [] } with
      | none => none
      | some h1 =>
        match gclite (s_live_splice_back_s_reachable h1) with
        | none => none
        | some h2 => some (zombies_destroy h2) := rfl

theorem SweepLoopInv_start {R : List Nat} {h : Heap} (hpre : SweepPre R h) :
    SweepLoopInv R h h := by
  refine ⟨⟨hpre.inv, fun _ _ => ⟨rfl, rfl⟩, ?_, ?_⟩, rfl, ?_⟩
  · intro z hz
    rw [hpre.zombies_empty] at hz
    simp at hz
  · refine ⟨[], by simp, List.nodup_nil, ?_⟩
    intro n
    constructor
    · intro hn; simp at hn
    · rintro ⟨hl, hd⟩
      have : n ∈ h.listed := by
        simp only [listed, List.mem_append]
        exact Or.inl (Or.inl hl)
      have := hpre.inv.listed_alive n this
      rw [hd] at this
      simp at this
  · rw [hpre.zombies_empty]
    rfl

theorem SweepLiteInv_splice {R : List Nat} {h s : Heap} (hL : SweepLoopInv R h s)
    (hl : s.s_live = []) : SweepLiteInv R h (s_live_splice_back_s_reachable s) := by
  have hp : (s_live_splice_back_s_reachable s).listed.Perm s.listed := by
    have : (s_live_splice_back_s_reachable s).listed = s.listed := by
      simp [listed, s_live_splice_back_s_reachable]
    rw [this]
  have hz : s.zombies = h.s_live := by
    have := hL.split
    rw [hl, List.append_nil] at this
    exact this
  refine ⟨⟨Inv_relist hL.base.inv rfl rfl rfl hp, hL.base.frame, hL.base.zombies_bare,
    hL.base.log⟩, ?_, rfl, ?_⟩
  · show s.s_live ++ s.s_reachable = _
    rw [hl, hL.s_reachable]
    rfl
  · intro z hzm
    have hzm' : z ∈ s.zombies := hzm
    rw [hz] at hzm'
    exact hzm'

/-- The sweep phase on a heap as `mark` leaves it: it returns; the nodes of the
reachable list, now the live list, are where they were; every node of the
former live list has been deleted once; no list but the live list has a node
left. -/
theorem sweep_spec {R : List Nat} {h : Heap} (hpre : SweepPre R h) :
    ∃ F, sweep h = some F ∧ SweepLiteInv R h F ∧ F.zombies = [] ∧ F.s_moribund = [] ∧
      F.fixed = h.fixed ∧
      ∃ s1 h2, gclite (s_live_splice_back_s_reachable s1) = some h2 ∧ SweepLiteInv R h h2 ∧
        F = zombies_destroy h2 ∧ F.deleted = h2.deleted ++ h2.zombies := by
  obtain ⟨s1, e1, L1, hl1, f1⟩ := sweep_loop_spec (SweepLoopInv_start hpre)
  have S1 := SweepLiteInv_splice L1 hl1
  have hf1 : (s_live_splice_back_s_reachable s1).fixed = h.fixed := f1
  have hic : (s_live_splice_back_s_reachable s1).s_inhibitor_count = 0 := by
    have := congrArg (fun t => t.2.2.2.1) hf1
    simp only [fixed] at this
    rw [this]
    exact hpre.not_inhibited
  obtain ⟨s2, e2, S2, hm2⟩ := gclite_rule (fun s => SweepLiteInv R h s)
    (fun s hS hne => SweepLiteInv_gclite_body hpre hS hne) (s_live_splice_back_s_reachable s1) hic
    (SweepLiteInv_congr S1 rfl rfl rfl rfl rfl rfl rfl)
  obtain ⟨h2, e2', f2, _⟩ := gclite_total (s_live_splice_back_s_reachable s1)
  have hh2 : h2 = GCInhibitor.leave (ProtectStack.unprotect
      (s_live_splice_back_s_reachable s1).cstructs.length s2) := by
    rw [e2] at e2'
    exact (Option.some.inj e2').symm
  have S2' : SweepLiteInv R h h2 := by
    rw [hh2]
    exact SweepLiteInv_congr S2 rfl rfl rfl rfl rfl rfl rfl
  have hm2' : h2.s_moribund = [] := by
    rw [hh2]
    exact hm2
  obtain ⟨SF, zF, mF, fF, dF⟩ := zombies_destroy_spec hpre h2.zombies h2 S2' hm2' rfl
  refine ⟨zombies_destroy h2, ?_, SF, zF, mF, ?_, s1, h2, e2', S2', rfl, dF⟩
  · rw [sweep_eq, zombies_reset_eq hpre.zombies_empty, e1]
    simp only
    rw [e2']
  · exact fF.trans (f2.trans hf1)

/-- After `sweep` the nodes of the store are the nodes of the former reachable
list. -/
theorem Heap.SweepLiteInv.alive_iff {R : List Nat} {h F : Heap}
    (hS : SweepLiteInv R h F) (hz : F.zombies = []) (n : Nat) :
    (F.node? n).isSome ↔ n ∈ h.s_reachable := by
  constructor
  · intro hn
    have := hS.base.inv.alive_listed n (node?_isSome_lt hn) hn
    simpa [listed, hS.s_live, hS.s_reachable, hz] using this
  · intro hn
    apply hS.base.inv.listed_alive
    simp [listed, hS.s_live, hS.s_reachable, hz, hn]

end CXXR

namespace CXXR

open Heap GCNode

/-! ## A whole collection -/

theorem gc_of_clear {h h1 h2 : Heap}
    (hc : (h.s_under_construction + h.s_inhibitor_count) % UINT_MOD = 0)
    (hm : mark h = some h1) (hs : sweep h1 = some h2) : gc h = Result.ok h2 := by
  unfold gc
  simp [hc, hm, hs]

theorem gc_of_blocked {h : Heap}
    (hc : (h.s_under_construction + h.s_inhibitor_count) % UINT_MOD ≠ 0) :
    gc h = Result.abort h := by
  unfold gc
  simp [hc]

/-- The heap that `mark` leaves is one that `sweep` can work on. -/
theorem SweepPre_of_mark {h h1 : Heap} (hi : h.s_inhibitor_count = 0)
    (hr : MarkRel h.toggled h1) (hI : h1.MarkInv h.roots)
    (hm : ∀ m, h1.marked m ↔ Reach h m) : SweepPre h.roots h1 := by
  have hedge : ∀ a b, h1.edge a b ↔ h.edge a b := by
    intro a b
    rw [hr.edge_iff]
    unfold edge
    rw [node?_of_nodes_eq (show h.toggled.nodes = h.nodes from rfl)]
  have hst := hr.statics
  simp only [Prod.mk.injEq] at hst
  refine ⟨hI.inv, hI.zombies_empty, ?_, ?_, ?_, ?_⟩
  · intro r hrm
    exact (hI.reachable_marked r).mpr ((hm r).mpr (Reach.root hrm))
  · intro y hy ndy hndy x hyx
    have hy' : Reach h y := (hm y).mp ((hI.reachable_marked y).mp hy)
    obtain ⟨nd, hnd, hx⟩ := (hedge y x).mp ⟨ndy, hndy, hyx⟩
    exact (hI.reachable_marked x).mpr ((hm x).mpr (Reach.edge hy' hnd hx))
  · intro x hx
    have hx' : Reach h x := (hm x).mp ((hI.reachable_marked x).mp hx)
    cases hx' with
    | root hmem => exact Or.inl hmem
    | @edge m _ nd hm' hn hc =>
      right
      obtain ⟨nd1, hnd1, hx1⟩ := (hedge m x).mpr ⟨nd, hn, hc⟩
      exact ⟨m, (hI.reachable_marked m).mpr ((hm m).mpr hm'), nd1, hnd1, hx1⟩
  · rw [hst.2.2.1]
    exact hi

theorem roots_of_fields {a b : Heap} (h1 : a.heap_roots = b.heap_roots)
    (h2 : a.stack_roots = b.stack_roots) (h3 : a.protect_stack = b.protect_stack)
    (h4 : a.cstructs = b.cstructs) : a.roots = b.roots := by
  simp [roots, h1, h2, h3, h4]

/-- A collection on a well-formed heap with nothing under construction and no
inhibitor. -/
theorem gc_spec {h : Heap} (hw : h.wf) (huc : h.s_under_construction = 0)
    (hi : h.s_inhibitor_count = 0) : ∃ F, gc h = Result.ok F ∧ Collected h F := by
  obtain ⟨h1, e1, hr, hI, hm⟩ := mark_spec hw
  have hpre := SweepPre_of_mark hi hr hI hm
  obtain ⟨F, e2, SF, zF, mF, fF, _⟩ := sweep_spec hpre
  have hc : (h.s_under_construction + h.s_inhibitor_count) % UINT_MOD = 0 := by
    rw [huc, hi]
    simp
  have hst := hr.statics
  simp only [Prod.mk.injEq] at hst
  obtain ⟨t1, t2, t3, t4, t5, t6, t7, t8⟩ := hst
  have hfx := fF
  simp only [fixed, Prod.mk.injEq] at hfx
  obtain ⟨x1, x2, x3, x4, x5, x6, x7, x8, _, x10, _⟩ := hfx
  have hroots : F.roots = h.roots :=
    roots_of_fields (x5.trans t4) (x6.trans t5) (x7.trans t6) (x8.trans t7)
  have halive : ∀ n, (F.node? n).isSome ↔ Reach h n := by
    intro n
    rw [SF.alive_iff zF, hI.reachable_marked, hm]
  have hnode0 : ∀ m, h.toggled.node? m = h.node? m :=
    node?_of_nodes_eq (show h.toggled.nodes = h.nodes from rfl)
  refine ⟨F, gc_of_clear hc e1 e2, ⟨⟨?_, SF.s_reachable, zF, ?_⟩, halive, ?_, ?_, ?_, mF, ?_,
    hroots, ⟨x3.trans t2, x4.trans t3, x1.trans t1, x10.trans t8⟩⟩⟩
  · rw [hroots]
    exact SF.base.inv
  · intro n _ nd hnd
    rw [Option.mem_def] at hnd
    have hn : n ∈ h1.s_reachable := (SF.alive_iff zF n).mp (by simp [hnd])
    obtain ⟨nd1, hnd1, hmk⟩ := (hI.reachable_marked n).mp hn
    have := (SF.base.frame n hn).2
    rw [hnd, hnd1] at this
    simp only [Option.map_some', Option.some.injEq] at this
    rw [this, hmk, x2]
  · intro n hn
    have hn1 : n ∈ h1.s_reachable := (hI.reachable_marked n).mpr ((hm n).mpr hn)
    rw [(SF.base.frame n hn1).1, hr.referents, hnode0]
  · rw [x2, hr.s_mark]
    rfl
  · intro n
    rw [SF.s_live, hI.reachable_marked, hm]
  · obtain ⟨log, e, lnd, lm⟩ := SF.base.log
    refine ⟨log, by rw [e, hr.deleted]; rfl, lnd, ?_⟩
    intro n
    rw [lm n]
    have hnd := hI.inv.listed_nodup
    simp only [listed, hI.zombies_empty, List.append_nil] at hnd
    rw [List.nodup_append] at hnd
    have hsome : (h1.node? n).isSome = (h.node? n).isSome := by
      rw [hr.isSome, hnode0]
    constructor
    · rintro ⟨hl, _⟩
      have hal : (h1.node? n).isSome := hI.inv.listed_alive n (by simp [listed, hl])
      refine ⟨hsome ▸ hal, ?_⟩
      intro hreach
      exact hnd.2.2 hl ((hI.reachable_marked n).mpr ((hm n).mpr hreach))
    · rintro ⟨hal, hnr⟩
      have hl := hI.inv.alive_listed n (node?_isSome_lt (hsome ▸ hal)) (hsome ▸ hal)
      simp only [listed, hI.zombies_empty, List.append_nil, List.mem_append] at hl
      have hdead : F.node? n = none := by
        cases hx : F.node? n with
        | none => rfl
        | some x => exact absurd ((halive n).mp (by simp [hx])) hnr
      rcases hl with hl | hl
      · exact ⟨hl, hdead⟩
      · exact absurd ((hm n).mp ((hI.reachable_marked n).mp hl)) hnr

end CXXR

namespace CXXR

open Heap GCNode

/-! ## Termination on every heap -/

/-- `mark` returns on every heap; apart from the marks it sets and the lists it
fills it changes the parity only. -/
theorem mark_rel (h : Heap) : ∃ h', mark h = some h' ∧ MarkRel h.toggled h' := by
  have hfuel : h.toggled.unmarkedCount < h.nodes.length + 1 := by
    have := unmarkedCount_le h.toggled
    have e : h.toggled.nodes.length = h.nodes.length := rfl
    omega
  obtain ⟨h1, e1, l1⟩ := visitRoots_total (h.nodes.length + 1) h.heap_roots h.toggled hfuel
  obtain ⟨h2, e2, l2⟩ := visitRoots_total (h.nodes.length + 1) h1.stack_roots h1 (by omega)
  have hp : (protectCstructs h2).2.unmarkedCount = h2.unmarkedCount :=
    (protect_SameGraph h2).unmarkedCount
  obtain ⟨h3, e3, _⟩ := visitRoots_total (h.nodes.length + 1)
    (protectCstructs h2).2.protect_stack (protectCstructs h2).2 (by omega)
  refine ⟨WeakRef_markThru (ProtectStack.unprotect (protectCstructs h2).1 h3), ?_, ?_⟩
  · rw [mark_eq, e1]
    simp only
    rw [e2]
    simp only
    rw [e3]
  · exact ((foldlM_call_keeps e1).1.trans (foldlM_call_keeps e2).1).trans
      (MarkRel_protect (foldlM_call_keeps e3).1)

theorem sweep_body_fixed (s : Heap) :
    (sweep_body s).fixed = s.fixed ∧
      (s.s_live ≠ [] → (sweep_body s).s_live.length < s.s_live.length) := by
  cases hl : s.s_live with
  | nil => simp [sweep_body, hl]
  | cons node rest =>
    rw [sweep_body_of_cons hl]
    obtain ⟨f1, _, _, _, _, _, f7, _, _⟩ := detachReferents_frame node s
    obtain ⟨z1, _, _, _, _, _, _, z8⟩ := zombies_splice_back_lists node (detachReferents node s)
    refine ⟨z8.trans f7, fun _ => ?_⟩
    rw [z1, f1, hl]
    simp

theorem zombies_destroy_fixed : ∀ (l : List Nat) (s : Heap),
    (l.foldl (fun acc z => deleteNode z acc) s).fixed = s.fixed := by
  intro l
  induction l with
  | nil => intro s; rfl
  | cons z rest ih =>
    intro s
    simp only [List.foldl_cons]
    rw [ih, deleteNode_fixed]

/-- `sweep` returns on every heap and leaves the roots, the parity and the
counters of construction and inhibition alone. -/
theorem sweep_total (h : Heap) : ∃ F, sweep h = some F ∧ F.fixed = h.fixed := by
  obtain ⟨s1, e1, f1, _⟩ := whileLoop_rule (fun s : Heap => !s.s_live.isEmpty) sweep_body
    (fun s => s.fixed = h.fixed) (fun s => s.s_live.length)
    (fun s hI hc => by
      obtain ⟨a, b⟩ := sweep_body_fixed s
      exact ⟨a.trans hI, b (isEmpty_false_iff.mp hc)⟩)
    ({ h with zombies := [] } : Heap).s_live.length { h with zombies := [] } rfl (Nat.le_refl _)
  obtain ⟨h2, e2, f2, _⟩ := gclite_total (s_live_splice_back_s_reachable s1)
  refine ⟨zombies_destroy h2, ?_, ?_⟩
  · rw [sweep_eq, e1]
    simp only
    rw [e2]
  · have hf1 : (s_live_splice_back_s_reachable s1).fixed = s1.fixed := rfl
    unfold zombies_destroy
    rw [zombies_destroy_fixed, f2, hf1, f1]

/-- Unless it aborts, `gc` returns, with the parity toggled. -/
theorem gc_total {h : Heap}
    (hc : (h.s_under_construction + h.s_inhibitor_count) % UINT_MOD = 0) :
    ∃ F, gc h = Result.ok F ∧ F.s_mark = !h.s_mark := by
  obtain ⟨h1, e1, hr⟩ := mark_rel h
  obtain ⟨F, e2, f2⟩ := sweep_total h1
  refine ⟨F, gc_of_clear hc e1 e2, ?_⟩
  have := congrArg (fun t => t.2.1) f2
  simp only [fixed] at this
  rw [this, hr.s_mark]
  rfl

end CXXR

namespace CXXR

open Heap GCNode

/-! ## The consistency check -/

theorem lacksMoribundBit_none (h : Heap) :
    (h.s_moribund.any (lacksMoribundBit h)) = false ↔
      ∀ n ∈ h.s_moribund, ∃ nd, h.node? n = some nd ∧ nd.m_refcount % 2 = 1 := by
  rw [List.any_eq_false]
  constructor
  · intro hall n hn
    have := hall n hn
    unfold lacksMoribundBit at this
    cases hx : h.node? n with
    | none => simp [hx] at this
    | some nd =>
      simp only [hx, beq_iff_eq] at this
      exact ⟨nd, rfl, by omega⟩
  · intro hall n hn
    obtain ⟨nd, hnd, hodd⟩ := hall n hn
    unfold lacksMoribundBit
    simp only [hnd, beq_iff_eq]
    omega

theorem check_form (h : Heap) :
    check h = (if h.initialised = true ∧ (h.s_moribund.any (lacksMoribundBit h)) = false ∧
      h.s_num_nodes = h.s_live.length % UINT_MOD then Result.ok true else Result.abort h) := by
  have hc1 : (h.s_live.length % UINT_MOD = h.s_num_nodes)
      ↔ (h.s_num_nodes = h.s_live.length % UINT_MOD) := eq_comm
  unfold check
  generalize (h.s_moribund.any (lacksMoribundBit h)) = b
  cases b <;> cases hi : h.initialised <;>
    by_cases hc : h.s_num_nodes = h.s_live.length % UINT_MOD <;>
    simp [hc1, hc]

theorem check_ok_iff (h : Heap) :
    check h = Result.ok true ↔
      (h.initialised = true ∧ h.s_num_nodes = h.s_live.length % UINT_MOD ∧
        ∀ n ∈ h.s_moribund, ∃ nd, h.node? n = some nd ∧ nd.m_refcount % 2 = 1) := by
  rw [← lacksMoribundBit_none, check_form]
  constructor
  · intro e
    split at e
    · rename_i hc
      exact ⟨hc.1, hc.2.2, hc.2.1⟩
    · cases e
  · rintro ⟨a, b, c⟩
    rw [if_pos ⟨a, c, b⟩]

theorem check_ok_or_abort (h : Heap) :
    check h = Result.ok true ∨ check h = Result.abort h := by
  rw [check_form]
  split
  · exact Or.inl rfl
  · exact Or.inr rfl

end CXXR

namespace CXXR

open Heap GCNode

/-! ## The operations of a program keep the heap well formed -/

theorem UINT_MOD_pos : 0 < UINT_MOD := by
  rw [UINT_MOD_eq]
  norm_num

theorem uint_inc_mod (x : Nat) : uint_inc (x % UINT_MOD) = (x + 1) % UINT_MOD := by
  unfold uint_inc
  exact Nat.mod_add_mod x UINT_MOD 1

theorem uint_inc_lt (x : Nat) : uint_inc x < UINT_MOD := by
  unfold uint_inc
  exact Nat.mod_lt _ UINT_MOD_pos

theorem uint_dec_lt {x : Nat} (hx : x < UINT_MOD) : uint_dec x < UINT_MOD := by
  unfold uint_dec
  have := UINT_MOD_pos
  split <;> omega

theorem Quiet_initialise (t : Nat) : (initialise t).Quiet := by
  have hnode : ∀ n, (initialise t).node? n = none := by
    intro n
    simp [initialise, node?]
  refine ⟨⟨⟨?_, ?_, ?_, ?_, ?_, ?_, ?_, ?_, ?_, ?_⟩, rfl, rfl, ?_⟩, rfl, UINT_MOD_pos, rfl⟩
  · exact List.nodup_nil
  · intro n hn
    exact absurd hn (List.not_mem_nil n)
  · intro n hn
    exact absurd hn (Nat.not_lt_zero n)
  · exact List.nodup_nil
  · intro n hn
    exact absurd hn (List.not_mem_nil n)
  · intro n hn
    exact absurd hn (Nat.not_lt_zero n)
  · intro n hn
    exact absurd hn (Nat.not_lt_zero n)
  · intro n hn
    exact absurd hn (Nat.not_lt_zero n)
  · intro r hr
    exact absurd hr (List.not_mem_nil r)
  · show 0 = 0 % UINT_MOD
    simp
  · intro n hn
    exact absurd hn (Nat.not_lt_zero n)

/-! ### Allocation -/

theorem node?_allocate (bytes : Nat) (h : Heap) (m : Nat) :
    (MemoryBank_allocate bytes h).2.node? m = h.node? m := by
  show ((h.nodes ++ [none])[m]?).join = (h.nodes[m]?).join
  rcases Nat.lt_trichotomy m h.nodes.length with hlt | heq | hgt
  · rw [List.getElem?_append_left hlt]
  · subst heq
    simp
  · rw [List.getElem?_eq_none (by simp; omega), List.getElem?_eq_none (by omega)]

theorem inEdges_allocate (bytes : Nat) (h : Heap) (m : Nat) :
    (MemoryBank_allocate bytes h).2.inEdges m = h.inEdges m := by
  simp [MemoryBank_allocate, inEdges]

theorem Inv_allocate {R : List Nat} {h : Heap} (bytes : Nat) (hI : h.Inv R) :
    (MemoryBank_allocate bytes h).2.Inv R := by
  have hnode := node?_allocate bytes h
  have hin := inEdges_allocate bytes h
  obtain ⟨a, b, c, d, e, f, g, i, j, k⟩ := hI
  refine ⟨a, ?_, ?_, d, ?_, ?_, ?_, ?_, ?_, k⟩
  · intro n hn
    rw [hnode]
    exact b n hn
  · intro n _ hs
    rw [hnode] at hs
    exact c n (node?_isSome_lt hs) hs
  · intro n hn
    rw [hnode]
    exact e n hn
  · intro n _ nd hnd hodd
    rw [hnode] at hnd
    exact f n (node?_lt (Option.mem_def.mp hnd)) nd hnd hodd
  · intro n _ nd hnd
    rw [hnode] at hnd
    rw [hin]
    exact g n (node?_lt (Option.mem_def.mp hnd)) nd hnd
  · intro n _ nd hnd r hr
    rw [hnode] at hnd ⊢
    exact i n (node?_lt (Option.mem_def.mp hnd)) nd hnd r hr
  · intro r hr
    rw [hnode]
    exact j r hr

theorem Quiet_allocate (bytes : Nat) {h : Heap} (hq : h.Quiet) :
    (MemoryBank_allocate bytes h).2.Quiet := by
  obtain ⟨⟨hI, hr, hz, hp⟩, hi, hu, hinit⟩ := hq
  refine ⟨⟨Inv_allocate bytes hI, hr, hz, ?_⟩, hi, hu, hinit⟩
  intro n _ nd hnd
  rw [node?_allocate] at hnd
  exact hp n (node?_lt (Option.mem_def.mp hnd)) nd hnd

theorem allocate_fresh (bytes : Nat) (h : Heap) :
    (MemoryBank_allocate bytes h).1 < (MemoryBank_allocate bytes h).2.nodes.length ∧
    (MemoryBank_allocate bytes h).2.node? (MemoryBank_allocate bytes h).1 = none := by
  constructor
  · show h.nodes.length < (h.nodes ++ [none]).length
    simp
  · rw [node?_allocate]
    show (h.nodes[h.nodes.length]?).join = none
    simp

/-! ### The constructor -/

theorem inEdges_fill {h k : Heap} {n : Nat} {o : GCNode}
    (hh : k.nodes = h.nodes.set n (some o)) (hlt : n < h.nodes.length)
    (hn : h.node? n = none) (m : Nat) :
    k.inEdges m = h.inEdges m + o.referents.count m := by
  have hget : h.nodes[n]? = some none := by
    unfold node? at hn
    rw [List.getElem?_eq_getElem hlt] at hn ⊢
    simp at hn
    rw [hn]
  have := sum_map_set (fun o : Option GCNode => match o with
    | some nd => nd.referents.count m
    | none => 0) h.nodes n (some o) none hget
  simpa [inEdges, hh] using this

theorem Quiet_construct {h : Heap} {addr : Nat} (bytes : Nat) (hq : h.Quiet)
    (hlt : addr < h.nodes.length) (hnone : h.node? addr = none) :
    (construct addr bytes h).Quiet := by
  obtain ⟨⟨hI, hr, hz, hp⟩, hi, hu, hinit⟩ := hq
  have hsame : (construct addr bytes h).node? addr = some
      { m_refcount := 0, m_bits_MARK := h.s_mark, m_bits_UNDER_CONSTRUCTION := true,
        referents := [], bytes := bytes } := node?_of_set_same rfl hlt
  have hne : ∀ m, m ≠ addr → (construct addr bytes h).node? m = h.node? m :=
    fun m hm => node?_of_set_ne rfl hm
  have hlisted : (construct addr bytes h).listed = h.listed ++ [addr] := by
    simp [listed, construct, hr, hz]
  have hdead : ∀ m, (h.node? m).isSome → m ≠ addr := by
    intro m hm e
    rw [e, hnone] at hm
    cases hm
  have hnotin : addr ∉ h.listed := fun hmem => hdead addr (hI.listed_alive addr hmem) rfl
  have hin : ∀ m, (construct addr bytes h).inEdges m = h.inEdges m := by
    intro m
    have := inEdges_fill (k := construct addr bytes h) rfl hlt hnone m
    simpa using this
  have hmono : ∀ m, (h.node? m).isSome → ((construct addr bytes h).node? m).isSome := by
    intro m hm
    rw [hne m (hdead m hm)]
    exact hm
  have hlen : (construct addr bytes h).nodes.length = h.nodes.length := by
    simp [construct]
  refine ⟨⟨⟨?_, ?_, ?_, hI.moribund_nodup, ?_, ?_, ?_, ?_, ?_, ?_⟩, hr, hz, ?_⟩, hi,
    uint_inc_lt _, hinit⟩
  · rw [hlisted]
    refine List.Nodup.append hI.listed_nodup (List.nodup_singleton _) ?_
    intro x hx hx2
    rw [List.mem_singleton] at hx2
    exact hnotin (hx2 ▸ hx)
  · intro n hn
    rw [hlisted, List.mem_append, List.mem_singleton] at hn
    rcases hn with hn | hn
    · exact hmono n (hI.listed_alive n hn)
    · rw [hn, hsame]
      rfl
  · intro n hn hs
    rw [hlisted, List.mem_append, List.mem_singleton]
    by_cases e : n = addr
    · exact Or.inr e
    · rw [hne n e] at hs
      exact Or.inl (hI.alive_listed n (node?_isSome_lt hs) hs)
  · intro n hn
    obtain ⟨nd, hnd, hodd⟩ := hI.moribund_bit n hn
    have hnd2 := Option.mem_def.mp hnd
    refine ⟨nd, ?_, hodd⟩
    rw [Option.mem_def, hne n (hdead n (by rw [hnd2]; rfl))]
    exact hnd2
  · intro n _ nd hnd hodd
    rw [Option.mem_def] at hnd
    by_cases e : n = addr
    · rw [e, hsame] at hnd
      cases hnd
      cases hodd
    · rw [hne n e] at hnd
      exact hI.moribund_of_odd hnd hodd
  · intro n _ nd hnd
    rw [Option.mem_def] at hnd
    rw [hin, show (construct addr bytes h).roots = h.roots from rfl]
    by_cases e : n = addr
    · have h1 : h.inEdges addr = 0 := by
        apply inEdges_eq_zero
        intro y ndy hy hmem
        exact hdead addr (hI.referent_alive hy hmem) rfl
      have h2 : h.roots.count addr = 0 :=
        List.count_eq_zero_of_not_mem (fun hmem => hdead addr (hI.roots_alive addr hmem) rfl)
      rw [e, h1, h2]
      omega
    · rw [hne n e] at hnd
      exact hI.refcount_of_node hnd
  · intro n _ nd hnd r hrm
    rw [Option.mem_def] at hnd
    by_cases e : n = addr
    · rw [e, hsame] at hnd
      cases hnd
      cases hrm
    · rw [hne n e] at hnd
      exact hmono r (hI.referent_alive hnd hrm)
  · intro r hrm
    exact hmono r (hI.roots_alive r hrm)
  · show uint_inc h.s_num_nodes = (construct addr bytes h).listed.length % UINT_MOD
    rw [hlisted, hI.count, uint_inc_mod]
    simp
  · intro n _ nd hnd
    rw [Option.mem_def] at hnd
    by_cases e : n = addr
    · rw [e, hsame] at hnd
      cases hnd
      rfl
    · rw [hne n e] at hnd
      exact hp n (node?_lt hnd) nd hnd

/-! ### Operations that rewrite one node -/

/-- Overwriting a node by one with the same out-edges keeps the invariant, as
long as its reference count covers its referrers and its moribund bit agrees
with the moribund list. -/
theorem Inv_retouch {R : List Nat} {h h' : Heap} {n : Nat} {nd x : GCNode} (hI : h.Inv R)
    (hn : h.node? n = some nd) (hh : h'.nodes = h.nodes.set n (some x))
    (href : x.referents = nd.referents)
    (hrc : 2 * (h.inEdges n + R.count n) ≤ x.m_refcount)
    (hbit : x.m_refcount % 2 = 1 ↔ n ∈ h'.s_moribund)
    (hmnd : h'.s_moribund.Nodup)
    (hmor : ∀ m, m ≠ n → (m ∈ h'.s_moribund ↔ m ∈ h.s_moribund))
    (hl : h'.listed = h.listed) (hnum : h'.s_num_nodes = h.s_num_nodes) : h'.Inv R := by
  have hlt := node?_lt hn
  have hsame : h'.node? n = some x := node?_of_set_same hh hlt
  have hne : ∀ m, m ≠ n → h'.node? m = h.node? m := fun m hm => node?_of_set_ne hh hm
  have hsome : ∀ m, (h'.node? m).isSome = (h.node? m).isSome := by
    intro m
    by_cases e : m = n
    · rw [e, hsame, hn]
      rfl
    · rw [hne m e]
  have hin : ∀ m, h'.inEdges m = h.inEdges m := by
    intro m
    have := inEdges_set hh hn m
    rw [href] at this
    omega
  have hlen : h'.nodes.length = h.nodes.length := by
    rw [hh]
    simp
  refine ⟨?_, ?_, ?_, hmnd, ?_, ?_, ?_, ?_, ?_, ?_⟩
  · rw [hl]
    exact hI.listed_nodup
  · intro m hm
    rw [hsome]
    exact hI.listed_alive m (hl ▸ hm)
  · intro m hm hs
    rw [hl]
    rw [hsome] at hs
    exact hI.alive_listed m (hlen ▸ hm) hs
  · intro m hm
    by_cases e : m = n
    · rw [e] at hm ⊢
      exact ⟨x, hsame, hbit.mpr hm⟩
    · obtain ⟨y, hy, hodd⟩ := hI.moribund_bit m ((hmor m e).mp hm)
      refine ⟨y, ?_, hodd⟩
      rw [Option.mem_def, hne m e]
      exact hy
  · intro m _ y hy hodd
    rw [Option.mem_def] at hy
    by_cases e : m = n
    · rw [e, hsame] at hy
      cases hy
      rw [e]
      exact hbit.mp hodd
    · rw [hne m e] at hy
      exact (hmor m e).mpr (hI.moribund_of_odd hy hodd)
  · intro m _ y hy
    rw [Option.mem_def] at hy
    rw [hin]
    by_cases e : m = n
    · rw [e, hsame] at hy
      cases hy
      rw [e]
      exact hrc
    · rw [hne m e] at hy
      exact hI.refcount_of_node hy
  · intro m _ y hy r hrm
    rw [Option.mem_def] at hy
    rw [hsome]
    by_cases e : m = n
    · rw [e, hsame] at hy
      cases hy
      exact hI.referent_alive hn (href ▸ hrm)
    · rw [hne m e] at hy
      exact hI.referent_alive hy hrm
  · intro r hrm
    rw [hsome]
    exact hI.roots_alive r hrm
  · rw [hnum, hl]
    exact hI.count

theorem Quiet_expose (node : Nat) {h : Heap} (hq : h.Quiet) : (expose node h).Quiet := by
  obtain ⟨⟨hI, hr, hz, hp⟩, hi, hu, hinit⟩ := hq
  cases hn : h.node? node with
  | none =>
    have e : expose node h = h := by
      unfold expose
      rw [hn]
    rw [e]
    exact ⟨⟨hI, hr, hz, hp⟩, hi, hu, hinit⟩
  | some nd =>
    by_cases hu2 : nd.m_bits_UNDER_CONSTRUCTION = true
    · have e : expose node h = { h.setNode node { nd with m_bits_UNDER_CONSTRUCTION := false } with
          s_under_construction := uint_dec h.s_under_construction } := by
        unfold expose
        rw [hn]
        simp only [hu2, if_true]
      have hlt := node?_lt hn
      rw [e]
      refine ⟨⟨?_, hr, hz, ?_⟩, hi, uint_dec_lt hu, hinit⟩
      · have hge := hI.refcount_of_node hn
        have hbit : nd.m_refcount % 2 = 1 ↔ node ∈ h.s_moribund :=
          ⟨fun o => hI.moribund_of_odd hn o, fun m => hI.odd_of_moribund hn m⟩
        exact Inv_retouch hI hn rfl rfl hge hbit hI.moribund_nodup (fun _ _ => Iff.rfl) rfl rfl
      · intro m _ y hy
        rw [Option.mem_def] at hy
        by_cases e2 : m = node
        · rw [e2, node?_of_set_same (h := h) rfl hlt] at hy
          cases hy
          exact hp node hlt nd hn
        · rw [node?_of_set_ne (h := h) rfl e2] at hy
          exact hp m (node?_lt hy) y hy
    · have e : expose node h = h := by
        unfold expose
        rw [hn]
        simp only [hu2, if_false]
        simp
      rw [e]
      exact ⟨⟨hI, hr, hz, hp⟩, hi, hu, hinit⟩

theorem Quiet_makeMoribund {h : Heap} {node : Nat} {nd : GCNode} (hq : h.Quiet)
    (hn : h.node? node = some nd) (hrc : nd.m_refcount = 0) : (makeMoribund node h).Quiet := by
  obtain ⟨⟨hI, hr, hz, hp⟩, hi, hu, hinit⟩ := hq
  have hlt := node?_lt hn
  have e : makeMoribund node h
      = { h.setNode node { nd with m_refcount := 1 } with s_moribund := h.s_moribund ++ [node] } := by
    unfold makeMoribund
    simp only [modifyNode_of_some _ hn]
    rfl
  have hnot : node ∉ h.s_moribund := by
    intro hm
    have := hI.odd_of_moribund hn hm
    omega
  have hge := hI.refcount_of_node hn
  rw [e]
  refine ⟨⟨?_, hr, hz, ?_⟩, hi, hu, hinit⟩
  · refine Inv_retouch hI hn rfl rfl ?_ ?_ ?_ ?_ rfl rfl
    · show 2 * (h.inEdges node + h.roots.count node) ≤ 1
      omega
    · constructor
      · intro _
        show node ∈ h.s_moribund ++ [node]
        simp
      · intro _
        rfl
    · show (h.s_moribund ++ [node]).Nodup
      refine List.Nodup.append hI.moribund_nodup (List.nodup_singleton _) ?_
      intro x hx hx2
      rw [List.mem_singleton] at hx2
      exact hnot (hx2 ▸ hx)
    · intro m hm
      show m ∈ h.s_moribund ++ [node] ↔ m ∈ h.s_moribund
      simp [hm]
  · intro m _ y hy
    rw [Option.mem_def] at hy
    by_cases e2 : m = node
    · rw [e2, node?_of_set_same (h := h) rfl hlt] at hy
      cases hy
      exact hp node hlt nd hn
    · rw [node?_of_set_ne (h := h) rfl e2] at hy
      exact hp m (node?_lt hy) y hy

end CXXR

namespace CXXR

open Heap GCNode

/-! ### The collectors -/

theorem gclite_body_quiet {R : List Nat} {mk : Bool} {s : Heap}
    (hI : s.Inv R) (hr : s.s_reachable = []) (hz : s.zombies = [])
    (hp : ∀ m y, s.node? m = some y → y.m_bits_MARK = mk) (hm : s.s_moribund ≠ []) :
    (gclite_body s).Inv R ∧ (gclite_body s).s_reachable = [] ∧ (gclite_body s).zombies = [] ∧
    (∀ m y, (gclite_body s).node? m = some y → y.m_bits_MARK = mk) := by
  rcases List.eq_nil_or_concat s.s_moribund with hnil | ⟨ms, node, hm1⟩
  · exact absurd hnil hm
  · rw [List.concat_eq_append] at hm1
    obtain ⟨nd, hnd, _, hI2, _, _, hmark, _, hdel, hkeep⟩ := Inv_gclite_body hI hm1
    have hother : ∀ m y, m ≠ node → (gclite_body s).node? m = some y → y.m_bits_MARK = mk := by
      intro m y e hy
      have := hmark m e
      rw [hy] at this
      cases hx : s.node? m with
      | none =>
        rw [hx] at this
        cases this
      | some z =>
        rw [hx] at this
        simp only [Option.map_some', Option.some.injEq] at this
        rw [this]
        exact hp m z hx
    by_cases h1 : nd.m_refcount = 1
    · obtain ⟨hnone, _, _, _, _, hre, hze⟩ := hdel h1
      refine ⟨hI2, by rw [hre, hr]; rfl, by rw [hze, hz]; rfl, ?_⟩
      intro m y hy
      by_cases e : m = node
      · rw [e, hnone] at hy
        cases hy
      · exact hother m y e hy
    · obtain ⟨hsame, _, _, hre, hze, _⟩ := hkeep h1
      refine ⟨hI2, hre.trans hr, hze.trans hz, ?_⟩
      intro m y hy
      by_cases e : m = node
      · rw [e, hsame] at hy
        cases hy
        exact hp node nd hnd
      · exact hother m y e hy

theorem Quiet_gclite {h h1 : Heap} (hq : h.Quiet) (e : gclite h = some h1) : h1.Quiet := by
  obtain ⟨⟨hI, hr, hz, hp⟩, hi, hu, hinit⟩ := hq
  have hnode0 : ∀ m, (protectCstructs (GCInhibitor.enter h)).2.node? m = h.node? m :=
    node?_of_nodes_eq (by unfold protectCstructs GCInhibitor.enter; rfl)
  have hI0 : (protectCstructs (GCInhibitor.enter h)).2.Inv h.roots := by
    refine Inv_congr hI ?_ ?_ ?_ ?_ ?_ ?_ <;>
      (unfold protectCstructs GCInhibitor.enter; rfl)
  obtain ⟨s', hs', ⟨iI, ir, iz, ip, ifx⟩, _⟩ := gclite_rule
    (fun s => s.Inv h.roots ∧ s.s_reachable = [] ∧ s.zombies = [] ∧
      (∀ m y, s.node? m = some y → y.m_bits_MARK = h.s_mark) ∧
      s.fixed = (protectCstructs (GCInhibitor.enter h)).2.fixed)
    (fun s hs hne => by
      obtain ⟨a, b, c, d, f⟩ := hs
      obtain ⟨a', b', c', d'⟩ := gclite_body_quiet a b c d hne
      exact ⟨a', b', c', d', by rw [gclite_body_fixed]; exact f⟩)
    h hi ⟨hI0, by unfold protectCstructs GCInhibitor.enter; exact hr,
      by unfold protectCstructs GCInhibitor.enter; exact hz,
      fun m y hy => hp m (node?_lt ((hnode0 m).symm.trans hy)) y ((hnode0 m).symm.trans hy), rfl⟩
  rw [hs'] at e
  have e1 := Option.some.inj e
  have hfx := wrapper_fixed hi ifx
  have f1 : (GCInhibitor.leave (ProtectStack.unprotect h.cstructs.length s')).nodes = s'.nodes := by
    unfold GCInhibitor.leave ProtectStack.unprotect
    rfl
  have f2 : (GCInhibitor.leave (ProtectStack.unprotect h.cstructs.length s')).s_live
      = s'.s_live := by
    unfold GCInhibitor.leave ProtectStack.unprotect
    rfl
  have f3 : (GCInhibitor.leave (ProtectStack.unprotect h.cstructs.length s')).s_reachable
      = s'.s_reachable := by
    unfold GCInhibitor.leave ProtectStack.unprotect
    rfl
  have f4 : (GCInhibitor.leave (ProtectStack.unprotect h.cstructs.length s')).zombies
      = s'.zombies := by
    unfold GCInhibitor.leave ProtectStack.unprotect
    rfl
  have f5 : (GCInhibitor.leave (ProtectStack.unprotect h.cstructs.length s')).s_moribund
      = s'.s_moribund := by
    unfold GCInhibitor.leave ProtectStack.unprotect
    rfl
  have f6 : (GCInhibitor.leave (ProtectStack.unprotect h.cstructs.length s')).s_num_nodes
      = s'.s_num_nodes := by
    unfold GCInhibitor.leave ProtectStack.unprotect
    rfl
  rw [e1] at hfx f1 f2 f3 f4 f5 f6
  unfold Heap.fixed at hfx
  simp only [Prod.mk.injEq] at hfx
  obtain ⟨x1, x2, x3, x4, x5, x6, x7, x8, _, _, _⟩ := hfx
  have hroots : h1.roots = h.roots := roots_of_fields x5 x6 x7 x8
  refine ⟨⟨?_, f3.trans ir, f4.trans iz, ?_⟩, x4.trans hi, by rw [x3]; exact hu, x1.trans hinit⟩
  · rw [hroots]
    exact Inv_congr iI f1 f2 f3 f4 f5 f6
  · intro m _ y hy
    rw [Option.mem_def, node?_of_nodes_eq f1] at hy
    rw [x2]
    exact ip m y hy

theorem Quiet_gc {h h1 : Heap} (hq : h.Quiet) (e : gc h = Result.ok h1) : h1.Quiet := by
  obtain ⟨hw, hi, hu, hinit⟩ := hq
  have huc : h.s_under_construction = 0 := by
    by_contra hne
    have hb : (h.s_under_construction + h.s_inhibitor_count) % UINT_MOD ≠ 0 := by
      rw [hi, Nat.add_zero, Nat.mod_eq_of_lt hu]
      exact hne
    rw [gc_of_blocked hb] at e
    cases e
  obtain ⟨F, eF, hc⟩ := gc_spec hw huc hi
  rw [eF] at e
  cases e
  obtain ⟨c1, c2, c3, _⟩ := hc.counters
  exact ⟨hc.wf, c2.trans hi, by rw [c1]; exact hu, c3.trans hinit⟩

/-! ### Allocation through `operator new` -/

theorem Quiet_operator_new {rare : Bool} {bytes addr : Nat} {h h1 : Heap} (hq : h.Quiet)
    (e : operator_new rare bytes h = Result.ok (addr, h1)) :
    ∃ h0, h0.Quiet ∧ (addr, h1) = MemoryBank_allocate bytes h0 := by
  have s1 : ∀ (c : Bool) (x : Heap), x.Quiet →
      ∀ y, (if c = true then gclite x else some x) = some y → y.Quiet := by
    intro c x hx y hy
    cases c
    · simp only [Bool.false_eq_true, if_false, Option.some.injEq] at hy
      rw [← hy]
      exact hx
    · simp only [if_true] at hy
      exact Quiet_gclite hx hy
  unfold operator_new at e
  cases e1 : (if (!rare && !h.s_moribund.isEmpty) = true then gclite h else some h) with
  | none =>
    rw [e1] at e
    cases e
  | some h0 =>
    rw [e1] at e
    simp only at e
    have q0 := s1 _ h hq h0 e1
    split at e
    · cases e2 : (if rare = true then gclite h0 else some h0) with
      | none =>
        rw [e2] at e
        cases e
      | some h2 =>
        rw [e2] at e
        simp only at e
        have q2 := s1 rare h0 q0 h2 e2
        cases e3 : GCManager_gc h2 with
        | ok h3 =>
          rw [e3] at e
          simp only [Result.ok.injEq] at e
          exact ⟨h3, Quiet_gc q2 e3, e.symm⟩
        | abort a =>
          rw [e3] at e
          cases e
        | timeout =>
          rw [e3] at e
          cases e
    · simp only [Result.ok.injEq] at e
      exact ⟨h0, q0, e.symm⟩

end CXXR

namespace CXXR

open Heap GCNode

/-! ### References taken and given up by roots and edges -/

theorem modifyNode_node? (h : Heap) (n : Nat) (f : GCNode → GCNode) (m : Nat) :
    (h.modifyNode n f).node? m = if m = n then (h.node? n).map f else h.node? m := by
  cases hn : h.node? n with
  | none =>
    rw [modifyNode_of_none f hn]
    by_cases e : m = n
    · rw [e, hn]
      simp
    · simp [e]
  | some nd =>
    rw [modifyNode_of_some f hn, node?_setNode h _ (node?_lt hn) m]
    by_cases e : m = n <;> simp [e]

theorem modifyNode_mark (h : Heap) (n : Nat) (f : GCNode → GCNode)
    (hf : ∀ x, (f x).m_bits_MARK = x.m_bits_MARK) (m : Nat) :
    ((h.modifyNode n f).node? m).map GCNode.m_bits_MARK
      = (h.node? m).map GCNode.m_bits_MARK := by
  rw [modifyNode_node?]
  by_cases e : m = n
  · subst e
    cases h.node? m <;> simp [hf]
  · simp [e]

theorem decRefCount_mark (t : Nat) (h : Heap) (m : Nat) :
    ((decRefCount t h).node? m).map GCNode.m_bits_MARK
      = (h.node? m).map GCNode.m_bits_MARK := by
  rw [decRefCount_node?]
  by_cases e : m = t
  · subst e
    cases h.node? m <;> simp
  · simp [e]

theorem modifyNode_frame (h : Heap) (n : Nat) (f : GCNode → GCNode) :
    (h.modifyNode n f).s_live = h.s_live ∧ (h.modifyNode n f).s_reachable = h.s_reachable ∧
    (h.modifyNode n f).zombies = h.zombies ∧ (h.modifyNode n f).s_moribund = h.s_moribund ∧
    (h.modifyNode n f).s_num_nodes = h.s_num_nodes ∧ (h.modifyNode n f).fixed = h.fixed := by
  unfold modifyNode
  cases h.node? n <;> exact ⟨rfl, rfl, rfl, rfl, rfl, rfl⟩

theorem fields_of_fixed {a b : Heap} (hf : a.fixed = b.fixed) :
    a.roots = b.roots ∧ a.s_mark = b.s_mark ∧ a.s_inhibitor_count = b.s_inhibitor_count ∧
    a.s_under_construction = b.s_under_construction ∧ a.initialised = b.initialised := by
  unfold Heap.fixed at hf
  simp only [Prod.mk.injEq] at hf
  obtain ⟨x1, x2, x3, x4, x5, x6, x7, x8, _, _, _⟩ := hf
  exact ⟨roots_of_fields x5 x6 x7 x8, x2, x4, x3, x1⟩

/-- A heap that differs from a quiet one in reference counts, edges and roots
only is quiet as soon as it is consistent. -/
theorem Quiet_of_frame {h h' : Heap} (hq : h.Quiet) (hI : h'.Inv h'.roots)
    (hr : h'.s_reachable = h.s_reachable) (hz : h'.zombies = h.zombies)
    (hm : ∀ m, (h'.node? m).map GCNode.m_bits_MARK = (h.node? m).map GCNode.m_bits_MARK)
    (hs : h'.s_mark = h.s_mark) (hi : h'.s_inhibitor_count = h.s_inhibitor_count)
    (hu : h'.s_under_construction = h.s_under_construction)
    (hinit : h'.initialised = h.initialised) : h'.Quiet := by
  obtain ⟨⟨_, qr, qz, qp⟩, qi, qu, qinit⟩ := hq
  refine ⟨⟨hI, hr.trans qr, hz.trans qz, ?_⟩, hi.trans qi, by rw [hu]; exact qu,
    hinit.trans qinit⟩
  intro n _ y hy
  rw [Option.mem_def] at hy
  have := hm n
  rw [hy] at this
  cases hx : h.node? n with
  | none =>
    rw [hx] at this
    cases this
  | some z =>
    rw [hx] at this
    simp only [Option.map_some', Option.some.injEq] at this
    rw [this, hs]
    exact qp n (node?_lt hx) z hx

theorem Inv_reroot {R S : List Nat} {h : Heap} (hI : h.Inv R)
    (hc : ∀ n nd, h.node? n = some nd → 2 * (h.inEdges n + S.count n) ≤ nd.m_refcount)
    (ha : ∀ r ∈ S, (h.node? r).isSome) : h.Inv S := by
  obtain ⟨a, b, c, d, e, f, _, i, _, k⟩ := hI
  exact ⟨a, b, c, d, e, f, fun n _ nd hnd => hc n nd (Option.mem_def.mp hnd), i, ha, k⟩

/-- Overwriting a node keeps the invariant when the counts still cover the
edges and the roots, the new edges lead to nodes, and the moribund bit of the
node agrees with the moribund list. -/
theorem Inv_overwrite {R : List Nat} {h h' : Heap} {n : Nat} {nd x : GCNode} (hI : h.Inv R)
    (hn : h.node? n = some nd) (hh : h'.nodes = h.nodes.set n (some x))
    (href : ∀ r ∈ x.referents, (h.node? r).isSome)
    (hrc : ∀ m y, h'.node? m = some y → 2 * (h'.inEdges m + R.count m) ≤ y.m_refcount)
    (hbit : x.m_refcount % 2 = 1 ↔ n ∈ h'.s_moribund)
    (hmnd : h'.s_moribund.Nodup)
    (hmor : ∀ m, m ≠ n → (m ∈ h'.s_moribund ↔ m ∈ h.s_moribund))
    (hl : h'.listed = h.listed) (hnum : h'.s_num_nodes = h.s_num_nodes) : h'.Inv R := by
  have hlt := node?_lt hn
  have hsame : h'.node? n = some x := node?_of_set_same hh hlt
  have hne : ∀ m, m ≠ n → h'.node? m = h.node? m := fun m hm => node?_of_set_ne hh hm
  have hsome : ∀ m, (h'.node? m).isSome = (h.node? m).isSome := by
    intro m
    by_cases e : m = n
    · rw [e, hsame, hn]
      rfl
    · rw [hne m e]
  have hlen : h'.nodes.length = h.nodes.length := by
    rw [hh]
    simp
  refine ⟨?_, ?_, ?_, hmnd, ?_, ?_, ?_, ?_, ?_, ?_⟩
  · rw [hl]
    exact hI.listed_nodup
  · intro m hm
    rw [hsome]
    exact hI.listed_alive m (hl ▸ hm)
  · intro m hm hs
    rw [hl]
    rw [hsome] at hs
    exact hI.alive_listed m (hlen ▸ hm) hs
  · intro m hm
    by_cases e : m = n
    · rw [e] at hm ⊢
      exact ⟨x, hsame, hbit.mpr hm⟩
    · obtain ⟨y, hy, hodd⟩ := hI.moribund_bit m ((hmor m e).mp hm)
      refine ⟨y, ?_, hodd⟩
      rw [Option.mem_def, hne m e]
      exact hy
  · intro m _ y hy hodd
    rw [Option.mem_def] at hy
    by_cases e : m = n
    · rw [e, hsame] at hy
      cases hy
      rw [e]
      exact hbit.mp hodd
    · rw [hne m e] at hy
      exact (hmor m e).mpr (hI.moribund_of_odd hy hodd)
  · intro m _ y hy
    exact hrc m y (Option.mem_def.mp hy)
  · intro m _ y hy r hrm
    rw [Option.mem_def] at hy
    rw [hsome]
    by_cases e : m = n
    · rw [e, hsame] at hy
      cases hy
      exact href r hrm
    · rw [hne m e] at hy
      exact hI.referent_alive hy hrm
  · intro r hrm
    rw [hsome]
    exact hI.roots_alive r hrm
  · rw [hnum, hl]
    exact hI.count

theorem incRefCount_of_some {h : Heap} {t : Nat} {nd : GCNode} (hn : h.node? t = some nd) :
    incRefCount t h = h.setNode t { nd with m_refcount := nd.m_refcount + 2 } := by
  unfold incRefCount
  exact modifyNode_of_some _ hn

/-- One more reference to node `t`: its count has room for one more referrer. -/
theorem Inv_incRefCount {R : List Nat} {h : Heap} {t : Nat} {nd : GCNode} (hI : h.Inv R)
    (hn : h.node? t = some nd) :
    (incRefCount t h).Inv R ∧
    (incRefCount t h).node? t = some { nd with m_refcount := nd.m_refcount + 2 } ∧
    (∀ m, m ≠ t → (incRefCount t h).node? m = h.node? m) ∧
    (∀ m, (incRefCount t h).inEdges m = h.inEdges m) := by
  have hlt := node?_lt hn
  have hge := hI.refcount_of_node hn
  have hge2 : 2 * (h.inEdges t + R.count t) ≤ nd.m_refcount + 2 := by omega
  have hbit : (nd.m_refcount + 2) % 2 = 1 ↔ t ∈ h.s_moribund := by
    constructor
    · intro o
      exact hI.moribund_of_odd hn (by omega)
    · intro m
      have := hI.odd_of_moribund hn m
      omega
  have hin : ∀ m, (incRefCount t h).inEdges m = h.inEdges m := by
    intro m
    have := inEdges_set (k := incRefCount t h)
      (o := { nd with m_refcount := nd.m_refcount + 2 }) (by rw [incRefCount_of_some hn]; rfl) hn m
    simp only at this
    omega
  rw [incRefCount_of_some hn] at hin ⊢
  exact ⟨Inv_retouch hI hn rfl rfl hge2 hbit hI.moribund_nodup (fun _ _ => Iff.rfl) rfl rfl,
    node?_of_set_same (h := h) rfl hlt, fun m hm => node?_of_set_ne (h := h) rfl hm, hin⟩

end CXXR

namespace CXXR

open Heap GCNode

theorem Quiet_retain {h : Heap} {node : Nat} (hq : h.Quiet) (hs : (h.node? node).isSome) :
    (GCRoot_create node h).Quiet := by
  obtain ⟨nd, hn⟩ := Option.isSome_iff_exists.mp hs
  have hI := hq.wf.inv
  have hge := hI.refcount_of_node hn
  obtain ⟨hI1, hsame, hne, hin⟩ := Inv_incRefCount hI hn
  rw [incRefCount_of_some hn] at hI1 hsame hne hin
  have e : GCRoot_create node h
      = { h.setNode node { nd with m_refcount := nd.m_refcount + 2 } with
          heap_roots := h.heap_roots ++ [node] } := by
    unfold GCRoot_create
    rw [incRefCount_of_some hn]
    rfl
  rw [e]
  have hcount : ∀ m, (h.heap_roots ++ [node] ++ h.stack_roots ++ h.protect_stack
      ++ h.cstructs).count m = h.roots.count m + (if m = node then 1 else 0) := by
    intro m
    simp only [roots, List.count_append, List.count_cons, List.count_nil]
    by_cases e2 : m = node
    · simp [e2]
      omega
    · have : ¬ node = m := fun e3 => e2 e3.symm
      simp [e2, this]
  have hmark : ∀ m, ((h.setNode node { nd with m_refcount := nd.m_refcount + 2 }).node? m).map
      GCNode.m_bits_MARK = (h.node? m).map GCNode.m_bits_MARK := by
    intro m
    by_cases e2 : m = node
    · rw [e2, hsame, hn]
      rfl
    · rw [hne m e2]
  refine Quiet_of_frame hq ?_ rfl rfl hmark rfl rfl rfl rfl
  refine Inv_reroot (Inv_congr hI1 rfl rfl rfl rfl rfl rfl) ?_ ?_
  · intro m y hy
    have hy2 : (h.setNode node { nd with m_refcount := nd.m_refcount + 2 }).node? m = some y := hy
    have hc := hcount m
    have hi2 := hin m
    show 2 * ((h.setNode node { nd with m_refcount := nd.m_refcount + 2 }).inEdges m
      + (h.heap_roots ++ [node] ++ h.stack_roots ++ h.protect_stack ++ h.cstructs).count m)
      ≤ y.m_refcount
    rw [hc, hi2]
    by_cases e2 : m = node
    · rw [e2, hsame] at hy2
      cases hy2
      rw [e2]
      simp only [if_true]
      show 2 * (h.inEdges node + (h.roots.count node + 1)) ≤ nd.m_refcount + 2
      omega
    · rw [hne m e2] at hy2
      have := hI.refcount_of_node hy2
      simp only [e2, if_false]
      omega
  · intro r hr
    have hr2 : r ∈ h.heap_roots ++ [node] ++ h.stack_roots ++ h.protect_stack ++ h.cstructs := hr
    have hsome : ((h.setNode node { nd with m_refcount := nd.m_refcount + 2 }).node? r).isSome := by
      by_cases e2 : r = node
      · rw [e2, hsame]
        rfl
      · rw [hne r e2]
        apply hI.roots_alive r
        simp only [roots, List.mem_append, List.mem_singleton] at hr2 ⊢
        tauto
    exact hsome

theorem Quiet_release {h : Heap} {node : Nat} (hq : h.Quiet) (hm : node ∈ h.heap_roots) :
    (GCRoot_destroy node h).Quiet := by
  have hI := hq.wf.inv
  have hpos : 0 < h.heap_roots.count node := List.count_pos_iff.mpr hm
  have hcount : ∀ m, (h.heap_roots.erase node ++ h.stack_roots ++ h.protect_stack
      ++ h.cstructs).count m + (if m = node then 1 else 0) = h.roots.count m := by
    intro m
    simp only [roots, List.count_append]
    by_cases e2 : m = node
    · rw [e2, List.count_erase_self]
      simp only [if_true]
      omega
    · rw [List.count_erase_of_ne e2]
      simp [e2]
  have hI0 : ({ h with heap_roots := h.heap_roots.erase node } : Heap).Inv
      (h.heap_roots.erase node ++ h.stack_roots ++ h.protect_stack ++ h.cstructs) := by
    refine Inv_reroot (Inv_congr hI rfl rfl rfl rfl rfl rfl) ?_ ?_
    · intro m y hy
      have hy2 : h.node? m = some y := hy
      have := hI.refcount_of_node hy2
      have hc := hcount m
      show 2 * (h.inEdges m + (h.heap_roots.erase node ++ h.stack_roots ++ h.protect_stack
        ++ h.cstructs).count m) ≤ y.m_refcount
      omega
    · intro r hr
      apply hI.roots_alive r
      simp only [roots, List.mem_append] at hr ⊢
      rcases hr with ((hr | hr) | hr) | hr
      · exact Or.inl (Or.inl (Or.inl (List.mem_of_mem_erase hr)))
      · exact Or.inl (Or.inl (Or.inr hr))
      · exact Or.inl (Or.inr hr)
      · exact Or.inr hr
  have hI1 := Inv_decRefCount (t := node) hI0 (by
    intro y hy
    have hy2 : h.node? node = some y := hy
    have := hI.refcount_of_node hy2
    have hc := hcount node
    simp only [if_true] at hc
    show 2 * (h.inEdges node + (h.heap_roots.erase node ++ h.stack_roots ++ h.protect_stack
      ++ h.cstructs).count node) + 2 ≤ y.m_refcount
    omega)
  have hfx := decRefCount_fixed node ({ h with heap_roots := h.heap_roots.erase node } : Heap)
  obtain ⟨f1, f2, f3, f4, f5⟩ := fields_of_fixed hfx
  have hroots : (GCRoot_destroy node h).roots
      = h.heap_roots.erase node ++ h.stack_roots ++ h.protect_stack ++ h.cstructs := f1
  refine Quiet_of_frame hq ?_ (decRefCount_s_reachable _ _) (decRefCount_zombies _ _)
    (fun m => decRefCount_mark node _ m) f2 f3 f4 f5
  rw [hroots]
  exact hI1

theorem Quiet_attach {h : Heap} {node target : Nat} (hq : h.Quiet)
    (hs : (h.node? node).isSome) (ht : (h.node? target).isSome) :
    (GCEdge_attach node target h).Quiet := by
  obtain ⟨ndt, hnt⟩ := Option.isSome_iff_exists.mp ht
  have hI := hq.wf.inv
  have hge := hI.refcount_of_node hnt
  obtain ⟨hI1, hsame, hne, hin⟩ := Inv_incRefCount hI hnt
  have hfr1 : (incRefCount target h).s_live = h.s_live ∧
      (incRefCount target h).s_reachable = h.s_reachable ∧
      (incRefCount target h).zombies = h.zombies ∧
      (incRefCount target h).s_moribund = h.s_moribund ∧
      (incRefCount target h).s_num_nodes = h.s_num_nodes ∧
      (incRefCount target h).fixed = h.fixed := modifyNode_frame h target _
  have hmk1 : ∀ m, ((incRefCount target h).node? m).map GCNode.m_bits_MARK
      = (h.node? m).map GCNode.m_bits_MARK :=
    fun m => modifyNode_mark h target
      (fun nd => { nd with m_refcount := nd.m_refcount + 2 }) (fun _ => rfl) m
  have hsome1 : ((incRefCount target h).node? node).isSome := by
    by_cases e : node = target
    · rw [e, hsame]
      rfl
    · rw [hne node e]
      exact hs
  obtain ⟨nd1, hn1⟩ := Option.isSome_iff_exists.mp hsome1
  have hfr2 : (GCEdge_attach node target h).s_live = (incRefCount target h).s_live ∧
      (GCEdge_attach node target h).s_reachable = (incRefCount target h).s_reachable ∧
      (GCEdge_attach node target h).zombies = (incRefCount target h).zombies ∧
      (GCEdge_attach node target h).s_moribund = (incRefCount target h).s_moribund ∧
      (GCEdge_attach node target h).s_num_nodes = (incRefCount target h).s_num_nodes ∧
      (GCEdge_attach node target h).fixed = (incRefCount target h).fixed :=
    modifyNode_frame (incRefCount target h) node
      (fun nd => { nd with referents := target :: nd.referents })
  have hmk2 : ∀ m, ((GCEdge_attach node target h).node? m).map GCNode.m_bits_MARK
      = ((incRefCount target h).node? m).map GCNode.m_bits_MARK :=
    fun m => modifyNode_mark (incRefCount target h) node
      (fun nd => { nd with referents := target :: nd.referents }) (fun _ => rfl) m
  have e : GCEdge_attach node target h = (incRefCount target h).setNode node
      { nd1 with referents := target :: nd1.referents } := by
    unfold GCEdge_attach
    exact modifyNode_of_some _ hn1
  obtain ⟨g1, g2, g3, g4, g5, g6⟩ := hfr2
  obtain ⟨k1, k2, k3, k4, k5, k6⟩ := hfr1
  have hnodesA : (GCEdge_attach node target h).nodes = (incRefCount target h).nodes.set node
      (some { nd1 with referents := target :: nd1.referents }) := by
    rw [e]
    rfl
  have hlt1 := node?_lt hn1
  have hsameA : (GCEdge_attach node target h).node? node
      = some { nd1 with referents := target :: nd1.referents } := node?_of_set_same hnodesA hlt1
  have hneA : ∀ m, m ≠ node → (GCEdge_attach node target h).node? m
      = (incRefCount target h).node? m := fun m hm => node?_of_set_ne hnodesA hm
  have hinA : ∀ m, (GCEdge_attach node target h).inEdges m
      = (incRefCount target h).inEdges m + (if m = target then 1 else 0) := by
    intro m
    have := inEdges_set hnodesA hn1 m
    simp only [List.count_cons] at this
    by_cases e2 : m = target
    · simp [e2] at this ⊢
      omega
    · have e3 : ¬ target = m := fun e4 => e2 e4.symm
      simp [e2, e3] at this ⊢
      omega
  obtain ⟨r1, r2, r3, r4, r5⟩ := fields_of_fixed (g6.trans k6)
  have hIA : (GCEdge_attach node target h).Inv h.roots := by
    refine Inv_overwrite hI1 hn1 hnodesA ?_ ?_ ?_ ?_ ?_ ?_ g5
    · intro r hr
      rw [List.mem_cons] at hr
      rcases hr with hr | hr
      · rw [hr, hsame]
        rfl
      · exact hI1.referent_alive hn1 hr
    · intro m y hy
      have hold : ∃ z, (incRefCount target h).node? m = some z ∧ z.m_refcount = y.m_refcount := by
        by_cases e2 : m = node
        · rw [e2, hsameA] at hy
          cases hy
          exact ⟨nd1, e2 ▸ hn1, rfl⟩
        · rw [hneA m e2] at hy
          exact ⟨y, hy, rfl⟩
      obtain ⟨z, hz, hzrc⟩ := hold
      rw [hinA m, hin m, ← hzrc]
      by_cases e2 : m = target
      · rw [e2, hsame] at hz
        cases hz
        rw [e2]
        simp only [if_true]
        show 2 * (h.inEdges target + 1 + h.roots.count target) ≤ ndt.m_refcount + 2
        omega
      · have := hI1.refcount_of_node hz
        rw [hin m] at this
        simp only [e2, if_false]
        omega
    · rw [g4]
      have hb : nd1.m_refcount % 2 = 1 ↔ node ∈ (incRefCount target h).s_moribund :=
        ⟨fun o => hI1.moribund_of_odd hn1 o, fun m => hI1.odd_of_moribund hn1 m⟩
      exact hb
    · rw [g4]
      exact hI1.moribund_nodup
    · intro m _
      rw [g4]
    · simp only [listed, g1, g2, g3]
  refine Quiet_of_frame hq ?_ (g2.trans k2) (g3.trans k3)
    (fun m => (hmk2 m).trans (hmk1 m)) r2 r3 r4 r5
  rw [r1]
  exact hIA

theorem GCEdge_detach_of_cons {h : Heap} {node t : Nat} {rest : List Nat} {nd : GCNode}
    (hn : h.node? node = some nd) (href : nd.referents = t :: rest) :
    GCEdge_detach node h
      = decRefCount t (h.modifyNode node (fun x => { x with referents := rest })) := by
  unfold GCEdge_detach
  simp only [hn, href]

theorem Quiet_detach (node : Nat) {h : Heap} (hq : h.Quiet) : (GCEdge_detach node h).Quiet := by
  cases hn : h.node? node with
  | none =>
    have e : GCEdge_detach node h = h := by
      unfold GCEdge_detach
      simp only [hn]
    rw [e]
    exact hq
  | some nd =>
    cases href : nd.referents with
    | nil =>
      have e : GCEdge_detach node h = h := by
        unfold GCEdge_detach
        simp only [hn, href]
      rw [e]
      exact hq
    | cons t rest =>
      rw [GCEdge_detach_of_cons hn href]
      have hI := hq.wf.inv
      obtain ⟨hI2, hslack⟩ := Inv_cut_edge hI hn href
      have hI3 := Inv_decRefCount (t := t) hI2 (fun y hy => hslack y hy)
      obtain ⟨g1, g2, g3, g4, g5, g6⟩ :=
        modifyNode_frame h node (fun x => { x with referents := rest })
      have hfx := (decRefCount_fixed t
        (h.modifyNode node (fun x => { x with referents := rest }))).trans g6
      obtain ⟨r1, r2, r3, r4, r5⟩ := fields_of_fixed hfx
      refine Quiet_of_frame hq ?_ ((decRefCount_s_reachable _ _).trans g2)
        ((decRefCount_zombies _ _).trans g3)
        (fun m => (decRefCount_mark t _ m).trans
          (modifyNode_mark h node (fun x => { x with referents := rest }) (fun _ => rfl) m))
        r2 r3 r4 r5
      rw [r1]
      exact hI3

/-! ### Whole runs -/

theorem Quiet_step {h h' : Heap} (hq : h.Quiet) (hs : Step h h') : h'.Quiet := by
  cases hs with
  | @create rare bytes addr _ h1 e =>
    obtain ⟨h0, q0, ea⟩ := Quiet_operator_new hq e
    have ha : addr = (MemoryBank_allocate bytes h0).1 := congrArg Prod.fst ea
    have hb : h1 = (MemoryBank_allocate bytes h0).2 := congrArg Prod.snd ea
    obtain ⟨f1, f2⟩ := allocate_fresh bytes h0
    rw [← ha, ← hb] at f1 f2
    exact Quiet_construct bytes (hb ▸ Quiet_allocate bytes q0) f1 f2
  | expose => exact Quiet_expose _ hq
  | retain hs => exact Quiet_retain hq hs
  | release hm => exact Quiet_release hq hm
  | attach hs ht => exact Quiet_attach hq hs ht
  | detach => exact Quiet_detach _ hq
  | makeMoribund hn hrc => exact Quiet_makeMoribund hq hn hrc
  | gclite e => exact Quiet_gclite hq e
  | gc e => exact Quiet_gc hq e

theorem Quiet_of_reachable {t : Nat} {h : Heap} (hr : Reachable t h) : h.Quiet := by
  unfold Reachable at hr
  induction hr with
  | refl => exact Quiet_initialise t
  | tail _ hs ih => exact Quiet_step ih hs

/-- What `check` looks at holds of a heap between two operations. -/
theorem Quiet_check {h : Heap} (hq : h.Quiet) :
    h.s_num_nodes = (h.s_live.length + h.s_reachable.length) % UINT_MOD ∧
    (∀ n ∈ h.s_moribund, ∃ nd, h.node? n = some nd ∧ nd.m_refcount % 2 = 1) ∧
    h.s_reachable = [] := by
  obtain ⟨⟨hI, hr, hz, _⟩, _, _, _⟩ := hq
  refine ⟨?_, ?_, hr⟩
  · have := hI.count
    simp only [listed, hr, hz, List.append_nil] at this
    rw [this, hr]
    rfl
  · intro n hn
    obtain ⟨nd, hnd, hodd⟩ := hI.moribund_bit n hn
    exact ⟨nd, hnd, hodd⟩

end CXXR

namespace CXXR

open Heap GCNode

/-! ## The sample heaps are well formed -/

theorem sampleHeap_wf : sampleHeap.wf := by
  refine ⟨⟨?_, ?_, ?_, ?_, ?_, ?_, ?_, ?_, ?_, ?_⟩, ?_, ?_, ?_⟩ <;> with_unfolding_all decide

/-- A list that holds the roots and is closed under the edges holds every
reachable node. -/
theorem Reach_subset {h : Heap} (S : List Nat) (hroots : ∀ r ∈ h.roots, r ∈ S)
    (hclosed : ∀ a ∈ S, ∀ nd ∈ h.node? a, ∀ b ∈ nd.referents, b ∈ S) {n : Nat}
    (hr : Reach h n) : n ∈ S := by
  induction hr with
  | root hmem => exact hroots _ hmem
  | edge _ hn hc ih => exact hclosed _ ih _ hn _ hc

theorem sampleHeap_unreachable : ∀ n ∈ [3, 4], ¬ Reach sampleHeap n := by
  intro n hn hr
  have hS := Reach_subset [0, 1, 2] (by decide) (by decide) hr
  simp only [List.mem_cons, List.mem_singleton, List.not_mem_nil, or_false] at hn hS
  omega

/-! ## Properties of the collector -/

/-- C1 (reachability closure).  On a well-formed heap with no node under
construction and no inhibitor active, `GCNode::gc()` returns, and the nodes
that survive are exactly the nodes that were reachable from the roots (heap
roots, stack roots and protection stack) along referent edges when it was
called: a reachable node survives with the edges it had, and a node that was
not reachable is in the record of the deletions made by the call. -/
theorem gc_reachability_closure (h : Heap) (hw : h.wf) (huc : h.s_under_construction = 0)
    (hi : h.s_inhibitor_count = 0) :
    ∃ F, GCNode.gc h = Result.ok F ∧
      (∀ n, (F.node? n).isSome ↔ Reach h n) ∧
      (∀ n, Reach h n →
        (F.node? n).map GCNode.referents = (h.node? n).map GCNode.referents) ∧
      ∃ log, F.deleted = h.deleted ++ log ∧
        ∀ n, n ∈ log ↔ ((h.node? n).isSome ∧ ¬ Reach h n) := by
  obtain ⟨F, e, c⟩ := gc_spec hw huc hi
  obtain ⟨log, e1, _, e2⟩ := c.deleted
  exact ⟨F, e, c.alive_iff, c.referents, log, e1, e2⟩

theorem gc_reachability_closure_witness :
    sampleHeap.wf ∧ sampleHeap.s_under_construction = 0 ∧ sampleHeap.s_inhibitor_count = 0 ∧
    ∃ F, GCNode.gc sampleHeap = Result.ok F ∧
      (∀ n, (F.node? n).isSome ↔ Reach sampleHeap n) ∧
      (∀ n, Reach sampleHeap n →
        (F.node? n).map GCNode.referents = (sampleHeap.node? n).map GCNode.referents) ∧
      ∃ log, F.deleted = sampleHeap.deleted ++ log ∧
        ∀ n, n ∈ log ↔ ((sampleHeap.node? n).isSome ∧ ¬ Reach sampleHeap n) :=
  ⟨sampleHeap_wf, rfl, rfl, gc_reachability_closure sampleHeap sampleHeap_wf rfl rfl⟩

/-- C2 (cycle reclamation).  Let two or more nodes refer to each other in a
cycle, each to the next and the last to the first, none of them reachable from
a root.  Each of them has a reference count of at least one (the field
`m_refcount`, which holds twice the count, is at least 2), and yet after
`GCNode::gc()` every one of them is deleted. -/
theorem gc_reclaims_cycle (h : Heap) (hw : h.wf) (huc : h.s_under_construction = 0)
    (hi : h.s_inhibitor_count = 0) (cycle : List Nat) (hlen : 2 ≤ cycle.length)
    (hcyc : ∀ i, i < cycle.length →
      ∃ a b, cycle[i]? = some a ∧ cycle[(i + 1) % cycle.length]? = some b ∧ h.edge a b)
    (hun : ∀ n ∈ cycle, ¬ Reach h n) :
    ∃ F, GCNode.gc h = Result.ok F ∧
      ∀ n ∈ cycle, (∃ nd, h.node? n = some nd ∧ 2 ≤ nd.m_refcount) ∧
        F.node? n = none ∧ n ∈ F.deleted := by
  obtain ⟨F, e, c⟩ := gc_spec hw huc hi
  refine ⟨F, e, ?_⟩
  intro n hn
  obtain ⟨i, hi', hget⟩ := List.getElem_of_mem hn
  -- the predecessor of `n` on the cycle
  have hpos : 0 < cycle.length := by omega
  have hj : (i + cycle.length - 1) % cycle.length < cycle.length := Nat.mod_lt _ hpos
  obtain ⟨a, b, ha, hb, hab⟩ := hcyc _ hj
  have hsucc : ((i + cycle.length - 1) % cycle.length + 1) % cycle.length = i := by
    have h1 : (i + cycle.length - 1) % cycle.length + 1 = i + cycle.length ∨
        (i + cycle.length - 1) % cycle.length + 1 = i := by
      by_cases h0 : i = 0
      · subst h0
        left
        rw [Nat.zero_add, Nat.mod_eq_of_lt (by omega)]
        omega
      · right
        have : i + cycle.length - 1 = (i - 1) + cycle.length := by omega
        rw [this, Nat.add_mod_right, Nat.mod_eq_of_lt (by omega)]
        omega
    rcases h1 with h1 | h1
    · rw [h1, Nat.add_mod_right, Nat.mod_eq_of_lt hi']
    · rw [h1, Nat.mod_eq_of_lt hi']
  rw [hsucc, List.getElem?_eq_getElem hi', hget] at hb
  cases hb
  obtain ⟨nda, hnda, hmem⟩ := hab
  have hin := inEdges_pos hnda hmem
  have halive := hw.inv.referent_alive hnda hmem
  obtain ⟨nd, hnd⟩ := Option.isSome_iff_exists.mp halive
  have hrc := hw.inv.refcount_of_node hnd
  have hdead : F.node? n = none := by
    cases hx : F.node? n with
    | none => rfl
    | some x => exact absurd ((c.alive_iff n).mp (by simp [hx])) (hun n hn)
  obtain ⟨log, e1, _, e2⟩ := c.deleted
  refine ⟨⟨nd, hnd, by omega⟩, hdead, ?_⟩
  rw [e1, List.mem_append]
  exact Or.inr ((e2 n).mpr ⟨halive, hun n hn⟩)

theorem gc_reclaims_cycle_witness :
    ∃ F, GCNode.gc sampleHeap = Result.ok F ∧
      ∀ n ∈ [3, 4], (∃ nd, sampleHeap.node? n = some nd ∧ 2 ≤ nd.m_refcount) ∧
        F.node? n = none ∧ n ∈ F.deleted :=
  gc_reclaims_cycle sampleHeap sampleHeap_wf rfl rfl [3, 4] (by decide)
    (by
      intro i hi
      have hi' : i < 2 := hi
      interval_cases i
      · exact ⟨3, 4, rfl, rfl, _, rfl, by decide⟩
      · exact ⟨4, 3, rfl, rfl, _, rfl, by decide⟩)
    sampleHeap_unreachable

/-- C3.  `GCNode::gc()` aborts if and only if the sum, taken in `unsigned int`,
of `s_under_construction` and `s_inhibitor_count` is not zero at entry; the
heap at the abort is the heap at entry, nothing having been marked or swept.
In every other state it returns.  In particular, while a node is under
construction (and the sum of the two counters does not wrap) it aborts. -/
theorem gc_aborts_iff (h : Heap) :
    (GCNode.gc h = Result.abort h ↔
      (h.s_under_construction + h.s_inhibitor_count) % UINT_MOD ≠ 0) ∧
    (∀ a, GCNode.gc h = Result.abort a → a = h) ∧
    ((h.s_under_construction + h.s_inhibitor_count) % UINT_MOD = 0 →
      ∃ F, GCNode.gc h = Result.ok F) ∧
    (0 < h.s_under_construction → h.s_under_construction + h.s_inhibitor_count < UINT_MOD →
      GCNode.gc h = Result.abort h) := by
  by_cases hc : (h.s_under_construction + h.s_inhibitor_count) % UINT_MOD = 0
  · obtain ⟨F, e, _⟩ := gc_total hc
    refine ⟨?_, ?_, fun _ => ⟨F, e⟩, ?_⟩
    · rw [e]
      simp [hc]
    · intro a ha
      rw [e] at ha
      cases ha
    · intro hpos hlt
      rw [Nat.mod_eq_of_lt hlt] at hc
      omega
  · have e := gc_of_blocked hc
    refine ⟨?_, ?_, fun h0 => absurd h0 hc, fun _ _ => e⟩
    · simp [e, hc]
    · intro a ha
      rw [e] at ha
      cases ha
      rfl

/-- C7.  `GCNode::makeMoribund()` defers the deletion: after the call the node
is the last element of the moribund list and its `m_refcount` is 1 (count
zero, moribund bit set); the node is still in the store, no deletion has been
recorded, and the live list, the reachable list, `s_num_nodes` and every
other node are as before. -/
theorem makeMoribund_defers (h : Heap) (node : Nat) (nd : GCNode)
    (hn : h.node? node = some nd) :
    (GCNode.makeMoribund node h).s_moribund = h.s_moribund ++ [node] ∧
    (GCNode.makeMoribund node h).s_moribund.getLast? = some node ∧
    (GCNode.makeMoribund node h).node? node = some { nd with m_refcount := 1 } ∧
    (GCNode.makeMoribund node h).deleted = h.deleted ∧
    (GCNode.makeMoribund node h).s_live = h.s_live ∧
    (GCNode.makeMoribund node h).s_reachable = h.s_reachable ∧
    (GCNode.makeMoribund node h).s_num_nodes = h.s_num_nodes ∧
    ∀ m, m ≠ node → (GCNode.makeMoribund node h).node? m = h.node? m := by
  have hlt := node?_lt hn
  have e : GCNode.makeMoribund node h =
      { h.setNode node { nd with m_refcount := 1 } with s_moribund := h.s_moribund ++ [node] } := by
    unfold GCNode.makeMoribund
    rw [modifyNode_of_some _ hn]
    rfl
  rw [e]
  refine ⟨rfl, by simp, ?_, rfl, rfl, rfl, rfl, ?_⟩
  · exact node?_of_set_same (h := h) rfl hlt
  · intro m hm
    exact node?_of_set_ne (h := h) rfl hm

theorem makeMoribund_defers_witness :
    (GCNode.makeMoribund 5 sampleHeap).s_moribund = sampleHeap.s_moribund ++ [5] ∧
    (GCNode.makeMoribund 5 sampleHeap).s_moribund.getLast? = some 5 ∧
    (GCNode.makeMoribund 5 sampleHeap).node? 5
      = some { sampleNode 0 [1] false with m_refcount := 1 } ∧
    (GCNode.makeMoribund 5 sampleHeap).deleted = sampleHeap.deleted ∧
    (GCNode.makeMoribund 5 sampleHeap).s_live = sampleHeap.s_live ∧
    (GCNode.makeMoribund 5 sampleHeap).s_reachable = sampleHeap.s_reachable ∧
    (GCNode.makeMoribund 5 sampleHeap).s_num_nodes = sampleHeap.s_num_nodes ∧
    ∀ m, m ≠ 5 → (GCNode.makeMoribund 5 sampleHeap).node? m = sampleHeap.node? m :=
  makeMoribund_defers sampleHeap 5 (sampleNode 0 [1] false) rfl

/-- C8.  While the inhibitor count is not zero `GCNode::gclite()` returns at
once: the heap it returns is the heap it was given, so the moribund list, the
live list, `s_num_nodes`, every reference count and the record of deletions
are unchanged. -/
theorem gclite_inhibited (h : Heap) (hi : 0 < h.s_inhibitor_count) :
    GCNode.gclite h = some h := by
  exact gclite_of_inhibited (by omega)

theorem gclite_inhibited_witness :
    GCNode.gclite { sampleMoribund with s_inhibitor_count := 1 }
      = some { sampleMoribund with s_inhibitor_count := 1 } :=
  gclite_inhibited { sampleMoribund with s_inhibitor_count := 1 } (by decide)

end CXXR

namespace CXXR

open Heap GCNode

/-! ## Allocation, the sweep and the moribund list -/

theorem sampleMarked_pre : SweepPre [0] sampleMarked := by
  refine ⟨⟨?_, ?_, ?_, ?_, ?_, ?_, ?_, ?_, ?_, ?_⟩, ?_, ?_, ?_, ?_, ?_⟩ <;>
    with_unfolding_all decide

/-- The statement `delete node` on a node of the store frees its slot and is
recorded once. -/
theorem deleteNode_gone {h : Heap} {node : Nat} {nd : GCNode} (hn : h.node? node = some nd) :
    (deleteNode node h).node? node = none ∧ (deleteNode node h).deleted = h.deleted ++ [node] := by
  have hlt := node?_lt hn
  rw [deleteNode_of_some hn]
  obtain ⟨_, _, _, f4, _, _, _, f8, _⟩ :=
    detachReferents_frame node { h with deleted := h.deleted ++ [node] }
  have hlen : ((detachReferents node { h with deleted := h.deleted ++ [node] }).unlink
      node).nodes.length = h.nodes.length := by
    rw [unlink_nodes]
    exact f8
  refine ⟨node?_of_set_same rfl (by rw [hlen]; exact hlt), ?_⟩
  exact f4

/-- What one iteration of the loop of `gclite` does to the node it pops. -/
theorem gclite_body_pop {s : Heap} {ms : List Nat} {node : Nat} {nd : GCNode}
    (hm : s.s_moribund = ms ++ [node]) (hn : s.node? node = some nd) :
    (nd.m_refcount - nd.m_refcount % 2 = 0 →
      (gclite_body s).node? node = none ∧ (gclite_body s).deleted = s.deleted ++ [node]) ∧
    (nd.m_refcount - nd.m_refcount % 2 ≠ 0 →
      (gclite_body s).node? node
        = some { nd with m_refcount := nd.m_refcount - nd.m_refcount % 2 } ∧
      (gclite_body s).deleted = s.deleted ∧ (gclite_body s).s_moribund = ms) := by
  have hlt := node?_lt hn
  have hbody := gclite_body_of_last hm hn
  have hn2 : (({ s with s_moribund := ms } : Heap).setNode node
      { nd with m_refcount := nd.m_refcount - nd.m_refcount % 2 }).node? node
        = some { nd with m_refcount := nd.m_refcount - nd.m_refcount % 2 } :=
    node?_of_set_same (h := s) rfl hlt
  constructor
  · intro hz
    rw [hbody, if_pos hz]
    exact deleteNode_gone hn2
  · intro hz
    rw [hbody, if_neg hz]
    exact ⟨hn2, rfl, rfl⟩

/-- C4.  `GCNode::operator new` (built without `RARE_GC`) first processes the
moribund list when it is not empty, which gives the heap `h1`.  It then starts
a full mark-sweep collection if and only if in `h1` the byte count of the
allocator exceeds the trigger level and the `unsigned int` sum of
`s_under_construction` and `s_inhibitor_count` is zero: in that case the
collection runs on `h1`, toggles the mark parity, and storage is allocated in
the heap it leaves; in every other state storage is allocated in `h1` itself
and the parity is as at entry. -/
theorem operator_new_collects_iff (bytes : Nat) (h : Heap) :
    ∃ h1, (if h.s_moribund.isEmpty then h1 = h else GCNode.gclite h = some h1) ∧
      ((h1.bytes_allocated > h1.trigger_level ∧
          (h1.s_under_construction + h1.s_inhibitor_count) % UINT_MOD = 0) →
        ∃ F, GCNode.gc h1 = Result.ok F ∧ F.s_mark = (!h.s_mark) ∧
          GCNode.operator_new false bytes h = Result.ok (MemoryBank_allocate bytes F)) ∧
      (¬ (h1.bytes_allocated > h1.trigger_level ∧
          (h1.s_under_construction + h1.s_inhibitor_count) % UINT_MOD = 0) →
        GCNode.operator_new false bytes h = Result.ok (MemoryBank_allocate bytes h1) ∧
          h1.s_mark = h.s_mark) := by
  have key : ∃ h1, (if h.s_moribund.isEmpty then h1 = h else GCNode.gclite h = some h1) ∧
      (if !false && !h.s_moribund.isEmpty then gclite h else some h) = some h1 ∧
      h1.s_mark = h.s_mark := by
    by_cases he : h.s_moribund.isEmpty = true
    · exact ⟨h, by simp [he], by simp [he], rfl⟩
    · obtain ⟨h1, e1, f1, _⟩ := gclite_total h
      have := congrArg (fun t => t.2.1) f1
      simp only [fixed] at this
      exact ⟨h1, by simp [he, e1], by simp [he, e1], this⟩
  obtain ⟨h1, hd, e1, hs⟩ := key
  refine ⟨h1, hd, ?_, ?_⟩
  · intro hc
    obtain ⟨F, eF, sF⟩ := gc_total hc.2
    refine ⟨F, eF, by rw [sF, hs], ?_⟩
    unfold operator_new
    rw [e1]
    simp only [hc, and_self, if_true, Bool.false_eq_true, if_false, GCManager_gc, eF]
  · intro hc
    refine ⟨?_, hs⟩
    unfold operator_new
    rw [e1]
    simp only [hc, if_false]

/-- C5 (no double deletion in `sweep`).  On a heap as `mark` leaves it,
`GCNode::sweep()` returns; `log1` being the deletions recorded up to the end of
the moribund pass that `sweep` runs (`gclite`, which returns `h2`) and `log2`
those recorded during the destruction of the zombie list, every node that was
on the live list when `sweep` started occurs exactly once in the two records
together and is gone from the store, and no other node occurs in them. -/
theorem sweep_deletes_once (R : List Nat) (h : Heap) (hpre : SweepPre R h) :
    ∃ s1 h2 F, GCNode.gclite (s_live_splice_back_s_reachable s1) = some h2 ∧
      GCNode.sweep h = some F ∧ F = GCNode.zombies_destroy h2 ∧
      ∃ log1 log2, h2.deleted = h.deleted ++ log1 ∧ F.deleted = h2.deleted ++ log2 ∧
        (∀ n ∈ h.s_live, log1.count n + log2.count n = 1 ∧ F.node? n = none) ∧
        (∀ n, n ∉ h.s_live → log1.count n + log2.count n = 0) := by
  obtain ⟨F, e, SF, zF, _, _, s1, h2, eg, S2, eF, dF⟩ := sweep_spec hpre
  obtain ⟨log1, d1, _, _⟩ := S2.base.log
  obtain ⟨log, d, lnd, lm⟩ := SF.base.log
  have hlog : log = log1 ++ h2.zombies := by
    have : h.deleted ++ log = h.deleted ++ (log1 ++ h2.zombies) := by
      rw [← d, dF, d1, List.append_assoc]
    exact List.append_cancel_left this
  have hdisj : ∀ n ∈ h.s_live, n ∉ h.s_reachable := by
    intro n hn hr
    have := hpre.inv.listed_nodup
    simp only [listed, hpre.zombies_empty, List.append_nil] at this
    exact (List.nodup_append.mp this).2.2 hn hr
  refine ⟨s1, h2, F, eg, e, eF, log1, h2.zombies, d1, dF, ?_, ?_⟩
  · intro n hn
    have hdead : F.node? n = none := by
      cases hx : F.node? n with
      | none => rfl
      | some x => exact absurd ((SF.alive_iff zF n).mp (by simp [hx])) (hdisj n hn)
    have hmem : n ∈ log := (lm n).mpr ⟨hn, hdead⟩
    have := List.count_eq_one_of_mem lnd hmem
    rw [hlog, List.count_append] at this
    exact ⟨this, hdead⟩
  · intro n hn
    have hmem : n ∉ log := fun hm => hn ((lm n).mp hm).1
    have := List.count_eq_zero_of_not_mem hmem
    rw [hlog, List.count_append] at this
    exact this

theorem sweep_deletes_once_witness :
    ∃ s1 h2 F, GCNode.gclite (s_live_splice_back_s_reachable s1) = some h2 ∧
      GCNode.sweep sampleMarked = some F ∧ F = GCNode.zombies_destroy h2 ∧
      ∃ log1 log2, h2.deleted = sampleMarked.deleted ++ log1 ∧ F.deleted = h2.deleted ++ log2 ∧
        (∀ n ∈ sampleMarked.s_live, log1.count n + log2.count n = 1 ∧ F.node? n = none) ∧
        (∀ n, n ∉ sampleMarked.s_live → log1.count n + log2.count n = 0) :=
  sweep_deletes_once [0] sampleMarked sampleMarked_pre

/-- C6.  With `s_inhibitor_count` zero `GCNode::gclite()` returns with an empty
moribund list.  Its run is a number `k` of iterations of the loop body, each
popping the back of the list.  An iteration that pops a node clears the
moribund bit of its `m_refcount`, then deletes the node if and only if the
field is zero; a node whose count was raised while it was on the list (field
at least 2) is left in the store with the bit cleared. -/
theorem gclite_finalises (h : Heap) (hi : h.s_inhibitor_count = 0) :
    (∃ h', GCNode.gclite h = some h' ∧ h'.s_moribund = []) ∧
    (∃ k, GCNode.gclite h = some (GCInhibitor.leave (ProtectStack.unprotect h.cstructs.length
        (GCNode.gclite_body^[k] (GCNode.protectCstructs (GCInhibitor.enter h)).2))) ∧
      ∀ j < k, (GCNode.gclite_body^[j]
        (GCNode.protectCstructs (GCInhibitor.enter h)).2).s_moribund ≠ []) ∧
    (∀ (s : Heap) (ms : List Nat) (node : Nat) (nd : GCNode),
      s.s_moribund = ms ++ [node] → s.node? node = some nd →
        (nd.m_refcount - nd.m_refcount % 2) % 2 = 0 ∧
        (nd.m_refcount - nd.m_refcount % 2 = 0 →
          (GCNode.gclite_body s).node? node = none ∧
          (GCNode.gclite_body s).deleted = s.deleted ++ [node]) ∧
        (nd.m_refcount - nd.m_refcount % 2 ≠ 0 →
          (GCNode.gclite_body s).node? node
            = some { nd with m_refcount := nd.m_refcount - nd.m_refcount % 2 } ∧
          (GCNode.gclite_body s).deleted = s.deleted ∧ (GCNode.gclite_body s).s_moribund = ms) ∧
        (2 ≤ nd.m_refcount → ((GCNode.gclite_body s).node? node).isSome)) := by
  refine ⟨?_, ?_, ?_⟩
  · obtain ⟨h', e, _, hm⟩ := gclite_total h
    exact ⟨h', e, hm hi⟩
  · obtain ⟨s', e, _, _⟩ := gclite_loop_rule (fun _ => True) (fun _ _ _ => trivial)
      (protectCstructs (GCInhibitor.enter h)).2 trivial
    obtain ⟨k, hk, hj, _⟩ := whileLoop_iterate _ _ _ _ _ e
    refine ⟨k, ?_, ?_⟩
    · unfold gclite
      simp only [hi, ne_eq, not_true_eq_false, if_false]
      rw [e, hk]
      rfl
    · intro j hjk
      exact isEmpty_false_iff.mp (hj j hjk)
  · intro s ms node nd hm hn
    obtain ⟨a, b⟩ := gclite_body_pop hm hn
    refine ⟨by omega, a, b, ?_⟩
    intro h2
    have : nd.m_refcount - nd.m_refcount % 2 ≠ 0 := by omega
    rw [(b this).1]
    rfl

theorem gclite_finalises_witness :
    (∃ h', GCNode.gclite sampleMoribund = some h' ∧ h'.s_moribund = []) ∧
    (∃ k, GCNode.gclite sampleMoribund = some (GCInhibitor.leave
        (ProtectStack.unprotect sampleMoribund.cstructs.length
        (GCNode.gclite_body^[k] (GCNode.protectCstructs (GCInhibitor.enter sampleMoribund)).2))) ∧
      ∀ j < k, (GCNode.gclite_body^[j]
        (GCNode.protectCstructs (GCInhibitor.enter sampleMoribund)).2).s_moribund ≠ []) ∧
    (∀ (s : Heap) (ms : List Nat) (node : Nat) (nd : GCNode),
      s.s_moribund = ms ++ [node] → s.node? node = some nd →
        (nd.m_refcount - nd.m_refcount % 2) % 2 = 0 ∧
        (nd.m_refcount - nd.m_refcount % 2 = 0 →
          (GCNode.gclite_body s).node? node = none ∧
          (GCNode.gclite_body s).deleted = s.deleted ++ [node]) ∧
        (nd.m_refcount - nd.m_refcount % 2 ≠ 0 →
          (GCNode.gclite_body s).node? node
            = some { nd with m_refcount := nd.m_refcount - nd.m_refcount % 2 } ∧
          (GCNode.gclite_body s).deleted = s.deleted ∧ (GCNode.gclite_body s).s_moribund = ms) ∧
        (2 ≤ nd.m_refcount → ((GCNode.gclite_body s).node? node).isSome)) :=
  gclite_finalises sampleMoribund rfl

end CXXR

namespace CXXR

open Heap GCNode

/-! ## What `check` tests -/

/-- C9 (the sentence as written fails).  In `sampleMidCollection`, a heap as it
is between `mark` and `sweep`, the class is initialised, `s_num_nodes` equals
the number of nodes on the live list plus the number on the reachable list,
and the moribund list is empty, yet `GCNode::check()` aborts: it counts the
nodes of the live list only. -/
theorem check_ignores_reachable_list :
    sampleMidCollection.initialised = true ∧
    sampleMidCollection.s_num_nodes
      = (sampleMidCollection.s_live.length + sampleMidCollection.s_reachable.length)
          % UINT_MOD ∧
    (∀ n ∈ sampleMidCollection.s_moribund,
      ∃ nd, sampleMidCollection.node? n = some nd ∧ nd.m_refcount % 2 = 1) ∧
    GCNode.check sampleMidCollection = Result.abort sampleMidCollection := by
  refine ⟨rfl, ?_, ?_, ?_⟩
  · with_unfolding_all decide
  · intro n hn
    exact absurd hn (List.not_mem_nil n)
  · with_unfolding_all decide

/-- C9 (amended).  `GCNode::check()` never returns false and always ends.  It
returns true exactly when the class is initialised, `s_num_nodes` equals the
number of nodes on the live list (counted as an `unsigned int`), and every
entry of the moribund list is a node with its moribund bit set; in every other
state it aborts.  The reachable list plays no part: where it is empty, and
only there, the count of the live list is the count of both lists. -/
theorem check_true_iff (h : Heap) :
    GCNode.check h ≠ Result.ok false ∧ GCNode.check h ≠ Result.timeout ∧
    (GCNode.check h = Result.ok true ↔
      (h.initialised = true ∧ h.s_num_nodes = h.s_live.length % UINT_MOD ∧
        ∀ n ∈ h.s_moribund, ∃ nd, h.node? n = some nd ∧ nd.m_refcount % 2 = 1)) ∧
    (GCNode.check h ≠ Result.ok true → GCNode.check h = Result.abort h) ∧
    (h.s_reachable = [] →
      (GCNode.check h = Result.ok true ↔
        (h.initialised = true ∧
          h.s_num_nodes = (h.s_live.length + h.s_reachable.length) % UINT_MOD ∧
          ∀ n ∈ h.s_moribund, ∃ nd, h.node? n = some nd ∧ nd.m_refcount % 2 = 1))) := by
  have key := check_ok_iff h
  have hcases := check_ok_or_abort h
  refine ⟨?_, ?_, key, ?_, ?_⟩
  · rcases hcases with e | e <;> rw [e] <;> simp
  · rcases hcases with e | e <;> rw [e] <;> simp
  · intro hne
    rcases hcases with e | e
    · exact absurd e hne
    · exact e
  · intro hr
    rw [key, hr]
    simp

end CXXR

namespace CXXR

open Heap GCNode

/-! ## The node count along the runs of a program -/

/-- `operator new` never aborts and never runs out of fuel. -/
theorem operator_new_total (rare : Bool) (bytes : Nat) (h : Heap) :
    ∃ p, operator_new rare bytes h = Result.ok p := by
  have s1 : ∀ (c : Bool) (x : Heap),
      ∃ y, (if c = true then gclite x else some x) = some y ∧ y.fixed = x.fixed := by
    intro c x
    cases c
    · exact ⟨x, by simp, rfl⟩
    · obtain ⟨y, e, f, _⟩ := gclite_total x
      exact ⟨y, by simp [e], f⟩
  obtain ⟨h0, e0, _⟩ := s1 (!rare && !h.s_moribund.isEmpty) h
  unfold operator_new
  rw [e0]
  simp only
  split
  · rename_i hc
    obtain ⟨h2, e2, f2⟩ := s1 rare h0
    rw [e2]
    simp only
    obtain ⟨_, _, r3, r4, _⟩ := fields_of_fixed f2
    have hg : (h2.s_under_construction + h2.s_inhibitor_count) % UINT_MOD = 0 := by
      rw [r3, r4]
      exact hc.2
    obtain ⟨F, eF, _⟩ := gc_total hg
    unfold GCManager_gc
    rw [eF]
    exact ⟨_, rfl⟩
  · exact ⟨_, rfl⟩

theorem sampleRun_reachable : Reachable 100 sampleRun := by
  have r0 : Relation.ReflTransGen Step (initialise 100) (initialise 100) :=
    Relation.ReflTransGen.refl
  have e1 : operator_new false 8 (initialise 100)
      = Result.ok (0, (MemoryBank_allocate 8 (initialise 100)).2) := by
    with_unfolding_all decide
  have r1 := (r0.tail (@Step.create false 8 0 _ _ e1)).tail (@Step.expose 0 _)
  have e2 : operator_new false 8
      (expose 0 (construct 0 8 (MemoryBank_allocate 8 (initialise 100)).2))
      = Result.ok (1, (MemoryBank_allocate 8
          (expose 0 (construct 0 8 (MemoryBank_allocate 8 (initialise 100)).2))).2) := by
    with_unfolding_all decide
  have r2 := (r1.tail (@Step.create false 8 1 _ _ e2)).tail (@Step.expose 1 _)
  have r3 := r2.tail (@Step.retain 0 _ (by with_unfolding_all decide))
  have r4 := r3.tail (@Step.attach 0 1 _ (by with_unfolding_all decide)
    (by with_unfolding_all decide))
  exact r4.tail (@Step.detach 0 _)

/-- C10 (node-count invariant).  Let `h` be reached from the state that
`initialize()` sets up by any sequence of these operations: creating a node
(`operator new` and the constructor), exposing a node, a root or an edge
taking or giving up a reference, `makeMoribund()` on a node whose count is
zero, `gclite()`, and `gc()`.  Then `s_num_nodes` equals, as an `unsigned int`,
the number of nodes on the live list plus the number on the reachable list,
every entry of the moribund list is a node with its moribund bit set, and
`GCNode::check()` called in `h` returns true instead of aborting.  From `h`
the run can go on: `gclite()` returns and `operator new` hands out storage. -/
theorem node_count_invariant (trigger : Nat) (h : Heap) (hr : Reachable trigger h) :
    h.s_num_nodes = (h.s_live.length + h.s_reachable.length) % UINT_MOD ∧
    (∀ n ∈ h.s_moribund, ∃ nd, h.node? n = some nd ∧ nd.m_refcount % 2 = 1) ∧
    GCNode.check h = Result.ok true ∧
    (∃ h1, GCNode.gclite h = some h1) ∧
    (∀ rare bytes, ∃ p, GCNode.operator_new rare bytes h = Result.ok p) := by
  have hq := Quiet_of_reachable hr
  obtain ⟨a, b, c⟩ := Quiet_check hq
  refine ⟨a, b, (check_ok_iff h).mpr ⟨hq.initialised, ?_, b⟩, ?_, ?_⟩
  · rw [a, c]
    rfl
  · obtain ⟨h1, e, _⟩ := gclite_total h
    exact ⟨h1, e⟩
  · intro rare bytes
    exact operator_new_total rare bytes h

theorem node_count_invariant_witness :
    sampleRun.s_moribund = [1] ∧ sampleRun.s_live = [0, 1] ∧
    (sampleRun.s_num_nodes
        = (sampleRun.s_live.length + sampleRun.s_reachable.length) % UINT_MOD ∧
      (∀ n ∈ sampleRun.s_moribund,
        ∃ nd, sampleRun.node? n = some nd ∧ nd.m_refcount % 2 = 1) ∧
      GCNode.check sampleRun = Result.ok true ∧
      (∃ h1, GCNode.gclite sampleRun = some h1) ∧
      (∀ rare bytes, ∃ p, GCNode.operator_new rare bytes sampleRun = Result.ok p)) :=
  ⟨by with_unfolding_all decide, by with_unfolding_all decide,
    node_count_invariant 100 sampleRun sampleRun_reachable⟩

end CXXR

namespace CXXR

open Heap GCNode

/-! ## The mark parity -/

/-- C29 (mark parity).  `GCNode::mark()` always returns and toggles `s_mark`.
On a well-formed heap with nothing under construction and no inhibitor,
`GCNode::gc()` returns a heap `F` with the parity toggled, in which the
reachable list is empty and every node of the live list, indeed every node
there is, carries the parity `s_mark` of `F`; `sweep` has left the mark bit of
every surviving node as `mark` set it.  With the parity toggled once more none
of the nodes of `F` counts as marked, and a second collection returns with the
parity that `h` had. -/
theorem mark_parity (h : Heap) (hw : h.wf) (huc : h.s_under_construction = 0)
    (hi : h.s_inhibitor_count = 0) :
    (∀ g : Heap, ∃ g1, GCNode.mark g = some g1 ∧ g1.s_mark = !g.s_mark) ∧
    ∃ h1 F, GCNode.mark h = some h1 ∧ GCNode.sweep h1 = some F ∧
      GCNode.gc h = Result.ok F ∧
      F.s_mark = !h.s_mark ∧
      F.s_reachable = [] ∧
      (∀ n ∈ F.s_live, ∃ nd, F.node? n = some nd ∧ nd.m_bits_MARK = F.s_mark) ∧
      (∀ n nd, F.node? n = some nd → nd.m_bits_MARK = F.s_mark) ∧
      (∀ n nd, F.node? n = some nd →
        ∃ nd1, h1.node? n = some nd1 ∧ nd1.m_bits_MARK = nd.m_bits_MARK) ∧
      (∀ n nd, F.node? n = some nd → GCNode.isMarked F.toggled nd = false) ∧
      ∃ G, GCNode.gc F = Result.ok G ∧ G.s_mark = h.s_mark := by
  refine ⟨?_, ?_⟩
  · intro g
    obtain ⟨g1, e, hr⟩ := mark_rel g
    exact ⟨g1, e, hr.s_mark⟩
  · obtain ⟨h1, e1, hr, hI, hm⟩ := mark_spec hw
    have hpre := SweepPre_of_mark hi hr hI hm
    obtain ⟨F, e2, SF, zF, _, _, _⟩ := sweep_spec hpre
    have hc : (h.s_under_construction + h.s_inhibitor_count) % UINT_MOD = 0 := by
      rw [huc, hi]
      simp
    have hgc : GCNode.gc h = Result.ok F := gc_of_clear hc e1 e2
    obtain ⟨F', eF', cF⟩ := gc_spec hw huc hi
    have hFF : F' = F := by
      rw [hgc] at eF'
      cases eF'
      rfl
    subst hFF
    have hpar : ∀ n nd, F'.node? n = some nd → nd.m_bits_MARK = F'.s_mark := by
      intro n nd hn
      have hlt : n < F'.nodes.length := node?_isSome_lt (by simp [hn])
      exact cF.wf.parity n hlt nd hn
    refine ⟨h1, F', e1, e2, hgc, cF.s_mark, cF.wf.reachable_empty, ?_, hpar, ?_, ?_, ?_⟩
    · intro n hn
      have hl : n ∈ F'.listed := by
        unfold listed
        simp [hn]
      have := cF.wf.inv.listed_alive n hl
      obtain ⟨nd, hnd⟩ := Option.isSome_iff_exists.mp this
      exact ⟨nd, hnd, hpar n nd hnd⟩
    · intro n nd hn
      have hmem : n ∈ h1.s_reachable := (SF.alive_iff zF n).mp (by simp [hn])
      have hf := (SF.base.frame n hmem).2
      rw [hn] at hf
      cases h1n : h1.node? n with
      | none => simp [h1n] at hf
      | some nd1 =>
        refine ⟨nd1, rfl, ?_⟩
        simpa [h1n] using hf.symm
    · intro n nd hn
      have := hpar n nd hn
      unfold GCNode.isMarked Heap.toggled
      simp only [this]
      cases F'.s_mark <;> rfl
    · obtain ⟨G, eG, cG⟩ := gc_spec cF.wf (cF.counters.1.trans huc) (cF.counters.2.1.trans hi)
      refine ⟨G, eG, ?_⟩
      rw [cG.s_mark, cF.s_mark]
      simp

theorem mark_parity_witness :
    sampleHeap.wf ∧ sampleHeap.s_under_construction = 0 ∧ sampleHeap.s_inhibitor_count = 0 ∧
    ∃ F, GCNode.gc sampleHeap = Result.ok F ∧ F.s_mark = true ∧ F.s_reachable = [] ∧
      (∀ n nd, F.node? n = some nd → nd.m_bits_MARK = F.s_mark) ∧
      ∃ G, GCNode.gc F = Result.ok G ∧ G.s_mark = false := by
  obtain ⟨_, h1, F, _, _, e, hm, hr, _, hp, _, _, G, eG, hG⟩ :=
    mark_parity sampleHeap sampleHeap_wf rfl rfl
  exact ⟨sampleHeap_wf, rfl, rfl, F, e, hm, hr, hp, G, eG, hG⟩

/-! ## The order of the moribund list -/

theorem decRefCount_moribund_extends (t : Nat) (h : Heap) :
    ∃ new, (decRefCount t h).s_moribund = h.s_moribund ++ new ∧ ∀ x ∈ new, x = t := by
  cases ht : h.node? t with
  | none =>
    rw [decRefCount_of_none ht]
    exact ⟨[], by simp, fun x hx => absurd hx (List.not_mem_nil x)⟩
  | some nd =>
    rw [decRefCount_of_some ht]
    by_cases hz : nd.m_refcount - 2 = 0
    · exact ⟨[t], by simp [hz], fun x hx => by simpa using hx⟩
    · exact ⟨[], by simp [hz], fun x hx => absurd hx (List.not_mem_nil x)⟩

theorem modifyNode_moribund (h : Heap) (n : Nat) (f : GCNode → GCNode) :
    (h.modifyNode n f).s_moribund = h.s_moribund := by
  unfold Heap.modifyNode
  cases h.node? n <;> rfl

theorem detachEdges_moribund_extends : ∀ (refs : List Nat) (node : Nat) (h : Heap),
    ∃ new, (detachEdges refs node h).s_moribund = h.s_moribund ++ new ∧
      ∀ x ∈ new, x ∈ refs := by
  intro refs
  induction refs with
  | nil =>
    intro node h
    exact ⟨[], by simp [detachEdges], fun x hx => absurd hx (List.not_mem_nil x)⟩
  | cons t rest ih =>
    intro node h
    obtain ⟨n1, e1, m1⟩ := decRefCount_moribund_extends t
      (h.modifyNode node (fun nd => { nd with referents := rest }))
    obtain ⟨n2, e2, m2⟩ := ih node
      (decRefCount t (h.modifyNode node (fun nd => { nd with referents := rest })))
    refine ⟨n1 ++ n2, ?_, ?_⟩
    · show (detachEdges rest node _).s_moribund = _
      rw [e2, e1, modifyNode_moribund, List.append_assoc]
    · intro x hx
      rcases List.mem_append.mp hx with hx | hx
      · rw [m1 x hx]
        exact List.mem_cons_self _ _
      · exact List.mem_cons_of_mem _ (m2 x hx)

/-- The expression `delete node` adds to the back of the moribund list only,
and only referents of the node. -/
theorem deleteNode_moribund_extends (node : Nat) (h : Heap) :
    ∃ new, (deleteNode node h).s_moribund = h.s_moribund ++ new ∧
      ∀ x ∈ new, ∃ nd, h.node? node = some nd ∧ x ∈ nd.referents := by
  cases hn : h.node? node with
  | none =>
    rw [deleteNode_of_none hn]
    exact ⟨[], by simp, fun x hx => absurd hx (List.not_mem_nil x)⟩
  | some nd =>
    rw [deleteNode_of_some hn]
    have hn0 : ({ h with deleted := h.deleted ++ [node] } : Heap).node? node = some nd := hn
    obtain ⟨new, e, m⟩ := detachEdges_moribund_extends nd.referents node
      { h with deleted := h.deleted ++ [node] }
    refine ⟨new, ?_, fun x hx => ⟨nd, rfl, m x hx⟩⟩
    show ((detachReferents node { h with deleted := h.deleted ++ [node] }).unlink
      node).s_moribund = _
    unfold detachReferents
    simp only [hn0]
    exact e

/-- One iteration of the loop of `gclite`: the back of the list is popped, the
rest of the list stays, and what the iteration adds is added at the back. -/
theorem gclite_body_stack {s : Heap} {ms : List Nat} {node : Nat}
    (hm : s.s_moribund = ms ++ [node]) :
    ∃ new, (gclite_body s).s_moribund = ms ++ new ∧
      (new ≠ [] → (gclite_body s).deleted = s.deleted ++ [node]) ∧
      ∀ x ∈ new, ∃ nd, s.node? node = some nd ∧ x ∈ nd.referents := by
  cases hn : s.node? node with
  | none =>
    rw [gclite_body_of_dead hm hn, deleteNode_of_none (by exact hn)]
    exact ⟨[], by simp, fun hne => absurd rfl hne,
      fun x hx => absurd hx (List.not_mem_nil x)⟩
  | some nd =>
    rw [gclite_body_of_last hm hn]
    by_cases hz : nd.m_refcount - nd.m_refcount % 2 = 0
    · simp only [hz, if_true]
      have hn2 : (({ s with s_moribund := ms } : Heap).setNode node
          { nd with m_refcount := 0 }).node? node = some { nd with m_refcount := 0 } :=
        node?_of_set_same (h := s) rfl (node?_lt hn)
      obtain ⟨new, e, m⟩ := deleteNode_moribund_extends node
        (({ s with s_moribund := ms } : Heap).setNode node { nd with m_refcount := 0 })
      refine ⟨new, e, fun _ => (deleteNode_gone hn2).2, ?_⟩
      intro x hx
      obtain ⟨nd2, h2, hx2⟩ := m x hx
      rw [hn2] at h2
      cases h2
      exact ⟨nd, rfl, hx2⟩
    · simp only [hz, if_false]
      exact ⟨[], by simp [Heap.setNode], fun hne => absurd rfl hne,
        fun x hx => absurd hx (List.not_mem_nil x)⟩

/-- The stack discipline of a run that ends with an empty list: whatever is
above a part `pre` of the list is popped before `pre` is touched. -/
theorem stack_run (body : Heap → Heap) (s0 : Heap) (k : Nat)
    (hend : (body^[k] s0).s_moribund = [])
    (hstep : ∀ j < k, ∃ ms node new, (body^[j] s0).s_moribund = ms ++ [node] ∧
      (body^[j + 1] s0).s_moribund = ms ++ new) :
    ∀ (d j : Nat), j + d = k → ∀ pre post, (body^[j] s0).s_moribund = pre ++ post →
      ∃ j', j ≤ j' ∧ j' ≤ k ∧ (body^[j'] s0).s_moribund = pre ∧
        ∀ i, j ≤ i → i < j' → ∃ rest, rest ≠ [] ∧ (body^[i] s0).s_moribund = pre ++ rest := by
  intro d
  induction d with
  | zero =>
    intro j hj pre post hl
    have hjk : j = k := by omega
    subst hjk
    rw [hend] at hl
    have hp : pre = [] := by
      cases pre with
      | nil => rfl
      | cons a l => simp at hl
    exact ⟨j, le_refl _, le_refl _, by rw [hend, hp], fun i h1 h2 => by omega⟩
  | succ d ih =>
    intro j hj pre post hl
    by_cases hpost : post = []
    · subst hpost
      exact ⟨j, le_refl _, by omega, by simpa using hl, fun i h1 h2 => by omega⟩
    · obtain ⟨ms, node, new, e1, e2⟩ := hstep j (by omega)
      have hsplit : ∃ p, post = p ++ [node] ∧ ms = pre ++ p := by
        refine ⟨post.dropLast, ?_, ?_⟩
        · have h1 : post = post.dropLast ++ [post.getLast hpost] :=
            (List.dropLast_append_getLast hpost).symm
          have h2 : pre ++ post.dropLast ++ [post.getLast hpost] = ms ++ [node] := by
            rw [List.append_assoc, ← h1, ← hl, e1]
          have h3 := List.append_inj_right' h2 rfl
          have h4 : post.getLast hpost = node := by simpa using h3
          rw [← h4]
          exact h1
        · have h1 : post = post.dropLast ++ [post.getLast hpost] :=
            (List.dropLast_append_getLast hpost).symm
          have h2 : pre ++ post.dropLast ++ [post.getLast hpost] = ms ++ [node] := by
            rw [List.append_assoc, ← h1, ← hl, e1]
          exact (List.append_inj_left' h2 rfl).symm
      obtain ⟨p, hp, hms⟩ := hsplit
      have hnext : (body^[j + 1] s0).s_moribund = pre ++ (p ++ new) := by
        rw [e2, hms, List.append_assoc]
      obtain ⟨j', h1, h2, h3, h4⟩ := ih (j + 1) (by omega) pre (p ++ new) hnext
      refine ⟨j', by omega, h2, h3, ?_⟩
      intro i hi1 hi2
      by_cases hij : i = j
      · subst hij
        exact ⟨post, hpost, hl⟩
      · exact h4 i (by omega) hi2

/-- C30 (the moribund list is a stack).  `makeMoribund` appends the node at
the back of the moribund list.  With `s_inhibitor_count` zero the run of
`GCNode::gclite()` is a number `k` of iterations that ends with the list
empty; each iteration pops the back of the list, which is the entry appended
last, leaves the entries below it where they are, and what it adds to the
list, referents of the node it has just deleted, it adds at the back.  So at
every moment of the pass, whatever lies above a lower part `pre` of the list,
be it entries appended later or nodes that became moribund during the pass,
is processed before the first entry of `pre` is: the list keeps the form
`pre ++ rest` with `rest` not empty until it is `pre`. -/
theorem gclite_lifo (h : Heap) (hi : h.s_inhibitor_count = 0) :
    (∀ (node : Nat) (g : Heap),
      (GCNode.makeMoribund node g).s_moribund = g.s_moribund ++ [node]) ∧
    (GCNode.protectCstructs (GCInhibitor.enter h)).2.s_moribund = h.s_moribund ∧
    ∃ k, GCNode.gclite h = some (GCInhibitor.leave (ProtectStack.unprotect h.cstructs.length
        (GCNode.gclite_body^[k] (GCNode.protectCstructs (GCInhibitor.enter h)).2))) ∧
      (GCNode.gclite_body^[k] (GCNode.protectCstructs (GCInhibitor.enter h)).2).s_moribund
        = [] ∧
      (∀ j < k, ∃ ms node new,
        (GCNode.gclite_body^[j] (GCNode.protectCstructs (GCInhibitor.enter h)).2).s_moribund
          = ms ++ [node] ∧
        (GCNode.gclite_body^[j + 1]
          (GCNode.protectCstructs (GCInhibitor.enter h)).2).s_moribund = ms ++ new ∧
        (new ≠ [] →
          (GCNode.gclite_body^[j + 1] (GCNode.protectCstructs (GCInhibitor.enter h)).2).deleted
            = (GCNode.gclite_body^[j]
                (GCNode.protectCstructs (GCInhibitor.enter h)).2).deleted ++ [node]) ∧
        ∀ x ∈ new, ∃ nd,
          (GCNode.gclite_body^[j] (GCNode.protectCstructs (GCInhibitor.enter h)).2).node? node
            = some nd ∧ x ∈ nd.referents) ∧
      (∀ j ≤ k, ∀ pre post,
        (GCNode.gclite_body^[j] (GCNode.protectCstructs (GCInhibitor.enter h)).2).s_moribund
          = pre ++ post →
        ∃ j', j ≤ j' ∧ j' ≤ k ∧
          (GCNode.gclite_body^[j']
            (GCNode.protectCstructs (GCInhibitor.enter h)).2).s_moribund = pre ∧
          ∀ i, j ≤ i → i < j' → ∃ rest, rest ≠ [] ∧
            (GCNode.gclite_body^[i]
              (GCNode.protectCstructs (GCInhibitor.enter h)).2).s_moribund = pre ++ rest) := by
  refine ⟨?_, rfl, ?_⟩
  · intro node g
    unfold GCNode.makeMoribund
    simp only
    rw [modifyNode_moribund]
  · obtain ⟨s', e, _, hm⟩ := gclite_loop_rule (fun _ => True) (fun _ _ _ => trivial)
      (protectCstructs (GCInhibitor.enter h)).2 trivial
    obtain ⟨k, hk, hj, _⟩ := whileLoop_iterate _ _ _ _ _ e
    have hsteps : ∀ j < k, ∃ ms node new,
        (GCNode.gclite_body^[j] (GCNode.protectCstructs (GCInhibitor.enter h)).2).s_moribund
          = ms ++ [node] ∧
        (GCNode.gclite_body^[j + 1]
          (GCNode.protectCstructs (GCInhibitor.enter h)).2).s_moribund = ms ++ new ∧
        (new ≠ [] →
          (GCNode.gclite_body^[j + 1] (GCNode.protectCstructs (GCInhibitor.enter h)).2).deleted
            = (GCNode.gclite_body^[j]
                (GCNode.protectCstructs (GCInhibitor.enter h)).2).deleted ++ [node]) ∧
        ∀ x ∈ new, ∃ nd,
          (GCNode.gclite_body^[j] (GCNode.protectCstructs (GCInhibitor.enter h)).2).node? node
            = some nd ∧ x ∈ nd.referents := by
      intro j hjk
      have hne := isEmpty_false_iff.mp (hj j hjk)
      have hsplit := (List.dropLast_append_getLast hne).symm
      obtain ⟨new, a, b, c⟩ := gclite_body_stack hsplit
      refine ⟨_, _, new, hsplit, ?_, ?_, c⟩
      · rw [Function.iterate_succ_apply']
        exact a
      · rw [Function.iterate_succ_apply']
        exact b
    have hend : (GCNode.gclite_body^[k]
        (GCNode.protectCstructs (GCInhibitor.enter h)).2).s_moribund = [] := by
      rw [← hk]
      exact hm
    refine ⟨k, ?_, hend, hsteps, ?_⟩
    · unfold gclite
      simp only [hi, ne_eq, not_true_eq_false, if_false]
      rw [e, hk]
      rfl
    · intro j hjk pre post hl
      exact stack_run GCNode.gclite_body _ k hend
        (fun i hi => by
          obtain ⟨ms, node, new, a, b, _⟩ := hsteps i hi
          exact ⟨ms, node, new, a, b⟩)
        (k - j) j (by omega) pre post hl

theorem gclite_lifo_witness :
    sampleChain.s_inhibitor_count = 0 ∧ sampleChain.s_moribund = [2, 0] ∧
    (GCNode.gclite_body (GCNode.protectCstructs (GCInhibitor.enter sampleChain)).2).s_moribund
      = [2, 1] ∧
    (GCNode.gclite sampleChain).map (fun s => s.deleted) = some [0, 1, 2] ∧
    ∃ k, GCNode.gclite sampleChain = some (GCInhibitor.leave
        (ProtectStack.unprotect sampleChain.cstructs.length
        (GCNode.gclite_body^[k] (GCNode.protectCstructs (GCInhibitor.enter sampleChain)).2))) ∧
      (GCNode.gclite_body^[k]
        (GCNode.protectCstructs (GCInhibitor.enter sampleChain)).2).s_moribund = [] := by
  obtain ⟨_, _, k, e, hend, _, _⟩ := gclite_lifo sampleChain rfl
  exact ⟨rfl, rfl, by with_unfolding_all decide, by with_unfolding_all decide, k, e, hend⟩

end CXXR

namespace CXXR

open Heap GCNode

/-! ## Termination of the marker -/

theorem sampleRing_wf : sampleRing.wf := by
  refine ⟨⟨?_, ?_, ?_, ?_, ?_, ?_, ?_, ?_, ?_, ?_⟩, ?_, ?_, ?_⟩ <;> with_unfolding_all decide

/-- During the mark phase the live list holds the nodes that are not
marked. -/
theorem MarkInv_live {R : List Nat} {h : Heap} (hI : h.MarkInv R) (m : Nat) :
    m ∈ h.s_live ↔ ((h.node? m).isSome ∧ ¬ h.marked m) := by
  have hl : h.listed = h.s_live ++ h.s_reachable := by
    unfold listed
    rw [hI.zombies_empty, List.append_nil]
  have hnd := hI.inv.listed_nodup
  rw [hl] at hnd
  constructor
  · intro hm
    refine ⟨hI.inv.listed_alive m (by rw [hl]; exact List.mem_append_left _ hm), ?_⟩
    intro hmk
    have hr := (hI.reachable_marked m).mpr hmk
    exact (List.nodup_append.mp hnd).2.2 hm hr
  · rintro ⟨hs, hmk⟩
    have hlisted := hI.inv.alive_listed m (node?_isSome_lt hs) hs
    rw [hl] at hlisted
    rcases List.mem_append.mp hlisted with h1 | h1
    · exact h1
    · exact absurd ((hI.reachable_marked m).mp h1) hmk

/-- C31 (termination of the marker).  `GCNode::mark()` returns on every heap,
whatever the shape of the graph, and `GCNode::Marker::operator()` returns at
once, with the heap as it is, for a node that carries the current mark.  On a
well-formed heap the mark phase ends with the reachable list free of
repetitions, as many marks applied as there are nodes on the reachable list,
the reachable list holding exactly the marked nodes and the live list exactly
the nodes that are not marked; every node has the mark it had at the start of
the phase or has been marked once. -/
theorem marker_terminates (h : Heap) (hw : h.wf) :
    (∀ g : Heap, ∃ g1, GCNode.mark g = some g1) ∧
    (∀ (fuel node : Nat) (g : Heap) (nd : GCNode), g.node? node = some nd →
      GCNode.isMarked g nd = true → GCNode.Marker.call (fuel + 1) node g = some g) ∧
    ∃ h1, GCNode.mark h = some h1 ∧
      h1.s_reachable.Nodup ∧
      h1.m_marks_applied = h1.s_reachable.length ∧
      (∀ m, m ∈ h1.s_reachable ↔ h1.marked m) ∧
      (∀ m, m ∈ h1.s_live ↔ ((h1.node? m).isSome ∧ ¬ h1.marked m)) ∧
      (∀ m, m ∈ h1.s_reachable ↔ Reach h m) ∧
      (∀ m nd, h.node? m = some nd →
        h1.node? m = some nd ∨
        h1.node? m = some { nd with m_bits_MARK := !h.s_mark,
                                    m_bits_UNDER_CONSTRUCTION := false }) := by
  refine ⟨fun g => mark_total g, ?_, ?_⟩
  · intro fuel node g nd hn hm
    apply Marker_call_marked hn
    unfold GCNode.isMarked at hm
    simpa using hm
  · obtain ⟨h1, e1, hr, hI, hm⟩ := mark_spec hw
    have hl : h1.listed = h1.s_live ++ h1.s_reachable := by
      unfold listed
      rw [hI.zombies_empty, List.append_nil]
    have hnd := hI.inv.listed_nodup
    rw [hl] at hnd
    refine ⟨h1, e1, (List.nodup_append.mp hnd).2.1, hI.marks_applied, hI.reachable_marked,
      MarkInv_live hI, ?_, ?_⟩
    · intro m
      rw [hI.reachable_marked, hm]
    · intro m nd hn
      have hn0 : h.toggled.node? m = some nd := hn
      rcases hr.node_cases m with e | ⟨nd0, hnd0, _, e⟩
      · left
        rw [e, hn0]
      · right
        rw [hn0] at hnd0
        cases hnd0
        exact e

theorem marker_terminates_witness :
    sampleRing.wf ∧
    ∃ h1, GCNode.mark sampleRing = some h1 ∧
      h1.s_reachable = [0, 1] ∧ h1.s_live = [2] ∧ h1.m_marks_applied = 2 ∧
      h1.s_reachable.Nodup ∧
      (∀ m, m ∈ h1.s_reachable ↔ h1.marked m) ∧
      (∀ m, m ∈ h1.s_live ↔ ((h1.node? m).isSome ∧ ¬ h1.marked m)) := by
  obtain ⟨_, _, h1, e, hn, _, hr, hl, _, _⟩ := marker_terminates sampleRing sampleRing_wf
  have hc : (GCNode.mark sampleRing).map
      (fun s => (s.s_reachable, s.s_live, s.m_marks_applied)) = some ([0, 1], [2], 2) := by
    with_unfolding_all decide
  rw [e] at hc
  simp only [Option.map_some', Option.some.injEq, Prod.mk.injEq] at hc
  exact ⟨sampleRing_wf, h1, e, hc.1, hc.2.1, hc.2.2, hn, hr, hl⟩

end CXXR

namespace CXXR

open Expression

/-! ## What an evaluation keeps: the rules -/

theorem closureEnvs_append (a b : List Event) :
    Event.closureEnvs (a ++ b) = Event.closureEnvs a ++ Event.closureEnvs b := by
  induction a with
  | nil => rfl
  | cons x rest ih =>
    cases x <;> simp [Event.closureEnvs, ih]

theorem Keeps.unchanged (s : EvalState) : Keeps s s :=
  ⟨rfl, rfl, le_refl _, [], (List.append_nil _).symm,
    fun _ _ hm => absurd hm (List.not_mem_nil _),
    fun _ hm => absurd hm (List.not_mem_nil _), List.nodup_nil⟩

theorem Keeps.followedBy {a b c : EvalState} (h1 : Keeps a b) (h2 : Keeps b c) : Keeps a c := by
  obtain ⟨l1, e1, er1, en1, nd1⟩ := h1.trace
  obtain ⟨l2, e2, er2, en2, nd2⟩ := h2.trace
  refine ⟨h2.contexts.trans h1.contexts, h2.depth.trans h1.depth, le_trans h1.envs h2.envs,
    l1 ++ l2, ?_, ?_, ?_, ?_⟩
  · rw [e2, e1, List.append_assoc]
  · intro e ctxs hm
    rw [List.mem_append] at hm
    rcases hm with hm | hm
    · exact er1 e ctxs hm
    · obtain ⟨p, hp⟩ := er2 e ctxs hm
      exact ⟨p, by rw [hp, h1.contexts]⟩
  · intro env hm
    rw [closureEnvs_append, List.mem_append] at hm
    rcases hm with hm | hm
    · have := en1 env hm
      exact ⟨this.1, lt_of_lt_of_le this.2 h2.envs⟩
    · have := en2 env hm
      exact ⟨le_trans h1.envs this.1, this.2⟩
  · rw [closureEnvs_append]
    refine List.Nodup.append nd1 nd2 ?_
    intro x hx1 hx2
    have a1 := (en1 x hx1).2
    have a2 := (en2 x hx2).1
    omega

/-- A state that differs from `s` in the printing flag or in the bindings of
its environments only. -/
theorem Keeps.of_same {s t : EvalState} (hc : t.contexts = s.contexts) (hd : t.depth = s.depth)
    (he : s.envs.length ≤ t.envs.length) (ht : t.trace = s.trace) : Keeps s t :=
  ⟨hc, hd, he, [], by rw [ht, List.append_nil],
    fun _ _ hm => absurd hm (List.not_mem_nil _),
    fun _ hm => absurd hm (List.not_mem_nil _), List.nodup_nil⟩

theorem Rf_error_keeps {α : Type} {e : RError} {s t : EvalState} {r : Except RError α}
    (h : Rf_error e s = some (r, t)) : Keeps s t := by
  unfold Rf_error at h
  simp only [Option.some.injEq, Prod.mk.injEq] at h
  obtain ⟨_, rfl⟩ := h
  refine ⟨rfl, rfl, le_refl _, [Event.error e s.contexts], rfl, ?_, ?_, ?_⟩
  · intro e1 ctxs hm
    rw [List.mem_singleton] at hm
    cases hm
    exact ⟨[], rfl⟩
  · intro env hm
    simp [Event.closureEnvs] at hm
  · simp [Event.closureEnvs]

theorem withContext_keeps {α : Type} {c : Context} {body : EvalState → Outcome α}
    {s t : EvalState} {r : Except RError α}
    (hb : ∀ r1 t1, body { s with contexts := c :: s.contexts } = some (r1, t1) →
      Keeps { s with contexts := c :: s.contexts } t1)
    (h : withContext c body s = some (r, t)) : Keeps s t := by
  unfold withContext at h
  split at h
  · cases h
  · rename_i r1 t1 hbody
    simp only [Option.some.injEq, Prod.mk.injEq] at h
    obtain ⟨_, rfl⟩ := h
    have k := hb r1 t1 hbody
    obtain ⟨l, e, er, en, nd⟩ := k.trace
    refine ⟨?_, k.depth, k.envs, l, e, ?_, en, nd⟩
    · show t1.contexts.tail = s.contexts
      rw [k.contexts]
      rfl
    · intro e1 ctxs hm
      obtain ⟨p, hp⟩ := er e1 ctxs hm
      exact ⟨p ++ [c], by rw [hp]; simp⟩

theorem IncrementStackDepthScope_keeps {α : Type} {body : EvalState → Outcome α}
    {s t : EvalState} {r : Except RError α}
    (hb : ∀ r1 t1, body { s with depth := s.depth + 1 } = some (r1, t1) →
      Keeps { s with depth := s.depth + 1 } t1)
    (h : IncrementStackDepthScope body s = some (r, t)) : Keeps s t := by
  unfold IncrementStackDepthScope at h
  split at h
  · exact Rf_error_keeps h
  · split at h
    · cases h
    · rename_i r1 t1 hbody
      simp only [Option.some.injEq, Prod.mk.injEq] at h
      obtain ⟨_, rfl⟩ := h
      have k := hb r1 t1 hbody
      obtain ⟨l, e, er, en, nd⟩ := k.trace
      refine ⟨k.contexts, ?_, k.envs, l, e, er, en, nd⟩
      show t1.depth - 1 = s.depth
      rw [k.depth]
      rfl

/-! ### Argument lists -/

theorem evaluateList_keeps {ev : Eval} (hev : Respects ev) (env : Nat) :
    ∀ (l : List (Option String × RObject)) (s t : EvalState)
      (r : Except RError (List (Option String × RObject))),
      ArgList.evaluateList ev env l s = some (r, t) → Keeps s t := by
  intro l
  induction l with
  | nil =>
    intro s t r h
    simp only [ArgList.evaluateList, Option.some.injEq, Prod.mk.injEq] at h
    obtain ⟨_, rfl⟩ := h
    exact Keeps.unchanged s
  | cons x rest ih =>
    intro s t r h
    unfold ArgList.evaluateList at h
    split at h
    · cases h
    · rename_i e s1 h1
      simp only [Option.some.injEq, Prod.mk.injEq] at h
      obtain ⟨_, rfl⟩ := h
      exact hev _ _ _ _ _ h1
    · rename_i v s1 h1
      have k1 := hev _ _ _ _ _ h1
      split at h
      · cases h
      · rename_i e s2 h2
        simp only [Option.some.injEq, Prod.mk.injEq] at h
        obtain ⟨_, rfl⟩ := h
        exact k1.followedBy (ih _ _ _ h2)
      · rename_i vs s2 h2
        simp only [Option.some.injEq, Prod.mk.injEq] at h
        obtain ⟨_, rfl⟩ := h
        exact k1.followedBy (ih _ _ _ h2)

theorem ArgList_evaluate_keeps {ev : Eval} (hev : Respects ev) {env : Nat} {a : ArgList}
    {s t : EvalState} {r : Except RError ArgList}
    (h : a.evaluate ev env s = some (r, t)) : Keeps s t := by
  unfold ArgList.evaluate at h
  split at h
  · cases h
  · rename_i e s1 h1
    simp only [Option.some.injEq, Prod.mk.injEq] at h
    obtain ⟨_, rfl⟩ := h
    exact evaluateList_keeps hev env _ _ _ _ h1
  · rename_i vs s1 h1
    simp only [Option.some.injEq, Prod.mk.injEq] at h
    obtain ⟨_, rfl⟩ := h
    exact evaluateList_keeps hev env _ _ _ _ h1

theorem evaluateToArray_keeps {ev : Eval} (hev : Respects ev) {env : Nat} {a : ArgList}
    {s t : EvalState} {r : Except RError (List (Option String × RObject))}
    (h : a.evaluateToArray ev env s = some (r, t)) : Keeps s t := by
  unfold ArgList.evaluateToArray at h
  split at h
  · simp only [Option.some.injEq, Prod.mk.injEq] at h
    obtain ⟨_, rfl⟩ := h
    exact Keeps.unchanged s
  · exact evaluateList_keeps hev env _ _ _ _ h

end CXXR

namespace CXXR

open Expression

/-! ### Built-in functions -/

theorem Keeps_logged_builtin (s : EvalState) (f : BuiltInFunction)
    (a : List (Option String × RObject)) :
    Keeps s { s with trace := s.trace ++ [Event.builtin f a] } := by
  refine ⟨rfl, rfl, le_refl _, [Event.builtin f a], rfl, ?_, ?_, ?_⟩
  · intro e ctxs hm
    rw [List.mem_singleton] at hm
    cases hm
  · intro env hm
    simp [Event.closureEnvs] at hm
  · simp [Event.closureEnvs]

theorem invoke_keeps {W : World} (hW : W.Tame) {ev : Eval} (hev : Respects ev)
    {func : BuiltInFunction} {call : RObject} {env : Nat}
    {args : List (Option String × RObject)} {s t : EvalState} {r : Except RError RObject}
    (h : func.invoke W ev call env args s = some (r, t)) : Keeps s t := by
  unfold BuiltInFunction.invoke at h
  exact (Keeps_logged_builtin s func args).followedBy (hW.primitive ev hev _ _ _ _ _ _ _ h)

theorem Keeps_printing (c : Prop) [Decidable c] (b : Bool) (s : EvalState) :
    Keeps s (if c then Evaluator.enableResultPrinting b s else s) := by
  split
  · exact Keeps.of_same rfl rfl (le_refl _) rfl
  · exact Keeps.unchanged s

theorem maybe_evaluate_keeps {ev : Eval} (hev : Respects ev) (c : Prop) [Decidable c]
    {env : Nat} {a : ArgList} {s t : EvalState} {r : Except RError ArgList}
    (h : (if c then a.evaluate ev env s else some (Except.ok a, s)) = some (r, t)) :
    Keeps s t := by
  split at h
  · exact ArgList_evaluate_keeps hev h
  · simp only [Option.some.injEq, Prod.mk.injEq] at h
    obtain ⟨_, rfl⟩ := h
    exact Keeps.unchanged s

theorem evaluateIndirectBuiltInCall_keeps {W : World} (hW : W.Tame) {ev : Eval}
    (hev : Respects ev) {call : RObject} {func : BuiltInFunction} {env : Nat} {arglist : ArgList}
    {s t : EvalState} {r : Except RError RObject}
    (h : evaluateIndirectBuiltInCall W ev call func env arglist s = some (r, t)) :
    Keeps s t := by
  unfold evaluateIndirectBuiltInCall at h
  split at h
  · cases h
  · rename_i e s1 h1
    simp only [Option.some.injEq, Prod.mk.injEq] at h
    obtain ⟨_, rfl⟩ := h
    exact maybe_evaluate_keeps hev _ h1
  · rename_i al s1 h1
    exact ((maybe_evaluate_keeps hev _ h1).followedBy (Keeps_printing _ true s1)).followedBy
      (invoke_keeps hW hev h)

theorem evaluateDirectBuiltInCall_keeps {W : World} (hW : W.Tame) {ev : Eval}
    (hev : Respects ev) {call : RObject} {func : BuiltInFunction} {env : Nat} {arglist : ArgList}
    {s t : EvalState} {r : Except RError RObject}
    (h : evaluateDirectBuiltInCall W ev call func env arglist s = some (r, t)) :
    Keeps s t := by
  unfold evaluateDirectBuiltInCall at h
  split at h
  · cases h
  · rename_i e s1 h1
    simp only [Option.some.injEq, Prod.mk.injEq] at h
    obtain ⟨_, rfl⟩ := h
    exact maybe_evaluate_keeps hev _ h1
  · rename_i al s1 h1
    have k1 := maybe_evaluate_keeps hev _ h1
    split at h
    · cases h
    · rename_i e s2 h2
      simp only [Option.some.injEq, Prod.mk.injEq] at h
      obtain ⟨_, rfl⟩ := h
      exact k1.followedBy (evaluateToArray_keeps hev h2)
    · rename_i arr s2 h2
      exact ((k1.followedBy (evaluateToArray_keeps hev h2)).followedBy (Keeps_printing _ true s2)).followedBy
        (invoke_keeps hW hev h)

theorem evaluateBuiltInCall_keeps {W : World} (hW : W.Tame) {ev : Eval}
    (hev : Respects ev) {call : RObject} {func : BuiltInFunction} {env : Nat} {arglist : ArgList}
    {s t : EvalState} {r : Except RError RObject}
    (h : evaluateBuiltInCall W ev call func env arglist s = some (r, t)) : Keeps s t := by
  unfold evaluateBuiltInCall at h
  split at h
  · exact evaluateDirectBuiltInCall_keeps hW hev h
  · exact evaluateIndirectBuiltInCall_keeps hW hev h

theorem applyBuiltIn_keeps {W : World} (hW : W.Tame) {ev : Eval}
    (hev : Respects ev) {call : RObject} {builtin : BuiltInFunction} {env : Nat}
    {arglist : ArgList} {s t : EvalState} {r : Except RError RObject}
    (h : applyBuiltIn W ev call builtin env arglist s = some (r, t)) : Keeps s t := by
  have key : ∀ r1 t1, (if builtin.createsStackFrame = true
      then withContext (Context.function call env (RObject.builtin builtin))
        (evaluateBuiltInCall W ev call builtin env arglist) s
      else withContext Context.plain
        (evaluateBuiltInCall W ev call builtin env arglist) s) = some (r1, t1) →
      Keeps s t1 := by
    intro r1 t1 h1
    split at h1
    · exact withContext_keeps (fun _ _ hb => evaluateBuiltInCall_keeps hW hev hb) h1
    · exact withContext_keeps (fun _ _ hb => evaluateBuiltInCall_keeps hW hev hb) h1
  unfold applyBuiltIn at h
  split at h
  · cases h
  · rename_i e s1 h1
    simp only [Option.some.injEq, Prod.mk.injEq] at h
    obtain ⟨_, rfl⟩ := h
    exact key _ _ h1
  · rename_i res s1 h1
    simp only [Option.some.injEq, Prod.mk.injEq] at h
    obtain ⟨_, rfl⟩ := h
    exact (key _ _ h1).followedBy (Keeps_printing _ _ s1)

/-! ### Closures -/

theorem createExecutionEnv_keeps (func : Closure) (s : EvalState) :
    Keeps s (func.createExecutionEnv s).2 := by
  refine ⟨rfl, rfl, ?_, [Event.closure func s.envs.length], rfl, ?_, ?_, ?_⟩
  · show s.envs.length ≤ (s.envs ++ [_]).length
    simp
  · intro e ctxs hm
    rw [List.mem_singleton] at hm
    cases hm
  · intro env hm
    simp only [Event.closureEnvs, List.mem_singleton] at hm
    subst hm
    refine ⟨le_refl _, ?_⟩
    show s.envs.length < (s.envs ++ [_]).length
    simp
  · simp [Event.closureEnvs]

theorem setFrame_fields (s : EvalState) (env : Nat) (f : Frame) :
    (s.setFrame env f).contexts = s.contexts ∧ (s.setFrame env f).depth = s.depth ∧
    (s.setFrame env f).envs.length = s.envs.length ∧ (s.setFrame env f).trace = s.trace ∧
    (s.setFrame env f).depth_limit = s.depth_limit ∧
    (s.setFrame env f).result_printing = s.result_printing := by
  unfold EvalState.setFrame
  split
  · exact ⟨rfl, rfl, by simp, rfl, rfl, rfl⟩
  · exact ⟨rfl, rfl, rfl, rfl, rfl, rfl⟩

theorem setFrame_keeps (s : EvalState) (env : Nat) (f : Frame) : Keeps s (s.setFrame env f) := by
  obtain ⟨a, b, c, d, _, _⟩ := setFrame_fields s env f
  exact Keeps.of_same a b (le_of_eq c.symm) d

theorem match_keeps {W : World} {func : Closure} {env : Nat} {arglist : ArgList}
    {s t : EvalState} {r : Except RError Unit}
    (h : ArgMatcher.match_ W func env arglist s = some (r, t)) : Keeps s t := by
  unfold ArgMatcher.match_ at h
  split at h
  · simp only [Option.some.injEq, Prod.mk.injEq] at h
    obtain ⟨_, rfl⟩ := h
    exact Keeps.unchanged s
  · simp only [Option.some.injEq, Prod.mk.injEq] at h
    obtain ⟨_, rfl⟩ := h
    exact setFrame_keeps s env _

theorem invokeClosureImpl_keeps {W : World} {ev : Eval} (hev : Respects ev)
    {call : RObject} {func : Closure} {calling_env : Nat} {arglist : ArgList}
    {method_bindings : Option Frame} {s t : EvalState} {r : Except RError RObject}
    (h : invokeClosureImpl W ev call func calling_env arglist method_bindings s = some (r, t)) :
    Keeps s t := by
  unfold invokeClosureImpl at h
  simp only at h
  have k0 := createExecutionEnv_keeps func s
  split at h
  · cases h
  · rename_i e s1 h1
    simp only [Option.some.injEq, Prod.mk.injEq] at h
    obtain ⟨_, rfl⟩ := h
    exact k0.followedBy (withContext_keeps (fun _ _ hb => match_keeps hb) h1)
  · rename_i u s1 h1
    have k1 := k0.followedBy (withContext_keeps (fun _ _ hb => match_keeps hb) h1)
    cases method_bindings with
    | none =>
      simp only at h
      exact k1.followedBy (withContext_keeps (fun _ _ hb => hev _ _ _ _ _ hb) h)
    | some mb =>
      simp only at h
      exact (k1.followedBy (setFrame_keeps s1 _ _)).followedBy
        (withContext_keeps (fun _ _ hb => hev _ _ _ _ _ hb) h)

/-! ### Calls -/

theorem evaluateFunctionCall_keeps {W : World} (hW : W.Tame) {ev : Eval} (hev : Respects ev)
    {call func : RObject} {env : Nat} {arglist : ArgList} {s t : EvalState}
    {r : Except RError RObject}
    (h : evaluateFunctionCall W ev call func env arglist s = some (r, t)) : Keeps s t := by
  unfold evaluateFunctionCall at h
  split at h
  · exact invokeClosureImpl_keeps hev h
  · exact applyBuiltIn_keeps hW hev h
  · exact Rf_error_keeps h

theorem resolveCallee_keeps {ev : Eval} (hev : Respects ev) {call : RObject} {env : Nat}
    {s t : EvalState} {r : Except RError RObject}
    (h : resolveCallee ev call env s = some (r, t)) : Keeps s t := by
  unfold resolveCallee at h
  split at h
  · split at h
    · exact Rf_error_keeps h
    · simp only [Option.some.injEq, Prod.mk.injEq] at h
      obtain ⟨_, rfl⟩ := h
      exact Keeps.unchanged s
  · split at h
    · cases h
    · rename_i e s1 h1
      simp only [Option.some.injEq, Prod.mk.injEq] at h
      obtain ⟨_, rfl⟩ := h
      exact hev _ _ _ _ _ h1
    · rename_i val s1 h1
      have k1 := hev _ _ _ _ _ h1
      split at h
      · simp only [Option.some.injEq, Prod.mk.injEq] at h
        obtain ⟨_, rfl⟩ := h
        exact k1
      · exact k1.followedBy (Rf_error_keeps h)

theorem evaluateCall_keeps {W : World} (hW : W.Tame) {ev : Eval} (hev : Respects ev)
    {call : RObject} {env : Nat} {s t : EvalState} {r : Except RError RObject}
    (h : evaluateCall W ev call env s = some (r, t)) : Keeps s t := by
  unfold evaluateCall at h
  split at h
  · cases h
  · rename_i e s1 h1
    simp only [Option.some.injEq, Prod.mk.injEq] at h
    obtain ⟨_, rfl⟩ := h
    exact resolveCallee_keeps hev h1
  · rename_i func s1 h1
    exact (resolveCallee_keeps hev h1).followedBy (evaluateFunctionCall_keeps hW hev h)

theorem Expression_evaluate_keeps {W : World} (hW : W.Tame) {ev : Eval} (hev : Respects ev)
    {call : RObject} {env : Nat} {s t : EvalState} {r : Except RError RObject}
    (h : Expression.evaluate W ev call env s = some (r, t)) : Keeps s t := by
  unfold Expression.evaluate at h
  exact IncrementStackDepthScope_keeps (fun _ _ hb => evaluateCall_keeps hW hev hb) h

/-- The evaluator keeps the context stack and the evaluation depth, whatever
the fuel. -/
theorem Evaluator_evaluate_respects {W : World} (hW : W.Tame) :
    ∀ fuel, Respects (Evaluator.evaluate W fuel) := by
  intro fuel
  induction fuel with
  | zero =>
    intro obj env s r t h
    simp [Evaluator.evaluate] at h
  | succ fuel ih =>
    intro obj env s r t h
    unfold Evaluator.evaluate at h
    split at h
    · split at h
      · exact Rf_error_keeps h
      · exact ih _ _ _ _ _ h
      · simp only [Option.some.injEq, Prod.mk.injEq] at h
        obtain ⟨_, rfl⟩ := h
        exact Keeps.unchanged s
    · exact Expression_evaluate_keeps hW ih h
    · exact ih _ _ _ _ _ h
    · simp only [Option.some.injEq, Prod.mk.injEq] at h
      obtain ⟨_, rfl⟩ := h
      exact Keeps.unchanged s

end CXXR

namespace CXXR

open Expression

/-! ## Lookup, frames and the context stack -/

theorem search_congr {s t : EvalState} (h : t.envs = s.envs) (p : RObject → Bool)
    (sym : String) :
    ∀ fuel env, Environment.search t p sym fuel env = Environment.search s p sym fuel env := by
  intro fuel
  induction fuel with
  | zero =>
    intro env
    rfl
  | succ fuel ih =>
    intro env
    unfold Environment.search
    simp only [h, ih]

theorem findFunction_congr {s t : EvalState} (symbol : String) (env : Nat)
    (h : t.envs = s.envs) : findFunction symbol env t = findFunction symbol env s := by
  unfold findFunction
  rw [h]
  exact search_congr h _ _ _ _

theorem sexptype_cases (f : BuiltInFunction) :
    (f.sexptype = SEXPTYPE.SPECIALSXP ∧ f.special = true) ∨
    (f.sexptype = SEXPTYPE.BUILTINSXP ∧ f.special = false) := by
  unfold BuiltInFunction.sexptype
  cases f.special <;> simp

/-! ### Frames -/

theorem binding_append (l : List (String × RObject)) (b : String × RObject) (sym : String) :
    Frame.binding { bindings := l ++ [b] } sym
      = ((Frame.binding { bindings := l } sym).orElse
          (fun _ => if b.1 = sym then some b else none)) := by
  unfold Frame.binding
  simp only [List.find?_append]
  cases h : List.find? (fun b => b.1 == sym) l with
  | some x => simp
  | none =>
    by_cases e : b.1 = sym
    · simp [List.find?, e]
    · have hbeq : (b.1 == sym) = false := by simpa using e
      simp [List.find?, e, hbeq]

theorem binding_cons (b : String × RObject) (l : List (String × RObject)) (sym : String) :
    Frame.binding { bindings := b :: l } sym
      = if b.1 = sym then some b else Frame.binding { bindings := l } sym := by
  unfold Frame.binding
  by_cases e : b.1 = sym
  · simp [List.find?, e]
  · have hbeq : (b.1 == sym) = false := by simpa using e
    simp [List.find?, e, hbeq]

theorem binding_symbol {f : Frame} {sym : String} {b : String × RObject}
    (h : f.binding sym = some b) : b.1 = sym := by
  unfold Frame.binding at h
  have := List.find?_some h
  simpa using this

/-- One step of `importMethodBindings`. -/
theorem import_step (fr : Frame) (b : String × RObject) :
    (if (fr.binding b.1).isNone then fr.importBinding b else fr)
      = if (fr.binding b.1).isNone then { bindings := fr.bindings ++ [b] } else fr := by
  by_cases h : (fr.binding b.1).isNone = true
  · simp only [h, if_true]
    unfold Frame.importBinding
    have : (fr.binding b.1).isSome = false := by
      cases hb : fr.binding b.1 with
      | none => rfl
      | some x => simp [hb] at h
    simp [this]
  · simp [h]

theorem import_fold_binding (M : List (String × RObject)) :
    ∀ (F : Frame) (sym : String),
      (M.foldl (fun fr b => if (fr.binding b.1).isNone then fr.importBinding b else fr)
        F).binding sym
        = (F.binding sym).orElse (fun _ => Frame.binding { bindings := M } sym) := by
  induction M with
  | nil =>
    intro F sym
    simp only [List.foldl_nil]
    cases F.binding sym <;> simp [Frame.binding]
  | cons b rest ih =>
    intro F sym
    rw [List.foldl_cons, ih, import_step, binding_cons]
    by_cases hb : (F.binding b.1).isNone = true
    · simp only [hb, if_true]
      rw [binding_append]
      cases hF : F.binding sym with
      | some x =>
        have : Frame.binding { bindings := F.bindings } sym = some x := hF
        simp [this]
      | none =>
        have : Frame.binding { bindings := F.bindings } sym = none := hF
        by_cases e : b.1 = sym
        · simp [this, e]
        · simp [this, e]
    · simp only [hb]
      cases hF : F.binding sym with
      | some x =>
        simp only [Bool.false_eq_true, if_false]
        rw [hF]
        simp
      | none =>
        have e : ¬ b.1 = sym := by
          intro e
          rw [e, hF] at hb
          exact hb rfl
        simp only [Bool.false_eq_true, if_false]
        rw [hF]
        simp [e]

theorem import_fold_extends (M : List (String × RObject)) :
    ∀ F : Frame, ∃ extra,
      (M.foldl (fun fr b => if (fr.binding b.1).isNone then fr.importBinding b else fr)
        F).bindings = F.bindings ++ extra := by
  induction M with
  | nil =>
    intro F
    exact ⟨[], by simp⟩
  | cons b rest ih =>
    intro F
    rw [List.foldl_cons, import_step]
    by_cases hb : (F.binding b.1).isNone = true
    · simp only [hb, if_true]
      obtain ⟨extra, he⟩ := ih { bindings := F.bindings ++ [b] }
      exact ⟨b :: extra, by rw [he]; simp⟩
    · simp only [hb]
      exact ih F

theorem import_fold_fixed (M : List (String × RObject)) :
    ∀ G : Frame, (∀ b ∈ M, (G.binding b.1).isSome = true) →
      M.foldl (fun fr b => if (fr.binding b.1).isNone then fr.importBinding b else fr) G = G := by
  induction M with
  | nil =>
    intro G _
    rfl
  | cons b rest ih =>
    intro G hG
    have hb : (G.binding b.1).isNone = false := by
      have := hG b (List.mem_cons_self _ _)
      cases h : G.binding b.1 with
      | none => simp [h] at this
      | some x => rfl
    rw [List.foldl_cons]
    simp only [hb, Bool.false_eq_true, if_false]
    exact ih G (fun x hx => hG x (List.mem_cons_of_mem _ hx))

theorem binding_of_mem {l : List (String × RObject)} {b : String × RObject} (h : b ∈ l) :
    (Frame.binding { bindings := l } b.1).isSome = true := by
  unfold Frame.binding
  rw [List.find?_isSome]
  exact ⟨b, h, by simp⟩

/-! ### The sample world -/

theorem sampleWorld_tame : sampleWorld.Tame := by
  constructor
  intro ev hev f call env args s r t h
  simp only [sampleWorld] at h
  split at h
  · simp only [Option.some.injEq, Prod.mk.injEq] at h
    obtain ⟨_, rfl⟩ := h
    exact Keeps.unchanged s
  · simp only [Option.some.injEq, Prod.mk.injEq] at h
    obtain ⟨_, rfl⟩ := h
    exact Keeps.of_same rfl rfl (le_refl _) rfl
  · exact hev _ _ _ _ _ h
  · simp only [Option.some.injEq, Prod.mk.injEq] at h
    obtain ⟨_, rfl⟩ := h
    exact Keeps.unchanged s

end CXXR

namespace CXXR

open Expression

/-! ## Exposure, and the resolution of the callee -/

/-- C11.  `GCNode::abortIfNotExposed(node)` aborts if and only if `node` is not
null and the node it points to has its `UNDER_CONSTRUCTION` bit set.  In every
other case it returns, and the heap is as before: so for the null pointer and
for a node whose bit is clear. -/
theorem abortIfNotExposed_aborts_iff (node : Option Nat) (h : Heap) :
    (GCNode.abortIfNotExposed node h = Result.abort h ↔
      ∃ a nd, node = some a ∧ h.node? a = some nd ∧ nd.m_bits_UNDER_CONSTRUCTION = true) ∧
    (GCNode.abortIfNotExposed node h ≠ Result.abort h →
      GCNode.abortIfNotExposed node h = Result.ok h) ∧
    GCNode.abortIfNotExposed none h = Result.ok h ∧
    (∀ a nd, h.node? a = some nd → nd.m_bits_UNDER_CONSTRUCTION = false →
      GCNode.abortIfNotExposed (some a) h = Result.ok h) := by
  refine ⟨?_, ?_, rfl, ?_⟩
  · cases node with
    | none => simp [GCNode.abortIfNotExposed]
    | some a =>
      cases hn : h.node? a with
      | none => simp [GCNode.abortIfNotExposed, hn]
      | some nd =>
        cases hu : nd.m_bits_UNDER_CONSTRUCTION <;> simp [GCNode.abortIfNotExposed, hn, hu]
  · intro hne
    cases node with
    | none => rfl
    | some a =>
      cases hn : h.node? a with
      | none => simp [GCNode.abortIfNotExposed, hn]
      | some nd =>
        cases hu : nd.m_bits_UNDER_CONSTRUCTION
        · simp [GCNode.abortIfNotExposed, hn, hu]
        · exact absurd (by simp [GCNode.abortIfNotExposed, hn, hu]) hne
  · intro a nd hn hu
    simp [GCNode.abortIfNotExposed, hn, hu]

theorem resolveCallee_of_symbol {ev : Eval} {call : RObject} {env : Nat} {s : EvalState}
    {name : String} (hc : call.car = RObject.symbol name) :
    resolveCallee ev call env s =
      match findFunction name env s with
      | none => Rf_error (RError.could_not_find_function name) s
      | some func => some (Except.ok func, s) := by
  unfold resolveCallee
  generalize call.car = x at hc
  subst hc
  rfl

end CXXR

namespace CXXR

open Expression

/-! ## Built-in functions and closures -/

theorem evaluateList_shape (ev : Eval) (env : Nat) :
    ∀ (l : List (Option String × RObject)) (s t : EvalState)
      (vs : List (Option String × RObject)),
      ArgList.evaluateList ev env l s = some (Except.ok vs, t) →
      List.Forall₂ (fun x v => v.1 = x.1 ∧ ∃ a b, ev x.2 env a = some (Except.ok v.2, b))
        l vs := by
  intro l
  induction l with
  | nil =>
    intro s t vs h
    simp only [ArgList.evaluateList, Option.some.injEq, Prod.mk.injEq, Except.ok.injEq] at h
    rw [← h.1]
    exact List.Forall₂.nil
  | cons x rest ih =>
    intro s t vs h
    unfold ArgList.evaluateList at h
    split at h
    · cases h
    · cases h
    · rename_i v s1 h1
      split at h
      · cases h
      · cases h
      · rename_i ws s2 h2
        simp only [Option.some.injEq, Prod.mk.injEq, Except.ok.injEq] at h
        rw [← h.1]
        exact List.Forall₂.cons ⟨rfl, s, s1, h1⟩ (ih _ _ _ h2)

/-- C13 (the indirect call of a built-in function).  Where the function is a
special form (`SPECIALSXP`), and where the list is `EVALUATED` already,
`evaluateIndirectBuiltInCall` evaluates nothing: `invoke` is handed the list
that was received.  Where the function is strict (`BUILTINSXP`) and the list
is not `EVALUATED`, the arguments are evaluated in `env`, in order: the first
error ends the call, and otherwise `invoke` is handed the values, each with
the tag of its argument, in the state the evaluation left.  In both cases a
function with the policy `SOFT_ON` has the printing of the result turned on
just before `invoke`. -/
theorem evaluateIndirectBuiltInCall_strict_only (W : World) (ev : Eval) (call : RObject)
    (func : BuiltInFunction) (env : Nat) (arglist : ArgList) (s : EvalState) :
    (func.sexptype = SEXPTYPE.SPECIALSXP ∨ func.sexptype = SEXPTYPE.BUILTINSXP) ∧
    (func.sexptype = SEXPTYPE.SPECIALSXP ∨ arglist.status = ArgList.Status.EVALUATED →
      evaluateIndirectBuiltInCall W ev call func env arglist s
        = func.invoke W ev call env arglist.list
            (if func.printHandling = ResultPrintingMode.SOFT_ON
              then Evaluator.enableResultPrinting true s else s)) ∧
    (func.sexptype = SEXPTYPE.BUILTINSXP → arglist.status ≠ ArgList.Status.EVALUATED →
      (ArgList.evaluateList ev env arglist.list s = none →
        evaluateIndirectBuiltInCall W ev call func env arglist s = none) ∧
      (∀ e t, ArgList.evaluateList ev env arglist.list s = some (Except.error e, t) →
        evaluateIndirectBuiltInCall W ev call func env arglist s = some (Except.error e, t)) ∧
      (∀ vs t, ArgList.evaluateList ev env arglist.list s = some (Except.ok vs, t) →
        evaluateIndirectBuiltInCall W ev call func env arglist s
          = func.invoke W ev call env vs
              (if func.printHandling = ResultPrintingMode.SOFT_ON
                then Evaluator.enableResultPrinting true t else t) ∧
        List.Forall₂ (fun x v => v.1 = x.1 ∧ ∃ a b, ev x.2 env a = some (Except.ok v.2, b))
          arglist.list vs)) := by
  refine ⟨?_, ?_, ?_⟩
  · rcases sexptype_cases func with h | h
    · exact Or.inl h.1
    · exact Or.inr h.1
  · intro h
    have hc : ¬ (func.sexptype = SEXPTYPE.BUILTINSXP
        ∧ arglist.status ≠ ArgList.Status.EVALUATED) := by
      rintro ⟨h1, h2⟩
      rcases h with h | h
      · rw [h] at h1
        cases h1
      · exact h2 h
    unfold evaluateIndirectBuiltInCall
    rw [if_neg hc]
  · intro h1 h2
    have hc : func.sexptype = SEXPTYPE.BUILTINSXP
        ∧ arglist.status ≠ ArgList.Status.EVALUATED := ⟨h1, h2⟩
    refine ⟨?_, ?_, ?_⟩
    · intro h
      unfold evaluateIndirectBuiltInCall ArgList.evaluate
      rw [if_pos hc, h]
    · intro e t h
      unfold evaluateIndirectBuiltInCall ArgList.evaluate
      rw [if_pos hc, h]
    · intro vs t h
      refine ⟨?_, evaluateList_shape ev env _ _ _ _ h⟩
      unfold evaluateIndirectBuiltInCall ArgList.evaluate
      rw [if_pos hc, h]

theorem withContext_inv {α : Type} {c : Context} {body : EvalState → Outcome α}
    {s t : EvalState} {r : Except RError α} (h : withContext c body s = some (r, t)) :
    ∃ t1, body { s with contexts := c :: s.contexts } = some (r, t1) ∧
      t = { t1 with contexts := t1.contexts.tail } := by
  unfold withContext at h
  split at h
  · cases h
  · rename_i r1 t1 hbody
    simp only [Option.some.injEq, Prod.mk.injEq] at h
    obtain ⟨rfl, rfl⟩ := h
    exact ⟨t1, hbody, rfl⟩

/-- A call of a built-in function that returns has gone through `invoke`; for
the policy `SOFT_ON` the printing of the result was on when `invoke` began. -/
theorem evaluateBuiltInCall_invokes {W : World} {ev : Eval} {call : RObject}
    {func : BuiltInFunction} {env : Nat} {arglist : ArgList} {s t : EvalState} {r : RObject}
    (h : evaluateBuiltInCall W ev call func env arglist s = some (Except.ok r, t)) :
    ∃ args s0, func.invoke W ev call env args s0 = some (Except.ok r, t) ∧
      (func.printHandling = ResultPrintingMode.SOFT_ON → s0.result_printing = true) := by
  have key : ∀ (args : List (Option String × RObject)) (s1 : EvalState),
      func.invoke W ev call env args
        (if func.printHandling = ResultPrintingMode.SOFT_ON
          then Evaluator.enableResultPrinting true s1 else s1) = some (Except.ok r, t) →
      ∃ args s0, func.invoke W ev call env args s0 = some (Except.ok r, t) ∧
        (func.printHandling = ResultPrintingMode.SOFT_ON → s0.result_printing = true) := by
    intro args s1 h1
    refine ⟨args, _, h1, ?_⟩
    intro hs
    rw [if_pos hs]
    rfl
  unfold evaluateBuiltInCall at h
  split at h
  · unfold evaluateDirectBuiltInCall at h
    split at h
    · cases h
    · cases h
    · split at h
      · cases h
      · cases h
      · exact key _ _ h
  · unfold evaluateIndirectBuiltInCall at h
    split at h
    · cases h
    · cases h
    · exact key _ _ h

/-- C14 (the printing of the result).  When `Expression::applyBuiltIn` returns
normally, the printing of the result is on if the policy of the built-in
function is `FORCE_ON` and off if it is `FORCE_OFF`.  If the policy is
`SOFT_ON`, printing was turned on just before the function was invoked, and
the setting with which `invoke` came back is the one in force on return:
`applyBuiltIn` does not override it. -/
theorem applyBuiltIn_printing (W : World) (ev : Eval) (call : RObject)
    (builtin : BuiltInFunction) (env : Nat) (raw_arglist : ArgList) (s t : EvalState)
    (r : RObject)
    (h : applyBuiltIn W ev call builtin env raw_arglist s = some (Except.ok r, t)) :
    (builtin.printHandling = ResultPrintingMode.FORCE_ON → t.result_printing = true) ∧
    (builtin.printHandling = ResultPrintingMode.FORCE_OFF → t.result_printing = false) ∧
    (builtin.printHandling = ResultPrintingMode.SOFT_ON →
      ∃ args s_in s_out, s_in.result_printing = true ∧
        builtin.invoke W ev call env args s_in = some (Except.ok r, s_out) ∧
        t.result_printing = s_out.result_printing) := by
  unfold applyBuiltIn at h
  split at h
  · cases h
  · cases h
  · rename_i res s1 h1
    simp only [Option.some.injEq, Prod.mk.injEq, Except.ok.injEq] at h
    obtain ⟨hr, ht⟩ := h
    refine ⟨?_, ?_, ?_⟩
    · intro hp
      rw [← ht, hp]
      simp [Evaluator.enableResultPrinting]
    · intro hp
      rw [← ht, hp]
      simp [Evaluator.enableResultPrinting]
    · intro hp
      have ht2 : t = s1 := by
        rw [← ht, hp]
        simp
      have hbody : ∃ c, withContext c (evaluateBuiltInCall W ev call builtin env raw_arglist) s
          = some (Except.ok res, s1) := by
        split at h1
        · exact ⟨_, h1⟩
        · exact ⟨_, h1⟩
      obtain ⟨c, hc⟩ := hbody
      obtain ⟨t1, hb, e1⟩ := withContext_inv hc
      obtain ⟨args, s0, hi, hs0⟩ := evaluateBuiltInCall_invokes hb
      refine ⟨args, s0, t1, hs0 hp, ?_, ?_⟩
      · rw [← hr]
        exact hi
      · rw [ht2, e1]

theorem applyBuiltIn_printing_witness :
    applyBuiltIn sampleWorld (Evaluator.evaluate sampleWorld 5)
        (RObject.expression (RObject.symbol "invisible")
          (RObject.pairlist none (RObject.int 7) RObject.null))
        sampleInvisible 0 { list := [(none, RObject.int 7)], status := ArgList.Status.RAW }
        sampleState
      = some (Except.ok (RObject.int 7), { sampleState with
          trace := [Event.builtin sampleInvisible [(none, RObject.int 7)]] }) ∧
    sampleInvisible.printHandling = ResultPrintingMode.SOFT_ON ∧
    ∃ args s_in s_out, s_in.result_printing = true ∧
      sampleInvisible.invoke sampleWorld (Evaluator.evaluate sampleWorld 5)
        (RObject.expression (RObject.symbol "invisible")
          (RObject.pairlist none (RObject.int 7) RObject.null)) 0 args s_in
        = some (Except.ok (RObject.int 7), s_out) ∧
      sampleState.result_printing = s_out.result_printing :=
  ⟨by decide!, rfl,
    (applyBuiltIn_printing sampleWorld (Evaluator.evaluate sampleWorld 5)
      (RObject.expression (RObject.symbol "invisible")
        (RObject.pairlist none (RObject.int 7) RObject.null)) sampleInvisible 0
      { list := [(none, RObject.int 7)], status := ArgList.Status.RAW } sampleState
      { sampleState with trace := [Event.builtin sampleInvisible [(none, RObject.int 7)]] }
      (RObject.int 7) (by decide!)).2.2 rfl⟩

theorem promisedArgs_status (env : Nat) (a : ArgList) :
    (promisedArgs env a).status = ArgList.Status.PROMISED := by
  unfold promisedArgs
  by_cases h : a.status = ArgList.Status.PROMISED
  · simp [h]
  · simp [h, ArgList.wrapInPromises]

theorem promisedArgs_idem (env : Nat) (a : ArgList) :
    promisedArgs env (promisedArgs env a) = promisedArgs env a := by
  have h := promisedArgs_status env a
  generalize promisedArgs env a = b at h
  unfold promisedArgs
  simp [h]

theorem pop_after_setFrame (s : EvalState) (c : Context) (n : Nat) (f : Frame) :
    ({ (({ s with contexts := c :: s.contexts } : EvalState).setFrame n f) with
        contexts := (({ s with contexts := c :: s.contexts } : EvalState).setFrame n f
          ).contexts.tail } : EvalState) = s.setFrame n f := by
  unfold EvalState.setFrame
  cases h : s.envs[n]? with
  | none => simp [h]
  | some e => simp [h]

/-- C15 (the arguments of a closure are promised, not evaluated).  Let `al` be
the list `Expression::invokeClosureImpl` works with after its first statement.
It is `PROMISED`; it is the list received if that was `PROMISED`, and otherwise
the list received with every argument wrapped, unevaluated, in a promise bound
to `calling_env`.  The call behaves as if it had been given `al`.  The
execution environment is new: its index is not one of the store before the
call.  The matcher is given `al`; if it raises an error the call ends there and
nothing has been evaluated.  Otherwise the body is executed in the new
environment under a `ClosureContext` that holds `al`: promises bound to the
`calling_env` received, also in a method call, where the calling environment
recorded in the context is the one `getMethodCallingEnv` gives. -/
theorem invokeClosureImpl_promises (W : World) (ev : Eval) (call : RObject) (func : Closure)
    (calling_env : Nat) (arglist : ArgList) (method_bindings : Option Frame) (s : EvalState) :
    (promisedArgs calling_env arglist).status = ArgList.Status.PROMISED ∧
    (arglist.status = ArgList.Status.PROMISED → promisedArgs calling_env arglist = arglist) ∧
    (arglist.status ≠ ArgList.Status.PROMISED →
      (promisedArgs calling_env arglist).list
        = arglist.list.map (fun x => (x.1, RObject.promise x.2 calling_env))) ∧
    invokeClosureImpl W ev call func calling_env arglist method_bindings s
      = invokeClosureImpl W ev call func calling_env (promisedArgs calling_env arglist)
          method_bindings s ∧
    ((func.createExecutionEnv s).1 = s.envs.length ∧ s.envs[s.envs.length]? = none ∧
      (func.createExecutionEnv s).2.envs.length = s.envs.length + 1) ∧
    (∀ e, W.matchArgs func (promisedArgs calling_env arglist).list = Except.error e →
      invokeClosureImpl W ev call func calling_env arglist method_bindings s
        = some (Except.error e, (func.createExecutionEnv s).2)) ∧
    (∀ f, W.matchArgs func (promisedArgs calling_env arglist).list = Except.ok f →
      invokeClosureImpl W ev call func calling_env arglist none s
        = withContext (Context.closure call calling_env func.toRObject s.envs.length
            (promisedArgs calling_env arglist).list)
          (func.execute ev s.envs.length)
          ((func.createExecutionEnv s).2.setFrame s.envs.length f)) ∧
    (∀ f m, W.matchArgs func (promisedArgs calling_env arglist).list = Except.ok f →
      invokeClosureImpl W ev call func calling_env arglist (some m) s
        = withContext (Context.closure call
            (getMethodCallingEnv
              (((func.createExecutionEnv s).2.setFrame s.envs.length f).setFrame s.envs.length
                (importMethodBindings m
                  (((func.createExecutionEnv s).2.setFrame s.envs.length f).frame
                    s.envs.length))))
            func.toRObject s.envs.length (promisedArgs calling_env arglist).list)
          (func.execute ev s.envs.length)
          (((func.createExecutionEnv s).2.setFrame s.envs.length f).setFrame s.envs.length
            (importMethodBindings m
              (((func.createExecutionEnv s).2.setFrame s.envs.length f).frame
                s.envs.length)))) := by
  have hpop : ∀ (c : Context) (t : EvalState),
      ({ ({ t with contexts := c :: t.contexts } : EvalState) with
        contexts := ({ t with contexts := c :: t.contexts } : EvalState).contexts.tail }
          : EvalState) = t := by
    intro c t
    cases t
    rfl
  refine ⟨promisedArgs_status _ _, ?_, ?_, ?_, ⟨rfl, ?_, ?_⟩, ?_, ?_, ?_⟩
  · intro h
    unfold promisedArgs
    simp [h]
  · intro h
    unfold promisedArgs
    simp [h, ArgList.wrapInPromises]
  · unfold invokeClosureImpl
    rw [promisedArgs_idem]
  · simp
  · show (s.envs ++ [_]).length = s.envs.length + 1
    simp
  · intro e he
    unfold invokeClosureImpl withContext ArgMatcher.match_
    simp only [he]
    rw [hpop]
  · intro f hf
    unfold invokeClosureImpl
    simp only
    have h1 : withContext (Context.closure call calling_env func.toRObject func.environment
        (promisedArgs calling_env arglist).list)
        (ArgMatcher.match_ W func (func.createExecutionEnv s).1
          (promisedArgs calling_env arglist)) (func.createExecutionEnv s).2
        = some (Except.ok (), (func.createExecutionEnv s).2.setFrame s.envs.length f) := by
      unfold withContext ArgMatcher.match_
      simp only [hf]
      rw [pop_after_setFrame]
      rfl
    rw [h1]
    rfl
  · intro f m hf
    unfold invokeClosureImpl
    simp only
    have h1 : withContext (Context.closure call calling_env func.toRObject func.environment
        (promisedArgs calling_env arglist).list)
        (ArgMatcher.match_ W func (func.createExecutionEnv s).1
          (promisedArgs calling_env arglist)) (func.createExecutionEnv s).2
        = some (Except.ok (), (func.createExecutionEnv s).2.setFrame s.envs.length f) := by
      unfold withContext ArgMatcher.match_
      simp only [hf]
      rw [pop_after_setFrame]
      rfl
    rw [h1]
    rfl

end CXXR

namespace CXXR

open Expression

/-! ## The calling environment of a method -/

theorem loop_skip (pre l : List Context)
    (h : ∀ d ∈ pre, ∀ g, d.function? = some g → g.sexptype = SEXPTYPE.SPECIALSXP) :
    getMethodCallingEnv_loop (pre ++ l) = getMethodCallingEnv_loop l := by
  induction pre with
  | nil => rfl
  | cons d pre ih =>
    have ih1 := ih (fun x hx => h x (List.mem_cons_of_mem _ hx))
    have hd := h d (List.mem_cons_self _ _)
    show getMethodCallingEnv_loop (d :: (pre ++ l)) = _
    rw [← ih1]
    cases hf : d.function? with
    | none => simp [getMethodCallingEnv_loop, hf]
    | some g =>
      have := hd g hf
      simp [getMethodCallingEnv_loop, hf, this]

theorem loop_stop (c : Context) (rest : List Context) (f : RObject)
    (hf : c.function? = some f) (hs : f.sexptype ≠ SEXPTYPE.SPECIALSXP) :
    getMethodCallingEnv_loop (c :: rest) = some c := by
  unfold getMethodCallingEnv_loop
  simp [hf, hs]

theorem loop_split (l : List Context) :
    (getMethodCallingEnv_loop l = none ∧
      ∀ d ∈ l, ∀ g, d.function? = some g → g.sexptype = SEXPTYPE.SPECIALSXP) ∨
    (∃ pre c rest f, l = pre ++ c :: rest ∧
      (∀ d ∈ pre, ∀ g, d.function? = some g → g.sexptype = SEXPTYPE.SPECIALSXP) ∧
      c.function? = some f ∧ f.sexptype ≠ SEXPTYPE.SPECIALSXP ∧
      getMethodCallingEnv_loop l = some c) := by
  induction l with
  | nil =>
    left
    exact ⟨rfl, fun d hd => absurd hd (List.not_mem_nil d)⟩
  | cons d l ih =>
    by_cases hd : ∀ g, d.function? = some g → g.sexptype = SEXPTYPE.SPECIALSXP
    · have hskip : getMethodCallingEnv_loop (d :: l) = getMethodCallingEnv_loop l :=
        loop_skip [d] l (fun x hx => by
          rw [List.mem_singleton] at hx
          rw [hx]
          exact hd)
      rcases ih with ⟨hn, hall⟩ | ⟨pre, c, rest, f, hl, hpre, hf, hs, hloop⟩
      · left
        refine ⟨by rw [hskip, hn], ?_⟩
        intro x hx
        rcases List.mem_cons.mp hx with e | e
        · rw [e]
          exact hd
        · exact hall x e
      · right
        refine ⟨d :: pre, c, rest, f, by rw [hl]; rfl, ?_, hf, hs, by rw [hskip, hloop]⟩
        intro x hx
        rcases List.mem_cons.mp hx with e | e
        · rw [e]
          exact hd
        · exact hpre x e
    · right
      push_neg at hd
      obtain ⟨g, hg, hs⟩ := hd
      exact ⟨[], d, l, g, rfl, fun x hx => absurd hx (List.not_mem_nil x), hg, hs,
        loop_stop d l g hg hs⟩

/-- C17 (the sentence as written fails).  On the context stack `sampleStack`
the innermost context is the `FunctionContext` of the strict built-in function
`length`, which is not a closure, called from environment 1, and the next
context outward is a closure call made from environment 2.
`getMethodCallingEnv` does not skip the frame of the built-in function: it
stops there and returns environment 1.  Such a stack arises in a run: where
the closure `h`, called from the global environment 0, calls `length`, the
function gives, while the C function of `length` runs, the execution
environment 1 of `h` and not the environment 0 that the closure call was made
from. -/
theorem getMethodCallingEnv_stops_at_builtin :
    sampleStack.contexts
      = [Context.function (sampleCall "length") 1 (RObject.builtin sampleLength),
         Context.closure (sampleCall "g") 2 (RObject.closure ["x"] (RObject.symbol "x") 0) 3 []] ∧
    (RObject.builtin sampleLength).sexptype = SEXPTYPE.BUILTINSXP ∧
    (RObject.builtin sampleLength).sexptype ≠ SEXPTYPE.CLOSXP ∧
    getMethodCallingEnv sampleStack = 1 ∧
    getMethodCallingEnv sampleStack ≠ 2 ∧
    (Evaluator.evaluate sampleProbeWorld 5 (sampleCall "h") 0 sampleState).map (fun x => x.1)
      = some (Except.ok (RObject.int 1)) := by
  refine ⟨rfl, by decide, by decide, by decide, by decide, ?_⟩
  decide!

/-- C17 (amended).  `Expression::getMethodCallingEnv()` walks outward from the
innermost `FunctionContext` and passes over the contexts that are not a
`FunctionContext` and those whose function is a special form (`SPECIALSXP`),
and over no other.  It returns the calling environment of the first
`FunctionContext` whose function is not a special form, be that a closure or a
strict built-in function; when there is no such context it returns the global
environment.  Every stack is of one of these two kinds.  Where every
`FunctionContext` of a built-in function on the stack belongs to a special
form, the context it stops at is a closure call. -/
theorem getMethodCallingEnv_spec (s : EvalState) :
    (∀ pre c rest f env, s.contexts = pre ++ c :: rest →
      (∀ d ∈ pre, ∀ g, d.function? = some g → g.sexptype = SEXPTYPE.SPECIALSXP) →
      c.function? = some f → f.sexptype ≠ SEXPTYPE.SPECIALSXP →
      c.callEnvironment? = some env →
      getMethodCallingEnv_loop s.contexts = some c ∧ getMethodCallingEnv s = env) ∧
    ((∀ d ∈ s.contexts, ∀ g, d.function? = some g → g.sexptype = SEXPTYPE.SPECIALSXP) →
      getMethodCallingEnv_loop s.contexts = none ∧ getMethodCallingEnv s = 0) ∧
    ((∀ d ∈ s.contexts, ∀ g, d.function? = some g → g.sexptype = SEXPTYPE.SPECIALSXP) ∨
      (∃ pre c rest f env, s.contexts = pre ++ c :: rest ∧
        (∀ d ∈ pre, ∀ g, d.function? = some g → g.sexptype = SEXPTYPE.SPECIALSXP) ∧
        c.function? = some f ∧ f.sexptype ≠ SEXPTYPE.SPECIALSXP ∧
        c.callEnvironment? = some env)) ∧
    ((∀ call env f, Context.function call env f ∈ s.contexts →
        f.sexptype = SEXPTYPE.SPECIALSXP) →
      getMethodCallingEnv_loop s.contexts = none ∨
      ∃ call env f w p, getMethodCallingEnv_loop s.contexts
          = some (Context.closure call env f w p) ∧
        Context.closure call env f w p ∈ s.contexts ∧ getMethodCallingEnv s = env) := by
  have hstop : ∀ pre c rest f, s.contexts = pre ++ c :: rest →
      (∀ d ∈ pre, ∀ g, d.function? = some g → g.sexptype = SEXPTYPE.SPECIALSXP) →
      c.function? = some f → f.sexptype ≠ SEXPTYPE.SPECIALSXP →
      getMethodCallingEnv_loop s.contexts = some c := by
    intro pre c rest f hl hpre hf hs
    rw [hl, loop_skip pre _ hpre]
    exact loop_stop c rest f hf hs
  have hnone : (∀ d ∈ s.contexts, ∀ g, d.function? = some g →
      g.sexptype = SEXPTYPE.SPECIALSXP) → getMethodCallingEnv_loop s.contexts = none := by
    intro hall
    have := loop_skip s.contexts [] hall
    rw [List.append_nil] at this
    rw [this]
    rfl
  refine ⟨?_, ?_, ?_, ?_⟩
  · intro pre c rest f env hl hpre hf hs henv
    have h := hstop pre c rest f hl hpre hf hs
    refine ⟨h, ?_⟩
    unfold getMethodCallingEnv
    rw [h]
    simp [henv]
  · intro hall
    have h := hnone hall
    refine ⟨h, ?_⟩
    unfold getMethodCallingEnv
    rw [h]
  · rcases loop_split s.contexts with ⟨_, hall⟩ | ⟨pre, c, rest, f, hl, hpre, hf, hs, _⟩
    · left
      exact hall
    · right
      cases c with
      | plain => simp [Context.function?] at hf
      | bailout => simp [Context.function?] at hf
      | function call env g => exact ⟨pre, _, rest, f, env, hl, hpre, hf, hs, rfl⟩
      | closure call env g w p => exact ⟨pre, _, rest, f, env, hl, hpre, hf, hs, rfl⟩
  · intro hfun
    rcases loop_split s.contexts with ⟨hn, _⟩ | ⟨pre, c, rest, f, hl, hpre, hf, hs, hloop⟩
    · left
      exact hn
    · right
      have hmem : c ∈ s.contexts := by
        rw [hl]
        simp
      cases c with
      | plain => simp [Context.function?] at hf
      | bailout => simp [Context.function?] at hf
      | function call env g =>
        have e : g = f := by simpa [Context.function?] using hf
        exact absurd (hfun call env g hmem) (by rw [e]; exact hs)
      | closure call env g w p =>
        refine ⟨call, env, g, w, p, hloop, hmem, ?_⟩
        unfold getMethodCallingEnv
        rw [hloop]
        rfl

/-! ## The bindings of a method -/

/-- C18 (merging method bindings never overrides a binding).  After
`Expression::importMethodBindings(M, F)` every symbol that was bound in `F`
has the binding it had, every symbol bound in `M` and not in `F` has the
binding of `M`, and a symbol bound in neither is not bound; the bindings of
`F` are still there, in their order, the new ones after them.  Importing `M`
once more gives the same frame. -/
theorem importMethodBindings_keeps_bound (M F : Frame) :
    (∀ sym b, F.binding sym = some b → (importMethodBindings M F).binding sym = some b) ∧
    (∀ sym b, F.binding sym = none → M.binding sym = some b →
      (importMethodBindings M F).binding sym = some b) ∧
    (∀ sym, F.binding sym = none → M.binding sym = none →
      (importMethodBindings M F).binding sym = none) ∧
    (∃ extra, (importMethodBindings M F).bindings = F.bindings ++ extra) ∧
    importMethodBindings M (importMethodBindings M F) = importMethodBindings M F := by
  have key : ∀ sym, (importMethodBindings M F).binding sym
      = (F.binding sym).orElse (fun _ => M.binding sym) := by
    intro sym
    exact import_fold_binding M.bindings F sym
  refine ⟨?_, ?_, ?_, import_fold_extends M.bindings F, ?_⟩
  · intro sym b h
    rw [key, h]
    rfl
  · intro sym b h hM
    rw [key, h, hM]
    rfl
  · intro sym h hM
    rw [key, h, hM]
    rfl
  · apply import_fold_fixed
    intro b hb
    have hk := key b.1
    have hm : (M.binding b.1).isSome = true := binding_of_mem hb
    show ((importMethodBindings M F).binding b.1).isSome = true
    rw [hk]
    cases F.binding b.1 with
    | some x => rfl
    | none => simpa using hm

end CXXR

namespace CXXR

open Expression

/-! ## The context stack, the evaluation depth and the execution environments -/

theorem matching_ok {W : World} {func : Closure} {c : Context} {n : Nat} {al : ArgList}
    {f : Frame} (s : EvalState) (hf : W.matchArgs func al.list = Except.ok f) :
    withContext c (ArgMatcher.match_ W func n al) s = some (Except.ok (), s.setFrame n f) := by
  unfold withContext ArgMatcher.match_
  simp only [hf]
  rw [pop_after_setFrame]

theorem matching_error {W : World} {func : Closure} {c : Context} {n : Nat} {al : ArgList}
    {e : RError} (s : EvalState) (he : W.matchArgs func al.list = Except.error e) :
    withContext c (ArgMatcher.match_ W func n al) s = some (Except.error e, s) := by
  unfold withContext ArgMatcher.match_
  simp only [he]
  cases s
  rfl

theorem closureEnvs_mem {l : List Event} {i : Nat} {f : Closure} {a : Nat}
    (h : l[i]? = some (Event.closure f a)) : a ∈ Event.closureEnvs l := by
  induction l generalizing i with
  | nil => simp at h
  | cons e rest ih =>
    cases i with
    | zero =>
      simp only [List.getElem?_cons_zero, Option.some.injEq] at h
      rw [h]
      simp [Event.closureEnvs]
    | succ i =>
      simp only [List.getElem?_cons_succ] at h
      have := ih h
      cases e <;> simp [Event.closureEnvs, this]

theorem closureEnvs_distinct {l : List Event} (hn : (Event.closureEnvs l).Nodup) :
    ∀ (i j : Nat) (f g : Closure) (a b : Nat), i < j → l[i]? = some (Event.closure f a) →
      l[j]? = some (Event.closure g b) → a ≠ b := by
  induction l with
  | nil =>
    intro i j f g a b _ hi
    simp at hi
  | cons e rest ih =>
    intro i j f g a b hij hi hj
    cases j with
    | zero => exact absurd hij (Nat.not_lt_zero _)
    | succ j =>
      simp only [List.getElem?_cons_succ] at hj
      cases i with
      | zero =>
        simp only [List.getElem?_cons_zero, Option.some.injEq] at hi
        rw [hi] at hn
        simp only [Event.closureEnvs, List.nodup_cons] at hn
        intro e1
        rw [e1] at hn
        exact hn.1 (closureEnvs_mem hj)
      | succ i =>
        simp only [List.getElem?_cons_succ] at hi
        have hn1 : (Event.closureEnvs rest).Nodup := by
          cases e with
          | error _ _ => exact hn
          | builtin _ _ => exact hn
          | closure _ _ =>
            simp only [Event.closureEnvs, List.nodup_cons] at hn
            exact hn.2
        exact ih hn1 i j f g a b (Nat.lt_of_succ_lt_succ hij) hi hj

theorem frame_setFrame_ne (u : EvalState) (a b : Nat) (F : Frame) (h : a ≠ b) :
    (u.setFrame a F).frame b = u.frame b := by
  unfold EvalState.setFrame
  cases ha : u.envs[a]? with
  | none => rfl
  | some e =>
    simp only [EvalState.frame]
    rw [List.getElem?_set_ne h]

theorem frame_setFrame_eq (u : EvalState) (a : Nat) (F : Frame) (h : a < u.envs.length) :
    (u.setFrame a F).frame a = F := by
  unfold EvalState.setFrame
  cases ha : u.envs[a]? with
  | none =>
    rw [List.getElem?_eq_none_iff] at ha
    omega
  | some e =>
    simp only [EvalState.frame]
    rw [List.getElem?_set_self h]

/-- C16 (the context stack is balanced).  `ev` is the evaluator with any fuel,
in a world whose built-in functions leave the context stack as they found it.
A call of `applyBuiltIn` that ends, with a value or with an error, has run
`evaluateBuiltInCall` with one context pushed on the stack of `s` (a
`FunctionContext` if the function creates a stack frame, else a
`PlainContext`), that run ended with the same stack, and after the call the
stack is the stack of `s`.  A call of `invokeClosureImpl` that ends either
failed in argument matching, or has executed the body with one
`ClosureContext` on the stack of `s`, the context of the matching being gone,
and that run ended with the same stack; after the call the stack is the stack
of `s`.  For every evaluation that ends the stack at the end is the stack at
the start, and every error raised in its course was raised with the stack of
the start below the contexts pushed since, so that all of these are popped. -/
theorem context_stack_balance (W : World) (hW : W.Tame) (fuel : Nat) (call : RObject)
    (env : Nat) (s : EvalState) :
    (∀ builtin raw_arglist r t,
      applyBuiltIn W (Evaluator.evaluate W fuel) call builtin env raw_arglist s = some (r, t) →
      t.contexts = s.contexts ∧
      ∃ t1, evaluateBuiltInCall W (Evaluator.evaluate W fuel) call builtin env raw_arglist
          { s with contexts :=
              (if builtin.createsStackFrame
                then Context.function call env (RObject.builtin builtin)
                else Context.plain) :: s.contexts } = some (r, t1) ∧
        t1.contexts =
          (if builtin.createsStackFrame
            then Context.function call env (RObject.builtin builtin)
            else Context.plain) :: s.contexts) ∧
    (∀ func arglist method_bindings r t,
      invokeClosureImpl W (Evaluator.evaluate W fuel) call func env arglist method_bindings s
        = some (r, t) →
      t.contexts = s.contexts ∧
      ((∃ e, W.matchArgs func (promisedArgs env arglist).list = Except.error e ∧
          r = Except.error e) ∨
       (∃ (f : Frame) (cenv : Nat) (s2 t1 : EvalState),
          W.matchArgs func (promisedArgs env arglist).list = Except.ok f ∧
          s2.contexts = s.contexts ∧
          func.execute (Evaluator.evaluate W fuel) s.envs.length
            { s2 with contexts :=
                (Context.closure call cenv func.toRObject s.envs.length
                  (promisedArgs env arglist).list :: s.contexts) } = some (r, t1) ∧
          t1.contexts =
            Context.closure call cenv func.toRObject s.envs.length
              (promisedArgs env arglist).list :: s.contexts ∧
          t = { t1 with contexts := s.contexts }))) ∧
    (∀ obj r t, Evaluator.evaluate W fuel obj env s = some (r, t) →
      t.contexts = s.contexts ∧
      ∃ l, t.trace = s.trace ++ l ∧
        ∀ e ctxs, Event.error e ctxs ∈ l → ∃ p, ctxs = p ++ s.contexts) := by
  have hev := Evaluator_evaluate_respects hW fuel
  refine ⟨?_, ?_, ?_⟩
  · intro builtin raw_arglist r t h
    refine ⟨(applyBuiltIn_keeps hW hev h).contexts, ?_⟩
    have hw : ∃ t0, withContext
        (if builtin.createsStackFrame
          then Context.function call env (RObject.builtin builtin) else Context.plain)
        (evaluateBuiltInCall W (Evaluator.evaluate W fuel) call builtin env raw_arglist) s
        = some (r, t0) := by
      unfold applyBuiltIn at h
      cases hc : builtin.createsStackFrame
      · simp only [hc, Bool.false_eq_true, if_false] at h ⊢
        split at h
        · cases h
        · rename_i e s1 hh
          simp only [Option.some.injEq, Prod.mk.injEq] at h
          exact ⟨s1, by rw [hh, ← h.1]⟩
        · rename_i v s1 hh
          simp only [Option.some.injEq, Prod.mk.injEq] at h
          exact ⟨s1, by rw [hh, ← h.1]⟩
      · simp only [hc, if_true] at h ⊢
        split at h
        · cases h
        · rename_i e s1 hh
          simp only [Option.some.injEq, Prod.mk.injEq] at h
          exact ⟨s1, by rw [hh, ← h.1]⟩
        · rename_i v s1 hh
          simp only [Option.some.injEq, Prod.mk.injEq] at h
          exact ⟨s1, by rw [hh, ← h.1]⟩
    obtain ⟨t0, h0⟩ := hw
    obtain ⟨t1, hb, _⟩ := withContext_inv h0
    exact ⟨t1, hb, (evaluateBuiltInCall_keeps hW hev hb).contexts⟩
  · intro func arglist method_bindings r t h
    refine ⟨(invokeClosureImpl_keeps hev h).contexts, ?_⟩
    have hcase : (∃ e, W.matchArgs func (promisedArgs env arglist).list = Except.error e) ∨
        (∃ f, W.matchArgs func (promisedArgs env arglist).list = Except.ok f) := by
      cases W.matchArgs func (promisedArgs env arglist).list with
      | error e => exact Or.inl ⟨e, rfl⟩
      | ok f => exact Or.inr ⟨f, rfl⟩
    rcases hcase with ⟨e, hm⟩ | ⟨f, hm⟩
    · left
      unfold invokeClosureImpl at h
      simp only [matching_error _ hm, Option.some.injEq, Prod.mk.injEq] at h
      exact ⟨e, hm, h.1.symm⟩
    · right
      have hs2 : ∀ u : EvalState, u.contexts = s.contexts → ∀ cenv,
          withContext (Context.closure call cenv func.toRObject
              (func.createExecutionEnv s).1 (promisedArgs env arglist).list)
            (func.execute (Evaluator.evaluate W fuel) (func.createExecutionEnv s).1) u
            = some (r, t) →
          ∃ (f0 : Frame) (cenv : Nat) (s2 t1 : EvalState),
            W.matchArgs func (promisedArgs env arglist).list = Except.ok f0 ∧
            s2.contexts = s.contexts ∧
            func.execute (Evaluator.evaluate W fuel) s.envs.length
              { s2 with contexts :=
                  (Context.closure call cenv func.toRObject s.envs.length
                    (promisedArgs env arglist).list :: s.contexts) } = some (r, t1) ∧
            t1.contexts =
              Context.closure call cenv func.toRObject s.envs.length
                (promisedArgs env arglist).list :: s.contexts ∧
            t = { t1 with contexts := s.contexts } := by
        intro u hu cenv hw
        obtain ⟨t1, hb, et⟩ := withContext_inv hw
        have hc := (hev _ _ _ _ _ hb).contexts
        rw [hu] at hb
        have hc1 : t1.contexts = Context.closure call cenv func.toRObject s.envs.length
            (promisedArgs env arglist).list :: s.contexts := by
          rw [hc, ← hu]
          rfl
        refine ⟨f, cenv, u, t1, hm, hu, hb, hc1, ?_⟩
        rw [et, hc1]
        rfl
      cases method_bindings with
      | none =>
        unfold invokeClosureImpl at h
        simp only [matching_ok _ hm] at h
        exact hs2 ((func.createExecutionEnv s).2.setFrame (func.createExecutionEnv s).1 f)
          (setFrame_fields _ _ _).1 _ h
      | some mb =>
        unfold invokeClosureImpl at h
        simp only [matching_ok _ hm] at h
        refine hs2 _ ?_ _ h
        rw [(setFrame_fields _ _ _).1, (setFrame_fields _ _ _).1]
        rfl
  · intro obj r t h
    have hk := hev _ _ _ _ _ h
    obtain ⟨l, hl, herr, _, _⟩ := hk.trace
    exact ⟨hk.contexts, l, hl, herr⟩

theorem context_stack_balance_witness :
    sampleWorld.Tame ∧
    Evaluator.evaluate sampleWorld 10 (sampleCall "f1") 0 sampleState
      = some (Except.error (RError.could_not_find_function "nosuch"), sampleNestedError) ∧
    Event.error (RError.could_not_find_function "nosuch")
      (sampleNestedContexts ++ sampleState.contexts) ∈ sampleNestedError.trace ∧
    sampleNestedContexts.length = 3 ∧
    sampleNestedError.contexts = sampleState.contexts ∧
    ∃ l, sampleNestedError.trace = sampleState.trace ++ l ∧
      ∀ e ctxs, Event.error e ctxs ∈ l → ∃ p, ctxs = p ++ sampleState.contexts :=
  ⟨sampleWorld_tame, by decide!, by decide, rfl,
    (context_stack_balance sampleWorld sampleWorld_tame 10 (sampleCall "f1") 0 sampleState).2.2
      (sampleCall "f1") (Except.error (RError.could_not_find_function "nosuch"))
      sampleNestedError (by decide!)⟩

end CXXR

namespace CXXR

open Expression

/-! ## The evaluation depth -/

/-- C19 (the evaluation depth).  `Expression::evaluate` holds an
`IncrementStackDepthScope` for the whole call.  Entered with the depth at its
bound, the call raises the error `evaluation nested too deeply` and does
nothing else.  Otherwise the callee is resolved and called with the depth
raised by one: a closure bound to the head symbol is invoked in the state `s`
with the depth `s.depth + 1`.  A call that ends, with a value or with an
error, has run its body from the depth `s.depth + 1`, the body ended at
that depth, and the state after the call is that of the body with the depth
`s.depth` again.  The built-in functions are taken to leave the depth as they
found it. -/
theorem evaluate_depth_accounting (W : World) (hW : W.Tame) (fuel : Nat) (call : RObject)
    (env : Nat) (s : EvalState) :
    (s.depth_limit < s.depth + 1 →
      Expression.evaluate W (Evaluator.evaluate W fuel) call env s
        = some (Except.error RError.evaluation_nested_too_deeply,
            { s with trace := s.trace ++
                [Event.error RError.evaluation_nested_too_deeply s.contexts] })) ∧
    (s.depth + 1 ≤ s.depth_limit →
      ∀ name formals body cenv, call.car = RObject.symbol name →
        findFunction name env s = some (RObject.closure formals body cenv) →
        Expression.evaluate W (Evaluator.evaluate W fuel) call env s
          = IncrementStackDepthScope
              (invokeClosureImpl W (Evaluator.evaluate W fuel) call
                { formals := formals, body := body, environment := cenv } env
                { list := call.tail.elements, status := ArgList.Status.RAW } none) s) ∧
    (s.depth + 1 ≤ s.depth_limit → ∀ r t,
      Expression.evaluate W (Evaluator.evaluate W fuel) call env s = some (r, t) →
      ∃ t1, evaluateCall W (Evaluator.evaluate W fuel) call env { s with depth := s.depth + 1 }
          = some (r, t1) ∧
        t1.depth = s.depth + 1 ∧ t = { t1 with depth := s.depth }) ∧
    (∀ r t, Expression.evaluate W (Evaluator.evaluate W fuel) call env s = some (r, t) →
      t.depth = s.depth) := by
  have hev := Evaluator_evaluate_respects hW fuel
  refine ⟨?_, ?_, ?_, ?_⟩
  · intro hd
    unfold Expression.evaluate IncrementStackDepthScope
    rw [if_pos hd]
    rfl
  · intro hd name formals body cenv hc hf
    have hlim : ¬ (s.depth + 1 > s.depth_limit) := by omega
    unfold Expression.evaluate IncrementStackDepthScope evaluateCall
    rw [if_neg hlim, if_neg hlim, resolveCallee_of_symbol hc]
    have hf2 : findFunction name env { s with depth := s.depth + 1 }
        = some (RObject.closure formals body cenv) :=
      (@findFunction_congr s { s with depth := s.depth + 1 } name env rfl).trans hf
    rw [hf2]
    rfl
  · intro hd r t h
    have hlim : ¬ (s.depth + 1 > s.depth_limit) := by omega
    unfold Expression.evaluate IncrementStackDepthScope at h
    rw [if_neg hlim] at h
    split at h
    · cases h
    · rename_i r1 t1 hb
      simp only [Option.some.injEq, Prod.mk.injEq] at h
      obtain ⟨rfl, rfl⟩ := h
      have hk : t1.depth = s.depth + 1 := (evaluateCall_keeps hW hev hb).depth
      refine ⟨t1, hb, hk, ?_⟩
      rw [hk]
      rfl
  · intro r t h
    exact (Expression_evaluate_keeps hW hev h).depth

theorem evaluate_depth_accounting_witness :
    sampleWorld.Tame ∧
    Expression.evaluate sampleWorld (Evaluator.evaluate sampleWorld 9) sampleRecursion 0
        sampleShallow
      = some (Except.error RError.evaluation_nested_too_deeply, sampleRecursionEnd) ∧
    sampleShallow.depth_limit = 3 ∧
    Event.closureEnvs sampleRecursionEnd.trace = [1, 2, 3] ∧
    sampleRecursionEnd.depth = sampleShallow.depth :=
  ⟨sampleWorld_tame, by decide!, rfl, by decide,
    (evaluate_depth_accounting sampleWorld sampleWorld_tame 9 sampleRecursion 0
      sampleShallow).2.2.2 (Except.error RError.evaluation_nested_too_deeply)
      sampleRecursionEnd (by decide!)⟩

/-! ## The execution environment of a closure call -/

theorem invokeClosureImpl_keeps_created {W : World} {ev : Eval} (hev : Respects ev)
    {call : RObject} {func : Closure} {calling_env : Nat} {arglist : ArgList}
    {method_bindings : Option Frame} {s t : EvalState} {r : Except RError RObject}
    (h : invokeClosureImpl W ev call func calling_env arglist method_bindings s = some (r, t)) :
    Keeps (func.createExecutionEnv s).2 t := by
  unfold invokeClosureImpl at h
  simp only at h
  split at h
  · cases h
  · rename_i e s1 h1
    simp only [Option.some.injEq, Prod.mk.injEq] at h
    obtain ⟨_, rfl⟩ := h
    exact withContext_keeps (fun _ _ hb => match_keeps hb) h1
  · rename_i u s1 h1
    have k1 := withContext_keeps (fun _ _ hb => match_keeps hb) h1
    cases method_bindings with
    | none =>
      simp only at h
      exact k1.followedBy (withContext_keeps (fun _ _ hb => hev _ _ _ _ _ hb) h)
    | some mb =>
      simp only at h
      exact (k1.followedBy (setFrame_keeps s1 _ _)).followedBy
        (withContext_keeps (fun _ _ hb => hev _ _ _ _ _ hb) h)

/-- C20 (closure calls are isolated).  In a world whose built-in functions
remove no environment, with the evaluator of any fuel: `invokeClosureImpl`
creates its execution environment as a new entry of the store, one that is
not an environment of the state at the call, and the arguments matched are
bound in the frame of that environment.  In a call that ends, every closure
call made in its course, of the same closure or of another, got an
execution environment created after that of the call, different from it and
from those of the others.  For every evaluation that ends, any two closure
calls recorded in its course have different execution environments.
Replacing the frame of one environment leaves the frame of every other
environment as it was. -/
theorem closure_calls_isolated (W : World) (hW : W.Tame) (fuel : Nat) (call : RObject)
    (func : Closure) (calling_env : Nat) (arglist : ArgList) (method_bindings : Option Frame)
    (s : EvalState) :
    ((func.createExecutionEnv s).1 = s.envs.length ∧ s.envs[s.envs.length]? = none ∧
      ∀ f, ((func.createExecutionEnv s).2.setFrame s.envs.length f).frame s.envs.length = f) ∧
    (∀ r t, invokeClosureImpl W (Evaluator.evaluate W fuel) call func calling_env arglist
        method_bindings s = some (r, t) →
      ∃ l, t.trace = s.trace ++ Event.closure func s.envs.length :: l ∧
        (∀ n ∈ Event.closureEnvs l, s.envs.length < n ∧ n < t.envs.length) ∧
        (Event.closureEnvs l).Nodup ∧ s.envs.length < t.envs.length) ∧
    (∀ obj env r t, Evaluator.evaluate W fuel obj env s = some (r, t) →
      ∃ l, t.trace = s.trace ++ l ∧
        ∀ (i j : Nat) (f g : Closure) (a b : Nat), i < j →
          l[i]? = some (Event.closure f a) → l[j]? = some (Event.closure g b) →
          a ≠ b ∧ s.envs.length ≤ a ∧ s.envs.length ≤ b) ∧
    (∀ (u : EvalState) (a b : Nat) (F : Frame), a ≠ b →
      (u.setFrame a F).frame b = u.frame b) := by
  have hev := Evaluator_evaluate_respects hW fuel
  have hlen : (func.createExecutionEnv s).2.envs.length = s.envs.length + 1 := by
    show (s.envs ++ [_]).length = s.envs.length + 1
    simp
  refine ⟨⟨rfl, by simp, ?_⟩, ?_, ?_, ?_⟩
  · intro f
    apply frame_setFrame_eq
    rw [hlen]
    exact Nat.lt_succ_self _
  · intro r t h
    have hk := invokeClosureImpl_keeps_created hev h
    obtain ⟨l, hl, _, hb, hn⟩ := hk.trace
    refine ⟨l, ?_, ?_, hn, ?_⟩
    · rw [hl]
      show (s.trace ++ [Event.closure func s.envs.length]) ++ l = _
      simp
    · intro n hm
      have := hb n hm
      rw [hlen] at this
      exact ⟨this.1, this.2⟩
    · have := hk.envs
      rw [hlen] at this
      exact this
  · intro obj env r t h
    have hk := hev _ _ _ _ _ h
    obtain ⟨l, hl, _, hb, hn⟩ := hk.trace
    refine ⟨l, hl, ?_⟩
    intro i j f g a b hij hi hj
    exact ⟨closureEnvs_distinct hn i j f g a b hij hi hj, (hb a (closureEnvs_mem hi)).1,
      (hb b (closureEnvs_mem hj)).1⟩
  · intro u a b F hab
    exact frame_setFrame_ne u a b F hab

theorem closure_calls_isolated_witness :
    sampleWorld.Tame ∧
    Evaluator.evaluate sampleWorld 10 sampleRecursion 0 sampleShallow
      = some (Except.error RError.evaluation_nested_too_deeply, sampleRecursionEnd) ∧
    sampleRecursionEnd.trace.take 3
      = [Event.closure sampleR 1, Event.closure sampleR 2, Event.closure sampleR 3] ∧
    (sampleRecursionEnd.frame 1).binding "x" = some ("x", RObject.promise (RObject.int 1) 0) ∧
    (sampleRecursionEnd.frame 2).binding "x"
      = some ("x", RObject.promise (RObject.symbol "x") 1) ∧
    ∃ l, sampleRecursionEnd.trace = sampleShallow.trace ++ l ∧
      ∀ (i j : Nat) (f g : Closure) (a b : Nat), i < j →
        l[i]? = some (Event.closure f a) → l[j]? = some (Event.closure g b) →
        a ≠ b ∧ sampleShallow.envs.length ≤ a ∧ sampleShallow.envs.length ≤ b :=
  ⟨sampleWorld_tame, by decide!, by decide, by decide, by decide,
    (closure_calls_isolated sampleWorld sampleWorld_tame 10 sampleRecursion sampleR 0
      { list := [], status := ArgList.Status.RAW } none sampleShallow).2.2.1
      sampleRecursion 0 (Except.error RError.evaluation_nested_too_deeply)
      sampleRecursionEnd (by decide!)⟩

end CXXR

namespace CXXR

open Expression ArgMatcher

/-! ## The argument matcher -/

theorem filter_tag_other {supplied : List (Option String × RObject)} {f g : String}
    (h : f ≠ g) :
    (supplied.filter (fun y => !(y.1 == some g))).filter (fun x => x.1 == some f)
      = supplied.filter (fun x => x.1 == some f) := by
  rw [List.filter_filter]
  apply List.filter_congr
  intro x _
  by_cases hx : x.1 = some f
  · have : ¬ x.1 = some g := by
      rw [hx]
      intro e
      exact h (Option.some.inj e)
    simp [hx, h]
  · simp [hx]

/-- What the pass by exact name gives: a slot per formal, in order; a formal
with one argument of its name has it; a formal with no such argument has none;
an argument whose tag is no formal is left. -/
theorem exactPass_spec : ∀ (formals : List String) (supplied : List (Option String × RObject))
    (r : Slots × List (Option String × RObject)),
    exactPass formals supplied = Except.ok r →
      r.1.map Prod.fst = formals ∧
      (∀ f x, f ∈ formals → f ≠ "..." →
        supplied.filter (fun y => y.1 == some f) = [x] → (f, some x.2) ∈ r.1) ∧
      (∀ f, f ∈ formals → (∀ y ∈ supplied, y.1 ≠ some f) → (f, none) ∈ r.1) ∧
      (∀ y ∈ supplied, (∀ g ∈ formals, y.1 ≠ some g) → y ∈ r.2) := by
  intro formals
  induction formals with
  | nil =>
    intro supplied r h
    simp only [exactPass, Except.ok.injEq] at h
    subst h
    exact ⟨rfl, fun f x hf => absurd hf (List.not_mem_nil f),
      fun f hf => absurd hf (List.not_mem_nil f), fun y hy _ => hy⟩
  | cons g fs ih =>
    intro supplied r h
    rw [exactPass] at h
    have same : ∀ r0, exactPass fs supplied = Except.ok r0 →
        (∀ f x, f = g → f ≠ "..." → supplied.filter (fun y => y.1 == some f) = [x] → False) →
        r = ((g, none) :: r0.1, r0.2) →
        r.1.map Prod.fst = g :: fs ∧
        (∀ f x, f ∈ g :: fs → f ≠ "..." →
          supplied.filter (fun y => y.1 == some f) = [x] → (f, some x.2) ∈ r.1) ∧
        (∀ f, f ∈ g :: fs → (∀ y ∈ supplied, y.1 ≠ some f) → (f, none) ∈ r.1) ∧
        (∀ y ∈ supplied, (∀ k ∈ g :: fs, y.1 ≠ some k) → y ∈ r.2) := by
      intro r0 h0 hno hr
      obtain ⟨i1, i2, i3, i4⟩ := ih supplied r0 h0
      subst hr
      refine ⟨by simp [i1], ?_, ?_, ?_⟩
      · intro f x hf hd hfl
        rcases List.mem_cons.mp hf with e | e
        · exact absurd (hno f x e hd hfl) id
        · exact List.mem_cons_of_mem _ (i2 f x e hd hfl)
      · intro f hf hy
        rcases List.mem_cons.mp hf with e | e
        · rw [e]
          exact List.mem_cons_self _ _
        · exact List.mem_cons_of_mem _ (i3 f e hy)
      · intro y hy hk
        exact i4 y hy (fun k hk2 => hk k (List.mem_cons_of_mem _ hk2))
    by_cases hd : g = "..."
    · rw [if_pos hd] at h
      cases h0 : exactPass fs supplied with
      | error e => simp [h0] at h
      | ok r0 =>
        simp only [h0, Except.ok.injEq] at h
        exact same r0 h0 (fun f x e hne _ => hne (e.trans hd)) h.symm
    · rw [if_neg hd] at h
      cases hfl : supplied.filter (fun x => x.1 == some g) with
      | nil =>
        simp only [hfl] at h
        cases h0 : exactPass fs supplied with
        | error e => simp [h0] at h
        | ok r0 =>
          simp only [h0, Except.ok.injEq] at h
          refine same r0 h0 ?_ h.symm
          intro f x e _ hx
          rw [e, hfl] at hx
          cases hx
      | cons x1 l1 =>
        cases l1 with
        | cons x2 l2 => simp [hfl] at h
        | nil =>
          simp only [hfl] at h
          cases h0 : exactPass fs (supplied.filter (fun y => !(y.1 == some g))) with
          | error e => simp [h0] at h
          | ok r0 =>
            simp only [h0, Except.ok.injEq] at h
            obtain ⟨i1, i2, i3, i4⟩ := ih _ r0 h0
            subst h
            refine ⟨by simp [i1], ?_, ?_, ?_⟩
            · intro f x hf hne hx
              by_cases e : f = g
              · rw [e] at hx ⊢
                rw [hfl] at hx
                cases hx
                exact List.mem_cons_self _ _
              · have hf2 : f ∈ fs := by
                  rcases List.mem_cons.mp hf with e2 | e2
                  · exact absurd e2 e
                  · exact e2
                refine List.mem_cons_of_mem _ (i2 f x hf2 hne ?_)
                rw [filter_tag_other e]
                exact hx
            · intro f hf hy
              have hne : f ≠ g := by
                intro e
                have hx1 : x1 ∈ supplied.filter (fun x => x.1 == some g) := by
                  rw [hfl]
                  exact List.mem_cons_self _ _
                rw [List.mem_filter] at hx1
                have := hy x1 hx1.1
                rw [e] at this
                exact this (by simpa using hx1.2)
              have hf2 : f ∈ fs := by
                rcases List.mem_cons.mp hf with e2 | e2
                · exact absurd e2 hne
                · exact e2
              refine List.mem_cons_of_mem _ (i3 f hf2 ?_)
              intro y hy2
              exact hy y (List.mem_filter.mp hy2).1
            · intro y hy hk
              refine i4 y ?_ (fun k hk2 => hk k (List.mem_cons_of_mem _ hk2))
              rw [List.mem_filter]
              refine ⟨hy, ?_⟩
              have := hk g (List.mem_cons_self _ _)
              simpa using this

theorem exactPass_error : ∀ (formals : List String) (supplied : List (Option String × RObject))
    (e : RError), exactPass formals supplied = Except.error e →
      e = RError.argument_match_error := by
  intro formals
  induction formals with
  | nil =>
    intro supplied e h
    simp [exactPass] at h
  | cons g fs ih =>
    intro supplied e h
    rw [exactPass] at h
    split at h
    · split at h
      · rename_i e0 h0
        cases h
        exact ih _ _ h0
      · cases h
    · split at h
      · split at h
        · rename_i e0 h0
          cases h
          exact ih _ _ h0
        · cases h
      · split at h
        · rename_i e0 h0
          cases h
          exact ih _ _ h0
        · cases h
      · cases h
        rfl

theorem bind_fst (slots : Slots) (f : String) (v : RObject) :
    (bindSlot slots f v).map Prod.fst = slots.map Prod.fst := by
  unfold bindSlot
  rw [List.map_map]
  apply List.map_congr_left
  intro s _
  by_cases h : s.1 = f <;> simp [h]

theorem bind_keeps {slots : Slots} {g : String} (w : RObject) (hb : isBound slots g = false)
    {f : String} {v : RObject} (hm : (f, some v) ∈ slots) : (f, some v) ∈ bindSlot slots g w := by
  unfold bindSlot
  rw [List.mem_map]
  refine ⟨(f, some v), hm, ?_⟩
  have hne : f ≠ g := by
    intro e
    unfold isBound at hb
    rw [List.any_eq_false] at hb
    have := hb (f, some v) hm
    simp [e] at this
  simp [hne]

theorem partialPass_nil (slots0 slots : Slots) :
    partialPass slots0 [] slots = Except.ok (slots, []) := by
  rw [partialPass]

/-- The pass by partial name keeps the slots in order and takes no argument
away from a formal that has one. -/
theorem partialPass_keeps (slots0 : Slots) : ∀ (args : List (Option String × RObject))
    (slots : Slots) (r : Slots × List (Option String × RObject)),
    partialPass slots0 args slots = Except.ok r →
      r.1.map Prod.fst = slots.map Prod.fst ∧
      ∀ f v, (f, some v) ∈ slots → (f, some v) ∈ r.1 := by
  intro args
  induction args with
  | nil =>
    intro slots r h
    rw [partialPass_nil] at h
    cases h
    exact ⟨rfl, fun f v hm => hm⟩
  | cons a rest ih =>
    intro slots r h
    obtain ⟨tag, v⟩ := a
    cases tag with
    | none =>
      rw [partialPass] at h
      cases h0 : partialPass slots0 rest slots with
      | error e => simp [h0] at h
      | ok r0 =>
        simp only [h0, Except.ok.injEq] at h
        subst h
        exact ih slots r0 h0
    | some t =>
      rw [partialPass] at h
      cases hc : partialCandidates slots0 t with
      | nil =>
        simp only [hc] at h
        cases h0 : partialPass slots0 rest slots with
        | error e => simp [h0] at h
        | ok r0 =>
          simp only [h0, Except.ok.injEq] at h
          subst h
          exact ih slots r0 h0
      | cons f1 l1 =>
        cases l1 with
        | cons f2 l2 => simp [hc] at h
        | nil =>
          simp only [hc] at h
          by_cases hb : isBound slots f1 = true
          · simp [hb] at h
          · have hb2 : isBound slots f1 = false := by simpa using hb
            simp only [hb2, Bool.false_eq_true, if_false] at h
            obtain ⟨i1, i2⟩ := ih _ r h
            refine ⟨i1.trans (bind_fst _ _ _), ?_⟩
            intro f w hm
            exact i2 f w (bind_keeps v hb2 hm)

theorem partialPass_error (slots0 : Slots) : ∀ (args : List (Option String × RObject))
    (slots : Slots) (e : RError), partialPass slots0 args slots = Except.error e →
      e = RError.argument_match_error := by
  intro args
  induction args with
  | nil =>
    intro slots e h
    rw [partialPass_nil] at h
    cases h
  | cons a rest ih =>
    intro slots e h
    obtain ⟨tag, v⟩ := a
    cases tag with
    | none =>
      rw [partialPass] at h
      cases h0 : partialPass slots0 rest slots with
      | error e0 =>
        simp only [h0, Except.error.injEq] at h
        rw [← h]
        exact ih _ _ h0
      | ok r0 => simp [h0] at h
    | some t =>
      rw [partialPass] at h
      cases hc : partialCandidates slots0 t with
      | nil =>
        simp only [hc] at h
        cases h0 : partialPass slots0 rest slots with
        | error e0 =>
          simp only [h0, Except.error.injEq] at h
          rw [← h]
          exact ih _ _ h0
        | ok r0 => simp [h0] at h
      | cons f1 l1 =>
        cases l1 with
        | cons f2 l2 =>
          simp only [hc, Except.error.injEq] at h
          exact h.symm
        | nil =>
          simp only [hc] at h
          by_cases hb : isBound slots f1 = true
          · simp only [hb, if_true, Except.error.injEq] at h
            exact h.symm
          · have hb2 : isBound slots f1 = false := by simpa using hb
            simp only [hb2, Bool.false_eq_true, if_false] at h
            exact ih _ _ h

/-- A tag that begins the names of two formals without argument ends the pass
by partial name with an error. -/
theorem partialPass_ambiguous (slots0 : Slots) {t : String} {v : RObject}
    (hc : 2 ≤ (partialCandidates slots0 t).length) :
    ∀ (args : List (Option String × RObject)) (slots : Slots), (some t, v) ∈ args →
      partialPass slots0 args slots = Except.error RError.argument_match_error := by
  intro args
  induction args with
  | nil =>
    intro slots hm
    exact absurd hm (List.not_mem_nil _)
  | cons a rest ih =>
    intro slots hm
    have key : ∀ x, partialPass slots0 rest x = Except.error RError.argument_match_error ∨
        a = (some t, v) := by
      intro x
      rcases List.mem_cons.mp hm with e | e
      · exact Or.inr e.symm
      · exact Or.inl (ih x e)
    cases hres : partialPass slots0 (a :: rest) slots with
    | error e => rw [partialPass_error slots0 _ _ _ hres]
    | ok r =>
      exfalso
      obtain ⟨tag, w⟩ := a
      cases tag with
      | none =>
        rw [partialPass] at hres
        rcases key slots with k | k
        · simp [k] at hres
        · cases k
      | some u =>
        rw [partialPass] at hres
        cases hcu : partialCandidates slots0 u with
        | nil =>
          simp only [hcu] at hres
          rcases key slots with k | k
          · simp [k] at hres
          · cases k
            rw [hcu] at hc
            simp at hc
        | cons f1 l1 =>
          cases l1 with
          | cons f2 l2 => simp [hcu] at hres
          | nil =>
            simp only [hcu] at hres
            by_cases hb : isBound slots f1 = true
            · simp [hb] at hres
            · have hb2 : isBound slots f1 = false := by simpa using hb
              simp only [hb2, Bool.false_eq_true, if_false] at hres
              rcases key (bindSlot slots f1 w) with k | k
              · rw [k] at hres
                cases hres
              · cases k
                rw [hcu] at hc
                simp at hc

/-- The pass by position keeps the formals in order and the arguments that
the passes by name have given them. -/
theorem positionalPass_keeps : ∀ (slots : Slots) (args : List (Option String × RObject))
    (bs : List (String × RObject)), positionalPass slots args = Except.ok bs →
      bs.map Prod.fst = slots.map Prod.fst ∧
      ∀ f v, (f, some v) ∈ slots → (f, v) ∈ bs := by
  intro slots
  induction slots with
  | nil =>
    intro args bs h
    cases args with
    | nil =>
      rw [positionalPass] at h
      cases h
      exact ⟨rfl, fun f v hm => absurd hm (List.not_mem_nil _)⟩
    | cons a rest =>
      rw [positionalPass] at h
      cases h
  | cons s slots ih =>
    intro args bs h
    obtain ⟨g, o⟩ := s
    cases o with
    | some w =>
      rw [positionalPass] at h
      cases h0 : positionalPass slots args with
      | error e => simp [h0] at h
      | ok bs0 =>
        simp only [h0, Except.ok.injEq] at h
        subst h
        obtain ⟨i1, i2⟩ := ih args bs0 h0
        refine ⟨by simp [i1], ?_⟩
        intro f v hm
        rcases List.mem_cons.mp hm with e | e
        · cases e
          exact List.mem_cons_self _ _
        · exact List.mem_cons_of_mem _ (i2 f v e)
    | none =>
      rw [positionalPass] at h
      have hmem : ∀ f v, (f, some v) ∈ (g, (none : Option RObject)) :: slots →
          (f, some v) ∈ slots := by
        intro f v hm
        rcases List.mem_cons.mp hm with e | e
        · cases e
        · exact e
      by_cases hd : g = "..."
      · rw [if_pos hd] at h
        cases h0 : positionalPass slots [] with
        | error e => simp [h0] at h
        | ok bs0 =>
          simp only [h0, Except.ok.injEq] at h
          subst h
          obtain ⟨i1, i2⟩ := ih [] bs0 h0
          exact ⟨by simp [i1], fun f v hm => List.mem_cons_of_mem _ (i2 f v (hmem f v hm))⟩
      · rw [if_neg hd] at h
        cases ht : takeUntagged args with
        | none => simp [ht] at h
        | some r =>
          simp only [ht] at h
          cases h0 : positionalPass slots r.2 with
          | error e => simp [h0] at h
          | ok bs0 =>
            simp only [h0, Except.ok.injEq] at h
            subst h
            obtain ⟨i1, i2⟩ := ih r.2 bs0 h0
            exact ⟨by simp [i1], fun f v hm => List.mem_cons_of_mem _ (i2 f v (hmem f v hm))⟩

theorem positionalPass_error : ∀ (slots : Slots) (args : List (Option String × RObject))
    (e : RError), positionalPass slots args = Except.error e →
      e = RError.argument_match_error := by
  intro slots
  induction slots with
  | nil =>
    intro args e h
    cases args with
    | nil =>
      rw [positionalPass] at h
      cases h
    | cons a rest =>
      rw [positionalPass] at h
      cases h
      rfl
  | cons s slots ih =>
    intro args e h
    obtain ⟨g, o⟩ := s
    cases o with
    | some w =>
      rw [positionalPass] at h
      cases h0 : positionalPass slots args with
      | error e0 =>
        simp only [h0, Except.error.injEq] at h
        rw [← h]
        exact ih _ _ h0
      | ok bs0 => simp [h0] at h
    | none =>
      rw [positionalPass] at h
      by_cases hd : g = "..."
      · rw [if_pos hd] at h
        cases h0 : positionalPass slots [] with
        | error e0 =>
          simp only [h0, Except.error.injEq] at h
          rw [← h]
          exact ih _ _ h0
        | ok bs0 => simp [h0] at h
      · rw [if_neg hd] at h
        cases ht : takeUntagged args with
        | none =>
          simp only [ht, Except.error.injEq] at h
          exact h.symm
        | some r =>
          simp only [ht] at h
          cases h0 : positionalPass slots r.2 with
          | error e0 =>
            simp only [h0, Except.error.injEq] at h
            rw [← h]
            exact ih _ _ h0
          | ok bs0 => simp [h0] at h

theorem binding_of_mem_nodup : ∀ (bs : List (String × RObject)) (f : String) (v : RObject),
    (bs.map Prod.fst).Nodup → (f, v) ∈ bs →
      Frame.binding { bindings := bs } f = some (f, v) := by
  intro bs
  induction bs with
  | nil =>
    intro f v _ hm
    exact absurd hm (List.not_mem_nil _)
  | cons b rest ih =>
    intro f v hn hm
    rw [binding_cons]
    simp only [List.map_cons, List.nodup_cons] at hn
    rcases List.mem_cons.mp hm with e | e
    · rw [← e]
      simp
    · have hne : b.1 ≠ f := by
        intro e2
        apply hn.1
        rw [e2]
        exact List.mem_map.mpr ⟨(f, v), e, rfl⟩
      rw [if_neg hne]
      exact ih f v hn.2 e

theorem two_le_length_of_mem {α : Type} {l : List α} {a b : α} (ha : a ∈ l) (hb : b ∈ l)
    (hab : a ≠ b) : 2 ≤ l.length := by
  cases l with
  | nil => exact absurd ha (List.not_mem_nil _)
  | cons x rest =>
    cases rest with
    | nil =>
      rw [List.mem_singleton] at ha hb
      exact absurd (ha.trans hb.symm) hab
    | cons y rest2 => simp

/-- What `matchFormals` gives, pass by pass. -/
theorem matchFormals_ok {formals : List String} {supplied : List (Option String × RObject)}
    {F : Frame} (h : matchFormals formals supplied = Except.ok F) :
    ∃ r1 r2, exactPass formals supplied = Except.ok r1 ∧
      partialPass r1.1 r1.2 r1.1 = Except.ok r2 ∧
      positionalPass r2.1 r2.2 = Except.ok F.bindings := by
  unfold matchFormals at h
  cases h1 : exactPass formals supplied with
  | error e => simp [h1] at h
  | ok r1 =>
    simp only [h1] at h
    cases h2 : partialPass r1.1 r1.2 r1.1 with
    | error e => simp [h2] at h
    | ok r2 =>
      simp only [h2] at h
      cases h3 : positionalPass r2.1 r2.2 with
      | error e => simp [h3] at h
      | ok bs =>
        simp only [h3, Except.ok.injEq] at h
        subst h
        exact ⟨r1, r2, rfl, h2, h3⟩

theorem matchFormals_error {formals : List String}
    {supplied : List (Option String × RObject)} {e : RError}
    (h : matchFormals formals supplied = Except.error e) :
    e = RError.argument_match_error := by
  unfold matchFormals at h
  cases h1 : exactPass formals supplied with
  | error e1 =>
    simp only [h1, Except.error.injEq] at h
    rw [← h]
    exact exactPass_error _ _ _ h1
  | ok r1 =>
    simp only [h1] at h
    cases h2 : partialPass r1.1 r1.2 r1.1 with
    | error e2 =>
      simp only [h2, Except.error.injEq] at h
      rw [← h]
      exact partialPass_error _ _ _ _ h2
    | ok r2 =>
      simp only [h2] at h
      cases h3 : positionalPass r2.1 r2.2 with
      | error e3 =>
        simp only [h3, Except.error.injEq] at h
        rw [← h]
        exact positionalPass_error _ _ _ h3
      | ok bs => simp [h3] at h

/-- Two arguments with the name of a formal end the pass by exact name with an
error. -/
theorem exactPass_duplicate : ∀ (formals : List String)
    (supplied : List (Option String × RObject)) (g : String), g ∈ formals → g ≠ "..." →
    2 ≤ (supplied.filter (fun y => y.1 == some g)).length →
    exactPass formals supplied = Except.error RError.argument_match_error := by
  intro formals
  induction formals with
  | nil =>
    intro supplied g hg
    exact absurd hg (List.not_mem_nil g)
  | cons h fs ih =>
    intro supplied g hg hd h2
    cases hres : exactPass (h :: fs) supplied with
    | error e => rw [exactPass_error _ _ _ hres]
    | ok r =>
      exfalso
      rw [exactPass] at hres
      by_cases hh : h = "..."
      · rw [if_pos hh] at hres
        have hg2 : g ∈ fs := by
          rcases List.mem_cons.mp hg with e | e
          · exact absurd (e.trans hh) hd
          · exact e
        rw [ih supplied g hg2 hd h2] at hres
        cases hres
      · rw [if_neg hh] at hres
        cases hfl : supplied.filter (fun x => x.1 == some h) with
        | nil =>
          simp only [hfl] at hres
          have hne : g ≠ h := by
            intro e
            rw [e, hfl] at h2
            simp at h2
          have hg2 : g ∈ fs := by
            rcases List.mem_cons.mp hg with e | e
            · exact absurd e hne
            · exact e
          rw [ih supplied g hg2 hd h2] at hres
          cases hres
        | cons x1 l1 =>
          cases l1 with
          | cons x2 l2 => simp [hfl] at hres
          | nil =>
            simp only [hfl] at hres
            have hne : g ≠ h := by
              intro e
              rw [e, hfl] at h2
              simp at h2
            have hg2 : g ∈ fs := by
              rcases List.mem_cons.mp hg with e | e
              · exact absurd e hne
              · exact e
            rw [ih _ g hg2 hd (by rw [filter_tag_other hne]; exact h2)] at hres
            cases hres

/-- The pass by exact name where no formal has two arguments of its name: the
slot of a formal holds the argument with its name, and the arguments whose tag
is no formal are left, in their order. -/
theorem exactPass_ok : ∀ (formals : List String) (supplied : List (Option String × RObject)),
    formals.Nodup →
    (∀ g ∈ formals, g ≠ "..." → (supplied.filter (fun y => y.1 == some g)).length ≤ 1) →
    exactPass formals supplied = Except.ok
      (formals.map (fun g => (g, if g = "..." then none
          else ((supplied.filter (fun y => y.1 == some g)).head?.map Prod.snd))),
       supplied.filter (fun y => !(formals.any (fun g => !(g == "...") && (y.1 == some g))))) := by
  intro formals
  induction formals with
  | nil =>
    intro supplied _ _
    simp [exactPass]
  | cons h fs ih =>
    intro supplied hn hd
    rw [List.nodup_cons] at hn
    have hd2 : ∀ g ∈ fs, g ≠ "..." →
        (supplied.filter (fun y => y.1 == some g)).length ≤ 1 :=
      fun g hg => hd g (List.mem_cons_of_mem _ hg)
    rw [exactPass]
    by_cases hh : h = "..."
    · rw [if_pos hh, ih supplied hn.2 hd2]
      simp [hh]
    · rw [if_neg hh]
      have hhb : (h == "...") = false := by simpa using hh
      cases hfl : supplied.filter (fun x => x.1 == some h) with
      | nil =>
        simp only
        rw [ih supplied hn.2 hd2]
        simp only [List.map_cons, if_neg hh, hfl, List.head?_nil, Option.map_none,
          List.any_cons, hhb, Bool.not_false, Bool.true_and]
        congr 2
        apply List.filter_congr
        intro y hy
        have : (y.1 == some h) = false := by
          by_contra hc
          have hm : y ∈ supplied.filter (fun x => x.1 == some h) :=
            List.mem_filter.mpr ⟨hy, by simpa using hc⟩
          rw [hfl] at hm
          exact absurd hm (List.not_mem_nil y)
        rw [this, Bool.false_or]
      | cons x1 l1 =>
        cases l1 with
        | cons x2 l2 =>
          exfalso
          have := hd h (List.mem_cons_self _ _) hh
          rw [hfl] at this
          simp at this
        | nil =>
          simp only
          have hd3 : ∀ g ∈ fs, g ≠ "..." →
              ((supplied.filter (fun y => !(y.1 == some h))).filter
                (fun y => y.1 == some g)).length ≤ 1 := by
            intro g hg hgd
            have hne : g ≠ h := fun e => hn.1 (e ▸ hg)
            rw [filter_tag_other hne]
            exact hd2 g hg hgd
          rw [ih _ hn.2 hd3]
          simp only [List.map_cons, if_neg hh, hfl, List.head?_cons, Option.map_some',
            List.any_cons, hhb, Bool.not_false, Bool.true_and]
          congr 2
          · congr 1
            apply List.map_congr_left
            intro g hg
            have hne : g ≠ h := fun e => hn.1 (e ▸ hg)
            rw [filter_tag_other hne]
          · rw [List.filter_filter]
            apply List.filter_congr
            intro y _
            cases (y.1 == some h) <;> simp

theorem isBound_insert (sl : Slots) (n : Nat) {f g : String} (o : Option RObject) (h : g ≠ f) :
    isBound (sl.take n ++ (f, o) :: sl.drop n) g = isBound sl g := by
  unfold isBound
  have hfg : (f == g) = false := by simpa using (fun e : f = g => h e.symm)
  rw [List.any_append, List.any_cons]
  simp only [hfg, Bool.false_and, Bool.false_or]
  rw [← List.any_append, List.take_append_drop]

theorem bindSlot_insert (sl : Slots) (n : Nat) {f g : String} (o : Option RObject) (v : RObject)
    (h : g ≠ f) :
    bindSlot (sl.take n ++ (f, o) :: sl.drop n) g v
      = (bindSlot sl g v).take n ++ (f, o) :: (bindSlot sl g v).drop n := by
  unfold bindSlot
  rw [List.map_append, List.map_cons, List.map_take, List.map_drop]
  have : ¬ f = g := fun e => h e.symm
  simp only [this, if_false]

theorem bindSlot_fresh (sl : Slots) (n : Nat) {f : String} (v : RObject)
    (h : f ∉ sl.map Prod.fst) :
    bindSlot (sl.take n ++ (f, none) :: sl.drop n) f v
      = sl.take n ++ (f, some v) :: sl.drop n := by
  have hid : ∀ l : Slots, (∀ s ∈ l, s ∈ sl) →
      l.map (fun s => if s.1 = f then (s.1, some v) else s) = l := by
    intro l hl
    conv_rhs => rw [← List.map_id l]
    apply List.map_congr_left
    intro s hs
    have : s.1 ≠ f := by
      intro e
      apply h
      rw [← e]
      exact List.mem_map_of_mem _ (hl s hs)
    simp [this]
  unfold bindSlot
  rw [List.map_append, List.map_cons, hid _ (fun s hs => List.mem_of_mem_take hs),
    hid _ (fun s hs => List.mem_of_mem_drop hs)]
  simp

theorem isBound_fresh (sl : Slots) (n : Nat) {f : String} (h : f ∉ sl.map Prod.fst) :
    isBound (sl.take n ++ (f, none) :: sl.drop n) f = false := by
  unfold isBound
  rw [List.any_eq_false]
  intro s hs
  rcases List.mem_append.mp hs with e | e
  · have : s.1 ≠ f := by
      intro e2
      apply h
      rw [← e2]
      exact List.mem_map_of_mem _ (List.mem_of_mem_take e)
    simp [this]
  · rcases List.mem_cons.mp e with e3 | e3
    · rw [e3]
      simp
    · have : s.1 ≠ f := by
        intro e2
        apply h
        rw [← e2]
        exact List.mem_map_of_mem _ (List.mem_of_mem_drop e3)
      simp [this]

/-- A slot that the pass by partial name has no part in stays where it is,
and the pass goes on as if the slot were not there. -/
theorem partialPass_insert (slots0 slots1 : Slots) (n : Nat) (f : String) (o : Option RObject) :
    ∀ (args : List (Option String × RObject)) (slots : Slots),
      (∀ y ∈ args, ∀ u, y.1 = some u →
        partialCandidates slots0 u = partialCandidates slots1 u ∧
          f ∉ partialCandidates slots1 u) →
      partialPass slots0 args (slots.take n ++ (f, o) :: slots.drop n)
        = (partialPass slots1 args slots).map
            (fun r => (r.1.take n ++ (f, o) :: r.1.drop n, r.2)) := by
  intro args
  induction args with
  | nil =>
    intro slots _
    rw [partialPass_nil, partialPass_nil]
    rfl
  | cons a rest ih =>
    intro slots hc
    have hrest : ∀ y ∈ rest, ∀ u, y.1 = some u →
        partialCandidates slots0 u = partialCandidates slots1 u ∧
          f ∉ partialCandidates slots1 u :=
      fun y hy => hc y (List.mem_cons_of_mem _ hy)
    obtain ⟨tag, v⟩ := a
    cases tag with
    | none =>
      rw [partialPass, partialPass, ih slots hrest]
      cases partialPass slots1 rest slots <;> rfl
    | some u =>
      obtain ⟨hcu, hfu⟩ := hc (some u, v) (List.mem_cons_self _ _) u rfl
      rw [partialPass, partialPass, hcu]
      cases hcs : partialCandidates slots1 u with
      | nil =>
        simp only
        rw [ih slots hrest]
        cases partialPass slots1 rest slots <;> rfl
      | cons g l1 =>
        cases l1 with
        | cons g2 l2 => rfl
        | nil =>
          simp only
          have hne : g ≠ f := by
            intro e
            apply hfu
            rw [hcs, e]
            exact List.mem_singleton_self f
          rw [isBound_insert slots n o hne]
          by_cases hb : isBound slots g = true
          · rw [if_pos hb, if_pos hb]
            rfl
          · rw [if_neg hb, if_neg hb, bindSlot_insert slots n o v hne]
            exact ih _ hrest

/-- The argument whose tag begins the name of one formal without argument
gives that formal its value, and the pass goes on as if neither were there. -/
theorem partialPass_bind (slots0 slots1 : Slots) (n : Nat) (f t : String) (v : RObject)
    (hcand : partialCandidates slots0 t = [f])
    (l2 : List (Option String × RObject))
    (h2 : ∀ y ∈ l2, ∀ u, y.1 = some u →
        partialCandidates slots0 u = partialCandidates slots1 u ∧
          f ∉ partialCandidates slots1 u) :
    ∀ (l1 : List (Option String × RObject)) (slots : Slots), f ∉ slots.map Prod.fst →
      (∀ y ∈ l1, ∀ u, y.1 = some u →
        partialCandidates slots0 u = partialCandidates slots1 u ∧
          f ∉ partialCandidates slots1 u) →
      partialPass slots0 (l1 ++ (some t, v) :: l2) (slots.take n ++ (f, none) :: slots.drop n)
        = (partialPass slots1 (l1 ++ l2) slots).map
            (fun r => (r.1.take n ++ (f, some v) :: r.1.drop n, r.2)) := by
  intro l1
  induction l1 with
  | nil =>
    intro slots hf _
    rw [List.nil_append, List.nil_append, partialPass, hcand]
    simp only
    rw [isBound_fresh slots n hf, if_neg (by simp), bindSlot_fresh slots n v hf]
    exact partialPass_insert slots0 slots1 n f (some v) l2 slots h2
  | cons a rest ih =>
    intro slots hf hc
    have hrest : ∀ y ∈ rest, ∀ u, y.1 = some u →
        partialCandidates slots0 u = partialCandidates slots1 u ∧
          f ∉ partialCandidates slots1 u :=
      fun y hy => hc y (List.mem_cons_of_mem _ hy)
    obtain ⟨tag, w⟩ := a
    cases tag with
    | none =>
      rw [List.cons_append, List.cons_append, partialPass, partialPass, ih slots hf hrest]
      cases partialPass slots1 (rest ++ l2) slots <;> rfl
    | some u =>
      obtain ⟨hcu, hfu⟩ := hc (some u, w) (List.mem_cons_self _ _) u rfl
      rw [List.cons_append, List.cons_append, partialPass, partialPass, hcu]
      cases hcs : partialCandidates slots1 u with
      | nil =>
        simp only
        rw [ih slots hf hrest]
        cases partialPass slots1 (rest ++ l2) slots <;> rfl
      | cons g l1 =>
        cases l1 with
        | cons g2 l3 => rfl
        | nil =>
          simp only
          have hne : g ≠ f := by
            intro e
            apply hfu
            rw [hcs, e]
            exact List.mem_singleton_self f
          rw [isBound_insert slots n none hne]
          by_cases hb : isBound slots g = true
          · rw [if_pos hb, if_pos hb]
            rfl
          · rw [if_neg hb, if_neg hb, bindSlot_insert slots n none w hne]
            exact ih _ (by rw [bind_fst]; exact hf) hrest

/-- A tag that begins the name of no formal without argument leaves the pass
by partial name without effect. -/
theorem partialPass_none (slots0 : Slots) : ∀ (args : List (Option String × RObject))
    (slots : Slots), (∀ y ∈ args, ∀ u, y.1 = some u → partialCandidates slots0 u = []) →
      partialPass slots0 args slots = Except.ok (slots, args) := by
  intro args
  induction args with
  | nil =>
    intro slots _
    exact partialPass_nil slots0 slots
  | cons a rest ih =>
    intro slots hc
    have hrest := ih slots (fun y hy => hc y (List.mem_cons_of_mem _ hy))
    obtain ⟨tag, v⟩ := a
    cases tag with
    | none => rw [partialPass, hrest]
    | some u =>
      rw [partialPass, hc (some u, v) (List.mem_cons_self _ _) u rfl]
      simp only
      rw [hrest]

/-- A slot with an argument stays where it is in the pass by position, and the
pass goes on as if the slot were not there. -/
theorem positionalPass_insert (f : String) (w : RObject) : ∀ (slots : Slots) (n : Nat)
    (args : List (Option String × RObject)),
    positionalPass (slots.take n ++ (f, some w) :: slots.drop n) args
      = (positionalPass slots args).map (fun bs => bs.take n ++ (f, w) :: bs.drop n) := by
  intro slots
  induction slots with
  | nil =>
    intro n args
    rw [List.take_nil, List.drop_nil, List.nil_append, positionalPass]
    cases args with
    | nil =>
      rw [positionalPass]
      simp [Except.map]
    | cons a rest =>
      rw [positionalPass]
      rfl
  | cons s rest ih =>
    intro n args
    cases n with
    | zero =>
      rw [List.take_zero, List.drop_zero, List.nil_append, positionalPass]
      cases positionalPass (s :: rest) args <;> rfl
    | succ m =>
      rw [List.take_succ_cons, List.drop_succ_cons, List.cons_append]
      obtain ⟨g, o⟩ := s
      cases o with
      | some v =>
        rw [positionalPass, positionalPass, ih m args]
        cases positionalPass rest args <;> rfl
      | none =>
        rw [positionalPass, positionalPass]
        by_cases hd : g = "..."
        · rw [if_pos hd, if_pos hd, ih m []]
          cases positionalPass rest [] <;> rfl
        · rw [if_neg hd, if_neg hd]
          cases takeUntagged args with
          | none => rfl
          | some r =>
            simp only
            rw [ih m r.2]
            cases positionalPass rest r.2 <;> rfl

theorem partialCandidates_append (a b : Slots) (u : String) :
    partialCandidates (a ++ b) u = partialCandidates a u ++ partialCandidates b u := by
  unfold partialCandidates
  rw [List.filter_append, List.map_append]

theorem partialCandidates_cons_some (f : String) (w : RObject) (b : Slots) (u : String) :
    partialCandidates ((f, some w) :: b) u = partialCandidates b u := by
  unfold partialCandidates
  rw [List.filter_cons]
  simp

theorem partialCandidates_cons_none (f : String) (b : Slots) (u : String) :
    partialCandidates ((f, none) :: b) u
      = if (!(f == "...") && u.toList.isPrefixOf f.toList) = true then f :: partialCandidates b u
        else partialCandidates b u := by
  unfold partialCandidates
  rw [List.filter_cons]
  by_cases h : (!(f == "...") && u.toList.isPrefixOf f.toList) = true
  · rw [if_pos h, if_pos (by simpa using h)]
    rfl
  · rw [if_neg h, if_neg (by simpa using h)]

theorem partialCandidates_split (sl : Slots) (n : Nat) (u : String) :
    partialCandidates sl u
      = partialCandidates (sl.take n) u ++ partialCandidates (sl.drop n) u := by
  rw [← partialCandidates_append, List.take_append_drop]

theorem partialCandidates_insert_some (sl : Slots) (n : Nat) (f : String) (w : RObject)
    (u : String) :
    partialCandidates (sl.take n ++ (f, some w) :: sl.drop n) u = partialCandidates sl u := by
  rw [partialCandidates_append, partialCandidates_cons_some, ← partialCandidates_split]

theorem partialCandidates_insert_none (sl : Slots) (n : Nat) (f : String) (u : String)
    (h : ¬ ((!(f == "...") && u.toList.isPrefixOf f.toList) = true)) :
    partialCandidates (sl.take n ++ (f, none) :: sl.drop n) u = partialCandidates sl u := by
  rw [partialCandidates_append, partialCandidates_cons_none, if_neg h, ← partialCandidates_split]

theorem partialCandidates_insert_self (sl : Slots) (n : Nat) (f : String) (t : String)
    (h : (!(f == "...") && t.toList.isPrefixOf f.toList) = true)
    (hnone : partialCandidates sl t = []) :
    partialCandidates (sl.take n ++ (f, none) :: sl.drop n) t = [f] := by
  rw [partialCandidates_split sl n t, List.append_eq_nil] at hnone
  rw [partialCandidates_append, partialCandidates_cons_none, if_pos h, hnone.1, hnone.2]
  rfl

theorem partialCandidates_mem {sl : Slots} {u g : String} (h : g ∈ partialCandidates sl u) :
    (g, none) ∈ sl ∧ g ≠ "..." ∧ u.toList.isPrefixOf g.toList = true := by
  unfold partialCandidates at h
  rw [List.mem_map] at h
  obtain ⟨s, hs, rfl⟩ := h
  rw [List.mem_filter] at hs
  obtain ⟨hm, hp⟩ := hs
  obtain ⟨a, o⟩ := s
  cases o with
  | some w => simp at hp
  | none =>
    simp only [Option.isNone_none, Bool.true_and, Bool.and_eq_true, Bool.not_eq_true',
      beq_eq_false_iff_ne, ne_eq] at hp
    exact ⟨hm, hp.1, hp.2⟩

/-- The passes by partial name and by position after a pass by exact name that
differs from another by one slot. -/
theorem matchFormals_insert {formals formals1 : List String}
    {supplied supplied1 : List (Option String × RObject)} {R : Slots}
    {L L1 : List (Option String × RObject)} {n : Nat} {f : String} {o : Option RObject}
    {w : RObject}
    (h0 : exactPass formals supplied = Except.ok (R.take n ++ (f, o) :: R.drop n, L))
    (h1 : exactPass formals1 supplied1 = Except.ok (R, L1))
    (hp : partialPass (R.take n ++ (f, o) :: R.drop n) L (R.take n ++ (f, o) :: R.drop n)
        = (partialPass R L1 R).map (fun r => (r.1.take n ++ (f, some w) :: r.1.drop n, r.2))) :
    matchFormals formals supplied
      = (matchFormals formals1 supplied1).map
          (fun F => { bindings := F.bindings.take n ++ (f, w) :: F.bindings.drop n }) := by
  unfold matchFormals
  rw [h0, h1]
  simp only
  rw [hp]
  cases partialPass R L1 R with
  | error e => rfl
  | ok r2 =>
    simp only [Except.map]
    rw [positionalPass_insert]
    cases positionalPass r2.1 r2.2 <;> rfl

theorem exactSlots_fst (formals : List String) (supplied : List (Option String × RObject)) :
    (formals.map (fun g => (g, if g = "..." then none
        else ((supplied.filter (fun y => y.1 == some g)).head?.map Prod.snd)))).map Prod.fst
      = formals := by
  rw [List.map_map]
  conv_rhs => rw [← List.map_id formals]
  apply List.map_congr_left
  intro g _
  rfl

/-- An argument with the name of a formal is bound to that formal by the pass
by exact name, and the rest of the call is matched as if the formal and the
argument were not there. -/
theorem matchFormals_exact (pre post : List String) (f : String)
    (supplied : List (Option String × RObject)) (x : Option String × RObject)
    (hn : (pre ++ f :: post).Nodup) (hd : f ≠ "...")
    (hx : supplied.filter (fun y => y.1 == some f) = [x]) :
    matchFormals (pre ++ f :: post) supplied
      = (matchFormals (pre ++ post) (supplied.filter (fun y => !(y.1 == some f)))).map
          (fun F => { bindings :=
            F.bindings.take pre.length ++ (f, x.2) :: F.bindings.drop pre.length }) := by
  have hmid := List.nodup_cons.mp (List.nodup_middle.mp hn)
  have hnf : f ∉ pre ++ post := hmid.1
  have hn1 : (pre ++ post).Nodup := hmid.2
  have hfil : ∀ g ∈ pre ++ post,
      (supplied.filter (fun y => !(y.1 == some f))).filter (fun y => y.1 == some g)
        = supplied.filter (fun y => y.1 == some g) :=
    fun g hg => filter_tag_other (fun e => hnf (e ▸ hg))
  have hsub : ∀ g ∈ pre ++ post, g ∈ pre ++ f :: post := by
    intro g hg
    rcases List.mem_append.mp hg with e | e
    · exact List.mem_append_left _ e
    · exact List.mem_append_right _ (List.mem_cons_of_mem _ e)
  by_cases hdup : ∃ g ∈ pre ++ post, g ≠ "..." ∧
      2 ≤ (supplied.filter (fun y => y.1 == some g)).length
  · obtain ⟨g, hg, hgd, h2⟩ := hdup
    have e0 := exactPass_duplicate (pre ++ f :: post) supplied g (hsub g hg) hgd h2
    have e1 := exactPass_duplicate (pre ++ post)
      (supplied.filter (fun y => !(y.1 == some f))) g hg hgd (by rw [hfil g hg]; exact h2)
    unfold matchFormals
    rw [e0, e1]
    rfl
  · have hle : ∀ g ∈ pre ++ post, g ≠ "..." →
        (supplied.filter (fun y => y.1 == some g)).length ≤ 1 := by
      intro g hg hgd
      by_contra hc
      exact hdup ⟨g, hg, hgd, by omega⟩
    have h0 := exactPass_ok (pre ++ f :: post) supplied hn (by
      intro g hg hgd
      by_cases e : g = f
      · rw [e, hx]
        simp
      · apply hle g _ hgd
        rcases List.mem_append.mp hg with e2 | e2
        · exact List.mem_append_left _ e2
        · rcases List.mem_cons.mp e2 with e3 | e3
          · exact absurd e3 e
          · exact List.mem_append_right _ e3)
    have h1 := exactPass_ok (pre ++ post) (supplied.filter (fun y => !(y.1 == some f))) hn1 (by
      intro g hg hgd
      rw [hfil g hg]
      exact hle g hg hgd)
    have hslots : (pre ++ f :: post).map (fun g => (g, if g = "..." then none
          else ((supplied.filter (fun y => y.1 == some g)).head?.map Prod.snd)))
        = ((pre ++ post).map (fun g => (g, if g = "..." then none
            else (((supplied.filter (fun y => !(y.1 == some f))).filter
              (fun y => y.1 == some g)).head?.map Prod.snd)))).take pre.length
          ++ (f, some x.2) :: ((pre ++ post).map (fun g => (g, if g = "..." then none
            else (((supplied.filter (fun y => !(y.1 == some f))).filter
              (fun y => y.1 == some g)).head?.map Prod.snd)))).drop pre.length := by
      rw [List.map_append _ pre post, List.take_left' (by simp),
        List.drop_left' (by simp), List.map_append, List.map_cons, if_neg hd, hx]
      congr 1
      · apply List.map_congr_left
        intro g hg
        rw [hfil g (List.mem_append_left _ hg)]
      · congr 1
        apply List.map_congr_left
        intro g hg
        rw [hfil g (List.mem_append_right _ hg)]
    have hleft : supplied.filter (fun y => !((pre ++ f :: post).any
          (fun g => !(g == "...") && (y.1 == some g))))
        = (supplied.filter (fun y => !(y.1 == some f))).filter (fun y => !((pre ++ post).any
          (fun g => !(g == "...") && (y.1 == some g)))) := by
      rw [List.filter_filter]
      apply List.filter_congr
      intro y _
      have hfb : (f == "...") = false := by simpa using hd
      rw [List.any_append, List.any_append, List.any_cons, hfb]
      cases (pre.any (fun g => !(g == "...") && (y.1 == some g))) <;>
        cases (post.any (fun g => !(g == "...") && (y.1 == some g))) <;>
        cases (y.1 == some f) <;> rfl
    rw [hslots, hleft] at h0
    refine matchFormals_insert h0 h1 (partialPass_insert _ _ _ _ _ _ _ ?_)
    intro y _ u _
    refine ⟨partialCandidates_insert_some _ _ _ _ _, ?_⟩
    intro hc
    have := (partialCandidates_mem hc).1
    apply hnf
    have h2 := List.mem_map_of_mem Prod.fst this
    rw [exactSlots_fst] at h2
    exact h2

/-- An argument whose tag is the name of no formal and begins the name of one
formal still without argument is bound to that formal by the pass by partial
name, and the rest of the call is matched as if the formal and the argument
were not there. -/
theorem matchFormals_partial (pre post : List String) (f t : String) (v : RObject)
    (s1 s2 : List (Option String × RObject))
    (hn : (pre ++ f :: post).Nodup) (hd : f ≠ "...")
    (ht : ∀ g ∈ pre ++ f :: post, g ≠ "..." → g ≠ t)
    (hp : t.toList.isPrefixOf f.toList = true)
    (hother : ∀ y ∈ s1 ++ s2, ∀ u, y.1 = some u → u.toList.isPrefixOf f.toList = false)
    (hexact : ∀ g ∈ pre ++ post, g ≠ "..." → t.toList.isPrefixOf g.toList = true →
      ∃ y ∈ s1 ++ s2, y.1 = some g) :
    matchFormals (pre ++ f :: post) (s1 ++ (some t, v) :: s2)
      = (matchFormals (pre ++ post) (s1 ++ s2)).map
          (fun F => { bindings :=
            F.bindings.take pre.length ++ (f, v) :: F.bindings.drop pre.length }) := by
  have hmid := List.nodup_cons.mp (List.nodup_middle.mp hn)
  have hnf : f ∉ pre ++ post := hmid.1
  have hn1 : (pre ++ post).Nodup := hmid.2
  have hsub : ∀ g ∈ pre ++ post, g ∈ pre ++ f :: post := by
    intro g hg
    rcases List.mem_append.mp hg with e | e
    · exact List.mem_append_left _ e
    · exact List.mem_append_right _ (List.mem_cons_of_mem _ e)
  have hfmem : f ∈ pre ++ f :: post := List.mem_append_right _ (List.mem_cons_self _ _)
  -- the argument is no argument by exact name
  have hfil : ∀ g ∈ pre ++ f :: post, g ≠ "..." →
      (s1 ++ (some t, v) :: s2).filter (fun y => y.1 == some g)
        = (s1 ++ s2).filter (fun y => y.1 == some g) := by
    intro g hg hgd
    have hne : ¬ t = g := fun e => ht g hg hgd e.symm
    rw [List.filter_append, List.filter_append, List.filter_cons]
    simp [hne]
  have hfree : (s1 ++ s2).filter (fun y => y.1 == some f) = [] := by
    rw [List.filter_eq_nil_iff]
    intro y hy hc
    have h1 : y.1 = some f := by simpa using hc
    have h2 := hother y hy f h1
    have h3 : f.toList.isPrefixOf f.toList = true := by
      rw [List.isPrefixOf_iff_prefix]
    rw [h3] at h2
    cases h2
  by_cases hdup : ∃ g ∈ pre ++ post, g ≠ "..." ∧
      2 ≤ ((s1 ++ s2).filter (fun y => y.1 == some g)).length
  · obtain ⟨g, hg, hgd, h2⟩ := hdup
    have e0 := exactPass_duplicate (pre ++ f :: post) (s1 ++ (some t, v) :: s2) g (hsub g hg) hgd
      (by rw [hfil g (hsub g hg) hgd]; exact h2)
    have e1 := exactPass_duplicate (pre ++ post) (s1 ++ s2) g hg hgd h2
    unfold matchFormals
    rw [e0, e1]
    rfl
  · have hle : ∀ g ∈ pre ++ post, g ≠ "..." →
        ((s1 ++ s2).filter (fun y => y.1 == some g)).length ≤ 1 := by
      intro g hg hgd
      by_contra hc
      exact hdup ⟨g, hg, hgd, by omega⟩
    have h0 := exactPass_ok (pre ++ f :: post) (s1 ++ (some t, v) :: s2) hn (by
      intro g hg hgd
      rw [hfil g hg hgd]
      by_cases e : g = f
      · rw [e, hfree]
        simp
      · apply hle g _ hgd
        rcases List.mem_append.mp hg with e2 | e2
        · exact List.mem_append_left _ e2
        · rcases List.mem_cons.mp e2 with e3 | e3
          · exact absurd e3 e
          · exact List.mem_append_right _ e3)
    have h1 := exactPass_ok (pre ++ post) (s1 ++ s2) hn1 hle
    have hcongr : ∀ l : List String, (∀ g ∈ l, g ∈ pre ++ post) →
        l.map (fun g => (g, if g = "..." then none
          else (((s1 ++ (some t, v) :: s2).filter
            (fun y => y.1 == some g)).head?.map Prod.snd)))
        = l.map (fun g => (g, if g = "..." then none
          else (((s1 ++ s2).filter (fun y => y.1 == some g)).head?.map Prod.snd))) := by
      intro l hl
      apply List.map_congr_left
      intro g hg
      by_cases hgd : g = "..."
      · rw [if_pos hgd, if_pos hgd]
      · rw [hfil g (hsub g (hl g hg)) hgd]
    have hslots : (pre ++ f :: post).map (fun g => (g, if g = "..." then none
          else (((s1 ++ (some t, v) :: s2).filter
            (fun y => y.1 == some g)).head?.map Prod.snd)))
        = ((pre ++ post).map (fun g => (g, if g = "..." then none
            else (((s1 ++ s2).filter (fun y => y.1 == some g)).head?.map Prod.snd)))).take
              pre.length
          ++ (f, none) :: ((pre ++ post).map (fun g => (g, if g = "..." then none
            else (((s1 ++ s2).filter (fun y => y.1 == some g)).head?.map Prod.snd)))).drop
              pre.length := by
      rw [List.map_append _ pre post, List.take_left' (by simp),
        List.drop_left' (by simp), List.map_append, List.map_cons, if_neg hd,
        hfil f hfmem hd, hfree,
        hcongr pre (fun g hg => List.mem_append_left _ hg),
        hcongr post (fun g hg => List.mem_append_right _ hg)]
      rfl
    have hq : ∀ y ∈ s1 ++ s2,
        (!((pre ++ f :: post).any (fun g => !(g == "...") && (y.1 == some g))))
          = (!((pre ++ post).any (fun g => !(g == "...") && (y.1 == some g)))) := by
      intro y hy
      have hyf : (y.1 == some f) = false := by
        by_contra hc
        have hm : y ∈ (s1 ++ s2).filter (fun y => y.1 == some f) :=
          List.mem_filter.mpr ⟨hy, by simpa using hc⟩
        rw [hfree] at hm
        exact absurd hm (List.not_mem_nil y)
      rw [List.any_append, List.any_append, List.any_cons, hyf, Bool.and_false, Bool.false_or]
    have hqt : (!((pre ++ f :: post).any
        (fun g => !(g == "...") && ((some t : Option String) == some g)))) = true := by
      rw [Bool.not_eq_true', List.any_eq_false]
      intro g hg
      by_cases hgd : g = "..."
      · simp [hgd]
      · have : ¬ t = g := fun e => ht g hg hgd e.symm
        simp [this]
    have hleft : (s1 ++ (some t, v) :: s2).filter (fun y => !((pre ++ f :: post).any
          (fun g => !(g == "...") && (y.1 == some g))))
        = s1.filter (fun y => !((pre ++ post).any (fun g => !(g == "...") && (y.1 == some g))))
          ++ (some t, v) :: s2.filter
            (fun y => !((pre ++ post).any (fun g => !(g == "...") && (y.1 == some g)))) := by
      rw [List.filter_append, List.filter_cons, if_pos hqt]
      congr 1
      · apply List.filter_congr
        intro y hy
        exact hq y (List.mem_append_left _ hy)
      · congr 1
        apply List.filter_congr
        intro y hy
        exact hq y (List.mem_append_right _ hy)
    have hleft1 : (s1 ++ s2).filter (fun y => !((pre ++ post).any
          (fun g => !(g == "...") && (y.1 == some g))))
        = s1.filter (fun y => !((pre ++ post).any (fun g => !(g == "...") && (y.1 == some g))))
          ++ s2.filter
            (fun y => !((pre ++ post).any (fun g => !(g == "...") && (y.1 == some g)))) :=
      List.filter_append _ _
    rw [hslots, hleft] at h0
    rw [hleft1] at h1
    have hfd : (!(f == "...")) = true := by simpa using hd
    -- the candidates of the other tags
    have hcands : ∀ y ∈ s1 ++ s2, ∀ u, y.1 = some u →
        partialCandidates (((pre ++ post).map (fun g => (g, if g = "..." then none
            else (((s1 ++ s2).filter (fun y => y.1 == some g)).head?.map Prod.snd)))).take
              pre.length
          ++ (f, none) :: ((pre ++ post).map (fun g => (g, if g = "..." then none
            else (((s1 ++ s2).filter (fun y => y.1 == some g)).head?.map Prod.snd)))).drop
              pre.length) u
          = partialCandidates ((pre ++ post).map (fun g => (g, if g = "..." then none
            else (((s1 ++ s2).filter (fun y => y.1 == some g)).head?.map Prod.snd)))) u ∧
        f ∉ partialCandidates ((pre ++ post).map (fun g => (g, if g = "..." then none
            else (((s1 ++ s2).filter (fun y => y.1 == some g)).head?.map Prod.snd)))) u := by
      intro y hy u hu
      refine ⟨partialCandidates_insert_none _ _ _ _ (by rw [hother y hy u hu]; simp), ?_⟩
      intro hc
      have := (partialCandidates_mem hc).1
      apply hnf
      have h2 := List.mem_map_of_mem Prod.fst this
      rw [exactSlots_fst] at h2
      exact h2
    -- the candidates of the tag itself
    have hnone : partialCandidates ((pre ++ post).map (fun g => (g, if g = "..." then none
        else (((s1 ++ s2).filter (fun y => y.1 == some g)).head?.map Prod.snd)))) t = [] := by
      rw [List.eq_nil_iff_forall_not_mem]
      intro g hg
      obtain ⟨hm, hgd, hgp⟩ := partialCandidates_mem hg
      rw [List.mem_map] at hm
      obtain ⟨g1, hg1, he⟩ := hm
      have hg1e : g1 = g := congrArg Prod.fst he
      subst hg1e
      obtain ⟨y, hy, hyt⟩ := hexact g1 hg1 hgd hgp
      have hm2 : y ∈ (s1 ++ s2).filter (fun y => y.1 == some g1) :=
        List.mem_filter.mpr ⟨hy, by simp [hyt]⟩
      have h3 := congrArg Prod.snd he
      simp only [if_neg hgd] at h3
      cases hfl : (s1 ++ s2).filter (fun y => y.1 == some g1) with
      | nil =>
        rw [hfl] at hm2
        exact absurd hm2 (List.not_mem_nil y)
      | cons a l =>
        rw [hfl] at h3
        simp at h3
    have hcand := partialCandidates_insert_self _ pre.length f t
      (by rw [hfd, hp]; rfl) hnone
    refine matchFormals_insert h0 h1 ?_
    have hfresh : f ∉ ((pre ++ post).map (fun g => (g, if g = "..." then none
        else (((s1 ++ s2).filter (fun y => y.1 == some g)).head?.map Prod.snd)))).map
          Prod.fst := by
      rw [exactSlots_fst]
      exact hnf
    exact partialPass_bind _ _ pre.length f t v hcand _
      (fun y hy => hcands y (List.mem_append_right _ (List.mem_of_mem_filter hy)))
      _ _ hfresh
      (fun y hy => hcands y (List.mem_append_left _ (List.mem_of_mem_filter hy)))

theorem isPrefixOf_refl (f : String) : f.toList.isPrefixOf f.toList = true := by
  rw [List.isPrefixOf_iff_prefix]

/-- Where no tag begins the name of a formal, the passes by name bind nothing
and the call is matched by position. -/
theorem matchFormals_positional (formals : List String)
    (supplied : List (Option String × RObject)) (hn : formals.Nodup)
    (hno : ∀ y ∈ supplied, ∀ u, y.1 = some u → ∀ g ∈ formals, g ≠ "..." →
      u.toList.isPrefixOf g.toList = false) :
    matchFormals formals supplied
      = (positionalPass (formals.map (fun g => (g, none))) supplied).map
          (fun bs => { bindings := bs }) := by
  have htag : ∀ y ∈ supplied, ∀ g ∈ formals, g ≠ "..." → (y.1 == some g) = false := by
    intro y hy g hg hgd
    by_contra hc
    have h1 : y.1 = some g := by simpa using hc
    have h2 := hno y hy g h1 g hg hgd
    rw [isPrefixOf_refl] at h2
    cases h2
  have hfil : ∀ g ∈ formals, g ≠ "..." → supplied.filter (fun y => y.1 == some g) = [] := by
    intro g hg hgd
    rw [List.filter_eq_nil_iff]
    intro y hy hc
    rw [htag y hy g hg hgd] at hc
    cases hc
  have h0 := exactPass_ok formals supplied hn (by
    intro g hg hgd
    rw [hfil g hg hgd]
    simp)
  have hslots : formals.map (fun g => (g, if g = "..." then none
        else ((supplied.filter (fun y => y.1 == some g)).head?.map Prod.snd)))
      = formals.map (fun g => (g, (none : Option RObject))) := by
    apply List.map_congr_left
    intro g hg
    by_cases hgd : g = "..."
    · rw [if_pos hgd]
    · rw [if_neg hgd, hfil g hg hgd]
      rfl
  have hleft : supplied.filter (fun y => !(formals.any
      (fun g => !(g == "...") && (y.1 == some g)))) = supplied := by
    rw [List.filter_eq_self]
    intro y hy
    rw [Bool.not_eq_true', List.any_eq_false]
    intro g hg
    by_cases hgd : g = "..."
    · simp [hgd]
    · rw [htag y hy g hg hgd]
      simp
  rw [hslots, hleft] at h0
  have h1 := partialPass_none (formals.map (fun g => (g, (none : Option RObject)))) supplied
    (formals.map (fun g => (g, (none : Option RObject)))) (by
      intro y hy u hu
      rw [List.eq_nil_iff_forall_not_mem]
      intro g hg
      obtain ⟨hm, hgd, hgp⟩ := partialCandidates_mem hg
      rw [List.mem_map] at hm
      obtain ⟨g1, hg1, he⟩ := hm
      have hg1e : g1 = g := congrArg Prod.fst he
      subst hg1e
      rw [hno y hy u hu g1 hg1 hgd] at hgp
      cases hgp)
  unfold matchFormals
  rw [h0]
  simp only
  rw [h1]
  simp only
  cases positionalPass (formals.map (fun g => (g, (none : Option RObject)))) supplied <;> rfl

/-- The pass by position gives the arguments without tag to the formals
without argument, in order. -/
theorem positionalPass_zip : ∀ (fs : List String) (vs : List RObject) (slots : Slots)
    (rest : List (Option String × RObject)), "..." ∉ fs → vs.length = fs.length →
    positionalPass (fs.map (fun g => (g, (none : Option RObject))) ++ slots)
        (vs.map (fun v => ((none : Option String), v)) ++ rest)
      = (positionalPass slots rest).map (fun bs => fs.zip vs ++ bs) := by
  intro fs
  induction fs with
  | nil =>
    intro vs slots rest _ hl
    have : vs = [] := List.length_eq_zero.mp hl
    subst this
    simp only [List.map_nil, List.nil_append, List.zip_nil_left]
    cases positionalPass slots rest <;> rfl
  | cons f fs ih =>
    intro vs slots rest hd hl
    cases vs with
    | nil => simp at hl
    | cons v vs =>
      have hf : ¬ f = "..." := fun e => hd (e ▸ List.mem_cons_self _ _)
      have hd2 : "..." ∉ fs := fun h => hd (List.mem_cons_of_mem _ h)
      rw [List.map_cons, List.map_cons, List.cons_append, List.cons_append, positionalPass,
        if_neg hf, takeUntagged]
      simp only
      rw [ih vs slots rest hd2 (by simpa using hl)]
      cases positionalPass slots rest <;> rfl

/-- The pass by position fails where the arguments and the formals differ in
number. -/
theorem positionalPass_count : ∀ (fs : List String) (vs : List RObject), "..." ∉ fs →
    vs.length ≠ fs.length →
    positionalPass (fs.map (fun g => (g, (none : Option RObject))))
        (vs.map (fun v => ((none : Option String), v)))
      = Except.error RError.argument_match_error := by
  intro fs
  induction fs with
  | nil =>
    intro vs _ hl
    cases vs with
    | nil => exact absurd rfl hl
    | cons v vs =>
      rw [List.map_nil, List.map_cons, positionalPass]
  | cons f fs ih =>
    intro vs hd hl
    have hf : ¬ f = "..." := fun e => hd (e ▸ List.mem_cons_self _ _)
    have hd2 : "..." ∉ fs := fun h => hd (List.mem_cons_of_mem _ h)
    cases vs with
    | nil =>
      rw [List.map_cons, List.map_nil, positionalPass, if_neg hf, takeUntagged]
    | cons v vs =>
      rw [List.map_cons, List.map_cons, positionalPass, if_neg hf, takeUntagged]
      simp only
      rw [ih vs hd2 (by simpa using hl)]

theorem untagged_no_tag (vs : List RObject) (P : String → Prop) :
    ∀ y ∈ vs.map (fun v => ((none : Option String), v)), ∀ u, y.1 = some u → P u := by
  intro y hy u hu
  rw [List.mem_map] at hy
  obtain ⟨v, _, rfl⟩ := hy
  cases hu

/-- A call without tags of a closure without `...`. -/
theorem matchFormals_untagged (fs : List String) (vs : List RObject) (hn : fs.Nodup)
    (hd : "..." ∉ fs) :
    matchFormals fs (vs.map (fun v => ((none : Option String), v)))
      = if vs.length = fs.length then Except.ok { bindings := fs.zip vs }
        else Except.error RError.argument_match_error := by
  rw [matchFormals_positional fs _ hn (untagged_no_tag vs _)]
  by_cases hl : vs.length = fs.length
  · have h := positionalPass_zip fs vs [] [] hd hl
    rw [List.append_nil, List.append_nil] at h
    rw [if_pos hl, h, positionalPass]
    simp [Except.map]
  · rw [if_neg hl, positionalPass_count fs vs hd hl]
    rfl

/-- A call of a closure whose last formal is `...`: the arguments without tag
go to the formals in order, and `...` takes what is left. -/
theorem matchFormals_dots (fs : List String) (vs : List RObject)
    (rest : List (Option String × RObject)) (hn : fs.Nodup) (hd : "..." ∉ fs)
    (hl : vs.length = fs.length)
    (hno : ∀ y ∈ rest, ∀ u, y.1 = some u → ∀ g ∈ fs, u.toList.isPrefixOf g.toList = false) :
    matchFormals (fs ++ ["..."]) (vs.map (fun v => ((none : Option String), v)) ++ rest)
      = Except.ok { bindings := fs.zip vs ++ [("...", RObject.pairlistOf rest)] } := by
  have hn2 : (fs ++ ["..."]).Nodup := by
    rw [List.nodup_append]
    refine ⟨hn, List.nodup_singleton _, ?_⟩
    intro a ha hb
    rw [List.mem_singleton] at hb
    exact hd (hb ▸ ha)
  rw [matchFormals_positional (fs ++ ["..."]) _ hn2 (by
    intro y hy u hu g hg hgd
    rcases List.mem_append.mp hy with e | e
    · exact untagged_no_tag vs (fun u => u.toList.isPrefixOf g.toList = false) y e u hu
    · rcases List.mem_append.mp hg with e2 | e2
      · exact hno y e u hu g e2
      · rw [List.mem_singleton] at e2
        exact absurd e2 hgd)]
  rw [List.map_append, positionalPass_zip fs vs _ rest hd hl]
  simp only [List.map_cons, List.map_nil]
  rw [positionalPass, if_pos rfl, positionalPass]
  rfl

/-- C21 (the precedence of argument matching).  The matcher, modelled from the
specification, binds by exact name first, then by unambiguous partial name,
then by position.  For the formals `(a, b, ...)` the call `(b = 1, 2)` binds
`a` to 2 and `b` to 1; for `(alpha, beta)` the call `(al = 1, beta = 2)` binds
`alpha` to 1, and so does `(2, al = 1)`, which binds `beta` to 2; for
`(alpha, alter)` the call `(al = 1)` fails with the matching error.  An exact
name wins over a partial one: for `(al, alpha)` the call `(al = 1, 2)` binds
`al` to 1 and `alpha` to 2, for `(alpha, alter)` the call
`(al = 1, alter = 2)` binds `alpha` to 1, and for `(al, alpha, alter)` the
call `(al = 1, 2, 3)` binds `al` to 1 without ambiguity.  In general, for
formals that differ from each other:

* exact name first: an argument that alone has the name of a formal other
  than `...` is bound to that formal, and the call gives what the call without
  the formal and the argument gives, with this binding put in at the place of
  the formal, so that a call that is matched has the formal bound to the
  argument, whatever the other arguments are; two arguments with the name of
  one formal make the call fail;
* partial name second: an argument whose tag is the name of no formal and
  begins the name of a formal `f`, where every other formal whose name the tag
  begins has an argument by exact name and no other tag begins the name of
  `f`, is bound to `f`, and the call gives what the call without `f` and the
  argument gives, with this binding put in at the place of `f`; a tag that is
  the name of no formal and begins the names of two formals that have no
  argument by exact name makes the call fail;
* position last: a call without tags of a closure without `...` binds the
  formals to the arguments in order and fails where they differ in number;
  with `...` as the last formal, arguments without tag at the head of the
  call, as many as there are formals before `...`, go to these formals in
  order and `...` takes the arguments after them, where no tag among these
  begins the name of a formal.

The matcher raises no other error than the matching error.
`invokeClosureImpl` binds the promises of the arguments in the execution
environment as the matcher says: the call `(b = 1, 2)` of
`function(a, b, ...) a` returns 2. -/
theorem argument_matching_precedence :
    matchFormals ["a", "b", "..."] [(some "b", RObject.int 1), (none, RObject.int 2)]
      = Except.ok { bindings :=
          [("a", RObject.int 2), ("b", RObject.int 1), ("...", RObject.null)] } ∧
    matchFormals ["alpha", "beta"] [(some "al", RObject.int 1), (some "beta", RObject.int 2)]
      = Except.ok { bindings := [("alpha", RObject.int 1), ("beta", RObject.int 2)] } ∧
    matchFormals ["alpha", "beta"] [(none, RObject.int 2), (some "al", RObject.int 1)]
      = Except.ok { bindings := [("alpha", RObject.int 1), ("beta", RObject.int 2)] } ∧
    matchFormals ["alpha", "alter"] [(some "al", RObject.int 1)]
      = Except.error RError.argument_match_error ∧
    matchFormals ["al", "alpha"] [(some "al", RObject.int 1), (none, RObject.int 2)]
      = Except.ok { bindings := [("al", RObject.int 1), ("alpha", RObject.int 2)] } ∧
    matchFormals ["alpha", "alter"] [(some "al", RObject.int 1), (some "alter", RObject.int 2)]
      = Except.ok { bindings := [("alpha", RObject.int 1), ("alter", RObject.int 2)] } ∧
    matchFormals ["al", "alpha", "alter"]
        [(some "al", RObject.int 1), (none, RObject.int 2), (none, RObject.int 3)]
      = Except.ok { bindings :=
          [("al", RObject.int 1), ("alpha", RObject.int 2), ("alter", RObject.int 3)] } ∧
    (∀ (pre post : List String) (f : String) (supplied : List (Option String × RObject))
      (x : Option String × RObject),
      (pre ++ f :: post).Nodup → f ≠ "..." →
      supplied.filter (fun y => y.1 == some f) = [x] →
      matchFormals (pre ++ f :: post) supplied
        = (matchFormals (pre ++ post) (supplied.filter (fun y => !(y.1 == some f)))).map
            (fun F => { bindings :=
              F.bindings.take pre.length ++ (f, x.2) :: F.bindings.drop pre.length })) ∧
    (∀ (formals : List String) (supplied : List (Option String × RObject)) (F : Frame)
      (f : String) (x : Option String × RObject),
      formals.Nodup → f ∈ formals → f ≠ "..." →
      supplied.filter (fun y => y.1 == some f) = [x] →
      matchFormals formals supplied = Except.ok F → F.binding f = some (f, x.2)) ∧
    (∀ (formals : List String) (supplied : List (Option String × RObject)) (f : String),
      f ∈ formals → f ≠ "..." →
      2 ≤ (supplied.filter (fun y => y.1 == some f)).length →
      matchFormals formals supplied = Except.error RError.argument_match_error) ∧
    (∀ (pre post : List String) (f t : String) (v : RObject)
      (s1 s2 : List (Option String × RObject)),
      (pre ++ f :: post).Nodup → f ≠ "..." →
      (∀ g ∈ pre ++ f :: post, g ≠ "..." → g ≠ t) →
      t.toList.isPrefixOf f.toList = true →
      (∀ y ∈ s1 ++ s2, ∀ u, y.1 = some u → u.toList.isPrefixOf f.toList = false) →
      (∀ g ∈ pre ++ post, g ≠ "..." → t.toList.isPrefixOf g.toList = true →
        ∃ y ∈ s1 ++ s2, y.1 = some g) →
      matchFormals (pre ++ f :: post) (s1 ++ (some t, v) :: s2)
        = (matchFormals (pre ++ post) (s1 ++ s2)).map
            (fun F => { bindings :=
              F.bindings.take pre.length ++ (f, v) :: F.bindings.drop pre.length })) ∧
    (∀ (formals : List String) (supplied : List (Option String × RObject))
      (t : String) (v : RObject) (f1 f2 : String),
      (some t, v) ∈ supplied → t ∉ formals →
      f1 ∈ formals → f2 ∈ formals → f1 ≠ f2 → f1 ≠ "..." → f2 ≠ "..." →
      (∀ y ∈ supplied, y.1 ≠ some f1 ∧ y.1 ≠ some f2) →
      t.toList.isPrefixOf f1.toList = true → t.toList.isPrefixOf f2.toList = true →
      matchFormals formals supplied = Except.error RError.argument_match_error) ∧
    (∀ (fs : List String) (vs : List RObject), fs.Nodup → "..." ∉ fs →
      matchFormals fs (vs.map (fun v => ((none : Option String), v)))
        = if vs.length = fs.length then Except.ok { bindings := fs.zip vs }
          else Except.error RError.argument_match_error) ∧
    (∀ (fs : List String) (vs : List RObject) (rest : List (Option String × RObject)),
      fs.Nodup → "..." ∉ fs → vs.length = fs.length →
      (∀ y ∈ rest, ∀ u, y.1 = some u → ∀ g ∈ fs, u.toList.isPrefixOf g.toList = false) →
      matchFormals (fs ++ ["..."]) (vs.map (fun v => ((none : Option String), v)) ++ rest)
        = Except.ok { bindings := fs.zip vs ++ [("...", RObject.pairlistOf rest)] }) ∧
    (∀ (formals : List String) (supplied : List (Option String × RObject)) (e : RError),
      matchFormals formals supplied = Except.error e → e = RError.argument_match_error) ∧
    (invokeClosureImpl sampleWorld.withMatcher (Evaluator.evaluate sampleWorld.withMatcher 5)
        (RObject.expression (RObject.symbol "k")
          (RObject.pairlistOf [(some "b", RObject.int 1), (none, RObject.int 2)]))
        sampleFormals 0
        { list := [(some "b", RObject.int 1), (none, RObject.int 2)],
          status := ArgList.Status.RAW } none sampleState).map
        (fun x => (x.1, x.2.frame 1))
      = some (Except.ok (RObject.int 2),
          { bindings := [("a", RObject.promise (RObject.int 2) 0),
              ("b", RObject.promise (RObject.int 1) 0), ("...", RObject.null)] }) := by
  refine ⟨by decide, by decide, by decide, by decide, by decide, by decide, by decide,
    ?_, ?_, ?_, ?_, ?_, ?_, ?_, ?_, by decide!⟩
  · intro pre post f supplied x hn hd hx
    exact matchFormals_exact pre post f supplied x hn hd hx
  · intro formals supplied F f x hn hf hd hx h
    obtain ⟨r1, r2, h1, h2, h3⟩ := matchFormals_ok h
    obtain ⟨a1, a2, _, _⟩ := exactPass_spec formals supplied r1 h1
    obtain ⟨b1, b2⟩ := partialPass_keeps r1.1 r1.2 r1.1 r2 h2
    obtain ⟨c1, c2⟩ := positionalPass_keeps r2.1 r2.2 F.bindings h3
    have hmem : (f, x.2) ∈ F.bindings := c2 f x.2 (b2 f x.2 (a2 f x hf hd hx))
    have hnd : (F.bindings.map Prod.fst).Nodup := by
      rw [c1, b1, a1]
      exact hn
    exact binding_of_mem_nodup F.bindings f x.2 hnd hmem
  · intro formals supplied f hf hd h2
    unfold matchFormals
    rw [exactPass_duplicate formals supplied f hf hd h2]
  · intro pre post f t v s1 s2 hn hd ht hp hother hexact
    exact matchFormals_partial pre post f t v s1 s2 hn hd ht hp hother hexact
  · intro formals supplied t v f1 f2 hm ht hf1 hf2 hne hd1 hd2 hno hp1 hp2
    cases hres : matchFormals formals supplied with
    | error e => rw [matchFormals_error hres]
    | ok F =>
      exfalso
      obtain ⟨r1, r2, h1, h2, _⟩ := matchFormals_ok hres
      obtain ⟨_, _, a3, a4⟩ := exactPass_spec formals supplied r1 h1
      have s1 : (f1, none) ∈ r1.1 := a3 f1 hf1 (fun y hy => (hno y hy).1)
      have s2 : (f2, none) ∈ r1.1 := a3 f2 hf2 (fun y hy => (hno y hy).2)
      have hrest : (some t, v) ∈ r1.2 := by
        apply a4 _ hm
        intro g hg e
        apply ht
        have : t = g := Option.some.inj e
        rw [this]
        exact hg
      have hc : 2 ≤ (partialCandidates r1.1 t).length := by
        apply two_le_length_of_mem (a := f1) (b := f2) _ _ hne
        · unfold partialCandidates
          rw [List.mem_map]
          refine ⟨(f1, none), ?_, rfl⟩
          rw [List.mem_filter]
          refine ⟨s1, ?_⟩
          have hb : (f1 == "...") = false := by simpa using hd1
          simp only [Option.isNone_none, hb, Bool.not_false, Bool.and_self, hp1]
        · unfold partialCandidates
          rw [List.mem_map]
          refine ⟨(f2, none), ?_, rfl⟩
          rw [List.mem_filter]
          refine ⟨s2, ?_⟩
          have hb : (f2 == "...") = false := by simpa using hd2
          simp only [Option.isNone_none, hb, Bool.not_false, Bool.and_self, hp2]
      have := partialPass_ambiguous r1.1 hc r1.2 r1.1 hrest
      rw [this] at h2
      cases h2
  · intro fs vs hn hd
    exact matchFormals_untagged fs vs hn hd
  · intro fs vs rest hn hd hl hno
    exact matchFormals_dots fs vs rest hn hd hl hno
  · intro formals supplied e h
    exact matchFormals_error h

end CXXR

namespace CXXR

/-! ## The operator `:` -/

theorem wrap32_of_range {x : Int} (h1 : INT_MIN ≤ x) (h2 : x ≤ INT_MAX) : wrap32 x = x := by
  unfold wrap32
  unfold INT_MIN at h1
  unfold INT_MAX at h2
  omega

theorem wrap32_of_max : wrap32 (INT_MAX + 1) = INT_MIN := by
  unfold wrap32 INT_MAX INT_MIN
  norm_num

theorem allocArray_length {n : Int} (h : 0 ≤ n) : ((allocArray n).length : Int) = n := by
  unfold allocArray
  rw [List.length_replicate]
  exact Int.toNat_of_nonneg h

/-- The loop of the integer branch when the length is in the range of `int`:
it ends, and place `k` holds `in1 + sign * k`. -/
theorem seq_fill_spec (in1 sign n : Int) (hn : n ≤ INT_MAX)
    (hr : ∀ k : Int, 0 ≤ k → k < n → INT_MIN ≤ in1 + sign * k ∧ in1 + sign * k ≤ INT_MAX) :
    ∀ (d fuel : Nat) (i : Int) (ans : List Int), i + d = n → 0 ≤ i → (ans.length : Int) = n →
      d < fuel →
      ∃ v, seq_fill wrap32 wrap32 in1 sign n fuel i ans = CResult.ok v ∧
        v.length = ans.length ∧
        ∀ k : Nat, k < v.length →
          v[k]? = if (k : Int) < i then ans[k]? else some (in1 + sign * k) := by
  intro d
  induction d with
  | zero =>
    intro fuel i ans hi h0 hl hf
    obtain ⟨f, rfl⟩ : ∃ f, fuel = f + 1 := ⟨fuel - 1, by omega⟩
    have hin : ¬ i < n := by omega
    refine ⟨ans, by simp [seq_fill, hin], rfl, ?_⟩
    intro k hk
    have : (k : Int) < i := by omega
    simp [this]
  | succ d ih =>
    intro fuel i ans hi h0 hl hf
    obtain ⟨f, rfl⟩ : ∃ f, fuel = f + 1 := ⟨fuel - 1, by omega⟩
    have hin : i < n := by omega
    have hb : 0 ≤ i ∧ i < (ans.length : Int) := ⟨h0, by omega⟩
    have hw1 : wrap32 (i + 1) = i + 1 := by
      apply wrap32_of_range
      · unfold INT_MIN
        omega
      · omega
    have hw2 : wrap32 (in1 + sign * i) = in1 + sign * i :=
      wrap32_of_range (hr i h0 hin).1 (hr i h0 hin).2
    have hstep : seq_fill wrap32 wrap32 in1 sign n (f + 1) i ans
        = seq_fill wrap32 wrap32 in1 sign n f (i + 1)
            (ans.set i.toNat (in1 + sign * i)) := by
      rw [seq_fill]
      simp only [hin, hb, and_self, if_true, hw1, hw2]
    obtain ⟨v, e, hlen, hv⟩ := ih f (i + 1) (ans.set i.toNat (in1 + sign * i)) (by omega)
      (by omega) (by simpa using hl) (by omega)
    refine ⟨v, by rw [hstep, e], by simpa using hlen, ?_⟩
    intro k hk
    rw [hv k hk]
    have hit : (i.toNat : Int) = i := Int.toNat_of_nonneg h0
    by_cases h1 : (k : Int) < i
    · have h2 : (k : Int) < i + 1 := by omega
      have hne : i.toNat ≠ k := by omega
      simp only [h1, h2, if_true]
      rw [List.getElem?_set_ne hne]
    · by_cases h3 : (k : Int) = i
      · have h2 : (k : Int) < i + 1 := by omega
        have he : i.toNat = k := by omega
        simp only [h1, h2, if_true, if_false]
        rw [← he, List.getElem?_set_self (by omega)]
        rw [hit]
      · have h2 : ¬ (k : Int) < i + 1 := by omega
        simp only [h1, h2, if_false]

/-- The loop of the integer branch when the length is above the range of
`int`: the counter reaches `INT_MAX`, the increment wraps it round to
`INT_MIN`, and the next write is outside the array. -/
theorem seq_fill_overflow (wrapElement : Int → Int) (in1 sign n : Int) (hn : INT_MAX < n) :
    ∀ (d fuel : Nat) (i : Int) (ans : List Int), i + d = INT_MAX → 0 ≤ i →
      (ans.length : Int) = n → d + 2 ≤ fuel →
      seq_fill wrap32 wrapElement in1 sign n fuel i ans = CResult.undefined := by
  intro d
  induction d with
  | zero =>
    intro fuel i ans hi h0 hl hf
    obtain ⟨f, rfl⟩ : ∃ f, fuel = f + 2 := ⟨fuel - 2, by omega⟩
    have hi2 : i = INT_MAX := by omega
    have hin : i < n := by omega
    have hb : 0 ≤ i ∧ i < (ans.length : Int) := ⟨h0, by omega⟩
    rw [seq_fill]
    simp only [hin, hb, and_self, if_true]
    rw [hi2, wrap32_of_max, seq_fill]
    have h1 : INT_MIN < n := by
      unfold INT_MIN
      unfold INT_MAX at hn
      omega
    have h2 : ¬ (0 ≤ INT_MIN ∧ INT_MIN < ((ans.set INT_MAX.toNat
        (wrapElement (in1 + sign * INT_MAX))).length : Int)) := by
      intro h
      have := h.1
      unfold INT_MIN at this
      omega
    simp only [h1, if_true, h2, if_false]
  | succ d ih =>
    intro fuel i ans hi h0 hl hf
    obtain ⟨f, rfl⟩ : ∃ f, fuel = f + 1 := ⟨fuel - 1, by omega⟩
    have hin : i < n := by omega
    have hb : 0 ≤ i ∧ i < (ans.length : Int) := ⟨h0, by omega⟩
    have hw1 : wrap32 (i + 1) = i + 1 := by
      apply wrap32_of_range
      · unfold INT_MIN
        omega
      · omega
    rw [seq_fill]
    simp only [hin, hb, and_self, if_true, hw1]
    exact ih f (i + 1) _ (by omega) (by omega) (by simpa using hl) (by omega)

theorem seq_colon_of_useInt (c : Config) (n1 n2 : Int) (hx : ¬ |n2 - n1| ≥ R_XLEN_T_MAX c)
    (hu : seq_colon_useInt n1 n2 (|n2 - n1| + 1) = true) :
    seq_colon c n1 n2 = seq_colon_int n1 n2 (|n2 - n1| + 1) := by
  unfold seq_colon
  rw [if_neg hx, hu]
  rfl

theorem seq_colon_int_of_ok (n1 n2 n : Int) (v : List Int)
    (h : seq_fill wrap32 wrap32 n1 (if n1 ≤ n2 then 1 else -1) n (n.toNat + 2) 0
      (allocArray n) = CResult.ok v) :
    seq_colon_int n1 n2 n = CResult.ok (SeqVector.INTSXP v) := by
  unfold seq_colon_int
  rw [h]

theorem seq_colon_int_of_undefined (n1 n2 n : Int)
    (h : seq_fill wrap32 wrap32 n1 (if n1 ≤ n2 then 1 else -1) n (n.toNat + 2) 0
      (allocArray n) = CResult.undefined) :
    seq_colon_int n1 n2 n = CResult.undefined := by
  unfold seq_colon_int
  rw [h]

/-- C22 (`from:to` on integers).  For whole numbers `a` and `b` in the range
of `int` other than `INT_MIN`, with a result of at most `INT_MAX` elements,
`seq_colon(a, b)` returns the integer vector of length `|b - a| + 1` whose
element `i` is `a + i` if `a <= b` and `a - i` otherwise, from `a` to `b`.
For a longer result the loop counter, an `int` compared with the `R_xlen_t`
length, leaves the range of `int`: with long vector support `(-1):2147483647`
has 2147483649 elements, the counter wraps round after the element of index
`INT_MAX` and the next write is outside the array; without long vector
support the same call raises the error `result would be too long a vector`. -/
theorem seq_colon_loop_counter (c : Config) :
    (∀ a b : Int, INT_MIN < a → a ≤ INT_MAX → INT_MIN < b → b ≤ INT_MAX →
      |b - a| + 1 ≤ INT_MAX →
      ∃ v, seq_colon c a b = CResult.ok (SeqVector.INTSXP v) ∧
        (v.length : Int) = |b - a| + 1 ∧
        (∀ i : Nat, i < v.length → v[i]? = some (if a ≤ b then a + i else a - i)) ∧
        v.head? = some a ∧ v.getLast? = some b) ∧
    seq_colon { LONG_VECTOR_SUPPORT := true } (-1) 2147483647 = CResult.undefined ∧
    seq_colon { LONG_VECTOR_SUPPORT := false } (-1) 2147483647
      = CResult.error "result would be too long a vector" := by
  refine ⟨?_, ?_, ?_⟩
  · intro a b ha1 ha2 hb1 hb2 hlen
    have hr0 : 0 ≤ |b - a| := abs_nonneg _
    have hx : ¬ |b - a| ≥ R_XLEN_T_MAX c := by
      unfold R_XLEN_T_MAX
      unfold INT_MAX at hlen
      cases c.LONG_VECTOR_SUPPORT <;> simp <;> omega
    have hend : a + (if a ≤ b then (|b - a| + 1) - 1 else -((|b - a| + 1) - 1)) = b := by
      by_cases hab : a ≤ b
      · rw [if_pos hab, abs_of_nonneg (by omega)]
        omega
      · rw [if_neg hab, abs_of_neg (by omega)]
        omega
    have hu : seq_colon_useInt a b (|b - a| + 1) = true := by
      unfold seq_colon_useInt
      rw [hend]
      have h1 : ¬ (a ≤ INT_MIN ∨ a > INT_MAX) := by omega
      have h2 : ¬ (b ≤ INT_MIN ∨ b > INT_MAX) := by omega
      have h3 : (decide (a ≤ INT_MAX) && decide (INT_MIN ≤ a)) = true := by
        simp only [Bool.and_eq_true, decide_eq_true_eq]
        omega
      simp only [h3, if_true, h1, h2, if_false]
    have hrange : ∀ k : Int, 0 ≤ k → k < |b - a| + 1 →
        INT_MIN ≤ a + (if a ≤ b then 1 else -1) * k ∧
        a + (if a ≤ b then 1 else -1) * k ≤ INT_MAX := by
      intro k hk0 hk
      by_cases hab : a ≤ b
      · rw [if_pos hab]
        rw [abs_of_nonneg (by omega)] at hk
        omega
      · rw [if_neg hab]
        rw [abs_of_neg (by omega)] at hk
        omega
    obtain ⟨v, e, hl, hv⟩ := seq_fill_spec a (if a ≤ b then 1 else -1) (|b - a| + 1) hlen hrange
      (|b - a| + 1).toNat ((|b - a| + 1).toNat + 2) 0 (allocArray (|b - a| + 1))
      (by rw [Int.toNat_of_nonneg (by omega)]; omega) (le_refl _)
      (allocArray_length (by omega)) (by omega)
    have hvl : (v.length : Int) = |b - a| + 1 := by
      rw [hl]
      exact allocArray_length (by omega)
    have helt : ∀ i : Nat, i < v.length →
        v[i]? = some (if a ≤ b then a + i else a - i) := by
      intro i hi
      rw [hv i hi]
      have : ¬ (i : Int) < 0 := by omega
      rw [if_neg this]
      by_cases hab : a ≤ b
      · simp only [hab, if_true]
        congr 1
        omega
      · simp only [hab, if_false]
        congr 1
        omega
    refine ⟨v, ?_, hvl, helt, ?_, ?_⟩
    · rw [seq_colon_of_useInt c a b hx hu]
      exact seq_colon_int_of_ok a b _ v e
    · have hpos : 0 < v.length := by omega
      have := helt 0 hpos
      rw [List.head?_eq_getElem?, this]
      by_cases hab : a ≤ b <;> simp [hab]
    · have hpos : v.length - 1 < v.length := by omega
      have := helt (v.length - 1) hpos
      rw [List.getLast?_eq_getElem?, this]
      congr 1
      have hc : ((v.length - 1 : Nat) : Int) = |b - a| := by omega
      rw [hc]
      by_cases hab : a ≤ b
      · rw [if_pos hab, abs_of_nonneg (by omega)]
        omega
      · rw [if_neg hab, abs_of_neg (by omega)]
        omega
  · have habs : |(2147483647 : Int) - (-1)| = 2147483648 := by norm_num
    have hx : ¬ |(2147483647 : Int) - (-1)| ≥ R_XLEN_T_MAX { LONG_VECTOR_SUPPORT := true } := by
      rw [habs]
      unfold R_XLEN_T_MAX
      norm_num
    have hu : seq_colon_useInt (-1) 2147483647 (|(2147483647 : Int) - (-1)| + 1) = true := by
      rw [habs]
      unfold seq_colon_useInt INT_MAX INT_MIN
      norm_num
    have hn : INT_MAX < |(2147483647 : Int) - (-1)| + 1 := by
      rw [habs]
      unfold INT_MAX
      norm_num
    have hd : INT_MAX.toNat + 2 ≤ (|(2147483647 : Int) - (-1)| + 1).toNat + 2 := by
      rw [habs]
      unfold INT_MAX
      norm_num
    rw [seq_colon_of_useInt _ _ _ hx hu]
    apply seq_colon_int_of_undefined
    exact seq_fill_overflow wrap32 (-1) _ _ hn INT_MAX.toNat _ 0 _
      (by unfold INT_MAX; norm_num) (le_refl _)
      (allocArray_length (by rw [habs]; norm_num)) hd
  · have habs : |(2147483647 : Int) - (-1)| = 2147483648 := by norm_num
    have hx : |(2147483647 : Int) - (-1)| ≥ R_XLEN_T_MAX { LONG_VECTOR_SUPPORT := false } := by
      rw [habs]
      unfold R_XLEN_T_MAX
      norm_num
    unfold seq_colon
    rw [if_pos hx]

end CXXR

namespace CXXR

/-! ## `rep.int` -/

theorem wrap_xlen_of_range (c : Config) {x : Int} (h0 : 0 ≤ x) (h1 : x ≤ R_XLEN_T_MAX c) :
    wrap_xlen c x = x := by
  unfold wrap_xlen
  unfold R_XLEN_T_MAX at h1
  cases hc : c.LONG_VECTOR_SUPPORT
  · simp only [hc, Bool.false_eq_true, if_false] at h1 ⊢
    unfold wrap32
    omega
  · simp only [hc, if_true] at h1 ⊢
    unfold wrap64
    omega

theorem R_XLEN_T_MAX_ge (c : Config) : INT_MAX ≤ R_XLEN_T_MAX c := by
  unfold R_XLEN_T_MAX INT_MAX
  cases c.LONG_VECTOR_SUPPORT <;> simp

/-- The times as entries of an integer vector. -/
theorem rep2_count_spec (c : Config) : ∀ (ts : List Nat) (na : Int), 0 ≤ na →
    na + (ts.sum : Nat) ≤ R_XLEN_T_MAX c →
    rep2_count c (ts.map (fun (t : Nat) => some (t : Int))) na = CResult.ok (na + (ts.sum : Nat)) := by
  intro ts
  induction ts with
  | nil =>
    intro na _ _
    simp [rep2_count]
  | cons t rest ih =>
    intro na h0 h1
    simp only [List.sum_cons, Nat.cast_add] at h1
    have hneg : ¬ (t : Int) < 0 := by omega
    have hw : wrap_xlen c (na + t) = na + t := wrap_xlen_of_range c (by omega) (by omega)
    simp only [List.map_cons, rep2_count, hneg, if_false, hw]
    rw [ih (na + t) (by omega) (by omega)]
    simp only [List.sum_cons, Nat.cast_add]
    congr 1
    omega

theorem rep2_count_error (c : Config) : ∀ (times : List (Option Int)) (na : Int),
    (∃ e ∈ times, e = none ∨ ∃ t, e = some t ∧ t < 0) →
    rep2_count c times na = CResult.error "invalid 'times' value" := by
  intro times
  induction times with
  | nil =>
    intro na h
    obtain ⟨e, he, _⟩ := h
    exact absurd he (List.not_mem_nil _)
  | cons a rest ih =>
    intro na h
    cases a with
    | none => simp [rep2_count]
    | some t =>
      by_cases ht : t < 0
      · simp [rep2_count, ht]
      · simp only [rep2_count, ht, if_false]
        apply ih
        obtain ⟨e, he, hbad⟩ := h
        rcases List.mem_cons.mp he with e1 | e1
        · subst e1
          rcases hbad with hb | ⟨u, hu, hneg⟩
          · cases hb
          · cases hu
            exact absurd hneg ht
        · exact ⟨e, e1, hbad⟩

theorem rep2_inner_spec {α : Type} (x : α) (t : Int) (ht : t ≤ INT_MAX) :
    ∀ (d fuel : Nat) (j : Int) (a : List α), j + d = t → 0 ≤ j → d < fuel →
      rep2_inner x t fuel j a = CResult.ok (a ++ List.replicate d x) := by
  intro d
  induction d with
  | zero =>
    intro fuel j a hj h0 hf
    obtain ⟨f, rfl⟩ : ∃ f, fuel = f + 1 := ⟨fuel - 1, by omega⟩
    have : ¬ j < t := by omega
    simp [rep2_inner, this]
  | succ d ih =>
    intro fuel j a hj h0 hf
    obtain ⟨f, rfl⟩ : ∃ f, fuel = f + 1 := ⟨fuel - 1, by omega⟩
    have hlt : j < t := by omega
    have hw : wrap32 (j + 1) = j + 1 := by
      apply wrap32_of_range
      · unfold INT_MIN
        omega
      · omega
    rw [rep2_inner]
    simp only [hlt, if_true, hw]
    rw [ih f (j + 1) (a ++ [x]) (by omega) (by omega) (by omega)]
    simp [List.replicate_succ]

theorem rep2_fill_spec {α : Type} : ∀ (s : List α) (ts : List Nat) (a : List α),
    ts.length = s.length → (∀ t ∈ ts, (t : Int) ≤ INT_MAX) →
    rep2_fill s (ts.map (fun (t : Nat) => some (t : Int))) a
      = CResult.ok (a ++ rep_each_reference s ts) := by
  intro s
  induction s with
  | nil =>
    intro ts a hl _
    cases ts with
    | nil => simp [rep2_fill, rep_each_reference]
    | cons t rest => simp at hl
  | cons x s ih =>
    intro ts a hl hmax
    cases ts with
    | nil => simp at hl
    | cons t rest =>
      have ht : (t : Int) ≤ INT_MAX := hmax t (List.mem_cons_self _ _)
      have hin := rep2_inner_spec x (t : Int) ht t ((t : Int).toNat + 1) 0 a (by omega)
        (le_refl _) (by simp)
      simp only [List.map_cons, rep2_fill, Option.getD_some, hin]
      rw [ih rest _ (by simpa using hl) (fun u hu => hmax u (List.mem_cons_of_mem _ hu))]
      simp [rep_each_reference]

theorem rep_each_reference_length {α : Type} : ∀ (s : List α) (ts : List Nat),
    ts.length = s.length → (rep_each_reference s ts).length = ts.sum := by
  intro s
  induction s with
  | nil =>
    intro ts hl
    cases ts with
    | nil => rfl
    | cons t rest => simp at hl
  | cons x s ih =>
    intro ts hl
    cases ts with
    | nil => simp at hl
    | cons t rest =>
      simp only [rep_each_reference, List.length_append, List.length_replicate, List.sum_cons]
      rw [ih rest (by simpa using hl)]

/-- The loop of `rep3`: place `k` of the result holds `s[k mod ns]`. -/
theorem rep3_fill_spec {α : Type} (c : Config) (s : List α) (na : Int)
    (hna : na ≤ R_XLEN_T_MAX c) (hns : (s.length : Int) ≤ R_XLEN_T_MAX c) :
    ∀ (d fuel : Nat) (i j : Int) (a : List α), i + d = na → 0 ≤ i →
      (d ≠ 0 → 0 < s.length ∧ j = i % s.length) →
      (a.length : Int) = i → (∀ k : Nat, k < a.length → a[k]? = s[k % s.length]?) →
      d < fuel →
      ∃ v, rep3_fill c s s.length na fuel i j a = CResult.ok v ∧ (v.length : Int) = na ∧
        ∀ k : Nat, k < v.length → v[k]? = s[k % s.length]? := by
  intro d
  induction d with
  | zero =>
    intro fuel i j a hi h0 _ hl ha hf
    obtain ⟨f, rfl⟩ : ∃ f, fuel = f + 1 := ⟨fuel - 1, by omega⟩
    have : ¬ i < na := by omega
    exact ⟨a, by simp [rep3_fill, this], by omega, ha⟩
  | succ d ih =>
    intro fuel i j a hi h0 hj hl ha hf
    obtain ⟨f, rfl⟩ : ∃ f, fuel = f + 1 := ⟨fuel - 1, by omega⟩
    obtain ⟨hpos, hje⟩ := hj (by omega)
    have hlt : i < na := by omega
    have hposi : (0 : Int) < s.length := by omega
    have hj0 : 0 ≤ j := by
      rw [hje]
      exact Int.emod_nonneg _ (by omega)
    have hjlt : j < s.length := by
      rw [hje]
      exact Int.emod_lt_of_pos _ hposi
    have hjn : j.toNat < s.length := by omega
    have hget : s[j.toNat]? = some (s.get ⟨j.toNat, hjn⟩) := List.getElem?_eq_getElem hjn
    have hw1 : wrap_xlen c (i + 1) = i + 1 := wrap_xlen_of_range c (by omega) (by omega)
    have hw2 : wrap_xlen c (j + 1) = j + 1 := wrap_xlen_of_range c (by omega) (by omega)
    have hstep : rep3_fill c s s.length na (f + 1) i j a
        = rep3_fill c s s.length na f (i + 1)
            (if j + 1 = (s.length : Int) then 0 else j + 1)
            (a ++ [s.get ⟨j.toNat, hjn⟩]) := by
      rw [rep3_fill]
      simp only [hlt, if_true, hj0, hget, hw1, hw2]
    have hjnext : (if j + 1 = (s.length : Int) then 0 else j + 1) = (i + 1) % s.length := by
      have hdecomp : i + 1 = (j + 1) + (s.length : Int) * (i / s.length) := by
        have := Int.emod_add_ediv i (s.length : Int)
        rw [← hje] at this
        omega
      rw [hdecomp, Int.add_mul_emod_self_left]
      by_cases he : j + 1 = (s.length : Int)
      · rw [if_pos he, he, Int.emod_self]
      · rw [if_neg he, Int.emod_eq_of_lt (by omega) (by omega)]
    obtain ⟨v, e, hv1, hv2⟩ := ih f (i + 1) (if j + 1 = (s.length : Int) then 0 else j + 1)
      (a ++ [s.get ⟨j.toNat, hjn⟩]) (by omega) (by omega)
      (fun _ => ⟨hpos, hjnext⟩) (by simp; omega)
      (by
        intro k hk
        by_cases hka : k < a.length
        · rw [List.getElem?_append_left hka]
          exact ha k hka
        · have hk2 : k = a.length := by
            simp only [List.length_append, List.length_singleton] at hk
            omega
          subst hk2
          rw [List.getElem?_append_right (le_refl _)]
          simp only [Nat.sub_self, List.getElem?_cons_zero]
          have hmod : a.length % s.length = j.toNat := by
            have h2 : ((a.length % s.length : Nat) : Int) = j := by
              rw [Int.natCast_mod, hl, hje]
            omega
          rw [hmod, hget])
      (by omega)
    exact ⟨v, by rw [hstep, e], hv1, hv2⟩

theorem allocVector_check_ok (c : Config) {n : Int} (h0 : 0 ≤ n) (h1 : n ≤ R_XLEN_T_MAX c) :
    allocVector_check c n = CResult.ok () := by
  unfold allocVector_check
  rw [if_neg (by omega), if_neg (by omega)]

theorem rep2_count_total (c : Config) : ∀ (ts : List Nat) (na : Int),
    ∃ r, rep2_count c (ts.map (fun (t : Nat) => some (t : Int))) na = CResult.ok r := by
  intro ts
  induction ts with
  | nil =>
    intro na
    exact ⟨na, rfl⟩
  | cons t rest ih =>
    intro na
    obtain ⟨r, hr⟩ := ih (wrap_xlen c (na + t))
    refine ⟨r, ?_⟩
    rw [List.map_cons, rep2_count, if_neg (by omega)]
    exact hr

/-- With a vector of times that has the length of `x`, `do_rep_int` returns a
vector only where the sum of the times is a length that a vector can have. -/
theorem do_rep_int_ok_bound {α : Type} (c : Config) (x : List α) (ts : List Nat)
    (hl : ts.length = x.length) (hmax : ∀ t ∈ ts, (t : Int) ≤ INT_MAX) (v : List α)
    (h : do_rep_int c x (ts.map (fun (t : Nat) => some (t : Int))) = CResult.ok v) :
    ((ts.sum : Nat) : Int) ≤ R_XLEN_T_MAX c := by
  obtain ⟨na, hna⟩ := rep2_count_total c ts 0
  have hf := rep2_fill_spec x ts [] hl hmax
  have hlen := rep_each_reference_length x ts hl
  unfold do_rep_int at h
  rw [if_pos (by simp [hl])] at h
  unfold rep2 at h
  rw [hna] at h
  simp only at h
  unfold allocVector_check at h
  by_cases h1 : na < 0
  · rw [if_pos h1] at h
    cases h
  · rw [if_neg h1] at h
    by_cases h2 : na > R_XLEN_T_MAX c
    · rw [if_pos h2] at h
      cases h
    · rw [if_neg h2] at h
      simp only at h
      rw [hf] at h
      simp only [List.nil_append] at h
      by_cases h3 : ((rep_each_reference x ts).length : Int) = na
      · rw [hlen] at h3
        omega
      · rw [if_neg h3] at h
        cases h

/-- C23 (`rep.int` and its reference).  `x` is a vector with the elements
given and `times` an integer vector.  Where the result is a vector that R can
hold, of at most `R_XLEN_T_MAX` elements: if `times` has the length of `x` and
no entry is `NA` or negative, `do_rep_int` returns `times[0]` copies of
`x[0]`, then `times[1]` copies of `x[1]`, and so on, a vector of length
`sum(times)`; if `times` is a single value `t` that is not negative and the
length `n` of `x` is not 1, it returns the vector of length `n * t` whose
element `i` is `x[i mod n]`.  If `times` has another length, or has one of
these two lengths and an entry that is `NA` or negative, the call raises
`invalid 'times' value`.  The bound on the length is needed: with a vector of
times the call returns a vector only where `sum(times)` is within the bound,
and with a single value the length `n * t`, computed in an `R_xlen_t`, wraps
around beyond it, so that without long vector support four elements
replicated 2^30 + 1 times come out as the four elements. -/
theorem do_rep_int_reference {α : Type} (c : Config) (x : List α) :
    (∀ ts : List Nat, ts.length = x.length → (∀ t ∈ ts, (t : Int) ≤ INT_MAX) →
      ((ts.sum : Nat) : Int) ≤ R_XLEN_T_MAX c →
      do_rep_int c x (ts.map (fun (t : Nat) => some (t : Int)))
        = CResult.ok (rep_each_reference x ts) ∧
      (rep_each_reference x ts).length = ts.sum) ∧
    (∀ t : Nat, x.length ≠ 1 → (t : Int) ≤ INT_MAX →
      ((x.length * t : Nat) : Int) ≤ R_XLEN_T_MAX c →
      ∃ v, do_rep_int c x [some (t : Int)] = CResult.ok v ∧ v.length = x.length * t ∧
        ∀ i : Nat, i < v.length → v[i]? = x[i % x.length]?) ∧
    (∀ times : List (Option Int), times.length ≠ x.length → times.length ≠ 1 →
      do_rep_int c x times = CResult.error "invalid 'times' value") ∧
    (∀ times : List (Option Int), (times.length = x.length ∨ times.length = 1) →
      (∃ e ∈ times, e = none ∨ ∃ t, e = some t ∧ t < 0) →
      do_rep_int c x times = CResult.error "invalid 'times' value") ∧
    (∀ (ts : List Nat) (v : List α), ts.length = x.length → (∀ t ∈ ts, (t : Int) ≤ INT_MAX) →
      do_rep_int c x (ts.map (fun (t : Nat) => some (t : Int))) = CResult.ok v →
      ((ts.sum : Nat) : Int) ≤ R_XLEN_T_MAX c) ∧
    do_rep_int { LONG_VECTOR_SUPPORT := false } [1, 2, 3, 4] [some 1073741825]
      = CResult.ok [1, 2, 3, 4] := by
  refine ⟨?_, ?_, ?_, ?_, ?_, ?_⟩
  · intro ts hl hmax hsum
    have hlen := rep_each_reference_length x ts hl
    refine ⟨?_, hlen⟩
    have hc := rep2_count_spec c ts 0 (le_refl _) (by simpa using hsum)
    have hf := rep2_fill_spec x ts [] hl hmax
    simp only [zero_add] at hc
    unfold do_rep_int
    rw [if_pos (by simp [hl])]
    unfold rep2
    rw [hc]
    simp only
    rw [allocVector_check_ok c (by omega) hsum]
    simp only
    rw [hf]
    simp only [List.nil_append]
    rw [if_pos (by rw [hlen])]
  · intro t hn ht hsz
    have hne : ¬ (([some (t : Int)] : List (Option Int)).length : Int) = x.length := by
      simp only [List.length_singleton, Nat.cast_one]
      omega
    have hnn : ¬ (t : Int) < 0 := by omega
    have hm : (t : Int) * x.length = ((x.length * t : Nat) : Int) := by
      push_cast
      ring
    have hw : wrap_xlen c ((t : Int) * x.length) = ((x.length * t : Nat) : Int) := by
      rw [hm]
      exact wrap_xlen_of_range c (by omega) hsz
    have hstart : do_rep_int c x [some (t : Int)]
        = rep3_fill c x x.length ((x.length * t : Nat) : Int)
            ((((x.length * t : Nat) : Int)).toNat + 1) 0 0 [] := by
      unfold do_rep_int
      rw [if_neg hne]
      simp only [List.length_singleton, ne_eq, not_true_eq_false, if_false, List.head?_cons,
        hnn, hw]
      unfold rep3
      rw [allocVector_check_ok c (by omega) hsz]
    rw [hstart]
    by_cases ht0 : x.length * t = 0
    · rw [ht0]
      refine ⟨[], ?_, rfl, ?_⟩
      · simp [rep3_fill]
      · intro i hi
        simp at hi
    · have hpos : 0 < x.length := Nat.pos_of_ne_zero (fun h => ht0 (by rw [h]; simp))
      have htpos : 0 < t := Nat.pos_of_ne_zero (fun h => ht0 (by rw [h]; simp))
      have hxl : (x.length : Int) ≤ R_XLEN_T_MAX c := by
        have : x.length ≤ x.length * t := Nat.le_mul_of_pos_right _ htpos
        omega
      obtain ⟨v, e, hv1, hv2⟩ := rep3_fill_spec c x ((x.length * t : Nat) : Int) hsz hxl
        (x.length * t) ((((x.length * t : Nat) : Int)).toNat + 1) 0 0 [] (by simp) (le_refl _)
        (fun _ => ⟨hpos, by simp⟩) (by simp) (fun k hk => by simp at hk)
        (by rw [Int.toNat_ofNat]; omega)
      exact ⟨v, e, by omega, hv2⟩
  · intro times h1 h2
    unfold do_rep_int
    rw [if_neg (by omega), if_pos h2]
  · intro times hl hbad
    by_cases he : times.length = x.length
    · unfold do_rep_int
      rw [if_pos (by omega)]
      unfold rep2
      rw [rep2_count_error c times 0 hbad]
    · have h1 : times.length = 1 := by
        rcases hl with h | h
        · exact absurd h he
        · exact h
      unfold do_rep_int
      rw [if_neg (by omega), if_neg (by omega)]
      obtain ⟨e, hmem, hb⟩ := hbad
      cases times with
      | nil => simp at h1
      | cons a rest =>
        have hr : rest = [] := by
          cases rest with
          | nil => rfl
          | cons b r => simp at h1
        subst hr
        rw [List.mem_singleton] at hmem
        subst hmem
        rcases hb with hb | ⟨u, hu, hneg⟩
        · subst hb
          rfl
        · subst hu
          simp [hneg]
  · intro ts v hl hmax h
    exact do_rep_int_ok_bound c x ts hl hmax v h
  · with_unfolding_all decide

/-- Without long vector support `rep.int(c(10L, 20L), c(2147483647L, 1L))`,
whose times have the length of `x` and are neither `NA` nor negative, does not
return the vector of `sum(times)` = 2^31 elements, which no vector of that
build has: the call raises an error.  So does `rep.int(c(10L, 20L),
2147483647L)`, whose result would have 2^32 - 2 elements. -/
theorem do_rep_int_too_long :
    do_rep_int { LONG_VECTOR_SUPPORT := false } [10, 20] [some 2147483647, some 1]
      = CResult.error "negative length vectors are not allowed" ∧
    do_rep_int { LONG_VECTOR_SUPPORT := false } [10, 20] [some 2147483647]
      = CResult.error "negative length vectors are not allowed" := by
  refine ⟨?_, ?_⟩ <;> with_unfolding_all decide

end CXXR

namespace CXXR

open SEXP

/-! ## The attribute list -/

theorem cells_ofAttributes (l : List (String × SEXP)) :
    cells (ofAttributes l) = l.map (fun p => (SEXP.sym p.1 SEXP.nil, p.2)) := by
  induction l with
  | nil => rfl
  | cons p rest ih => simp [ofAttributes, cells, ih]

theorem ATTRIB_SET_ATTRIB {x : SEXP} (hx : x ≠ SEXP.nil) (a : SEXP) :
    ATTRIB (SET_ATTRIB x a) = a := by
  cases x <;> first | exact absurd rfl hx | rfl

theorem TYPEOF_SET_ATTRIB (x a : SEXP) : TYPEOF (SET_ATTRIB x a) = TYPEOF x := by
  cases x <;> rfl

theorem SET_ATTRIB_ne_nil {x : SEXP} (hx : x ≠ SEXP.nil) (a : SEXP) :
    SET_ATTRIB x a ≠ SEXP.nil := by
  cases x <;> first | exact absurd rfl hx | (intro h; cases h)

theorem length_SET_ATTRIB (x a : SEXP) : length (SET_ATTRIB x a) = length x := by
  cases x <;> simp [SET_ATTRIB, length, cells]

theorem INTEGER_SET_ATTRIB (x a : SEXP) : INTEGER (SET_ATTRIB x a) = INTEGER x := by
  cases x <;> rfl

theorem attributes_SET_ATTRIB {x : SEXP} (hx : x ≠ SEXP.nil) (l : List (String × SEXP)) :
    attributes (SET_ATTRIB x (ofAttributes l)) = l := by
  unfold attributes
  rw [ATTRIB_SET_ATTRIB hx, cells_ofAttributes]
  induction l with
  | nil => rfl
  | cons p rest ih =>
    rw [List.map_cons, List.filterMap_cons, ih]
    rfl

theorem attributes_nil : attributes SEXP.nil = [] := rfl

theorem TYPEOF_setAttribute (x : SEXP) (name : String) (v : SEXP) :
    TYPEOF (x.setAttribute name v) = TYPEOF x := by
  unfold setAttribute
  split
  · exact TYPEOF_SET_ATTRIB _ _
  · split <;> exact TYPEOF_SET_ATTRIB _ _

theorem length_setAttribute (x : SEXP) (name : String) (v : SEXP) :
    length (x.setAttribute name v) = length x := by
  unfold setAttribute
  split
  · exact length_SET_ATTRIB _ _
  · split <;> exact length_SET_ATTRIB _ _

theorem setAttribute_ne_nil {x : SEXP} (hx : x ≠ SEXP.nil) (name : String) (v : SEXP) :
    x.setAttribute name v ≠ SEXP.nil := by
  unfold setAttribute
  split
  · exact SET_ATTRIB_ne_nil hx _
  · split <;> exact SET_ATTRIB_ne_nil hx _

theorem find_map_same (name : String) (v : SEXP) (l : List (String × SEXP))
    (h : (l.find? (fun p => p.1 == name)).isSome = true) :
    (l.map (fun p => if p.1 = name then (p.1, v) else p)).find? (fun p => p.1 == name)
      = some (name, v) := by
  induction l with
  | nil => simp at h
  | cons p rest ih =>
    by_cases e : p.1 = name
    · simp [List.find?, e]
    · have hb : (p.1 == name) = false := by simpa using e
      rw [List.find?_cons, hb] at h
      simp only [List.map_cons, e, if_false, List.find?_cons, hb]
      exact ih h

theorem find_map_other {name m : String} (hm : name ≠ m) (v : SEXP)
    (l : List (String × SEXP)) :
    ((l.map (fun p => if p.1 = name then (p.1, v) else p)).find? (fun p => p.1 == m)).map
        (fun p => p.2)
      = (l.find? (fun p => p.1 == m)).map (fun p => p.2) := by
  induction l with
  | nil => rfl
  | cons p rest ih =>
    by_cases e : p.1 = name
    · have hb : (p.1 == m) = false := by
        have : p.1 ≠ m := fun h => hm (e.symm.trans h)
        simpa using this
      simp only [List.map_cons, e, if_true, List.find?_cons]
      have hb2 : (name == m) = false := by simpa using hm
      rw [e] at hb
      simp only [hb2]
      exact ih
    · simp only [List.map_cons, e, if_false, List.find?_cons]
      cases hpm : (p.1 == m)
      · simpa [e] using ih
      · simp

theorem find_filter_same (name : String) (l : List (String × SEXP)) :
    (l.filter (fun p => !(p.1 == name))).find? (fun p => p.1 == name) = none := by
  rw [List.find?_eq_none]
  intro p hp
  have := (List.mem_filter.mp hp).2
  simpa using this

theorem find_filter_other {name m : String} (hm : name ≠ m) (l : List (String × SEXP)) :
    (l.filter (fun p => !(p.1 == name))).find? (fun p => p.1 == m)
      = l.find? (fun p => p.1 == m) := by
  induction l with
  | nil => rfl
  | cons p rest ih =>
    by_cases e : p.1 = name
    · have hb : (p.1 == m) = false := by
        have : p.1 ≠ m := fun h => hm (e.symm.trans h)
        simpa using this
      have hn : (p.1 == name) = true := by simpa using e
      simp only [List.filter_cons, hn, Bool.not_true, Bool.false_eq_true, if_false,
        List.find?_cons, hb]
      exact ih
    · have hn : (p.1 == name) = false := by simpa using e
      simp only [List.filter_cons, hn, Bool.not_false, if_true, List.find?_cons]
      rw [ih]

theorem getAttribute_nil (name : String) : SEXP.nil.getAttribute name = SEXP.nil := rfl

theorem setAttribute_nil (name : String) (v : SEXP) : SEXP.nil.setAttribute name v = SEXP.nil := by
  unfold setAttribute
  split
  · rfl
  · split <;> rfl

/-- The attribute just set is the one read back. -/
theorem getAttribute_setAttribute_same {x : SEXP} (hx : x ≠ SEXP.nil) (name : String)
    {v : SEXP} (hv : v ≠ SEXP.nil) : (x.setAttribute name v).getAttribute name = v := by
  unfold setAttribute
  simp only [hv, if_false]
  split
  · rename_i h
    unfold getAttribute
    rw [attributes_SET_ATTRIB hx, find_map_same name v _ h]
  · rename_i h
    unfold getAttribute
    rw [attributes_SET_ATTRIB hx, List.find?_append]
    have : List.find? (fun p => p.1 == name) (attributes x) = none := by
      cases hf : List.find? (fun p => p.1 == name) (attributes x) with
      | none => rfl
      | some y => simp [hf] at h
    simp [this, List.find?]

/-- An attribute removed is read back as the null pointer. -/
theorem getAttribute_setAttribute_nil (x : SEXP) (name : String) :
    (x.setAttribute name SEXP.nil).getAttribute name = SEXP.nil := by
  by_cases hx : x = SEXP.nil
  · subst hx
    rfl
  · unfold setAttribute
    simp only [if_true]
    unfold getAttribute
    rw [attributes_SET_ATTRIB hx, find_filter_same]

/-- Setting one attribute leaves the others as they are. -/
theorem getAttribute_setAttribute_other (x : SEXP) {name m : String} (hm : name ≠ m)
    (v : SEXP) : (x.setAttribute name v).getAttribute m = x.getAttribute m := by
  by_cases hx : x = SEXP.nil
  · subst hx
    rw [setAttribute_nil]
  · unfold setAttribute
    split
    · unfold getAttribute
      rw [attributes_SET_ATTRIB hx, find_filter_other hm]
    · split
      · unfold getAttribute
        rw [attributes_SET_ATTRIB hx]
        have := find_map_other hm v (attributes x)
        cases h1 : List.find? (fun p => p.1 == m)
            (List.map (fun p => if p.1 = name then (p.1, v) else p) (attributes x)) with
        | none =>
          rw [h1] at this
          cases h2 : List.find? (fun p => p.1 == m) (attributes x) with
          | none => rfl
          | some y => rw [h2] at this; simp at this
        | some y =>
          rw [h1] at this
          cases h2 : List.find? (fun p => p.1 == m) (attributes x) with
          | none => rw [h2] at this; simp at this
          | some z =>
            rw [h2] at this
            simp only [Option.map_some', Option.some.injEq] at this
            exact this
      · unfold getAttribute
        rw [attributes_SET_ATTRIB hx, List.find?_append]
        cases h2 : List.find? (fun p => p.1 == m) (attributes x) with
        | none =>
          have hb : (name == m) = false := by simpa using hm
          simp [List.find?, hb]
        | some y => simp

theorem hasAttributes_setAttribute {x : SEXP} (hx : x ≠ SEXP.nil) (name : String)
    {v : SEXP} (hv : v ≠ SEXP.nil) : (x.setAttribute name v).hasAttributes = true := by
  have h := getAttribute_setAttribute_same hx name hv
  unfold hasAttributes
  cases ha : attributes (x.setAttribute name v) with
  | nil =>
    unfold getAttribute at h
    rw [ha] at h
    exact absurd h.symm hv
  | cons p rest => rfl

/-! ## The result of a step -/

theorem andThen_ok {α β : Type} (a : α) (f : α → CResult β) :
    (CResult.ok a).andThen f = f a := rfl

theorem andThen_eq_ok {α β : Type} {r : CResult α} {f : α → CResult β} {b : β}
    (h : r.andThen f = CResult.ok b) : ∃ a, r = CResult.ok a ∧ f a = CResult.ok b := by
  cases r with
  | ok a => exact ⟨a, rfl, h⟩
  | error m => cases h
  | undefined => cases h
  | timeout => cases h

theorem sameSymbol_sym (a b : String) (x y : SEXP) :
    sameSymbol (SEXP.sym a x) (SEXP.sym b y) = (a == b) := rfl

end CXXR

namespace CXXR

open SEXP

/-! ## Reading an attribute that was just set -/

theorem sameSymbol_sym_false {a b : String} (h : a ≠ b) (x y : SEXP) :
    sameSymbol (SEXP.sym a x) (SEXP.sym b y) = false := by
  rw [sameSymbol_sym]
  simpa using h

theorem sameSymbol_sym_self (a : String) (x y : SEXP) :
    sameSymbol (SEXP.sym a x) (SEXP.sym a y) = true := by
  rw [sameSymbol_sym]
  simp

/-- For a name other than `names`, `getAttrib0` is its last part. -/
theorem getAttrib0_of_ne_names (W : AttribWorld) {vec : SEXP} (hvec : vec ≠ SEXP.nil)
    {n : String} (hn : n ≠ "names") (a : SEXP) :
    getAttrib0 W vec (SEXP.sym n a) = getAttrib0_attribute vec (SEXP.sym n a) := by
  unfold getAttrib0
  have h : sameSymbol (SEXP.sym n a) R_NamesSymbol = false := sameSymbol_sym_false hn _ _
  simp only [hvec, if_false, h, Bool.false_eq_true]

theorem getAttrib0_attribute_sym (vec : SEXP) (n : String) (a : SEXP) :
    getAttrib0_attribute vec (SEXP.sym n a)
      = if vec.getAttribute n = SEXP.nil then CResult.ok SEXP.nil
        else if (n == "dimnames") && decide ((vec.getAttribute n).TYPEOF = SEXPTYPE.LISTSXP)
        then CResult.error "old list is no longer allowed for dimnames attribute\n"
        else CResult.ok (vec.getAttribute n) := rfl

theorem getAttrib_pretest_setAttribute {vec : SEXP} (hvec : vec ≠ SEXP.nil)
    (hchar : vec.TYPEOF ≠ SEXPTYPE.CHARSXP) (n : String) {v : SEXP} (hv : v ≠ SEXP.nil) :
    getAttrib_pretest (vec.setAttribute n v) = none := by
  unfold getAttrib_pretest
  simp only [setAttribute_ne_nil hvec, if_false, TYPEOF_setAttribute, hchar,
    hasAttributes_setAttribute hvec n hv, Bool.not_true, Bool.false_and, Bool.false_eq_true]

theorem installName_sym (W : AttribWorld) (n : String) (a : SEXP) :
    installName W (SEXP.sym n a) = CResult.ok (SEXP.sym n a) := rfl

/-- What `getAttrib0` gives for the attribute just set, for a name other than
`names`. -/
theorem getAttrib0_setAttribute (W : AttribWorld) {vec : SEXP} (hvec : vec ≠ SEXP.nil)
    {n : String} (hn : n ≠ "names") (a : SEXP) {v : SEXP} (hv : v ≠ SEXP.nil)
    (hd : n = "dimnames" → v.TYPEOF ≠ SEXPTYPE.LISTSXP) :
    getAttrib0 W (vec.setAttribute n v) (SEXP.sym n a) = CResult.ok v := by
  rw [getAttrib0_of_ne_names W (setAttribute_ne_nil hvec n v) hn, getAttrib0_attribute_sym,
    getAttribute_setAttribute_same hvec n hv]
  simp only [hv, if_false]
  by_cases e : n = "dimnames"
  · have := hd e
    simp [this]
  · have hb : (n == "dimnames") = false := by simpa using e
    simp [hb]

/-- What `getAttrib` gives for the row names just set. -/
theorem getAttrib_setAttribute_rowNames (W : AttribWorld) {vec : SEXP} (hvec : vec ≠ SEXP.nil)
    (hchar : vec.TYPEOF ≠ SEXPTYPE.CHARSXP) (a : SEXP) {v : SEXP} (hv : v ≠ SEXP.nil) :
    getAttrib W (vec.setAttribute "row.names" v) (SEXP.sym "row.names" a)
      = getAttrib_rowNames v := by
  unfold getAttrib getAttrib_body
  rw [getAttrib_pretest_setAttribute hvec hchar _ hv]
  simp only [installName_sym, andThen_ok]
  unfold getAttrib_named
  have h : sameSymbol (SEXP.sym "row.names" a) R_RowNamesSymbol = true :=
    sameSymbol_sym_self _ _ _
  simp only [h, if_true]
  have h0 : getAttrib0 W (vec.setAttribute "row.names" v) R_RowNamesSymbol = CResult.ok v :=
    getAttrib0_setAttribute W hvec (by decide) SEXP.nil hv (fun e => absurd e (by decide))
  rw [h0, andThen_ok]

/-! ## Compact row names -/

theorem row_names_gets_compact_range (k : Nat) :
    ∀ i : Nat, row_names_gets_compact
      ((List.range' i k).map (fun (j : Nat) => some ((j : Int) + 1))) i = true := by
  induction k with
  | zero =>
    intro i
    rfl
  | succ k ih =>
    intro i
    rw [List.range'_succ, List.map_cons, row_names_gets_compact]
    simp only [if_true]
    exact ih (i + 1)

theorem row_names_gets_compact_oneTo (n : Nat) : row_names_gets_compact (oneTo n) 0 = true := by
  unfold oneTo
  rw [List.range_eq_range']
  exact row_names_gets_compact_range n 0

theorem oneTo_length (n : Nat) : (oneTo n).length = n := by
  simp [oneTo]

theorem oneTo_head (n : Nat) : (oneTo n)[0]? ≠ some none := by
  unfold oneTo
  cases n with
  | zero => simp
  | succ n => simp [List.range_succ_eq_map]

theorem isInteger_int {val : SEXP} (h : val.isInteger = true) :
    ∃ e a, val = SEXP.int e a := by
  cases val <;> simp [isInteger, TYPEOF] at h
  exact ⟨_, _, rfl⟩

theorem isInteger_plain (e : List (Option Int)) : (SEXP.int e SEXP.nil).isInteger = true := rfl

end CXXR

namespace CXXR

open SEXP

/-! ## Row names -/

/-- What `row_names_gets` stores for an integer vector `1, ..., n`: the vector
itself for `n ≤ 2`, and the pair `(NA, n)` for `n > 2`. -/
theorem row_names_gets_oneTo (W : AttribWorld) {vec : SEXP} (hvec : vec ≠ SEXP.nil)
    (a : SEXP) (n : Nat) (hint : (SEXP.int (oneTo n) a).isInteger = true) :
    row_names_gets W vec (SEXP.int (oneTo n) a)
      = CResult.ok
          (vec.setAttribute "row.names"
            (if 2 < n then SEXP.int [none, some (n : Int)] SEXP.nil else SEXP.int (oneTo n) a),
           if 2 < n then SEXP.int [none, some (n : Int)] SEXP.nil else SEXP.int (oneTo n) a) := by
  unfold row_names_gets
  have hreal : (SEXP.int (oneTo n) a).isReal = false := rfl
  have hlen : (SEXP.int (oneTo n) a).length = n := oneTo_length n
  have hI : (SEXP.int (oneTo n) a).INTEGER = oneTo n := rfl
  have hhead : decide ((oneTo n)[0]? = some none) = false := by
    simpa using oneTo_head n
  simp only [hvec, if_false, hreal, Bool.false_and, Bool.false_eq_true, hint, if_true, hlen, hI,
    hhead, Bool.and_false, row_names_gets_compact_oneTo, Bool.and_true, decide_eq_true_eq,
    gt_iff_lt]
  split <;> rfl

/-- C24 (counterexample): for a `CHARSXP` as `vec`, `setAttrib` stores the row
names `1, 2, 3, 4` and `getAttrib` then raises an error instead of returning
the row names. -/
theorem row_names_CHARSXP :
    ∃ vec1 ans,
      setAttrib (sampleAttribWorld { LONG_VECTOR_SUPPORT := true })
          (SEXP.chr (some "a") SEXP.nil) R_RowNamesSymbol (SEXP.int (oneTo 4) SEXP.nil)
        = CResult.ok (vec1, ans) ∧
      getAttrib (sampleAttribWorld { LONG_VECTOR_SUPPORT := true }) vec1 R_RowNamesSymbol
        = CResult.error "cannot have attributes on a CHARSXP" :=
  ⟨SEXP.chr (some "a")
      (ofAttributes [("row.names", SEXP.int [none, some 4] SEXP.nil)]),
    SEXP.int [none, some 4] SEXP.nil, by decide, by decide⟩

/-- C24 (amended): for every non-NULL object `vec` that is not a `CHARSXP` and
every integer vector `val` equal to `1, 2, ..., n`, `setAttrib(vec,
R_RowNamesSymbol, val)` returns and `getAttrib(vec, R_RowNamesSymbol)` then
returns an integer vector with the elements of `val`, which is `val` itself
for `n ≤ 2`; for `n > 2` the attribute stored is the two-element vector
`(NA, n)`; and `do_shortRowNames` gives `n` in both cases. -/
theorem row_names_round_trip (W : AttribWorld) (vec val : SEXP) (n : Nat)
    (hvec : vec ≠ SEXP.nil) (hchar : vec.TYPEOF ≠ SEXPTYPE.CHARSXP)
    (hint : val.isInteger = true) (hval : val.INTEGER = oneTo n) :
    ∃ vec1 ans r,
      setAttrib W vec R_RowNamesSymbol val = CResult.ok (vec1, ans) ∧
      getAttrib W vec1 R_RowNamesSymbol = CResult.ok r ∧
      r.TYPEOF = SEXPTYPE.INTSXP ∧ r.INTEGER = val.INTEGER ∧
      (n ≤ 2 → r = val ∧ vec1.getAttribute "row.names" = val) ∧
      (2 < n → vec1.getAttribute "row.names" = SEXP.int [none, some (n : Int)] SEXP.nil) ∧
      do_shortRowNames W vec1 (some 2) = CResult.ok (SEXP.int [some (n : Int)] SEXP.nil) := by
  obtain ⟨e, a, rfl⟩ := isInteger_int hint
  have he : e = oneTo n := hval
  subst he
  have hset : setAttrib W vec R_RowNamesSymbol (SEXP.int (oneTo n) a)
      = row_names_gets W vec (SEXP.int (oneTo n) a) := by
    unfold setAttrib
    have hv : (SEXP.int (oneTo n) a) ≠ SEXP.nil := by intro h; cases h
    have h1 : sameSymbol R_RowNamesSymbol R_NamesSymbol = false := by decide
    have h2 : sameSymbol R_RowNamesSymbol R_DimSymbol = false := by decide
    have h3 : sameSymbol R_RowNamesSymbol R_DimNamesSymbol = false := by decide
    have h4 : sameSymbol R_RowNamesSymbol R_ClassSymbol = false := by decide
    have h5 : sameSymbol R_RowNamesSymbol R_TspSymbol = false := by decide
    have h6 : sameSymbol R_RowNamesSymbol R_CommentSymbol = false := by decide
    have h7 : sameSymbol R_RowNamesSymbol R_RowNamesSymbol = true := by decide
    have hi : installName W R_RowNamesSymbol = CResult.ok R_RowNamesSymbol := rfl
    simp only [hi, andThen_ok, hv, hvec, if_false, h1, h2, h3, h4, h5, h6, h7,
      Bool.false_eq_true, if_true]
  rw [hset, row_names_gets_oneTo W hvec a n hint]
  by_cases hn : 2 < n
  · simp only [hn, if_true]
    have hv : SEXP.int [none, some (n : Int)] SEXP.nil ≠ SEXP.nil := by intro h; cases h
    have hr : getAttrib_rowNames (SEXP.int [none, some (n : Int)] SEXP.nil)
        = CResult.ok (SEXP.int (oneTo n) SEXP.nil) := by
      unfold getAttrib_rowNames
      have h1 : (SEXP.int [none, some (n : Int)] SEXP.nil).isInteger = true := rfl
      have h2 : (SEXP.int [none, some (n : Int)] SEXP.nil).length = 2 := rfl
      have h3 : (SEXP.int [none, some (n : Int)] SEXP.nil).INTEGER = [none, some (n : Int)] := rfl
      simp [h1, h2, h3]
    have h0 : getAttrib0 W (vec.setAttribute "row.names" (SEXP.int [none, some (n : Int)] SEXP.nil))
        R_RowNamesSymbol = CResult.ok (SEXP.int [none, some (n : Int)] SEXP.nil) :=
      getAttrib0_setAttribute W hvec (by decide) SEXP.nil hv (fun e => absurd e (by decide))
    refine ⟨_, _, SEXP.int (oneTo n) SEXP.nil, rfl, ?_, rfl, rfl, ?_, ?_, ?_⟩
    · exact (getAttrib_setAttribute_rowNames W hvec hchar SEXP.nil hv).trans hr
    · intro h
      omega
    · intro _
      exact getAttribute_setAttribute_same hvec _ hv
    · unfold do_shortRowNames
      rw [h0, andThen_ok]
      have h1 : (SEXP.int [none, some (n : Int)] SEXP.nil).isInteger = true := rfl
      have h2 : (SEXP.int [none, some (n : Int)] SEXP.nil).length = 2 := rfl
      have h3 : (SEXP.int [none, some (n : Int)] SEXP.nil).INTEGER = [none, some (n : Int)] := rfl
      simp [h1, h2, h3]
  · simp only [hn, if_false]
    have hv : SEXP.int (oneTo n) a ≠ SEXP.nil := by intro h; cases h
    have hhead : decide ((oneTo n)[0]? = some none) = false := by
      simpa using oneTo_head n
    have hI : (SEXP.int (oneTo n) a).INTEGER = oneTo n := rfl
    have hr : getAttrib_rowNames (SEXP.int (oneTo n) a) = CResult.ok (SEXP.int (oneTo n) a) := by
      unfold getAttrib_rowNames
      simp only [hint, hI, hhead, Bool.and_false, Bool.false_eq_true, if_false]
    have h0 : getAttrib0 W (vec.setAttribute "row.names" (SEXP.int (oneTo n) a))
        R_RowNamesSymbol = CResult.ok (SEXP.int (oneTo n) a) :=
      getAttrib0_setAttribute W hvec (by decide) SEXP.nil hv (fun e => absurd e (by decide))
    refine ⟨_, _, SEXP.int (oneTo n) a, rfl, ?_, rfl, rfl, ?_, ?_, ?_⟩
    · exact (getAttrib_setAttribute_rowNames W hvec hchar SEXP.nil hv).trans hr
    · intro _
      exact ⟨rfl, getAttribute_setAttribute_same hvec _ hv⟩
    · intro h
      exact h.elim
    · unfold do_shortRowNames
      rw [h0, andThen_ok]
      have hlen : (SEXP.int (oneTo n) a).length = n := oneTo_length n
      have hnull : (SEXP.int (oneTo n) a).isNull = false := rfl
      simp [hint, hI, hhead, hlen, hnull]

/-- C24 (witness): the round trip of the row names `1, ..., 5` on a generic
vector. -/
theorem row_names_round_trip_witness :
    ∃ vec1 ans r,
      setAttrib (sampleAttribWorld { LONG_VECTOR_SUPPORT := true }) (SEXP.vec SEXP.nil SEXP.nil)
          R_RowNamesSymbol (SEXP.int (oneTo 5) SEXP.nil) = CResult.ok (vec1, ans) ∧
      getAttrib (sampleAttribWorld { LONG_VECTOR_SUPPORT := true }) vec1 R_RowNamesSymbol
        = CResult.ok r ∧
      r.TYPEOF = SEXPTYPE.INTSXP ∧ r.INTEGER = (SEXP.int (oneTo 5) SEXP.nil).INTEGER ∧
      (5 ≤ 2 → r = SEXP.int (oneTo 5) SEXP.nil ∧
        vec1.getAttribute "row.names" = SEXP.int (oneTo 5) SEXP.nil) ∧
      (2 < 5 → vec1.getAttribute "row.names" = SEXP.int [none, some ((5 : Nat) : Int)] SEXP.nil) ∧
      do_shortRowNames (sampleAttribWorld { LONG_VECTOR_SUPPORT := true }) vec1 (some 2)
        = CResult.ok (SEXP.int [some ((5 : Nat) : Int)] SEXP.nil) :=
  row_names_round_trip (sampleAttribWorld { LONG_VECTOR_SUPPORT := true })
    (SEXP.vec SEXP.nil SEXP.nil) (SEXP.int (oneTo 5) SEXP.nil) 5
    (by intro h; cases h) (by decide) rfl rfl

end CXXR

namespace CXXR

open SEXP

/-! ## `dim<-` -/

theorem wrap_mul_general (M H a b : Int) :
    (((a + H) % M - H) * b + H) % M = (a * b + H) % M := by
  have h : (a + H) % M = (a + H) - M * ((a + H) / M) := by
    have := Int.emod_add_ediv (a + H) M
    linarith
  rw [h]
  have e : (a + H - M * ((a + H) / M) - H) * b + H
      = (a * b + H) + M * (-((a + H) / M) * b) := by ring
  rw [e, Int.add_mul_emod_self_left]

/-- Wrap-around before a multiplication does not change the wrapped product. -/
theorem wrap_xlen_mul (c : Config) (a b : Int) :
    wrap_xlen c (wrap_xlen c a * b) = wrap_xlen c (a * b) := by
  unfold wrap_xlen
  cases c.LONG_VECTOR_SUPPORT
  · simp only [Bool.false_eq_true, if_false]
    unfold wrap32
    rw [wrap_mul_general]
  · simp only [if_true]
    unfold wrap64
    rw [wrap_mul_general]

theorem wrap_xlen_one (c : Config) : wrap_xlen c 1 = 1 := by
  unfold wrap_xlen
  cases c.LONG_VECTOR_SUPPORT
  · simp only [Bool.false_eq_true, if_false]
    unfold wrap32
    norm_num
  · simp only [if_true]
    unfold wrap64
    norm_num

/-- The loop of `dimgets` on entries that are neither `NA` nor negative: the
wrapped product. -/
theorem dimgets_total_spec (c : Config) :
    ∀ (e : List (Option Int)) (t : Int), (∀ o ∈ e, ∃ d, o = some d ∧ 0 ≤ d) →
      dimgets_total c e (wrap_xlen c t) = CResult.ok (wrap_xlen c (t * dimProduct e)) := by
  intro e
  induction e with
  | nil =>
    intro t _
    simp [dimgets_total, dimProduct]
  | cons o rest ih =>
    intro t h
    obtain ⟨d, rfl, hd⟩ := h o (List.mem_cons_self _ _)
    rw [dimgets_total]
    simp only [not_lt.mpr hd, if_false]
    rw [wrap_xlen_mul, ih (t * d) (fun o ho => h o (List.mem_cons_of_mem _ ho))]
    have : t * d * dimProduct rest = t * dimProduct (some d :: rest) := by
      simp [dimProduct, mul_assoc]
    rw [this]

/-- The loop of `dimgets` stops at the first entry that is `NA` or negative,
and reports that entry. -/
theorem dimgets_total_first (c : Config) :
    ∀ (pre : List (Option Int)) (o : Option Int) (post : List (Option Int)) (t : Int),
      (∀ x ∈ pre, ∃ d, x = some d ∧ 0 ≤ d) →
      dimgets_total c (pre ++ o :: post) t
        = match o with
          | none => CResult.error "the dims contain missing values"
          | some d =>
            if d < 0 then CResult.error "the dims contain negative values"
            else dimgets_total c post
              (wrap_xlen c ((pre.foldl (fun t x => wrap_xlen c (t * x.getD 0)) t) * d)) := by
  intro pre
  induction pre with
  | nil =>
    intro o post t _
    rw [List.nil_append]
    cases o with
    | none => rw [dimgets_total]
    | some d =>
      rw [dimgets_total]
      rfl
  | cons x pre ih =>
    intro o post t h
    obtain ⟨d, rfl, hd⟩ := h x (List.mem_cons_self _ _)
    rw [List.cons_append, dimgets_total]
    simp only [not_lt.mpr hd, if_false]
    rw [ih o post _ (fun y hy => h y (List.mem_cons_of_mem _ hy))]
    rfl

theorem dimgets_total_ok {c : Config} :
    ∀ {e : List (Option Int)} {t r : Int}, dimgets_total c e t = CResult.ok r →
      ∀ o ∈ e, ∃ d, o = some d ∧ 0 ≤ d := by
  intro e
  induction e with
  | nil =>
    intro t r _ o ho
    cases ho
  | cons x rest ih =>
    intro t r h o ho
    cases x with
    | none =>
      rw [dimgets_total] at h
      cases h
    | some d =>
      rw [dimgets_total] at h
      by_cases hd : d < 0
      · simp [hd] at h
      · simp only [hd, if_false] at h
        rcases List.mem_cons.mp ho with rfl | ho
        · exact ⟨d, rfl, not_lt.mp hd⟩
        · exact ih h o ho

/-- What `removeAttrib(vec, R_DimNamesSymbol)` does to an object other than
the null pointer and a `CHARSXP`. -/
theorem removeAttrib_dimnames {vec : SEXP} (hvec : vec ≠ SEXP.nil)
    (hchar : vec.TYPEOF ≠ SEXPTYPE.CHARSXP) :
    removeAttrib vec R_DimNamesSymbol
      = CResult.ok (vec.setAttribute "dimnames" SEXP.nil, SEXP.nil) := by
  unfold removeAttrib
  have h1 : sameSymbol R_DimNamesSymbol R_NamesSymbol = false := by decide
  have h2 : sameSymbol R_DimNamesSymbol R_DimSymbol = false := by decide
  have h3 : SEXP_downcast_Symbol R_DimNamesSymbol = CResult.ok "dimnames" := rfl
  simp only [hvec, hchar, if_false, h1, Bool.false_and, Bool.false_eq_true, h2, h3, andThen_ok]

theorem not_CHARSXP_of_vector {vec : SEXP} (h : (vec.isVector || vec.isList) = true) :
    vec.TYPEOF ≠ SEXPTYPE.CHARSXP := by
  cases vec <;> simp [isVector, isList, TYPEOF] at h ⊢

/-- The value of `dimgets` on an integer vector `val`. -/
theorem dimgets_int (W : AttribWorld) {vec : SEXP} (hvec : vec ≠ SEXP.nil)
    (ht : (vec.isVector || vec.isList) = true) (e : List (Option Int)) (a : SEXP) :
    dimgets W vec (SEXP.int e a)
      = if e = [] then CResult.error "length-0 dimension vector is invalid"
        else (dimgets_total W.config e 1).andThen fun total =>
          if total ≠ (vec.length : Int) then
            if total > INT_MAX ∨ (vec.length : Int) > INT_MAX then
              CResult.error "dims do not match the length of object"
            else CResult.error "dims [product %d] do not match the length of object [%d]"
          else CResult.ok ((vec.setAttribute "dimnames" SEXP.nil).setAttribute "dim"
            (SEXP.int e a)) := by
  unfold dimgets
  have h1 : (!vec.isVector && !vec.isList) = false := by
    cases hv : vec.isVector <;> cases hl : vec.isList <;> simp [hv, hl] at ht ⊢
  have h2 : (!(SEXP.int e a).isVector && !(SEXP.int e a).isList) = false := rfl
  have h3 : coerceVector W (SEXP.int e a) SEXPTYPE.INTSXP = CResult.ok (SEXP.int e a) := by
    unfold coerceVector
    simp [TYPEOF]
  have h4 : (SEXP.int e a).length = e.length := rfl
  have h5 : (SEXP.int e a).INTEGER = e := rfl
  simp only [h1, h2, Bool.false_eq_true, if_false, h3, andThen_ok, h4, h5,
    removeAttrib_dimnames hvec (not_CHARSXP_of_vector ht),
    setAttribute_ne_nil hvec "dimnames" SEXP.nil, List.length_eq_zero]

/-- When `dimgets` returns, and what it returns. -/
theorem dimgets_ok_iff (W : AttribWorld) {vec : SEXP} (hvec : vec ≠ SEXP.nil)
    (ht : (vec.isVector || vec.isList) = true) (e : List (Option Int)) (a : SEXP) (r : SEXP) :
    dimgets W vec (SEXP.int e a) = CResult.ok r ↔
      (e ≠ [] ∧ (∀ o ∈ e, ∃ d, o = some d ∧ 0 ≤ d) ∧
        wrap_xlen W.config (dimProduct e) = (vec.length : Int) ∧
        r = (vec.setAttribute "dimnames" SEXP.nil).setAttribute "dim" (SEXP.int e a)) := by
  rw [dimgets_int W hvec ht]
  constructor
  · intro h
    by_cases he : e = []
    · simp [he] at h
    · simp only [he, if_false] at h
      obtain ⟨total, htot, h⟩ := andThen_eq_ok h
      have hgood := dimgets_total_ok htot
      have hspec := dimgets_total_spec W.config e 1 hgood
      rw [wrap_xlen_one, one_mul, htot] at hspec
      have ht2 : total = wrap_xlen W.config (dimProduct e) := by
        simpa using hspec
      by_cases hlen : total = (vec.length : Int)
      · simp only [hlen, ne_eq, not_true_eq_false, if_false, CResult.ok.injEq] at h
        exact ⟨he, hgood, ht2 ▸ hlen, h.symm⟩
      · simp only [ne_eq, hlen, not_false_eq_true, if_true] at h
        split at h <;> cases h
  · rintro ⟨he, hgood, hw, rfl⟩
    have hspec := dimgets_total_spec W.config e 1 hgood
    rw [wrap_xlen_one, one_mul, hw] at hspec
    simp only [he, if_false, hspec, andThen_ok, ne_eq, not_true_eq_false]

/-- C25: `dimgets(vec, val)` on a vector or pairlist `vec` and an integer
vector `val` returns exactly if `val` is not empty, has no `NA` and no
negative entry, and the product of the entries, wrapped around in `R_xlen_t`,
is the length of `vec`; it then returns `vec` with `val` as `dim` and without
`dimnames`.  Where the product is within `R_XLEN_T_MAX` the wrapped product is
the product.  The first entry that is `NA` or negative is the one reported.
With long vector support, `dim(x) <- c(65536L, 65536L, 65536L, 65536L)` on an
empty `x` returns although the product of the entries, 2^64, is not 0; without
it, `c(65536L, 65536L)` does. -/
theorem dimgets_validation :
    (∀ (W : AttribWorld) (vec : SEXP) (e : List (Option Int)) (a : SEXP),
      vec ≠ SEXP.nil → (vec.isVector || vec.isList) = true →
      ((∃ r, dimgets W vec (SEXP.int e a) = CResult.ok r) ↔
        (e ≠ [] ∧ (∀ o ∈ e, ∃ d, o = some d ∧ 0 ≤ d) ∧
          wrap_xlen W.config (dimProduct e) = (vec.length : Int)))) ∧
    (∀ (W : AttribWorld) (vec : SEXP) (e : List (Option Int)) (a : SEXP),
      vec ≠ SEXP.nil → (vec.isVector || vec.isList) = true →
      0 ≤ dimProduct e → dimProduct e ≤ R_XLEN_T_MAX W.config →
      ((∃ r, dimgets W vec (SEXP.int e a) = CResult.ok r) ↔
        (e ≠ [] ∧ (∀ o ∈ e, ∃ d, o = some d ∧ 0 ≤ d) ∧ dimProduct e = (vec.length : Int)))) ∧
    (∀ (W : AttribWorld) (vec : SEXP) (e : List (Option Int)) (a r : SEXP),
      vec ≠ SEXP.nil → (vec.isVector || vec.isList) = true →
      dimgets W vec (SEXP.int e a) = CResult.ok r →
      r.getAttribute "dim" = SEXP.int e a ∧ r.getAttribute "dimnames" = SEXP.nil ∧
        r.length = vec.length ∧
        ∀ m : String, m ≠ "dim" → m ≠ "dimnames" → r.getAttribute m = vec.getAttribute m) ∧
    (∀ (W : AttribWorld) (vec : SEXP) (pre post : List (Option Int)) (a : SEXP),
      vec ≠ SEXP.nil → (vec.isVector || vec.isList) = true →
      (∀ x ∈ pre, ∃ d, x = some d ∧ 0 ≤ d) →
      dimgets W vec (SEXP.int (pre ++ none :: post) a)
          = CResult.error "the dims contain missing values" ∧
        ∀ d : Int, d < 0 →
          dimgets W vec (SEXP.int (pre ++ some d :: post) a)
            = CResult.error "the dims contain negative values") ∧
    (∀ W : AttribWorld, W.config.LONG_VECTOR_SUPPORT = true →
      dimgets W (SEXP.int [] SEXP.nil)
          (SEXP.int [some 65536, some 65536, some 65536, some 65536] SEXP.nil)
        = CResult.ok (SEXP.int [] (ofAttributes
            [("dim", SEXP.int [some 65536, some 65536, some 65536, some 65536] SEXP.nil)]))) ∧
    dimProduct [some 65536, some 65536, some 65536, some 65536] = 18446744073709551616 ∧
    (∀ W : AttribWorld, W.config.LONG_VECTOR_SUPPORT = false →
      dimgets W (SEXP.int [] SEXP.nil) (SEXP.int [some 65536, some 65536] SEXP.nil)
        = CResult.ok (SEXP.int [] (ofAttributes
            [("dim", SEXP.int [some 65536, some 65536] SEXP.nil)]))) ∧
    dimProduct [some 65536, some 65536] = 4294967296 := by
  refine ⟨?_, ?_, ?_, ?_, ?_, ?_, ?_, ?_⟩
  · intro W vec e a hvec ht
    constructor
    · rintro ⟨r, hr⟩
      obtain ⟨h1, h2, h3, _⟩ := (dimgets_ok_iff W hvec ht e a r).mp hr
      exact ⟨h1, h2, h3⟩
    · rintro ⟨h1, h2, h3⟩
      exact ⟨_, (dimgets_ok_iff W hvec ht e a _).mpr ⟨h1, h2, h3, rfl⟩⟩
  · intro W vec e a hvec ht h0 hmax
    rw [← wrap_xlen_of_range W.config h0 hmax]
    constructor
    · rintro ⟨r, hr⟩
      obtain ⟨h1, h2, h3, _⟩ := (dimgets_ok_iff W hvec ht e a r).mp hr
      exact ⟨h1, h2, h3⟩
    · rintro ⟨h1, h2, h3⟩
      exact ⟨_, (dimgets_ok_iff W hvec ht e a _).mpr ⟨h1, h2, h3, rfl⟩⟩
  · intro W vec e a r hvec ht hr
    obtain ⟨_, _, _, rfl⟩ := (dimgets_ok_iff W hvec ht e a r).mp hr
    have hv : SEXP.int e a ≠ SEXP.nil := by intro h; cases h
    refine ⟨getAttribute_setAttribute_same (setAttribute_ne_nil hvec _ _) _ hv, ?_, ?_, ?_⟩
    · rw [getAttribute_setAttribute_other _ (by decide), getAttribute_setAttribute_nil]
    · rw [length_setAttribute, length_setAttribute]
    · intro m h1 h2
      rw [getAttribute_setAttribute_other _ (Ne.symm h1),
        getAttribute_setAttribute_other _ (Ne.symm h2)]
  · intro W vec pre post a hvec ht hpre
    constructor
    · rw [dimgets_int W hvec ht, dimgets_total_first W.config pre none post 1 hpre]
      simp [CResult.andThen]
    · intro d hd
      rw [dimgets_int W hvec ht, dimgets_total_first W.config pre (some d) post 1 hpre]
      simp [CResult.andThen, hd]
  · intro W hW
    have hvec : SEXP.int [] SEXP.nil ≠ SEXP.nil := by intro h; cases h
    apply (dimgets_ok_iff W hvec rfl _ _ _).mpr
    refine ⟨by simp, ?_, ?_, by decide⟩
    · intro o ho
      simp only [List.mem_cons, List.mem_singleton, List.not_mem_nil, or_false, or_self] at ho
      exact ⟨65536, ho, by norm_num⟩
    · unfold wrap_xlen
      rw [hW]
      simp only [if_true]
      unfold wrap64 dimProduct
      norm_num [length]
  · norm_num [dimProduct]
  · intro W hW
    have hvec : SEXP.int [] SEXP.nil ≠ SEXP.nil := by intro h; cases h
    apply (dimgets_ok_iff W hvec rfl _ _ _).mpr
    refine ⟨by simp, ?_, ?_, by decide⟩
    · intro o ho
      simp only [List.mem_cons, List.mem_singleton, List.not_mem_nil, or_false, or_self] at ho
      exact ⟨65536, ho, by norm_num⟩
    · unfold wrap_xlen
      rw [hW]
      simp only [Bool.false_eq_true, if_false]
      unfold wrap32 dimProduct
      norm_num [length]
  · norm_num [dimProduct]

end CXXR

namespace CXXR

open SEXP

/-! ## Slots -/

theorem isList_setAttribute (x : SEXP) (n : String) (v : SEXP) :
    (x.setAttribute n v).isList = x.isList := by
  unfold isList
  rw [TYPEOF_setAttribute]

theorem isLanguage_setAttribute (x : SEXP) (n : String) (v : SEXP) :
    (x.setAttribute n v).isLanguage = x.isLanguage := by
  unfold isLanguage
  rw [TYPEOF_setAttribute]

theorem isVector_setAttribute (x : SEXP) (n : String) (v : SEXP) :
    (x.setAttribute n v).isVector = x.isVector := by
  unfold isVector
  rw [TYPEOF_setAttribute]

/-- What `getAttrib` gives for the attribute `names` just set, on an object
that is no pairlist and no call and has no names by way of a one-element
`dim`. -/
theorem getAttrib_setAttribute_names (W : AttribWorld) {obj : SEXP} (hobj : obj ≠ SEXP.nil)
    (hchar : obj.TYPEOF ≠ SEXPTYPE.CHARSXP) (a : SEXP) {v : SEXP} (hv : v ≠ SEXP.nil)
    (hl : obj.isList = false) (hg : obj.isLanguage = false)
    (hd : (obj.getAttribute "dim").TYPEOF = SEXPTYPE.INTSXP → (obj.getAttribute "dim").length = 1 →
      obj.getAttribute "dimnames" = SEXP.nil) :
    getAttrib W (obj.setAttribute "names" v) (SEXP.sym "names" a) = CResult.ok v := by
  have hpre := getAttrib_pretest_setAttribute hobj hchar "names" hv
  have hne := setAttribute_ne_nil hobj "names" v
  unfold getAttrib getAttrib_body
  rw [hpre]
  simp only [installName_sym, andThen_ok]
  unfold getAttrib_named
  have h1 : sameSymbol (SEXP.sym "names" a) R_RowNamesSymbol = false :=
    sameSymbol_sym_false (by decide) _ _
  simp only [h1, Bool.false_eq_true, if_false]
  unfold getAttrib0
  have h2 : sameSymbol (SEXP.sym "names" a) R_NamesSymbol = true := sameSymbol_sym_self _ _ _
  simp only [hne, if_false, h2, if_true]
  have hlast : getAttrib0_attribute (obj.setAttribute "names" v) (SEXP.sym "names" a)
      = CResult.ok v := by
    rw [getAttrib0_attribute_sym, getAttribute_setAttribute_same hobj _ hv]
    have hb : (("names" : String) == "dimnames") = false := by decide
    simp only [hv, if_false, hb, Bool.false_and, Bool.false_eq_true]
  have hdim : getAttrib_body getAttrib0_attribute W (obj.setAttribute "names" v) R_DimSymbol
      = CResult.ok (obj.getAttribute "dim") := by
    unfold getAttrib_body
    rw [hpre]
    have hi : installName W R_DimSymbol = CResult.ok R_DimSymbol := rfl
    simp only [hi, andThen_ok]
    unfold getAttrib_named
    have h3 : sameSymbol R_DimSymbol R_RowNamesSymbol = false := by decide
    simp only [h3, Bool.false_eq_true, if_false]
    have h4 : getAttrib0_attribute (obj.setAttribute "names" v) R_DimSymbol
        = getAttrib0_attribute (obj.setAttribute "names" v) (SEXP.sym "dim" SEXP.nil) := rfl
    rw [h4, getAttrib0_attribute_sym,
      getAttribute_setAttribute_other obj (by decide : ("names" : String) ≠ "dim")]
    have hb : (("dim" : String) == "dimnames") = false := by decide
    simp only [hb, Bool.false_and, Bool.false_eq_true, if_false]
    split
    · rename_i h
      rw [h]
    · rfl
  have hdimnames : obj.getAttribute "dimnames" = SEXP.nil →
      getAttrib_body getAttrib0_attribute W (obj.setAttribute "names" v) R_DimNamesSymbol
        = CResult.ok SEXP.nil := by
    intro hnil
    unfold getAttrib_body
    rw [hpre]
    have hi : installName W R_DimNamesSymbol = CResult.ok R_DimNamesSymbol := rfl
    simp only [hi, andThen_ok]
    unfold getAttrib_named
    have h3 : sameSymbol R_DimNamesSymbol R_RowNamesSymbol = false := by decide
    simp only [h3, Bool.false_eq_true, if_false]
    have h4 : getAttrib0_attribute (obj.setAttribute "names" v) R_DimNamesSymbol
        = getAttrib0_attribute (obj.setAttribute "names" v) (SEXP.sym "dimnames" SEXP.nil) := rfl
    rw [h4, getAttrib0_attribute_sym,
      getAttribute_setAttribute_other obj (by decide : ("names" : String) ≠ "dimnames"), hnil]
    simp only [if_true]
  rw [isList_setAttribute, isLanguage_setAttribute, isVector_setAttribute, hl, hg]
  simp only [Bool.or_false, Bool.false_eq_true, if_false]
  by_cases hvec : obj.isVector = true
  · simp only [hvec, if_true]
    rw [hdim, andThen_ok]
    by_cases h5 : (obj.getAttribute "dim").TYPEOF = SEXPTYPE.INTSXP ∧
        (obj.getAttribute "dim").length = 1
    · have hnil := hd h5.1 h5.2
      simp only [h5.1, h5.2, decide_True, Bool.and_self, if_true]
      rw [hdimnames hnil, andThen_ok]
      have h6 : SEXP.nil.isNull = true := rfl
      simp only [h6, Bool.not_true, Bool.false_eq_true, if_false, andThen_ok]
      exact hlast
    · have h6 : (decide ((obj.getAttribute "dim").TYPEOF = SEXPTYPE.INTSXP) &&
          decide ((obj.getAttribute "dim").length = 1)) = false := by
        simpa using h5
      simp only [h6, Bool.false_eq_true, if_false, andThen_ok]
      exact hlast
  · simp only [hvec, if_false, andThen_ok]
    exact hlast

end CXXR

namespace CXXR

open SEXP

/-! ## `attr` -/

theorem eq_of_isPrefixOf_of_length {s t : String} (hp : s.toList.isPrefixOf t.toList = true)
    (hl : t.length = s.length) : t = s := by
  have h1 : s.toList <+: t.toList := List.isPrefixOf_iff_prefix.mp hp
  have h3 : s.toList.length = t.toList.length := hl.symm
  have h2 : s.toList = t.toList := h1.eq_of_length h3
  exact (String.ext h2).symm

theorem isPrefixOf_self (s : String) : s.toList.isPrefixOf s.toList = true :=
  List.isPrefixOf_iff_prefix.mpr (List.prefix_refl _)

/-- The loop of `do_attr` stops at the first attribute whose name is `str`. -/
theorem do_attr_loop_full (str : String) :
    ∀ (l : List (SEXP × SEXP)) (st : SEXP × AttrMatch),
      (∃ p ∈ l, printName p.1 = str) →
      ∃ tag, printName tag = str ∧ tag ∈ l.map (fun p => p.1) ∧
        do_attr_loop str l st = (tag, AttrMatch.FULL) := by
  intro l
  induction l with
  | nil =>
    rintro st ⟨p, hp, _⟩
    cases hp
  | cons q rest ih =>
    rintro st ⟨p, hp, hname⟩
    rw [do_attr_loop]
    by_cases hq : printName q.1 = str
    · have h1 : str.toList.isPrefixOf (printName q.1).toList = true := by
        rw [hq]
        exact isPrefixOf_self str
      have h2 : (printName q.1).length = str.length := by rw [hq]
      simp only [h1, if_true, h2]
      exact ⟨q.1, hq, by simp, rfl⟩
    · have hrest : ∃ p ∈ rest, printName p.1 = str := by
        rcases List.mem_cons.mp hp with rfl | hp
        · exact absurd hname hq
        · exact ⟨p, hp, hname⟩
      by_cases h1 : str.toList.isPrefixOf (printName q.1).toList = true
      · have h2 : ¬ (printName q.1).length = str.length :=
          fun h => hq (eq_of_isPrefixOf_of_length h1 h)
        simp only [h1, if_true, h2, if_false]
        split
        · obtain ⟨tag, ht1, ht2, ht3⟩ := ih (st.1, AttrMatch.PARTIAL2) hrest
          exact ⟨tag, ht1, by simp only [List.map_cons]; exact List.mem_cons_of_mem _ ht2, ht3⟩
        · obtain ⟨tag, ht1, ht2, ht3⟩ := ih (q.1, AttrMatch.PARTIAL) hrest
          exact ⟨tag, ht1, by simp only [List.map_cons]; exact List.mem_cons_of_mem _ ht2, ht3⟩
      · simp only [h1, if_false]
        obtain ⟨tag, ht1, ht2, ht3⟩ := ih st hrest
        exact ⟨tag, ht1, by simp only [List.map_cons]; exact List.mem_cons_of_mem _ ht2, ht3⟩

/-- Without an attribute whose name is `str`, the loop of `do_attr` does not
end in a full match. -/
theorem do_attr_loop_not_full (str : String) :
    ∀ (l : List (SEXP × SEXP)) (st : SEXP × AttrMatch),
      (∀ p ∈ l, printName p.1 ≠ str) → st.2 ≠ AttrMatch.FULL →
      (do_attr_loop str l st).2 ≠ AttrMatch.FULL := by
  intro l
  induction l with
  | nil =>
    intro st _ hst
    exact hst
  | cons q rest ih =>
    intro st h hst
    have hq := h q (List.mem_cons_self _ _)
    have hrest : ∀ p ∈ rest, printName p.1 ≠ str := fun p hp => h p (List.mem_cons_of_mem _ hp)
    rw [do_attr_loop]
    by_cases h1 : str.toList.isPrefixOf (printName q.1).toList = true
    · have h2 : ¬ (printName q.1).length = str.length :=
        fun h => hq (eq_of_isPrefixOf_of_length h1 h)
      simp only [h1, if_true, h2, if_false]
      split
      · exact ih _ hrest (fun h => by cases h)
      · exact ih _ hrest (fun h => by cases h)
    · simp only [h1, if_false]
      exact ih st hrest hst

/-- Without an attribute whose name starts with `str`, the loop of `do_attr`
changes nothing. -/
theorem do_attr_loop_none (str : String) :
    ∀ (l : List (SEXP × SEXP)) (st : SEXP × AttrMatch),
      (∀ p ∈ l, str.toList.isPrefixOf (printName p.1).toList = false) →
      do_attr_loop str l st = st := by
  intro l
  induction l with
  | nil =>
    intro st _
    rfl
  | cons q rest ih =>
    intro st h
    rw [do_attr_loop]
    simp only [h q (List.mem_cons_self _ _), Bool.false_eq_true, if_false]
    exact ih st (fun p hp => h p (List.mem_cons_of_mem _ hp))

theorem do_attr_string (W : AttribWorld) (x : SEXP) (which : String) (a : SEXP)
    (exact : Bool) :
    do_attr W x (SEXP.str [some which] a) exact
      = do_attr_result W x which exact
          (do_attr_loop which x.ATTRIB.cells (SEXP.nil, AttrMatch.NONE)) := rfl

/-- C27: `do_attr` on an object with two attributes whose names start with
`names` returns `NULL` for `which = "names"`, although the object has names,
by way of the dimnames of a 1-d array or of the tags of a pairlist, which
`getAttrib` returns.  Where the attribute list itself holds an attribute named
`which`, `do_attr` returns what `getAttrib` gives for it, whatever the other
names; where no attribute name starts with `names`, `do_attr` returns the
names for `which = "names"`; and with `exact = TRUE` and no attribute named
`which`, other than `names`, it returns `NULL`. -/
theorem do_attr_full_match :
    (do_attr (sampleAttribWorld { LONG_VECTOR_SUPPORT := true }) sampleArray
        (SEXP.str [some "names"] SEXP.nil) false = CResult.ok SEXP.nil ∧
      getAttrib (sampleAttribWorld { LONG_VECTOR_SUPPORT := true }) sampleArray R_NamesSymbol
        = CResult.ok (SEXP.str [some "a", some "b", some "c"] SEXP.nil)) ∧
    (do_attr (sampleAttribWorld { LONG_VECTOR_SUPPORT := true }) samplePairlist
        (SEXP.str [some "names"] SEXP.nil) true = CResult.ok SEXP.nil ∧
      getAttrib (sampleAttribWorld { LONG_VECTOR_SUPPORT := true }) samplePairlist R_NamesSymbol
        = CResult.ok (SEXP.str [some "a"] SEXP.nil)) ∧
    (∀ (W : AttribWorld) (x : SEXP) (which : String) (a : SEXP) (exact : Bool),
      (∃ p ∈ x.ATTRIB.cells, printName p.1 = which) →
      ∃ tag, printName tag = which ∧ tag ∈ x.ATTRIB.cells.map (fun p => p.1) ∧
        do_attr W x (SEXP.str [some which] a) exact = getAttrib W x tag) ∧
    (∀ (W : AttribWorld) (x : SEXP) (a : SEXP) (exact : Bool),
      (∀ p ∈ x.ATTRIB.cells, ("names" : String).toList.isPrefixOf (printName p.1).toList = false) →
      do_attr W x (SEXP.str [some "names"] a) exact = getAttrib W x R_NamesSymbol) ∧
    (∀ (W : AttribWorld) (x : SEXP) (which : String) (a t : SEXP),
      (∀ p ∈ x.ATTRIB.cells, printName p.1 ≠ which) → which ≠ "names" →
      getAttrib W x R_NamesSymbol = CResult.ok t →
      do_attr W x (SEXP.str [some which] a) true = CResult.ok SEXP.nil) := by
  refine ⟨⟨by decide, by decide⟩, ⟨by decide, by decide⟩, ?_, ?_, ?_⟩
  · intro W x which a exact h
    obtain ⟨tag, h1, h2, h3⟩ := do_attr_loop_full which x.ATTRIB.cells (SEXP.nil, AttrMatch.NONE) h
    refine ⟨tag, h1, h2, ?_⟩
    rw [do_attr_string, h3]
    unfold do_attr_result
    simp
  · intro W x a exact h
    rw [do_attr_string, do_attr_loop_none _ _ _ h]
    unfold do_attr_result
    have h1 : ("names" : String).toList.isPrefixOf ("names" : String).toList = true :=
      isPrefixOf_self _
    simp [h1]
  · intro W x which a t h hw ht
    rw [do_attr_string]
    have hnf := do_attr_loop_not_full which x.ATTRIB.cells (SEXP.nil, AttrMatch.NONE) h
      (by decide)
    generalize do_attr_loop which x.ATTRIB.cells (SEXP.nil, AttrMatch.NONE) = st at hnf
    unfold do_attr_result
    have hlen : which.toList.isPrefixOf ("names" : String).toList = true →
        ¬ which.length = ("names" : String).length :=
      fun hp hl => hw (eq_of_isPrefixOf_of_length hp hl.symm).symm
    by_cases h2 : st.2 = AttrMatch.PARTIAL2
    · simp [h2]
    · by_cases hp : which.toList.isPrefixOf ("names" : String).toList = true
      · have hl := hlen hp
        simp only [h2, if_false, hnf, ne_eq, not_false_eq_true, decide_True, hp, Bool.and_self,
          if_true, hl, Bool.not_true, Bool.and_false, Bool.false_eq_true, Bool.true_and,
          Bool.or_true, ht, andThen_ok]
        split
        · split <;> rfl
        · rfl
      · simp only [h2, if_false, hp, Bool.and_false, Bool.false_eq_true, hnf, ne_eq,
          not_false_eq_true, decide_True, Bool.true_and, Bool.or_true, if_true]

end CXXR

namespace CXXR

open SEXP

/-! ## `attributes<-` -/

theorem CHAR_head (s : Option String) : (CHAR s).toList.head? = none ↔ s = some "" := by
  cases s with
  | none => simp [CHAR]
  | some t =>
    simp only [CHAR, Option.getD_some, List.head?_eq_none_iff, Option.some.injEq]
    constructor
    · intro h
      exact String.ext h
    · intro h
      rw [h]
      rfl

/-- The loop of `do_attributesgets` over the names passes if none of the names
that it looks at is empty. -/
theorem do_attributesgets_names_ok (ns : List (Option String)) (a : SEXP) :
    ∀ (fuel i : Nat), i + fuel = ns.length →
      (∀ j, i ≤ j → ns[j]? ≠ some (some "")) →
      do_attributesgets_names (SEXP.str ns a) fuel i = CResult.ok () := by
  intro fuel
  induction fuel with
  | zero =>
    intro i _ _
    rfl
  | succ fuel ih =>
    intro i hlen h
    rw [do_attributesgets_names]
    have hi : i < ns.length := by omega
    have he : (SEXP.str ns a).STRING_ELT i = some (ns.get ⟨i, hi⟩) := by
      simp [STRING_ELT, List.getElem?_eq_getElem hi]
    rw [he]
    have hne : ¬ (CHAR (ns.get ⟨i, hi⟩)).toList.head? = none := by
      intro hc
      have := (CHAR_head _).mp hc
      apply h i (le_refl i)
      rw [List.getElem?_eq_getElem hi]
      exact congrArg some this
    simp only [hne, if_false]
    exact ih (i + 1) (by omega) (fun j hj => h j (by omega))

/-- The loop of `do_attributesgets` over the names raises the error at an
empty name that it looks at. -/
theorem do_attributesgets_names_error (ns : List (Option String)) (a : SEXP) :
    ∀ (fuel i : Nat), i + fuel = ns.length →
      (∃ j, i ≤ j ∧ ns[j]? = some (some "")) →
      do_attributesgets_names (SEXP.str ns a) fuel i
        = CResult.error "all attributes must have names [%d does not]" := by
  intro fuel
  induction fuel with
  | zero =>
    rintro i hlen ⟨j, hj, hs⟩
    have : j < ns.length := by
      by_contra hc
      rw [List.getElem?_eq_none (not_lt.mp hc)] at hs
      cases hs
    omega
  | succ fuel ih =>
    rintro i hlen ⟨j, hj, hs⟩
    rw [do_attributesgets_names]
    have hi : i < ns.length := by omega
    have he : (SEXP.str ns a).STRING_ELT i = some (ns.get ⟨i, hi⟩) := by
      simp [STRING_ELT, List.getElem?_eq_getElem hi]
    rw [he]
    by_cases hc : (CHAR (ns.get ⟨i, hi⟩)).toList.head? = none
    · simp only [hc, if_true]
    · simp only [hc, if_false]
      apply ih (i + 1) (by omega)
      refine ⟨j, ?_, hs⟩
      rcases Nat.eq_or_lt_of_le hj with rfl | hlt
      · exfalso
        apply hc
        apply (CHAR_head _).mpr
        rw [List.getElem?_eq_getElem hi] at hs
        exact Option.some.inj hs
      · exact hlt

/-- The names that `getAttrib` gives for a generic vector without other
attributes. -/
theorem getAttrib_names_of_vec (W : AttribWorld) (elements : SEXP) (ns : List (Option String)) :
    getAttrib W ((SEXP.vec elements SEXP.nil).setAttribute "names" (SEXP.str ns SEXP.nil))
        R_NamesSymbol = CResult.ok (SEXP.str ns SEXP.nil) :=
  getAttrib_setAttribute_names W (by intro h; cases h) (by intro h; cases h) SEXP.nil
    (by intro h; cases h) rfl rfl (fun _ _ => rfl)

/-- C28: the checks of `do_attributesgets` look at the names from the second
on.  For a list `attrs` of at least one element with the names `ns`, they
raise the error of an attribute without name if a name from the second on is
empty, and pass otherwise, whatever the first name; a list without names
raises the error that attributes must be named.  For `attributes(x) <-
list(1L, b = 2L)`, whose first name is empty, the checks pass, the attributes
of the object are emptied, and the call ends in what `installTrChar` does on
the empty name: an attribute with the empty name where it returns, its error
where it raises one. -/
theorem do_attributesgets_named :
    (∀ (W : AttribWorld) (elements : SEXP) (ns : List (Option String)),
      elements.cells.length = ns.length → 0 < ns.length →
      (∃ j, 1 ≤ j ∧ ns[j]? = some (some "")) →
      do_attributesgets_checks W
          ((SEXP.vec elements SEXP.nil).setAttribute "names" (SEXP.str ns SEXP.nil))
        = CResult.error "all attributes must have names [%d does not]") ∧
    (∀ (W : AttribWorld) (elements : SEXP) (ns : List (Option String)),
      elements.cells.length = ns.length → 0 < ns.length →
      (∀ j, 1 ≤ j → ns[j]? ≠ some (some "")) →
      do_attributesgets_checks W
          ((SEXP.vec elements SEXP.nil).setAttribute "names" (SEXP.str ns SEXP.nil))
        = CResult.ok (SEXP.str ns SEXP.nil)) ∧
    (∀ (W : AttribWorld) (elements : SEXP), 0 < elements.cells.length →
      do_attributesgets_checks W (SEXP.vec elements SEXP.nil)
        = CResult.error "attributes must be named") ∧
    (∀ (W : AttribWorld) (object elements : SEXP) (ns : List (Option String)),
      elements.cells.length = ns.length → 0 < ns.length →
      (∃ j, 1 ≤ j ∧ ns[j]? = some (some "")) →
      do_attributesgets W object
          ((SEXP.vec elements SEXP.nil).setAttribute "names" (SEXP.str ns SEXP.nil))
        = CResult.error "all attributes must have names [%d does not]") ∧
    (∀ W : AttribWorld,
      do_attributesgets_checks W sampleAttrs = CResult.ok (SEXP.str [some "", some "b"] SEXP.nil)) ∧
    do_attributesgets (sampleAttribWorld { LONG_VECTOR_SUPPORT := true }) sampleObject sampleAttrs
      = CResult.ok (SEXP.int [some 1] (ofAttributes
          [("", SEXP.int [some 1] SEXP.nil), ("b", SEXP.int [some 2] SEXP.nil)])) ∧
    (∀ (W : AttribWorld) (m : String), W.installTrChar (some "") = CResult.error m →
      do_attributesgets W sampleObject sampleAttrs = CResult.error m) := by
  have hchecks : ∀ (W : AttribWorld) (elements : SEXP) (ns : List (Option String)),
      elements.cells.length = ns.length → 0 < ns.length →
      do_attributesgets_checks W
          ((SEXP.vec elements SEXP.nil).setAttribute "names" (SEXP.str ns SEXP.nil))
        = (do_attributesgets_names (SEXP.str ns SEXP.nil) (ns.length - 1) 1).andThen
            fun _ => CResult.ok (SEXP.str ns SEXP.nil) := by
    intro W elements ns hlen hpos
    unfold do_attributesgets_checks
    have h1 : ((SEXP.vec elements SEXP.nil).setAttribute "names"
        (SEXP.str ns SEXP.nil)).isNewList = true := by
      unfold isNewList
      rw [TYPEOF_setAttribute]
      rfl
    have h2 : ((SEXP.vec elements SEXP.nil).setAttribute "names"
        (SEXP.str ns SEXP.nil)).length = ns.length := by
      rw [length_setAttribute]
      exact hlen
    have h3 : SEXP.str ns SEXP.nil ≠ SEXP.nil := by intro h; cases h
    simp only [h1, Bool.not_true, Bool.false_eq_true, if_false, h2, hpos, gt_iff_lt, if_true,
      getAttrib_names_of_vec, andThen_ok, h3]
  refine ⟨?_, ?_, ?_, ?_, ?_, by decide, ?_⟩
  · intro W elements ns hlen hpos hj
    rw [hchecks W elements ns hlen hpos,
      do_attributesgets_names_error ns SEXP.nil (ns.length - 1) 1 (by omega) hj]
    rfl
  · intro W elements ns hlen hpos hj
    rw [hchecks W elements ns hlen hpos,
      do_attributesgets_names_ok ns SEXP.nil (ns.length - 1) 1 (by omega) hj]
    rfl
  · intro W elements hpos
    unfold do_attributesgets_checks
    have h1 : (SEXP.vec elements SEXP.nil).isNewList = true := rfl
    have h2 : (SEXP.vec elements SEXP.nil).length = elements.cells.length := rfl
    have h3 : getAttrib W (SEXP.vec elements SEXP.nil) R_NamesSymbol = CResult.ok SEXP.nil := rfl
    simp only [h1, Bool.not_true, Bool.false_eq_true, if_false, h2, hpos, gt_iff_lt, if_true,
      h3, andThen_ok]
  · intro W object elements ns hlen hpos hj
    unfold do_attributesgets
    rw [hchecks W elements ns hlen hpos,
      do_attributesgets_names_error ns SEXP.nil (ns.length - 1) 1 (by omega) hj]
    rfl
  · intro W
    have h := hchecks W (ofElements [SEXP.int [some 1] SEXP.nil, SEXP.int [some 2] SEXP.nil])
      [some "", some "b"] rfl (by decide)
    have hs : (SEXP.vec (ofElements [SEXP.int [some 1] SEXP.nil, SEXP.int [some 2] SEXP.nil])
        SEXP.nil).setAttribute "names" (SEXP.str [some "", some "b"] SEXP.nil) = sampleAttrs := by
      decide
    rw [hs] at h
    rw [h]
    decide
  · intro W m hW
    have h := hchecks W (ofElements [SEXP.int [some 1] SEXP.nil, SEXP.int [some 2] SEXP.nil])
      [some "", some "b"] rfl (by decide)
    have hs : (SEXP.vec (ofElements [SEXP.int [some 1] SEXP.nil, SEXP.int [some 2] SEXP.nil])
        SEXP.nil).setAttribute "names" (SEXP.str [some "", some "b"] SEXP.nil) = sampleAttrs := by
      decide
    rw [hs] at h
    unfold do_attributesgets
    rw [h]
    have hn2 : (do_attributesgets_names (SEXP.str [some "", some "b"] SEXP.nil)
        (([some "", some "b"] : List (Option String)).length - 1) 1).andThen
          (fun _ => CResult.ok (SEXP.str [some "", some "b"] SEXP.nil))
        = CResult.ok (SEXP.str [some "", some "b"] SEXP.nil) := by decide
    rw [hn2, andThen_ok]
    unfold do_attributesgets_update
    have e1 : (sampleObject = SEXP.nil ∧ sampleAttrs = SEXP.nil) = False := by
      simp [sampleObject]
    have e2 : (sampleObject = SEXP.nil) = False := by simp [sampleObject]
    have e3 : sampleObject.isList = false := by decide
    have e4 : sampleAttrs.length = 2 := by decide
    have e5 : do_attributesgets_dim (SEXP.str [some "", some "b"] SEXP.nil) 2 0
        = CResult.ok none := by decide
    simp only [e1, e2, if_false, e3, Bool.false_eq_true, andThen_ok, e4, gt_iff_lt,
      Nat.zero_lt_succ, if_true, e5]
    rw [do_attributesgets_rest]
    have e6 : (some 0 = (none : Option Nat)) = False := by simp
    have e7 : (SEXP.str [some "", some "b"] SEXP.nil).STRING_ELT 0 = some (some "") := rfl
    have e8 : sampleAttrs.VECTOR_ELT 0 = some (SEXP.int [some 1] SEXP.nil) := by decide
    simp only [e6, if_false, e7, e8, hW]
    rfl

end CXXR

namespace CXXR

/-! ## `rep` with `times` and `each` -/

/-- `rep2` on times that are neither `NA` nor negative gives the reference. -/
theorem rep2_spec {α : Type} (c : Config) (s : List α) (ts : List Nat)
    (hl : ts.length = s.length) (hmax : ∀ t ∈ ts, (t : Int) ≤ INT_MAX)
    (hsum : ((ts.sum : Nat) : Int) ≤ R_XLEN_T_MAX c) :
    rep2 c s (ts.map (fun (t : Nat) => some (t : Int))) = CResult.ok (rep_each_reference s ts) := by
  have hlen := rep_each_reference_length s ts hl
  have hc := rep2_count_spec c ts 0 (le_refl _) (by simpa using hsum)
  have hf := rep2_fill_spec s ts [] hl hmax
  simp only [zero_add] at hc
  unfold rep2
  rw [hc]
  simp only
  rw [allocVector_check_ok c (by omega) hsum]
  simp only
  rw [hf]
  simp only [List.nil_append]
  rw [if_pos (by rw [hlen])]

theorem rep_each_reference_zero {α : Type} : ∀ (xs : List α) (ts : List Nat),
    ts.sum = 0 → rep_each_reference xs ts = [] := by
  intro xs
  induction xs with
  | nil =>
    intro ts _
    cases ts <;> rfl
  | cons v xs ih =>
    intro ts h
    cases ts with
    | nil => rfl
    | cons t ts =>
      simp only [List.sum_cons] at h
      have ht : t = 0 := by omega
      have hts : ts.sum = 0 := by omega
      subst ht
      simp [rep_each_reference, ih ts hts]

theorem rep_each_reference_replicate {α : Type} (v : α) (ys : List α) (ts2 : List Nat) :
    ∀ ts1 : List Nat,
      rep_each_reference (List.replicate ts1.length v ++ ys) (ts1 ++ ts2)
        = List.replicate ts1.sum v ++ rep_each_reference ys ts2 := by
  intro ts1
  induction ts1 with
  | nil => simp
  | cons t ts1 ih =>
    show rep_each_reference (v :: (List.replicate ts1.length v ++ ys)) (t :: (ts1 ++ ts2)) = _
    rw [rep_each_reference, ih, List.sum_cons, List.replicate_add, List.append_assoc]

theorem rep_in_place_length {α : Type} (each : Nat) (xs : List α) :
    (rep_in_place each xs).length = xs.length * each := by
  induction xs with
  | nil => simp [rep_in_place]
  | cons v xs ih =>
    simp only [rep_in_place, List.length_append, List.length_replicate, ih, List.length_cons]
    ring

/-- The loop of `rep4` that adds up the next `each` entries of `times`. -/
theorem rep4_sum_spec (c : Config) (rest : List (Option Int)) :
    ∀ (ts1 : List Nat) (s0 : Int), 0 ≤ s0 → s0 + (ts1.sum : Nat) ≤ R_XLEN_T_MAX c →
      rep4_sum c ts1.length s0 (ts1.map (fun (t : Nat) => some (t : Int)) ++ rest)
        = CResult.ok (s0 + (ts1.sum : Nat), rest) := by
  intro ts1
  induction ts1 with
  | nil =>
    intro s0 _ _
    simp [rep4_sum]
  | cons t ts1 ih =>
    intro s0 h0 hmax
    simp only [List.sum_cons, Nat.cast_add] at hmax
    show rep4_sum c (ts1.length + 1) s0
      (some (t : Int) :: (ts1.map (fun (t : Nat) => some (t : Int)) ++ rest)) = _
    rw [rep4_sum, Option.getD_some, wrap_xlen_of_range c (by omega) (by omega),
      ih (s0 + t) (by omega) (by omega)]
    simp only [List.sum_cons, Nat.cast_add]
    rw [add_assoc]

/-- The loop of `rep4` that writes `n` copies of an element. -/
theorem rep4_copy_spec {α : Type} (v : α) (len : Int) :
    ∀ (n : Nat) (a : List α), (a.length : Int) + n ≤ len →
      rep4_copy v len n a
        = CResult.ok (a ++ List.replicate n v, decide (0 < n ∧ (a.length : Int) + n = len)) := by
  intro n
  induction n with
  | zero =>
    intro a _
    simp [rep4_copy]
  | succ n ih =>
    intro a h
    rw [rep4_copy]
    have h1 : ¬ len ≤ (a.length : Int) := by omega
    simp only [h1, if_false]
    by_cases h2 : (a.length : Int) + 1 = len
    · have hn : n = 0 := by omega
      subst hn
      simp [h2]
    · simp only [h2, if_false]
      rw [ih (a ++ [v]) (by simp; omega)]
      have e1 : a ++ [v] ++ List.replicate n v = a ++ List.replicate (n + 1) v := by
        simp [List.replicate_succ]
      rw [e1]
      congr 2
      simp only [List.length_append, List.length_singleton, Nat.cast_add, Nat.cast_one,
        decide_eq_decide]
      constructor
      · rintro ⟨_, h3⟩
        exact ⟨by omega, by omega⟩
      · rintro ⟨_, h3⟩
        refine ⟨?_, by omega⟩
        by_contra hc
        have : n = 0 := by omega
        subst this
        omega

/-- The loop of `rep4` over the elements of `x`: every element is written as
often as the sum of its `each` entries of `times` says. -/
theorem rep4_blocks_spec {α : Type} (c : Config) (len : Int) (each : Nat)
    (hlen : len ≤ R_XLEN_T_MAX c) :
    ∀ (xs : List α) (ts : List Nat) (a : List α), ts.length = xs.length * each →
      (a.length : Int) + (ts.sum : Nat) = len →
      rep4_blocks c len each xs (ts.map (fun (t : Nat) => some (t : Int))) a
        = CResult.ok (a ++ rep_each_reference (rep_in_place each xs) ts) := by
  intro xs
  induction xs with
  | nil =>
    intro ts a hl _
    have : ts = [] := List.length_eq_zero.mp (by simpa using hl)
    subst this
    simp [rep4_blocks, rep_in_place, rep_each_reference]
  | cons v xs ih =>
    intro ts a hl hsum
    have hsplit : ts = ts.take each ++ ts.drop each := (List.take_append_drop each ts).symm
    have htl : (ts.take each).length = each := by
      rw [List.length_take]
      simp only [List.length_cons] at hl
      have : each ≤ ts.length := by
        rw [hl]
        exact Nat.le_mul_of_pos_left _ (by omega)
      omega
    have hdl : (ts.drop each).length = xs.length * each := by
      rw [List.length_drop, hl]
      simp only [List.length_cons]
      rw [Nat.add_mul, Nat.one_mul, Nat.add_sub_cancel]
    have hs : ts.sum = (ts.take each).sum + (ts.drop each).sum := by
      conv_lhs => rw [hsplit]
      rw [List.sum_append]
    have hsI : ((ts.sum : Nat) : Int)
        = ((ts.take each).sum : Nat) + ((ts.drop each).sum : Nat) := by
      rw [hs]
      exact Nat.cast_add _ _
    have hmap : ts.map (fun (t : Nat) => some (t : Int))
        = (ts.take each).map (fun (t : Nat) => some (t : Int))
          ++ (ts.drop each).map (fun (t : Nat) => some (t : Int)) := by
      conv_lhs => rw [hsplit]
      rw [List.map_append]
    have hsum1 := rep4_sum_spec c ((ts.drop each).map (fun (t : Nat) => some (t : Int)))
      (ts.take each) 0 (le_refl _) (by omega)
    rw [htl, zero_add] at hsum1
    rw [rep4_blocks, Int.toNat_ofNat, hmap, hsum1, andThen_ok]
    simp only [Int.toNat_ofNat]
    rw [rep4_copy_spec v len (ts.take each).sum a (by omega), andThen_ok]
    have href : rep_each_reference (rep_in_place each (v :: xs)) ts
        = List.replicate (ts.take each).sum v
          ++ rep_each_reference (rep_in_place each xs) (ts.drop each) := by
      conv_lhs => rw [hsplit]
      rw [rep_in_place]
      have := rep_each_reference_replicate v (rep_in_place each xs) (ts.drop each) (ts.take each)
      rw [htl] at this
      exact this
    rw [href]
    by_cases hd : 0 < (ts.take each).sum ∧ (a.length : Int) + ((ts.take each).sum : Nat) = len
    · have hz : (ts.drop each).sum = 0 := by
        have := hd.2
        omega
      simp only [hd, and_self, decide_True, if_true]
      rw [rep_each_reference_zero _ _ hz, List.append_nil]
    · simp only [hd, decide_False, Bool.false_eq_true, if_false]
      rw [ih (ts.drop each) (a ++ List.replicate (ts.take each).sum v) hdl (by
        simp only [List.length_append, List.length_replicate, Nat.cast_add]
        omega)]
      rw [List.append_assoc]

theorem tdiv_tmod_natCast (i each lx : Nat) :
    ((i : Int).tdiv (each : Int)).tmod (lx : Int) = ((i / each % lx : Nat) : Int) := by
  rw [Int.tdiv_eq_ediv (by omega) (by omega)]
  rw [Int.tmod_eq_emod (Int.ediv_nonneg (by omega) (by omega)) (by omega)]
  push_cast
  rfl

/-- The loop of `rep4` for a single value of `times`: place `k` of the result
holds `x[(k / each) mod lx]`. -/
theorem rep4_cycle_spec {α : Type} (c : Config) (x : List α) (len : Int) (each : Nat)
    (hlen : len ≤ R_XLEN_T_MAX c) (he : 0 < each) (hx : 0 < x.length) :
    ∀ (d fuel : Nat) (i : Int) (a : List α), i + d = len → 0 ≤ i → (a.length : Int) = i →
      (∀ k : Nat, k < a.length → a[k]? = x[k / each % x.length]?) → d < fuel →
      ∃ v, rep4_cycle c x len each fuel i a = CResult.ok v ∧ (v.length : Int) = len ∧
        ∀ k : Nat, k < v.length → v[k]? = x[k / each % x.length]? := by
  intro d
  induction d with
  | zero =>
    intro fuel i a hi _ hl ha hf
    obtain ⟨f, rfl⟩ : ∃ f, fuel = f + 1 := ⟨fuel - 1, by omega⟩
    have : ¬ i < len := by omega
    exact ⟨a, by simp [rep4_cycle, this], by omega, ha⟩
  | succ d ih =>
    intro fuel i a hi h0 hl ha hf
    obtain ⟨f, rfl⟩ : ∃ f, fuel = f + 1 := ⟨fuel - 1, by omega⟩
    have hlt : i < len := by omega
    have hidx : rep4_index i each x.length = some ((a.length / each % x.length : Nat) : Int) := by
      unfold rep4_index
      have h1 : ¬ ((each : Int) = 0 ∨ (x.length : Int) = 0) := by omega
      rw [if_neg h1, ← hl, tdiv_tmod_natCast]
    have hjn : a.length / each % x.length < x.length := Nat.mod_lt _ hx
    have hget : x[a.length / each % x.length]? = some (x.get ⟨_, hjn⟩) :=
      List.getElem?_eq_getElem hjn
    have hw1 : wrap_xlen c (i + 1) = i + 1 := wrap_xlen_of_range c (by omega) (by omega)
    have hstep : rep4_cycle c x len each (f + 1) i a
        = rep4_cycle c x len each f (i + 1) (a ++ [x.get ⟨_, hjn⟩]) := by
      rw [rep4_cycle]
      simp only [hlt, if_true, hidx]
      have h2 : ¬ ((a.length / each % x.length : Nat) : Int) < 0 := by omega
      simp only [h2, if_false, Int.toNat_ofNat, hget, hw1]
    obtain ⟨v, e, hv1, hv2⟩ := ih f (i + 1) (a ++ [x.get ⟨_, hjn⟩]) (by omega) (by omega)
      (by simp; omega)
      (by
        intro k hk
        by_cases hka : k < a.length
        · rw [List.getElem?_append_left hka]
          exact ha k hka
        · have hk2 : k = a.length := by
            simp only [List.length_append, List.length_singleton] at hk
            omega
          subst hk2
          rw [List.getElem?_append_right (le_refl _)]
          simp only [Nat.sub_self, List.getElem?_cons_zero]
          rw [hget])
      (by omega)
    exact ⟨v, by rw [hstep, e], hv1, hv2⟩

/-- `rep3` on a vector that is not empty: place `k` of the result holds
`s[k mod ns]`. -/
theorem rep3_spec {α : Type} (c : Config) (s : List α) (na : Nat)
    (hna : (na : Int) ≤ R_XLEN_T_MAX c) (hs : 0 < s.length)
    (hns : (s.length : Int) ≤ R_XLEN_T_MAX c) :
    ∃ v, rep3 c s s.length na = CResult.ok v ∧ v.length = na ∧
      ∀ k : Nat, k < v.length → v[k]? = s[k % s.length]? := by
  unfold rep3
  rw [allocVector_check_ok c (by omega) hna]
  simp only
  obtain ⟨v, e, hv1, hv2⟩ := rep3_fill_spec c s (na : Int) hna hns na ((na : Int).toNat + 1) 0 0 []
    (by simp) (le_refl _) (fun _ => ⟨hs, by simp⟩) (by simp) (fun k hk => by simp at hk)
    (by rw [Int.toNat_ofNat]; omega)
  exact ⟨v, e, by omega, hv2⟩

/-- `rep4` with a single value of `times`: place `i` of the result, which has
`len` places, holds `x[(i / each) mod lx]`. -/
theorem rep4_single_spec {α : Type} (c : Config) (x : List α) (each len : Nat)
    (times : List (Option Int)) (hx : 1 ≤ x.length) (hxm : (x.length : Int) ≤ R_XLEN_T_MAX c)
    (he : 1 ≤ each) (hlen : (len : Int) ≤ R_XLEN_T_MAX c) :
    ∃ v, rep4 c x times len each 1 = CResult.ok v ∧ v.length = len ∧
      ∀ i : Nat, i < len → v[i]? = x[i / each % x.length]? := by
  by_cases he1 : each = 1
  · subst he1
    obtain ⟨v, e, hv1, hv2⟩ := rep3_spec c x len hlen (by omega) hxm
    refine ⟨v, ?_, hv1, ?_⟩
    · unfold rep4
      simp only [Nat.cast_one, and_self, if_true]
      exact e
    · intro i hi
      rw [hv2 i (by omega), Nat.div_one]
  · have h1 : ¬ ((each : Int) = 1 ∧ (1 : Int) = 1) := by
      intro h
      apply he1
      exact_mod_cast h.1
    obtain ⟨v, e, hv1, hv2⟩ := rep4_cycle_spec c x (len : Int) each hlen (by omega) (by omega)
      len ((len : Int).toNat + 1) 0 [] (by simp) (le_refl _) (by simp)
      (fun k hk => by simp at hk) (by rw [Int.toNat_ofNat]; omega)
    refine ⟨v, ?_, by omega, fun i hi => hv2 i (by omega)⟩
    unfold rep4
    rw [if_neg h1, allocVector_check_ok c (by omega) hlen, andThen_ok]
    simp only [if_true]
    exact e

theorem allocVector_check_error (c : Config) {n : Int} (h : ¬ (0 ≤ n ∧ n ≤ R_XLEN_T_MAX c)) :
    ∃ m, allocVector_check c n = CResult.error m := by
  unfold allocVector_check
  by_cases h1 : n < 0
  · exact ⟨_, if_pos h1⟩
  · rw [if_neg h1]
    have h2 : n > R_XLEN_T_MAX c := by
      by_contra hc
      exact h ⟨by omega, by omega⟩
    exact ⟨_, if_pos h2⟩

/-- C33 (`rep` with `each` and `times`).  `x` is a vector with the elements
given, of length `lx` at least 1, and `each` is at least 1; the result is taken
to be a vector that R can hold, of at most `R_XLEN_T_MAX` elements.  For a
vector `times` of length `lx * each` without `NA` and negative entries and
`len = sum(times)`, `rep4(x, times, len, each, lx * each)` returns what `rep2`
returns on `times` and the vector that has every element of `x` repeated
`each` times in place, namely the reference of `rep.int` on the two.  For
`nt == 1`, `rep4` returns the vector of length `len` whose element `i` is
`x[(i / each) mod lx]`, and for `each == 1` the call is the call of `rep3`. -/
theorem rep4_composition {α : Type} (c : Config) (x : List α) :
    (∀ (each : Nat) (ts : List Nat), 1 ≤ x.length → 1 ≤ each →
      ts.length = x.length * each → (∀ t ∈ ts, (t : Int) ≤ INT_MAX) →
      ((ts.sum : Nat) : Int) ≤ R_XLEN_T_MAX c →
      rep4 c x (ts.map (fun (t : Nat) => some (t : Int))) (ts.sum : Nat) each
          ((x.length * each : Nat) : Int)
        = rep2 c (rep_in_place each x) (ts.map (fun (t : Nat) => some (t : Int))) ∧
      rep2 c (rep_in_place each x) (ts.map (fun (t : Nat) => some (t : Int)))
        = CResult.ok (rep_each_reference (rep_in_place each x) ts) ∧
      (rep_each_reference (rep_in_place each x) ts).length = ts.sum) ∧
    (∀ (each len : Nat) (times : List (Option Int)), 1 ≤ x.length →
      (x.length : Int) ≤ R_XLEN_T_MAX c → 1 ≤ each → (len : Int) ≤ R_XLEN_T_MAX c →
      ∃ v, rep4 c x times len each 1 = CResult.ok v ∧ v.length = len ∧
        ∀ i : Nat, i < len → v[i]? = x[i / each % x.length]?) ∧
    (∀ (len : Int) (times : List (Option Int)),
      rep4 c x times len 1 1 = rep3 c x x.length len) := by
  refine ⟨?_, ?_, ?_⟩
  · intro each ts hx he hl hmax hsum
    have hl2 : ts.length = (rep_in_place each x).length := by
      rw [rep_in_place_length, hl]
    have h2 := rep2_spec c (rep_in_place each x) ts hl2 hmax hsum
    have hlen := rep_each_reference_length (rep_in_place each x) ts hl2
    refine ⟨?_, h2, hlen⟩
    rw [h2]
    by_cases hone : x.length * each = 1
    · -- the call is the call of `rep3` on a vector of one element
      have hx1 : x.length = 1 := Nat.eq_one_of_mul_eq_one_right hone
      have he1 : each = 1 := by
        rw [hx1] at hone
        omega
      subst he1
      obtain ⟨v0, hxv⟩ : ∃ v0, x = [v0] := by
        cases x with
        | nil => simp at hx1
        | cons v0 xs =>
          cases xs with
          | nil => exact ⟨v0, rfl⟩
          | cons _ _ => simp at hx1
      subst hxv
      obtain ⟨t, hts⟩ : ∃ t, ts = [t] := by
        cases ts with
        | nil => simp at hl
        | cons t ts =>
          cases ts with
          | nil => exact ⟨t, rfl⟩
          | cons _ _ => simp at hl
      subst hts
      unfold rep4
      simp only [List.length_singleton, Nat.cast_one, mul_one, and_self, if_true,
        List.sum_cons, List.sum_nil, add_zero]
      obtain ⟨v, e, hv1, hv2⟩ := rep3_spec c [v0] t (by simpa using hsum) (by simp)
        (by
          have := R_XLEN_T_MAX_ge c
          unfold INT_MAX at this
          simp only [List.length_singleton, Nat.cast_one]
          omega)
      simp only [List.length_singleton, Nat.cast_one] at e
      rw [e]
      congr 1
      apply List.ext_getElem?
      intro k
      by_cases hk : k < v.length
      · rw [hv2 k hk]
        simp only [List.length_singleton, Nat.mod_one, List.getElem?_cons_zero, rep_in_place,
          List.replicate_one, List.append_nil, rep_each_reference, List.getElem?_replicate]
        rw [if_pos (by omega)]
      · rw [List.getElem?_eq_none (by omega)]
        simp only [rep_in_place, List.replicate_one, List.append_nil, rep_each_reference]
        rw [List.getElem?_eq_none (by simp; omega)]
    · have hnt : ¬ (((x.length * each : Nat) : Int) = 1) := by
        intro h
        apply hone
        exact_mod_cast h
      unfold rep4
      have h1 : ¬ ((each : Int) = 1 ∧ ((x.length * each : Nat) : Int) = 1) := fun h => hnt h.2
      rw [if_neg h1, allocVector_check_ok c (by omega) hsum, andThen_ok, if_neg hnt]
      rw [rep4_blocks_spec c (ts.sum : Nat) each hsum x ts [] hl (by simp), andThen_ok]
      simp only [List.nil_append]
      rw [if_pos (by rw [hlen])]
  · intro each len times hx hxm he hlen
    exact rep4_single_spec c x each len times hx hxm he hlen
  · intro len times
    unfold rep4
    simp

end CXXR

namespace CXXR

/-! ## No division by zero in `rep` -/

theorem isNegative_false {v : Option Int} (h : isNegative v = false) (d : Int) (hd : 0 ≤ d) :
    0 ≤ v.getD d := by
  cases v with
  | none => exact hd
  | some n =>
    simp only [isNegative, decide_eq_false_iff_not, not_lt] at h
    exact h

/-- The arguments with which `do_rep` goes on to call `rep4`. -/
theorem do_rep_arguments_call {α : Type} (c : Config) (x : RepArgument α)
    (times : Option (List (Option Int))) (length_out each_ : Option Int) (call : RepCall)
    (h : do_rep_arguments c x times length_out each_ = CResult.ok (Sum.inr call)) :
    x.elements.length ≠ 0 ∧ isNegative each_ = false ∧ call.each = each_.getD 1 ∧
      0 ≤ call.each ∧ (0 < call.len → call.each ≠ 0) ∧
      (call.nt = 1 ∨ length_out = none) := by
  unfold do_rep_arguments at h
  by_cases h1 : x.type = SEXPTYPE.LISTSXP
  · rw [if_pos h1] at h
    cases h
  rw [if_neg h1] at h
  by_cases h2 : isNegative length_out = true
  · rw [if_pos h2] at h
    cases h
  rw [if_neg h2] at h
  by_cases h3 : isNegative each_ = true
  · rw [if_pos h3] at h
    cases h
  rw [if_neg h3] at h
  by_cases h4 : x.elements.length = 0
  · rw [if_pos h4] at h
    cases h
  rw [if_neg h4] at h
  by_cases h5 : (!isVectorType x.type) = true
  · rw [if_pos h5] at h
    cases h
  rw [if_neg h5] at h
  obtain ⟨call1, hc, h6⟩ := andThen_eq_ok h
  by_cases h7 : call1.len > 0 ∧ call1.each = 0
  · rw [if_pos h7] at h6
    cases h6
  rw [if_neg h7] at h6
  cases h6
  have h3f : isNegative each_ = false := by simpa using h3
  have heach : call.each = each_.getD 1 ∧ (call.nt = 1 ∨ length_out = none) := by
    by_cases h8 : length_out.isSome = true
    · rw [if_pos h8] at hc
      cases hc
      exact ⟨rfl, Or.inl rfl⟩
    · rw [if_neg h8] at hc
      have hnone : length_out = none := by
        cases length_out with
        | none => rfl
        | some v => simp at h8
      unfold do_rep_times at hc
      split at hc
      · cases hc
      · split at hc
        · split at hc
          · split at hc
            · cases hc
            · cases hc
              exact ⟨rfl, Or.inl rfl⟩
          · cases hc
        · obtain ⟨sum, _, h9⟩ := andThen_eq_ok hc
          cases h9
          exact ⟨rfl, Or.inr hnone⟩
  refine ⟨h4, h3f, heach.1, ?_, ?_, heach.2⟩
  · rw [heach.1]
    exact isNegative_false h3f 1 (by decide)
  · intro hl he
    exact h7 ⟨hl, he⟩

/-- `rep4` with a single value of `times` on arguments as `do_rep` passes
them: the call returns or raises an error. -/
theorem rep4_defined {α : Type} (c : Config) (x : List α) (times : List (Option Int))
    (len each : Int) (hx : 0 < x.length) (hxm : (x.length : Int) ≤ R_XLEN_T_MAX c)
    (he : 0 ≤ each) (hz : 0 < len → each ≠ 0) :
    (∃ v, rep4 c x times len each 1 = CResult.ok v) ∨
      (∃ m, rep4 c x times len each 1 = CResult.error m) := by
  by_cases hcheck : 0 ≤ len ∧ len ≤ R_XLEN_T_MAX c
  · left
    obtain ⟨n, rfl⟩ : ∃ n : Nat, len = n := ⟨len.toNat, by omega⟩
    by_cases hn : n = 0
    · subst hn
      by_cases he1 : each = 1
      · subst he1
        obtain ⟨v, e, _, _⟩ := rep3_spec c x 0 hcheck.2 hx hxm
        refine ⟨v, ?_⟩
        unfold rep4
        simp only [and_self, if_true]
        exact e
      · refine ⟨[], ?_⟩
        unfold rep4
        have h1 : ¬ (each = 1 ∧ (1 : Int) = 1) := fun h => he1 h.1
        rw [if_neg h1, allocVector_check_ok c hcheck.1 hcheck.2, andThen_ok]
        simp [rep4_cycle]
    · have hpos : 0 < each := by
        have := hz (by omega)
        omega
      obtain ⟨e1, rfl⟩ : ∃ e1 : Nat, each = e1 := ⟨each.toNat, by omega⟩
      obtain ⟨v, e, _, _⟩ := rep4_single_spec c x e1 n times hx hxm (by omega) hcheck.2
      exact ⟨v, e⟩
  · right
    obtain ⟨m, hm⟩ := allocVector_check_error c hcheck
    refine ⟨m, ?_⟩
    unfold rep4
    by_cases he1 : each = 1
    · subst he1
      simp only [and_self, if_true]
      unfold rep3
      rw [hm]
    · have h1 : ¬ (each = 1 ∧ (1 : Int) = 1) := fun h => he1 h.1
      rw [if_neg h1, hm]
      rfl

/-- With `length.out` or a single value of `times`, the part of `do_rep` up to
the call of `rep4` raises an error, returns, or goes on to the call with
`nt == 1`. -/
theorem do_rep_arguments_single {α : Type} (c : Config) (x : RepArgument α)
    (times : Option (List (Option Int))) (length_out each_ : Option Int)
    (hnt : length_out.isSome = true ∨ (times.getD [some 1]).length = 1) :
    (∃ m, do_rep_arguments c x times length_out each_ = CResult.error m) ∨
    (∃ r, do_rep_arguments c x times length_out each_ = CResult.ok (Sum.inl r)) ∨
    (∃ call, do_rep_arguments c x times length_out each_ = CResult.ok (Sum.inr call) ∧
      call.nt = 1) := by
  unfold do_rep_arguments
  by_cases h1 : x.type = SEXPTYPE.LISTSXP
  · rw [if_pos h1]
    exact Or.inl ⟨_, rfl⟩
  rw [if_neg h1]
  by_cases h2 : isNegative length_out = true
  · rw [if_pos h2]
    exact Or.inl ⟨_, rfl⟩
  rw [if_neg h2]
  by_cases h3 : isNegative each_ = true
  · rw [if_pos h3]
    exact Or.inl ⟨_, rfl⟩
  rw [if_neg h3]
  by_cases h4 : x.elements.length = 0
  · rw [if_pos h4]
    exact Or.inr (Or.inl ⟨_, rfl⟩)
  rw [if_neg h4]
  by_cases h5 : (!isVectorType x.type) = true
  · rw [if_pos h5]
    exact Or.inl ⟨_, rfl⟩
  rw [if_neg h5]
  have hlast : ∀ call : RepCall, call.nt = 1 →
      (∃ m, (if call.len > 0 ∧ call.each = 0 then
          (CResult.error "invalid 'each' argument" : CResult (RepResult α ⊕ RepCall))
        else CResult.ok (Sum.inr call)) = CResult.error m) ∨
      (∃ r, (if call.len > 0 ∧ call.each = 0 then
          (CResult.error "invalid 'each' argument" : CResult (RepResult α ⊕ RepCall))
        else CResult.ok (Sum.inr call)) = CResult.ok (Sum.inl r)) ∨
      (∃ call1, (if call.len > 0 ∧ call.each = 0 then
          (CResult.error "invalid 'each' argument" : CResult (RepResult α ⊕ RepCall))
        else CResult.ok (Sum.inr call)) = CResult.ok (Sum.inr call1) ∧ call1.nt = 1) := by
    intro call hone
    by_cases h7 : call.len > 0 ∧ call.each = 0
    · rw [if_pos h7]
      exact Or.inl ⟨_, rfl⟩
    · rw [if_neg h7]
      exact Or.inr (Or.inr ⟨call, rfl, hone⟩)
  by_cases h8 : length_out.isSome = true
  · rw [if_pos h8, andThen_ok]
    exact hlast _ rfl
  · rw [if_neg h8]
    have hl : (times.getD [some 1]).length = 1 := by
      rcases hnt with h | h
      · exact absurd h h8
      · exact h
    unfold do_rep_times
    have hl1 : ((times.getD [some 1]).length : Int) = 1 := by
      rw [hl]
      rfl
    have hn1 : ¬ (((times.getD [some 1]).length : Int) ≠ 1 ∧
        ((times.getD [some 1]).length : Int)
          ≠ wrap_xlen c ((x.elements.length : Int) * each_.getD 1)) := fun h => h.1 hl1
    rw [if_neg hn1, if_pos hl1]
    cases hh : (times.getD [some 1]).head? with
    | none => exact Or.inl ⟨_, rfl⟩
    | some t =>
      cases t with
      | none => exact Or.inl ⟨_, rfl⟩
      | some it =>
        simp only
        by_cases hneg : it < 0
        · rw [if_pos hneg]
          exact Or.inl ⟨_, rfl⟩
        · rw [if_neg hneg, andThen_ok]
          exact hlast _ rfl

/-- C34 (no division by zero in `rep`).  The index expression `(i / each) % lx`
of `rep4` has no value exactly if `each` or `lx` is zero, and a call of `rep4`
that evaluates it there, with `each == 0` and a positive length, is not
defined.  `do_rep` returns before the call of `rep4` for an `x` of length
zero, rejects a negative `each`, takes `each` to be 1 where it is `NA`, and
rejects `each == 0` where the length of the result is positive: whenever it
goes on to call `rep4`, `lx` is not zero, `each` is not negative, and `each` is
not zero unless the length is zero, so that the index expression has a value
at every `i` below the length, for `x` and for its names.  A call of `do_rep`
on a vector with `length.out` or a single value of `times`, where that
expression is evaluated, returns or raises an error. -/
theorem do_rep_division {α : Type} (c : Config) :
    (∀ i each lx : Int, rep4_index i each lx = none ↔ (each = 0 ∨ lx = 0)) ∧
    (∀ (x : List α) (times : List (Option Int)) (len : Int), 0 < len →
      len ≤ R_XLEN_T_MAX c → rep4 c x times len 0 1 = CResult.undefined) ∧
    (∀ (x : RepArgument α) (times : Option (List (Option Int))) (length_out each_ : Option Int),
      x.elements.length = 0 →
      (∃ r, do_rep c x times length_out each_ = CResult.ok r ∧
        do_rep_arguments c x times length_out each_ = CResult.ok (Sum.inl r)) ∨
      (∃ m, do_rep c x times length_out each_ = CResult.error m)) ∧
    (∀ (x : RepArgument α) (times : Option (List (Option Int))) (length_out : Option Int)
      (each : Int), each < 0 →
      ∃ m, do_rep c x times length_out (some each) = CResult.error m) ∧
    (∀ (x : RepArgument α) (times : Option (List (Option Int))) (length_out : Option Int),
      do_rep c x times length_out none = do_rep c x times length_out (some 1)) ∧
    (∀ (x : RepArgument α) (times : Option (List (Option Int))) (length_out each_ : Option Int)
      (call : RepCall),
      do_rep_arguments c x times length_out each_ = CResult.ok (Sum.inr call) →
      x.elements.length ≠ 0 ∧ call.each = each_.getD 1 ∧ 0 ≤ call.each ∧
        (0 < call.len → call.each ≠ 0) ∧
        (∀ i : Int, 0 ≤ i → i < call.len →
          rep4_index i call.each x.elements.length ≠ none ∧
          (x.names.length > 0 → rep4_index i call.each x.names.length ≠ none))) ∧
    (∀ (x : RepArgument α) (times : Option (List (Option Int))) (length_out each_ : Option Int),
      (x.elements.length : Int) ≤ R_XLEN_T_MAX c →
      (x.names = [] ∨ x.names.length = x.elements.length) →
      (length_out.isSome = true ∨ (times.getD [some 1]).length = 1) →
      (∃ r, do_rep c x times length_out each_ = CResult.ok r) ∨
        (∃ m, do_rep c x times length_out each_ = CResult.error m)) ∧
    (∀ v : α,
      do_rep c { type := SEXPTYPE.INTSXP, elements := [v], names := [] } none (some 3) (some 0)
        = CResult.error "invalid 'each' argument" ∧
      do_rep_arguments c { type := SEXPTYPE.INTSXP, elements := [v], names := [] } none
          (some 3) (some 2)
        = CResult.ok (Sum.inr { times := [], len := 3, each := 2, nt := 1 })) := by
  refine ⟨?_, ?_, ?_, ?_, ?_, ?_, ?_, ?_⟩
  · intro i each lx
    unfold rep4_index
    by_cases h : each = 0 ∨ lx = 0
    · simp [h]
    · simp [h]
  · intro x times len hpos hmax
    unfold rep4
    have h1 : ¬ ((0 : Int) = 1 ∧ (1 : Int) = 1) := by omega
    rw [if_neg h1, allocVector_check_ok c (by omega) hmax, andThen_ok]
    simp only [if_true]
    rw [rep4_cycle]
    simp [hpos, rep4_index]
  · intro x times length_out each_ hx
    unfold do_rep do_rep_arguments
    by_cases h1 : x.type = SEXPTYPE.LISTSXP
    · right
      rw [if_pos h1]
      exact ⟨_, rfl⟩
    rw [if_neg h1]
    by_cases h2 : isNegative length_out = true
    · right
      rw [if_pos h2]
      exact ⟨_, rfl⟩
    rw [if_neg h2]
    by_cases h3 : isNegative each_ = true
    · right
      rw [if_pos h3]
      exact ⟨_, rfl⟩
    rw [if_neg h3, if_pos hx]
    left
    exact ⟨_, rfl, rfl⟩
  · intro x times length_out each hneg
    unfold do_rep do_rep_arguments
    by_cases h1 : x.type = SEXPTYPE.LISTSXP
    · rw [if_pos h1]
      exact ⟨_, rfl⟩
    rw [if_neg h1]
    by_cases h2 : isNegative length_out = true
    · rw [if_pos h2]
      exact ⟨_, rfl⟩
    rw [if_neg h2]
    have h3 : isNegative (some each) = true := by simp [isNegative, hneg]
    rw [if_pos h3]
    exact ⟨_, rfl⟩
  · intro x times length_out
    rfl
  · intro x times length_out each_ call h
    obtain ⟨h1, _, h2, h3, h4, _⟩ := do_rep_arguments_call c x times length_out each_ call h
    refine ⟨h1, h2, h3, h4, ?_⟩
    intro i h0 hi
    have he : call.each ≠ 0 := h4 (by omega)
    constructor
    · unfold rep4_index
      have : ¬ (call.each = 0 ∨ (x.elements.length : Int) = 0) := by omega
      rw [if_neg this]
      intro hc
      cases hc
    · intro hn
      unfold rep4_index
      have : ¬ (call.each = 0 ∨ (x.names.length : Int) = 0) := by omega
      rw [if_neg this]
      intro hc
      cases hc
  · intro x times length_out each_ hxm hnames hnt
    rcases do_rep_arguments_single c x times length_out each_ hnt with
      ⟨m, hm⟩ | ⟨r, hr⟩ | ⟨call, hcall, hone⟩
    · right
      refine ⟨m, ?_⟩
      unfold do_rep
      rw [hm]
      rfl
    · left
      refine ⟨r, ?_⟩
      unfold do_rep
      rw [hr]
      rfl
    · obtain ⟨h1, _, _, h3, h4, _⟩ := do_rep_arguments_call c x times length_out each_ call hcall
      unfold do_rep
      rw [hcall, andThen_ok]
      simp only
      rw [hone]
      rcases rep4_defined c x.elements call.times call.len call.each (by omega) hxm h3 h4 with
        ⟨v, hv⟩ | ⟨m, hm⟩
      · rw [hv, andThen_ok]
        by_cases hn : x.names.length > 0
        · rw [if_pos hn]
          have hnl : x.names.length = x.elements.length := by
            rcases hnames with h | h
            · rw [h] at hn
              simp at hn
            · exact h
          rcases rep4_defined c x.names call.times call.len call.each hn
              (by rw [hnl]; exact hxm) h3 h4 with ⟨w, hw⟩ | ⟨m, hm⟩
          · left
            rw [hw, andThen_ok]
            exact ⟨_, rfl⟩
          · right
            rw [hm]
            exact ⟨m, rfl⟩
        · left
          rw [if_neg hn]
          exact ⟨_, rfl⟩
      · right
        rw [hm]
        exact ⟨m, rfl⟩
  · intro v
    constructor
    · unfold do_rep do_rep_arguments
      simp [isNegative, isVectorType, do_rep_length_out, CResult.andThen]
    · unfold do_rep_arguments
      simp [isNegative, isVectorType, do_rep_length_out, CResult.andThen]

end CXXR

namespace CXXR

/-! ## `seq` with integer `from`, `to` and `by` -/

theorem truncate_of_nonneg {q : Rat} (h : 0 ≤ q) : truncate q = ⌊q⌋ := by
  unfold truncate
  rw [Int.tdiv_eq_ediv (Rat.num_nonneg.mpr h) (by exact_mod_cast Nat.zero_le _), Rat.floor_def]

/-- The element that the integer branch of `do_seq` computes is the element
wrapped around in `int`. -/
theorem wrap_element (c : Config) (a b : Int) :
    wrap32 (wrap_xlen c (a + wrap_xlen c b)) = wrap32 (a + b) := by
  unfold wrap_xlen
  cases c.LONG_VECTOR_SUPPORT
  · simp only [Bool.false_eq_true, if_false]
    unfold wrap32
    omega
  · simp only [if_true]
    unfold wrap32 wrap64
    omega

/-- The loop of `do_seq`: it ends, and place `k` holds `element k`. -/
theorem do_seq_fill_spec (c : Config) (element : Int → Int) (nn : Int)
    (hn : nn + 1 ≤ R_XLEN_T_MAX c) :
    ∀ (d fuel : Nat) (i : Int) (ans : List Int), i + d = nn + 1 → 0 ≤ i →
      (ans.length : Int) = nn + 1 → d < fuel →
      ∃ v, do_seq_fill c element nn fuel i ans = CResult.ok v ∧ v.length = ans.length ∧
        ∀ k : Nat, k < v.length →
          v[k]? = if (k : Int) < i then ans[k]? else some (element k) := by
  intro d
  induction d with
  | zero =>
    intro fuel i ans hi h0 hl hf
    obtain ⟨f, rfl⟩ : ∃ f, fuel = f + 1 := ⟨fuel - 1, by omega⟩
    have hin : ¬ i ≤ nn := by omega
    refine ⟨ans, by simp [do_seq_fill, hin], rfl, ?_⟩
    intro k hk
    have : (k : Int) < i := by omega
    simp [this]
  | succ d ih =>
    intro fuel i ans hi h0 hl hf
    obtain ⟨f, rfl⟩ : ∃ f, fuel = f + 1 := ⟨fuel - 1, by omega⟩
    have hin : i ≤ nn := by omega
    have hb : 0 ≤ i ∧ i < (ans.length : Int) := ⟨h0, by omega⟩
    have hw1 : wrap_xlen c (i + 1) = i + 1 := wrap_xlen_of_range c (by omega) (by omega)
    have hstep : do_seq_fill c element nn (f + 1) i ans
        = do_seq_fill c element nn f (i + 1) (ans.set i.toNat (element i)) := by
      rw [do_seq_fill]
      simp only [hin, hb, and_self, if_true, hw1]
    obtain ⟨v, e, hlen, hv⟩ := ih f (i + 1) (ans.set i.toNat (element i)) (by omega)
      (by omega) (by simpa using hl) (by omega)
    refine ⟨v, by rw [hstep, e], by simpa using hlen, ?_⟩
    intro k hk
    rw [hv k hk]
    have hit : (i.toNat : Int) = i := Int.toNat_of_nonneg h0
    by_cases h1 : (k : Int) < i
    · have h2 : (k : Int) < i + 1 := by omega
      have hne : i.toNat ≠ k := by omega
      simp only [h1, h2, if_true]
      rw [List.getElem?_set_ne hne]
    · by_cases h2 : (k : Int) < i + 1
      · have heq : i.toNat = k := by omega
        have hk2 : k < ans.length := by
          have : v.length = ans.length := by simpa using hlen
          omega
        simp only [h1, h2, if_true, if_false]
        rw [← heq, List.getElem?_set_self (by omega)]
        rw [heq, ← hit, heq]
      · simp only [h1, h2, if_false]

/-- The value of `do_seq` on three integers, `from` and `to` different and `by`
not zero. -/
theorem do_seq_ofInt (c : Config) (f t b : Int) (hft : f ≠ t) (hb : b ≠ 0) :
    do_seq c (SeqArgument.ofInt f) (SeqArgument.ofInt t) (SeqArgument.ofInt b)
      = if ((|t - f| : Int) : Rat) / ((max |t| |f| : Int) : Rat) < 100 * DBL_EPSILON then
          CResult.ok (SeqVector.INTSXP [f])
        else if ((t - f : Int) : Rat) / (b : Rat)
            > (if c.LONG_VECTOR_SUPPORT then 100 * (INT_MAX : Rat) else (INT_MAX : Rat)) then
          CResult.error "'by' argument is much too small"
        else if ((t - f : Int) : Rat) / (b : Rat) < -FEPS then
          CResult.error "wrong sign in 'by' argument"
        else
          (allocVector_check c
              (wrap_xlen c (truncate (((t - f : Int) : Rat) / (b : Rat)) + 1))).andThen fun _ =>
            (do_seq_fill c (fun i => wrap32 (wrap_xlen c (f + wrap_xlen c (i * b))))
              (truncate (((t - f : Int) : Rat) / (b : Rat)))
              ((truncate (((t - f : Int) : Rat) / (b : Rat))).toNat + 2) 0
              (allocArray
                (wrap_xlen c (truncate (((t - f : Int) : Rat) / (b : Rat)) + 1)))).andThen
              fun ia => CResult.ok (SeqVector.INTSXP ia) := by
  unfold do_seq
  have h1 : ¬ (t - f = 0 ∧ t = 0) := fun h => hft (by omega)
  simp only [SeqArgument.ofInt, h1, if_false, hb, and_self, if_true, SeqArgument.asVector]

/-- For whole numbers in the range of `int`, `del` is too large against `from`
and `to` for the test on `dd` to succeed. -/
theorem dd_not_small (f t : Int) (hf1 : INT_MIN < f) (hf2 : f ≤ INT_MAX) (ht1 : INT_MIN < t)
    (ht2 : t ≤ INT_MAX) (hft : f ≠ t) :
    ¬ (((|t - f| : Int) : Rat) / ((max |t| |f| : Int) : Rat) < 100 * DBL_EPSILON) := by
  unfold INT_MIN at hf1 ht1
  unfold INT_MAX at hf2 ht2
  have hD : (1 : Int) ≤ |t - f| := by
    have : t - f ≠ 0 := fun h => hft (by omega)
    exact Int.one_le_abs this
  have hM1 : (1 : Int) ≤ max |t| |f| := by
    rcases abs_cases t with ⟨h1, _⟩ | ⟨h1, _⟩ <;> rcases abs_cases f with ⟨h2, _⟩ | ⟨h2, _⟩ <;>
      rw [h1, h2] <;> omega
  have hM2 : max |t| |f| ≤ (2147483647 : Int) := by
    rcases abs_cases t with ⟨h1, _⟩ | ⟨h1, _⟩ <;> rcases abs_cases f with ⟨h2, _⟩ | ⟨h2, _⟩ <;>
      rw [h1, h2] <;> omega
  have hDq : (1 : Rat) ≤ ((|t - f| : Int) : Rat) := by exact_mod_cast hD
  have hM1q : (0 : Rat) < ((max |t| |f| : Int) : Rat) := by exact_mod_cast (by omega : (0 : Int) < max |t| |f|)
  have hM2q : ((max |t| |f| : Int) : Rat) ≤ 2147483647 := by exact_mod_cast hM2
  rw [not_lt, le_div_iff₀ hM1q]
  unfold DBL_EPSILON
  linarith

/-- The quotient `n` of `do_seq` on whole numbers in the range of `int`. -/
theorem quotient_le (f t b : Int) (hf1 : INT_MIN < f) (hf2 : f ≤ INT_MAX) (ht1 : INT_MIN < t)
    (ht2 : t ≤ INT_MAX) (hb : b ≠ 0) :
    ((t - f : Int) : Rat) / (b : Rat) ≤ 4294967294 := by
  unfold INT_MIN at hf1 ht1
  unfold INT_MAX at hf2 ht2
  have h1 : ((t - f : Int) : Rat) ≤ 4294967294 := by exact_mod_cast (by omega : t - f ≤ 4294967294)
  have h2 : (-4294967294 : Rat) ≤ ((t - f : Int) : Rat) := by
    exact_mod_cast (by omega : -4294967294 ≤ t - f)
  rcases lt_or_gt_of_ne hb with hneg | hpos
  · have hbq : (b : Rat) < 0 := by exact_mod_cast hneg
    have hb1 : (b : Rat) ≤ -1 := by exact_mod_cast (by omega : b ≤ -1)
    rw [div_le_iff_of_neg hbq]
    nlinarith
  · have hbq : (0 : Rat) < (b : Rat) := by exact_mod_cast hpos
    have hb1 : (1 : Rat) ≤ (b : Rat) := by exact_mod_cast (by omega : 1 ≤ b)
    rw [div_le_iff₀ hbq]
    nlinarith

/-- A negative quotient of whole numbers in the range of `int` is below
`-FEPS`. -/
theorem quotient_neg (f t b : Int) (hb1 : INT_MIN < b) (hb2 : b ≤ INT_MAX)
    (hq : ((t - f : Int) : Rat) / (b : Rat) < 0) :
    ((t - f : Int) : Rat) / (b : Rat) < -FEPS := by
  unfold INT_MIN at hb1
  unfold INT_MAX at hb2
  have hbl : (-2147483647 : Rat) ≤ (b : Rat) := by exact_mod_cast (by omega : -2147483647 ≤ b)
  have hbu : (b : Rat) ≤ 2147483647 := by exact_mod_cast hb2
  rcases div_neg_iff.mp hq with ⟨hd, hbn⟩ | ⟨hd, hbp⟩
  · have hd1 : (1 : Rat) ≤ ((t - f : Int) : Rat) := by
      have : (0 : Int) < t - f := by exact_mod_cast hd
      exact_mod_cast (by omega : 1 ≤ t - f)
    rw [div_lt_iff_of_neg hbn]
    unfold FEPS
    linarith
  · have hd1 : ((t - f : Int) : Rat) ≤ -1 := by
      have : t - f < (0 : Int) := by exact_mod_cast hd
      exact_mod_cast (by omega : t - f ≤ -1)
    rw [div_lt_iff₀ hbp]
    unfold FEPS
    linarith

/-- The elements `from + k * by` for `k` up to the integer part of the
quotient lie between `from` and `to`. -/
theorem element_range (f t b k : Int) (hb : b ≠ 0) (hk0 : 0 ≤ k)
    (hk : k ≤ ⌊((t - f : Int) : Rat) / (b : Rat)⌋) :
    (min f t ≤ f + k * b ∧ f + k * b ≤ max f t) ∧ (0 < b → f ≤ t) ∧ (b < 0 → t ≤ f) := by
  have hkq : (k : Rat) ≤ ((t - f : Int) : Rat) / (b : Rat) := Int.le_floor.mp hk
  have h0q : ((0 : Int) : Rat) ≤ ((t - f : Int) : Rat) / (b : Rat) :=
    Int.le_floor.mp (le_trans hk0 hk)
  rcases lt_or_gt_of_ne hb with hneg | hpos
  · have hbq : (b : Rat) < 0 := by exact_mod_cast hneg
    have h1 : ((t - f : Int) : Rat) ≤ (k : Rat) * (b : Rat) := (le_div_iff_of_neg hbq).mp hkq
    have h2 : ((t - f : Int) : Rat) ≤ ((0 : Int) : Rat) * (b : Rat) :=
      (le_div_iff_of_neg hbq).mp h0q
    have h1i : t - f ≤ k * b := by exact_mod_cast h1
    have h2i : t - f ≤ 0 * b := by exact_mod_cast h2
    have h3 : k * b ≤ 0 := Int.mul_nonpos_of_nonneg_of_nonpos hk0 (le_of_lt hneg)
    refine ⟨⟨?_, ?_⟩, fun h => absurd h (by omega), fun _ => by omega⟩
    · rw [min_eq_right (by omega)]
      omega
    · rw [max_eq_left (by omega)]
      omega
  · have hbq : (0 : Rat) < (b : Rat) := by exact_mod_cast hpos
    have h1 : (k : Rat) * (b : Rat) ≤ ((t - f : Int) : Rat) := (le_div_iff₀ hbq).mp hkq
    have h2 : ((0 : Int) : Rat) * (b : Rat) ≤ ((t - f : Int) : Rat) := (le_div_iff₀ hbq).mp h0q
    have h1i : k * b ≤ t - f := by exact_mod_cast h1
    have h2i : 0 * b ≤ t - f := by exact_mod_cast h2
    have h3 : 0 ≤ k * b := Int.mul_nonneg hk0 (le_of_lt hpos)
    refine ⟨⟨?_, ?_⟩, fun _ => by omega, fun h => absurd h (by omega)⟩
    · rw [min_eq_left (by omega)]
      omega
    · rw [max_eq_right (by omega)]
      omega

/-- The integer branch of `do_seq` where the quotient is not negative and the
result is a vector that R can hold. -/
theorem do_seq_integer_spec (c : Config) (f t b : Int) (hf1 : INT_MIN < f) (hf2 : f ≤ INT_MAX)
    (ht1 : INT_MIN < t) (ht2 : t ≤ INT_MAX) (hft : f ≠ t) (hb : b ≠ 0)
    (hq : 0 ≤ ((t - f : Int) : Rat) / (b : Rat))
    (hlen : ⌊((t - f : Int) : Rat) / (b : Rat)⌋ + 1 ≤ R_XLEN_T_MAX c) :
    ∃ v, do_seq c (SeqArgument.ofInt f) (SeqArgument.ofInt t) (SeqArgument.ofInt b)
        = CResult.ok (SeqVector.INTSXP v) ∧
      (v.length : Int) = ⌊((t - f : Int) : Rat) / (b : Rat)⌋ + 1 ∧
      (∀ i : Nat, i < v.length → v[i]? = some (f + i * b)) ∧
      (∀ e ∈ v, min f t ≤ e ∧ e ≤ max f t) := by
  have hnn : 0 ≤ ⌊((t - f : Int) : Rat) / (b : Rat)⌋ := Int.floor_nonneg.mpr hq
  have htr := truncate_of_nonneg hq
  have hbound : ¬ (((t - f : Int) : Rat) / (b : Rat)
      > (if c.LONG_VECTOR_SUPPORT then 100 * (INT_MAX : Rat) else (INT_MAX : Rat))) := by
    rw [not_lt]
    cases hc : c.LONG_VECTOR_SUPPORT
    · simp only [Bool.false_eq_true, if_false]
      have h1 := Int.lt_floor_add_one (((t - f : Int) : Rat) / (b : Rat))
      unfold R_XLEN_T_MAX at hlen
      simp only [hc, Bool.false_eq_true, if_false] at hlen
      have h2 : ((⌊((t - f : Int) : Rat) / (b : Rat)⌋ : Int) : Rat) + 1 ≤ 2147483647 := by
        exact_mod_cast hlen
      unfold INT_MAX
      simp only [Int.cast_ofNat]
      linarith
    · simp only [if_true]
      have h1 := quotient_le f t b hf1 hf2 ht1 ht2 hb
      unfold INT_MAX
      simp only [Int.cast_ofNat]
      linarith
  have hsign : ¬ (((t - f : Int) : Rat) / (b : Rat) < -FEPS) := by
    unfold FEPS
    rw [not_lt]
    linarith
  rw [do_seq_ofInt c f t b hft hb, if_neg (dd_not_small f t hf1 hf2 ht1 ht2 hft), if_neg hbound,
    if_neg hsign, htr, wrap_xlen_of_range c (by omega) hlen,
    allocVector_check_ok c (by omega) hlen, andThen_ok]
  have hal : ((allocArray (⌊((t - f : Int) : Rat) / (b : Rat)⌋ + 1)).length : Int)
      = ⌊((t - f : Int) : Rat) / (b : Rat)⌋ + 1 := by
    rw [allocArray_length]
    omega
  obtain ⟨v, e, hv1, hv2⟩ := do_seq_fill_spec c
    (fun i => wrap32 (wrap_xlen c (f + wrap_xlen c (i * b))))
    ⌊((t - f : Int) : Rat) / (b : Rat)⌋ hlen
    (⌊((t - f : Int) : Rat) / (b : Rat)⌋ + 1).toNat
    (⌊((t - f : Int) : Rat) / (b : Rat)⌋.toNat + 2) 0
    (allocArray (⌊((t - f : Int) : Rat) / (b : Rat)⌋ + 1)) (by omega) (le_refl _) hal (by omega)
  have hvl : (v.length : Int) = ⌊((t - f : Int) : Rat) / (b : Rat)⌋ + 1 := by
    rw [hv1]
    exact hal
  have helem : ∀ i : Nat, i < v.length → v[i]? = some (f + i * b) := by
    intro i hi
    rw [hv2 i hi]
    have h0 : ¬ ((i : Int) < 0) := by omega
    simp only [h0, if_false]
    rw [wrap_element]
    obtain ⟨⟨h1, h2⟩, _, _⟩ := element_range f t b i hb (by omega) (by omega)
    congr 1
    apply wrap32_of_range
    · have : INT_MIN ≤ min f t := le_min (le_of_lt hf1) (le_of_lt ht1)
      omega
    · have : max f t ≤ INT_MAX := max_le hf2 ht2
      omega
  refine ⟨v, ?_, hvl, helem, ?_⟩
  · rw [e, andThen_ok]
  · intro e he
    obtain ⟨i, hi, rfl⟩ := List.mem_iff_getElem.mp he
    have h1 := helem i hi
    rw [List.getElem?_eq_getElem hi] at h1
    have h2 : v[i] = f + i * b := Option.some.inj h1
    rw [h2]
    exact (element_range f t b i hb (by omega) (by omega)).1

/-- Without long vector support a result of more than `INT_MAX` elements is
refused: the quotient is above `INT_MAX`, or it is `INT_MAX` and the length
`nn + 1` is no length. -/
theorem do_seq_too_long (c : Config) (f t b : Int) (hf1 : INT_MIN < f) (hf2 : f ≤ INT_MAX)
    (ht1 : INT_MIN < t) (ht2 : t ≤ INT_MAX) (hft : f ≠ t) (hb : b ≠ 0)
    (hq : 0 ≤ ((t - f : Int) : Rat) / (b : Rat)) (hc : c.LONG_VECTOR_SUPPORT = false)
    (hlen : R_XLEN_T_MAX c < ⌊((t - f : Int) : Rat) / (b : Rat)⌋ + 1) :
    do_seq c (SeqArgument.ofInt f) (SeqArgument.ofInt t) (SeqArgument.ofInt b)
        = CResult.error "'by' argument is much too small" ∨
    do_seq c (SeqArgument.ofInt f) (SeqArgument.ofInt t) (SeqArgument.ofInt b)
        = CResult.error "negative length vectors are not allowed" := by
  have htr := truncate_of_nonneg hq
  unfold R_XLEN_T_MAX at hlen
  simp only [hc, Bool.false_eq_true, if_false] at hlen
  rw [do_seq_ofInt c f t b hft hb, if_neg (dd_not_small f t hf1 hf2 ht1 ht2 hft)]
  simp only [hc, Bool.false_eq_true, if_false]
  by_cases hgt : ((t - f : Int) : Rat) / (b : Rat) > (INT_MAX : Rat)
  · left
    rw [if_pos hgt]
  · right
    rw [if_neg hgt]
    have hsign : ¬ (((t - f : Int) : Rat) / (b : Rat) < -FEPS) := by
      unfold FEPS
      rw [not_lt]
      linarith
    rw [if_neg hsign, htr]
    have hfl : ⌊((t - f : Int) : Rat) / (b : Rat)⌋ = 2147483647 := by
      have h1 := Int.floor_le (((t - f : Int) : Rat) / (b : Rat))
      have h2 : ((⌊((t - f : Int) : Rat) / (b : Rat)⌋ : Int) : Rat) ≤ ((2147483647 : Int) : Rat) := by
        rw [not_lt] at hgt
        unfold INT_MAX at hgt
        linarith
      have h3 : ⌊((t - f : Int) : Rat) / (b : Rat)⌋ ≤ 2147483647 := by exact_mod_cast h2
      omega
    rw [hfl]
    have hw : wrap_xlen c (2147483647 + 1) = -2147483648 := by
      unfold wrap_xlen
      simp only [hc, Bool.false_eq_true, if_false]
      unfold wrap32
      omega
    rw [hw]
    have ha : allocVector_check c (-2147483648)
        = CResult.error "negative length vectors are not allowed" := by
      unfold allocVector_check
      rw [if_pos (by omega)]
    rw [ha]
    rfl

/-- C32 (`seq` with integer `from`, `to` and `by`).  The three arguments are
integer vectors of length one whose values are not `NA`, and `from` differs
from `to`.  If `by` is not zero, `(to - from)/by` is not negative and
`floor((to - from)/by) + 1` is a length that a vector can have, at most
`R_XLEN_T_MAX`, which it always is with long vector support, `do_seq` returns
the integer vector of length `floor((to - from)/by) + 1` whose element `i` is
`from + i * by`, every element lying between `from` and `to`.  Without long
vector support a longer result is refused with an error.  If `by` is zero the
call raises `invalid '(to - from)/by' in 'seq'`, and if `(to - from)/by` is
negative it raises `wrong sign in 'by' argument`. -/
theorem do_seq_integer (c : Config) :
    (∀ f t b : Int, INT_MIN < f → f ≤ INT_MAX → INT_MIN < t → t ≤ INT_MAX →
      INT_MIN < b → b ≤ INT_MAX → f ≠ t → b ≠ 0 →
      0 ≤ ((t - f : Int) : Rat) / (b : Rat) →
      ⌊((t - f : Int) : Rat) / (b : Rat)⌋ + 1 ≤ R_XLEN_T_MAX c →
      ∃ v, do_seq c (SeqArgument.ofInt f) (SeqArgument.ofInt t) (SeqArgument.ofInt b)
          = CResult.ok (SeqVector.INTSXP v) ∧
        (v.length : Int) = ⌊((t - f : Int) : Rat) / (b : Rat)⌋ + 1 ∧
        (∀ i : Nat, i < v.length → v[i]? = some (f + i * b)) ∧
        (∀ e ∈ v, min f t ≤ e ∧ e ≤ max f t)) ∧
    (∀ f t b : Int, INT_MIN < f → f ≤ INT_MAX → INT_MIN < t → t ≤ INT_MAX → b ≠ 0 →
      c.LONG_VECTOR_SUPPORT = true →
      ⌊((t - f : Int) : Rat) / (b : Rat)⌋ + 1 ≤ R_XLEN_T_MAX c) ∧
    (∀ f t b : Int, INT_MIN < f → f ≤ INT_MAX → INT_MIN < t → t ≤ INT_MAX →
      INT_MIN < b → b ≤ INT_MAX → f ≠ t → b ≠ 0 →
      0 ≤ ((t - f : Int) : Rat) / (b : Rat) → c.LONG_VECTOR_SUPPORT = false →
      R_XLEN_T_MAX c < ⌊((t - f : Int) : Rat) / (b : Rat)⌋ + 1 →
      do_seq c (SeqArgument.ofInt f) (SeqArgument.ofInt t) (SeqArgument.ofInt b)
          = CResult.error "'by' argument is much too small" ∨
      do_seq c (SeqArgument.ofInt f) (SeqArgument.ofInt t) (SeqArgument.ofInt b)
          = CResult.error "negative length vectors are not allowed") ∧
    (∀ f t : Int, f ≠ t →
      do_seq c (SeqArgument.ofInt f) (SeqArgument.ofInt t) (SeqArgument.ofInt 0)
        = CResult.error "invalid '(to - from)/by' in 'seq'") ∧
    (∀ f t b : Int, INT_MIN < f → f ≤ INT_MAX → INT_MIN < t → t ≤ INT_MAX →
      INT_MIN < b → b ≤ INT_MAX → f ≠ t → b ≠ 0 →
      ((t - f : Int) : Rat) / (b : Rat) < 0 →
      do_seq c (SeqArgument.ofInt f) (SeqArgument.ofInt t) (SeqArgument.ofInt b)
        = CResult.error "wrong sign in 'by' argument") ∧
    do_seq { LONG_VECTOR_SUPPORT := true } (SeqArgument.ofInt 1) (SeqArgument.ofInt 10)
        (SeqArgument.ofInt 3) = CResult.ok (SeqVector.INTSXP [1, 4, 7, 10]) ∧
    do_seq { LONG_VECTOR_SUPPORT := false } (SeqArgument.ofInt 10) (SeqArgument.ofInt 1)
        (SeqArgument.ofInt (-4)) = CResult.ok (SeqVector.INTSXP [10, 6, 2]) := by
  refine ⟨?_, ?_, ?_, ?_, ?_, ?_, ?_⟩
  · intro f t b hf1 hf2 ht1 ht2 _ _ hft hb hq hlen
    exact do_seq_integer_spec c f t b hf1 hf2 ht1 ht2 hft hb hq hlen
  · intro f t b hf1 hf2 ht1 ht2 hb hc
    have h1 := quotient_le f t b hf1 hf2 ht1 ht2 hb
    have h2 : ⌊((t - f : Int) : Rat) / (b : Rat)⌋ ≤ 4294967294 := by
      have h3 := Int.floor_le (((t - f : Int) : Rat) / (b : Rat))
      have h4 : ((⌊((t - f : Int) : Rat) / (b : Rat)⌋ : Int) : Rat) ≤ 4294967294 := by
        linarith
      exact_mod_cast h4
    unfold R_XLEN_T_MAX
    simp only [hc, if_true]
    omega
  · intro f t b hf1 hf2 ht1 ht2 _ _ hft hb hq hc hlen
    exact do_seq_too_long c f t b hf1 hf2 ht1 ht2 hft hb hq hc hlen
  · intro f t hft
    unfold do_seq
    have h1 : ¬ (t - f = 0 ∧ t = 0) := fun h => hft (by omega)
    have h2 : ¬ (t - f = 0 ∧ (SeqArgument.ofInt 0).value = some 0) := fun h => hft (by omega)
    simp only [SeqArgument.ofInt, h1, if_false, if_true]
    rw [if_neg (fun h => hft (by omega))]
  · intro f t b hf1 hf2 ht1 ht2 hb1 hb2 hft hb hq
    have hbound : ¬ (((t - f : Int) : Rat) / (b : Rat)
        > (if c.LONG_VECTOR_SUPPORT then 100 * (INT_MAX : Rat) else (INT_MAX : Rat))) := by
      rw [not_lt]
      unfold INT_MAX
      cases c.LONG_VECTOR_SUPPORT
      · simp only [Bool.false_eq_true, if_false, Int.cast_ofNat]
        linarith
      · simp only [if_true, Int.cast_ofNat]
        linarith
    rw [do_seq_ofInt c f t b hft hb, if_neg (dd_not_small f t hf1 hf2 ht1 ht2 hft),
      if_neg hbound, if_pos (quotient_neg f t b hb1 hb2 hq)]
  · with_unfolding_all decide
  · with_unfolding_all decide

/-- Without long vector support `seq(-2L, 2147483647L, 1L)`, whose arguments
are integers with `from != to`, `by != 0` and `(to - from)/by >= 0`, does not
return the vector of `floor((to - from)/by) + 1` = 2^31 + 2 elements: the call
raises `'by' argument is much too small`.  So does, with another message,
`seq(0L, 2147483647L, 1L)`, whose result would have 2^31 elements. -/
theorem do_seq_by_too_small :
    (-2 : Int) ≠ 2147483647 ∧ (1 : Int) ≠ 0 ∧
    0 ≤ ((2147483647 - (-2) : Int) : Rat) / ((1 : Int) : Rat) ∧
    do_seq { LONG_VECTOR_SUPPORT := false } (SeqArgument.ofInt (-2))
        (SeqArgument.ofInt 2147483647) (SeqArgument.ofInt 1)
      = CResult.error "'by' argument is much too small" ∧
    do_seq { LONG_VECTOR_SUPPORT := false } (SeqArgument.ofInt 0)
        (SeqArgument.ofInt 2147483647) (SeqArgument.ofInt 1)
      = CResult.error "negative length vectors are not allowed" := by
  refine ⟨by decide, by decide, by norm_num, ?_, ?_⟩ <;> with_unfolding_all decide

end CXXR

namespace CXXR

/-! ## Holt-Winters filtering without trend -/

/-- Without a trend component the body of the loop leaves the trend array as
it is. -/
theorem HoltWinters_body_trend {α : Type} (D : DoubleOps α) (x : List α) (alpha beta gamma : α)
    (start_time seasonal period : Int) (hb : D.pos beta = false) (i : Int)
    (st r : HoltWintersState α)
    (h : HoltWinters_body D x alpha beta gamma start_time seasonal period i st = CResult.ok r) :
    r.trend = st.trend := by
  unfold HoltWinters_body at h
  simp only [hb, Bool.false_eq_true, if_false, andThen_ok] at h
  obtain ⟨_, _, h⟩ := andThen_eq_ok h
  obtain ⟨_, _, h⟩ := andThen_eq_ok h
  obtain ⟨_, _, h⟩ := andThen_eq_ok h
  obtain ⟨_, _, h⟩ := andThen_eq_ok h
  obtain ⟨_, _, h⟩ := andThen_eq_ok h
  obtain ⟨_, _, h⟩ := andThen_eq_ok h
  cases h
  rfl

theorem HoltWinters_loop_trend {α : Type} (D : DoubleOps α) (x : List α) (xl : Int)
    (alpha beta gamma : α) (start_time seasonal period : Int) (hb : D.pos beta = false) :
    ∀ (fuel : Nat) (i : Int) (st r : HoltWintersState α),
      HoltWinters_loop D x xl alpha beta gamma start_time seasonal period fuel i st
        = CResult.ok r → r.trend = st.trend := by
  intro fuel
  induction fuel with
  | zero =>
    intro i st r h
    cases h
  | succ fuel ih =>
    intro i st r h
    rw [HoltWinters_loop] at h
    split at h
    · obtain ⟨st1, h1, h2⟩ := andThen_eq_ok h
      rw [ih _ _ _ h2]
      exact HoltWinters_body_trend D x alpha beta gamma start_time seasonal period hb i st st1 h1
    · cases h
      rfl

/-- C35: two runs of `HoltWinters` without trend component (`beta` is 0) on the
same series that differ only in the first element of the trend array give
different levels and different sums of squares: the estimate of the level
reads `trend[i0 - 1]` whatever `beta` is.  What holds without trend component:
the value of `*b` has no effect on the result, and a run that returns leaves
the trend array as it was. -/
theorem HoltWinters_trend_inputs :
    (sampleHoltWinters 0 0
        = CResult.ok { SSE := 5 / 4, level := [0, 1 / 2, 3 / 4], trend := [0, 0, 0],
                       season := [0, 0, 0] } ∧
      sampleHoltWinters 1 0
        = CResult.ok { SSE := 1, level := [0, 1, 1], trend := [1, 0, 0],
                       season := [0, 0, 0] }) ∧
    (∀ (α : Type) (D : DoubleOps α) (x : List α) (xl : Int) (alpha beta gamma : α)
      (start_time seasonal period : Int) (a b b1 : α) (s : List α) (st : HoltWintersState α),
      D.pos beta = false →
      HoltWinters D x xl alpha beta gamma start_time seasonal period a b s st
        = HoltWinters D x xl alpha beta gamma start_time seasonal period a b1 s st) ∧
    (∀ (α : Type) (D : DoubleOps α) (x : List α) (xl : Int) (alpha beta gamma : α)
      (start_time seasonal period : Int) (a b : α) (s : List α) (st r : HoltWintersState α),
      D.pos beta = false →
      HoltWinters D x xl alpha beta gamma start_time seasonal period a b s st = CResult.ok r →
      r.trend = st.trend) := by
  refine ⟨⟨?_, ?_⟩, ?_, ?_⟩
  · with_unfolding_all decide
  · with_unfolding_all decide
  · intro α D x xl alpha beta gamma start_time seasonal period a b b1 s st hb
    unfold HoltWinters
    simp only [hb, Bool.false_eq_true, if_false]
  · intro α D x xl alpha beta gamma start_time seasonal period a b s st r hb h
    unfold HoltWinters at h
    simp only [hb, Bool.false_eq_true, if_false, andThen_ok] at h
    obtain ⟨_, _, h⟩ := andThen_eq_ok h
    obtain ⟨_, _, h⟩ := andThen_eq_ok h
    have ht := HoltWinters_loop_trend D x xl alpha beta gamma start_time seasonal period hb
      _ _ _ _ h
    exact ht

end CXXR
